import Mathlib

/-!
Multi-phase dungeon builder (src/hybrid/DungeonBuilder.h, src/hybrid/DungeonBuilder.cpp)

A shallow embedding of the builder and a verification of its specification.

Conventions of the embedding

* `int` is `Int` (indices into vectors are `Nat`), `float` is `ℚ` (exact arithmetic).
* The functions of the C++ standard library that the builder calls (`std::sqrt`, `std::cos`,
  `std::sin`, the `std::mt19937` generator and the raw-output maps of the distributions) are the
  fields of `Lib`; every general theorem holds for every `Lib`.
* The generator state is the stream of raw outputs fixed by the seed and a cursor into it; each
  draw of a distribution consumes one raw output.
* The function-local `static int caSteps` of `step()` is the field `caSteps` of the state; it is
  the one field that `init` does not touch.
* The loop `while (head < q.size())` of the flood fills takes a fuel argument;
  `bfs_fuel_stable` and `labelStep_fuel_enough` show that the fuel handed to it is never
  exhausted. The recursion of `DSU::find` is unrolled at most `p.size()` times.
* `std::sort` is modelled by a stable insertion sort; a 0/0 in the ellipse test of the circle
  stamping is a comparison with NaN, which is false (`ellipseTest`).
-/

namespace Dungeon

/-! ## Data structures (DungeonBuilder.h) -/

inductive Shape where
  | Rect
  | Circle
deriving DecidableEq

structure Point where
  x : Int
  y : Int
deriving DecidableEq

structure Vec2 where
  x : ℚ
  y : ℚ
deriving DecidableEq

structure RoomObj where
  id : Int
  x : ℚ
  y : ℚ
  w : ℚ
  h : ℚ
  shape : Shape
  isMain : Bool
  vx : ℚ
  vy : ℚ
deriving DecidableEq

structure Link where
  u : Nat
  v : Nat
  isMST : Bool
deriving DecidableEq

structure WalkerAgent where
  x : Int
  y : Int
  life : Int
deriving DecidableEq

structure GenSettings where
  roomCount : Int
  spreadRadius : ℚ
  walkerCount : Int
  gridWidth : Int
  gridHeight : Int
  tileW : Int
  tileH : Int
  seed : Nat
deriving DecidableEq

inductive Phase where
  | Physics
  | Graph
  | Raster
  | Walkers
  | Automata
  | Complete
deriving DecidableEq

inductive Tile where
  | Empty
  | Floor
  | Wall
deriving DecidableEq

/-- The state of `std::mt19937 rng`: the stream of raw outputs fixed by the seed, and the number
of outputs consumed so far. -/
structure Rng where
  raw : Nat → Nat
  pos : Nat

/-- The C++ standard library as the builder uses it. `mt19937 seed k` is the `k`-th raw output of
the generator seeded with `seed`; `canonical` maps a raw output into `[0,1)` and `stdNormal` maps
a raw output to a standard normal deviate. -/
structure Lib where
  sqrt : ℚ → ℚ
  cos : ℚ → ℚ
  sin : ℚ → ℚ
  mt19937 : Nat → Nat → Nat
  canonical : Nat → ℚ
  stdNormal : Nat → ℚ

/-- The members of `class DungeonBuilder`, and `caSteps`, the `static` counter of `step()`. -/
structure DungeonBuilder where
  cfg : GenSettings
  rng : Rng
  phase : Phase
  rooms : List RoomObj
  mainRoomIndices : List Nat
  links : List Link
  walkers : List WalkerAgent
  grid : List Tile
  floors : List Point
  walls : List Point
  caSteps : Nat

/-! ## Random draws -/

/-- The draw `std::uniform_int_distribution<int>(a, b)(rng)`. -/
def uniformInt (g : Rng) (a b : Int) : Int × Rng :=
  (a + ((g.raw g.pos : Nat) : Int) % (b - a + 1), ⟨g.raw, g.pos + 1⟩)

/-- The draw `std::uniform_real_distribution<float>(a, b)(rng)`. -/
def uniformReal (lib : Lib) (g : Rng) (a b : ℚ) : ℚ × Rng :=
  (a + (b - a) * lib.canonical (g.raw g.pos), ⟨g.raw, g.pos + 1⟩)

/-- The draw `std::normal_distribution<float>(mean, sd)(rng)`. -/
def normalReal (lib : Lib) (g : Rng) (mean sd : ℚ) : ℚ × Rng :=
  (mean + sd * lib.stdNormal (g.raw g.pos), ⟨g.raw, g.pos + 1⟩)

/-! ## Helper math -/

def distSq (x1 y1 x2 y2 : ℚ) : ℚ :=
  (x1 - x2) * (x1 - x2) + (y1 - y2) * (y1 - y2)

/-- The function `std::abs` on floats. -/
def fabs (q : ℚ) : ℚ := if q < 0 then -q else q

/-- The conversion `static_cast<int>` of a float: truncation toward zero. -/
def truncToInt (q : ℚ) : Int := Int.tdiv q.num (q.den : Int)

/-- The integers `lo, lo+1, ..., hi-1` of a loop `for (v = lo; v < hi; ++v)`. -/
def intRange (lo hi : Int) : List Int :=
  (List.range (hi - lo).toNat).map (fun k => lo + (k : Int))

/-! ## Grid access (setTile, getTile, toGridX, toGridY) -/

def inBounds (W H x y : Int) : Bool :=
  decide (0 ≤ x) && decide (x < W) && decide (0 ≤ y) && decide (y < H)

def getTile (W H : Int) (grid : List Tile) (x y : Int) : Tile :=
  if inBounds W H x y then grid.getD (y * W + x).toNat Tile.Empty else Tile.Empty

/-- The sealing margin test of `setTile`: `x<=1 || x>=W-2 || y<=1 || y>=H-2`. -/
def inMargin (W H x y : Int) : Bool :=
  decide (x ≤ 1) || decide (x ≥ W - 2) || decide (y ≤ 1) || decide (y ≥ H - 2)

def setTile (W H : Int) (grid : List Tile) (x y : Int) (t : Tile) : List Tile :=
  if inBounds W H x y then
    if t = Tile.Floor ∧ inMargin W H x y then grid
    else grid.set (y * W + x).toNat t
  else grid

def toGridX (cfg : GenSettings) (v : ℚ) : Int := truncToInt (v / (cfg.tileW : ℚ))

def toGridY (cfg : GenSettings) (v : ℚ) : Int := truncToInt (v / (cfg.tileH : ℚ))

def DungeonBuilder.getTile (s : DungeonBuilder) (x y : Int) : Tile :=
  Dungeon.getTile s.cfg.gridWidth s.cfg.gridHeight s.grid x y

def DungeonBuilder.isComplete (s : DungeonBuilder) : Bool := decide (s.phase = Phase.Complete)

def DungeonBuilder.getTotalTiles (s : DungeonBuilder) : Int :=
  ((s.floors.length + s.walls.length : Nat) : Int)

def DungeonBuilder.getGridWidth (s : DungeonBuilder) : Int := s.cfg.gridWidth
def DungeonBuilder.getGridHeight (s : DungeonBuilder) : Int := s.cfg.gridHeight
def DungeonBuilder.getTileW (s : DungeonBuilder) : Int := s.cfg.tileW
def DungeonBuilder.getTileH (s : DungeonBuilder) : Int := s.cfg.tileH

/-! ## init -/

/-- One iteration of the room-spawning loop of `init`. -/
def spawnRoom (lib : Lib) (cfg : GenSettings) (worldCX worldCY : ℚ) (i : Int) (g : Rng) :
    RoomObj × Rng :=
  let a := uniformReal lib g 0 (62831 / 10000)
  let rd := uniformReal lib a.2 0 1
  let rad := lib.sqrt rd.1 * cfg.spreadRadius
  let sz := normalReal lib rd.2 12 6
  let dim0 := max 8 sz.1
  let bg := uniformInt sz.2 0 10
  let dim := if bg.1 > 8 then dim0 * 3 else dim0
  let hs := uniformReal lib bg.2 (8 / 10) (12 / 10)
  let sh := uniformInt hs.2 0 1
  let shape := if sh.1 = 0 then Shape.Rect else Shape.Circle
  ({ id := i
     x := worldCX + lib.cos a.1 * rad
     y := worldCY + lib.sin a.1 * rad
     w := dim
     h := if shape = Shape.Circle then dim else dim * hs.1
     shape := shape
     isMain := false
     vx := 0
     vy := 0 }, sh.2)

/-- The loop `for (int i = 0; i < cfg.roomCount; ++i)` of `init`, with `n` iterations left. -/
def spawnRooms (lib : Lib) (cfg : GenSettings) (worldCX worldCY : ℚ) :
    Nat → Int → Rng → List RoomObj → List RoomObj × Rng
  | 0, _, g, acc => (acc, g)
  | n + 1, i, g, acc =>
    let r := spawnRoom lib cfg worldCX worldCY i g
    spawnRooms lib cfg worldCX worldCY n (i + 1) r.2 (acc ++ [r.1])

/-- The value fits the 32-bit type `int`. -/
def fitsInt (v : Int) : Bool := decide (-2147483648 ≤ v) && decide (v ≤ 2147483647)

/-- None of the three `int` products that `init` computes (`gridWidth * gridHeight`,
`gridWidth * tileW`, `gridHeight * tileH`) overflows. -/
def GenSettings.noOverflow (c : GenSettings) : Bool :=
  fitsInt (c.gridWidth * c.gridHeight) && fitsInt (c.gridWidth * c.tileW)
    && fitsInt (c.gridHeight * c.tileH)

/-- `DungeonBuilder::init`. `entropy` is the value of `std::random_device{}()`, used when the seed
is 0; `old` is the builder before the call, of which `mainRoomIndices` and the static `caSteps`
survive. The result is `none` when `grid.assign` is handed a negative size (it throws) and when
one of the `int` products overflows: signed overflow is undefined, and with the usual
wrap-around `grid.assign` gets a negative size (it throws) or a size other than
`gridWidth * gridHeight`. -/
def init (lib : Lib) (entropy : Nat) (settings : GenSettings) (old : DungeonBuilder) :
    Option DungeonBuilder :=
  if settings.gridWidth * settings.gridHeight < 0 ∨ settings.noOverflow = false then none
  else
    let g0 : Rng := ⟨lib.mt19937 (if settings.seed = 0 then entropy else settings.seed), 0⟩
    let worldCX : ℚ := ((settings.gridWidth * settings.tileW : Int) : ℚ) / 2
    let worldCY : ℚ := ((settings.gridHeight * settings.tileH : Int) : ℚ) / 2
    let sp := spawnRooms lib settings worldCX worldCY settings.roomCount.toNat 0 g0 []
    some { cfg := settings
           rng := sp.2
           phase := Phase.Physics
           rooms := sp.1
           mainRoomIndices := old.mainRoomIndices
           links := []
           walkers := []
           grid := List.replicate (settings.gridWidth * settings.gridHeight).toNat Tile.Empty
           floors := []
           walls := []
           caSteps := old.caSteps }

/-! ## updatePhysics -/

/-- The body of the inner loop of `updatePhysics` for the pair `(A, B)`: the force added to
`(fx, fy)`. -/
def pairForce (lib : Lib) (A B : RoomObj) : ℚ × ℚ :=
  let rA := A.w * (55 / 100)
  let rB := B.w * (55 / 100)
  let minD := rA + rB + 2
  let dx := A.x - B.x
  let dy := A.y - B.y
  let d2 := dx * dx + dy * dy
  if d2 < minD * minD then
    let d := lib.sqrt d2
    let nx := if d < 1 / 10 then 1 else dx / d
    let ny := if d < 1 / 10 then 0 else dy / d
    let force := (minD - d) * 5
    (nx * force, ny * force)
  else (0, 0)

/-- The inner loop over `j` of `updatePhysics` for room `i`, from index `j` on. -/
def netForce (lib : Lib) (i : Nat) (A : RoomObj) : Nat → List RoomObj → ℚ × ℚ → ℚ × ℚ
  | _, [], f => f
  | j, B :: rest, f =>
    if i = j then netForce lib i A (j + 1) rest f
    else netForce lib i A (j + 1) rest (f.1 + (pairForce lib A B).1, f.2 + (pairForce lib A B).2)

/-- The forces `(fx, fy)` of the rooms from index `i` on. -/
def forces (lib : Lib) (all : List RoomObj) : Nat → List RoomObj → List (ℚ × ℚ)
  | _, [] => []
  | i, A :: rest => netForce lib i A 0 all (0, 0) :: forces lib all (i + 1) rest

def accelerate (r : RoomObj) (f : ℚ × ℚ) : RoomObj :=
  { r with vx := r.vx + f.1, vy := r.vy + f.2 }

/-- The integration loop body: move by `v * dt`, then damp the velocity. -/
def integrate (r : RoomObj) : RoomObj :=
  { r with x := r.x + r.vx * (1 / 10), y := r.y + r.vy * (1 / 10),
           vx := r.vx * (1 / 2), vy := r.vy * (1 / 2) }

def updatePhysics (lib : Lib) (s : DungeonBuilder) : DungeonBuilder :=
  let fs := forces lib s.rooms 0 s.rooms
  let active := fs.any (fun f => decide (f.1 ≠ 0) || decide (f.2 ≠ 0))
  let acc := List.zipWith accelerate s.rooms fs
  let totalE := (acc.map (fun r => r.vx * r.vx + r.vy * r.vy)).sum
  let moved := acc.map integrate
  if totalE < 1 ∧ active = false then
    let avg := (moved.map (fun r => r.w)).sum / (moved.length : ℚ)
    { s with rooms := moved.map (fun r => { r with isMain := decide (r.w > avg * (13 / 10)) })
             phase := Phase.Graph }
  else { s with rooms := moved }

/-! ## computeGraph -/

/-- The function `getCircumcircle`: the centre and the squared radius. -/
def getCircumcircle (p1 p2 p3 : Vec2) : Vec2 × ℚ :=
  let d := 2 * (p1.x * (p2.y - p3.y) + p2.x * (p3.y - p1.y) + p3.x * (p1.y - p2.y))
  if fabs d < 1 / 1000 then (⟨0, 0⟩, 1000000000)
  else
    let ux := ((p1.x * p1.x + p1.y * p1.y) * (p2.y - p3.y)
      + (p2.x * p2.x + p2.y * p2.y) * (p3.y - p1.y)
      + (p3.x * p3.x + p3.y * p3.y) * (p1.y - p2.y)) / d
    let uy := ((p1.x * p1.x + p1.y * p1.y) * (p3.x - p2.x)
      + (p2.x * p2.x + p2.y * p2.y) * (p1.x - p3.x)
      + (p3.x * p3.x + p3.y * p3.y) * (p2.x - p1.x)) / d
    (⟨ux, uy⟩, distSq ux uy p1.x p1.y)

/-- The parent vector `DSU::p`. -/
structure DSU where
  p : List Nat
deriving DecidableEq

/-- The constructor `DSU(n)`: `p = [0, 1, ..., n-1]`. -/
def DSU.mk0 (n : Nat) : DSU := ⟨List.range n⟩

/-- The method `DSU::find`, with path compression; `fuel` bounds the recursion depth. -/
def DSU.find : Nat → DSU → Nat → DSU × Nat
  | 0, d, i => (d, i)
  | fuel + 1, d, i =>
    if d.p.getD i i = i then (d, i)
    else
      let r := DSU.find fuel d (d.p.getD i i)
      (⟨r.1.p.set i r.2⟩, r.2)

/-- The method `DSU::unite`. -/
def DSU.unite (d : DSU) (i j : Nat) : DSU :=
  let r1 := DSU.find d.p.length d i
  let r2 := DSU.find d.p.length r1.1 j
  if r1.2 ≠ r2.2 then ⟨r2.1.p.set r1.2 r2.2⟩ else r2.1

structure Tri where
  p1 : Nat
  p2 : Nat
  p3 : Nat
  bad : Bool
deriving DecidableEq

/-- The order of `std::pair<int,int>` keys in `std::map` and `std::set`. -/
def pairLt (a b : Nat × Nat) : Bool :=
  decide (a.1 < b.1) || (decide (a.1 = b.1) && decide (a.2 < b.2))

/-- The statement `edges[k]++` on a `std::map` kept as a key-sorted association list. -/
def mapInc (k : Nat × Nat) : List ((Nat × Nat) × Nat) → List ((Nat × Nat) × Nat)
  | [] => [(k, 1)]
  | e :: rest =>
    if k = e.1 then (e.1, e.2 + 1) :: rest
    else if pairLt k e.1 then (k, 1) :: e :: rest
    else e :: mapInc k rest

/-- The call `uniqueEdges.insert(k)` on a `std::set` kept as a sorted list. -/
def setInsert (k : Nat × Nat) : List (Nat × Nat) → List (Nat × Nat)
  | [] => [k]
  | e :: rest =>
    if k = e then e :: rest
    else if pairLt k e then k :: e :: rest
    else e :: setInsert k rest

/-- The unordered pair `{u, v}` as the lambdas `addE` and `add` build it. -/
def ordPair (u v : Nat) : Nat × Nat := if u > v then (v, u) else (u, v)

/-- The indices of the rooms with `isMain`, from index `i` on. -/
def collectMain : Nat → List RoomObj → List Nat
  | _, [] => []
  | i, r :: rest => if r.isMain then i :: collectMain (i + 1) rest else collectMain (i + 1) rest

/-- The circumcircle test of the insertion loop: is `pts[i]` inside the circle of `t`. -/
def inCircle (pts : List Vec2) (i : Nat) (t : Tri) : Bool :=
  let c := getCircumcircle (pts.getD t.p1 ⟨0, 0⟩) (pts.getD t.p2 ⟨0, 0⟩) (pts.getD t.p3 ⟨0, 0⟩)
  let p := pts.getD i ⟨0, 0⟩
  decide (distSq p.x p.y c.1.x c.1.y < c.2)

/-- One iteration of the Bowyer-Watson loop: insert point `i`. -/
def insertPoint (pts : List Vec2) (tris : List Tri) (i : Nat) : List Tri :=
  let marked := tris.map (fun t => if inCircle pts i t then { t with bad := true } else t)
  let bad := (tris.filter (inCircle pts i)).map (fun t => { t with bad := true })
  let edges := bad.foldl
    (fun m t => mapInc (ordPair t.p3 t.p1) (mapInc (ordPair t.p2 t.p3) (mapInc (ordPair t.p1 t.p2) m)))
    []
  let kept := marked.filter (fun t => !t.bad)
  kept ++ (edges.filter (fun e => e.2 = 1)).map (fun e => ⟨e.1.1, e.1.2, i, false⟩)

/-- The comparator-driven insertion of `std::sort` (modelled as a stable insertion sort). -/
def insertByWeight (weights : List ℚ) (a : Nat) : List Nat → List Nat
  | [] => [a]
  | b :: rest =>
    if weights.getD a 0 < weights.getD b 0 then a :: b :: rest
    else b :: insertByWeight weights a rest

def sortByWeight (weights : List ℚ) (idx : List Nat) : List Nat :=
  idx.foldl (fun acc a => insertByWeight weights a acc) []

/-- The body of the Kruskal loop for the edge `(u, v)`. -/
def kruskalStep (st : DSU × Rng × List Link) (e : Nat × Nat) : DSU × Rng × List Link :=
  let fu := DSU.find st.1.p.length st.1 e.1
  let fv := DSU.find st.1.p.length fu.1 e.2
  if fu.2 ≠ fv.2 then
    (DSU.unite fv.1 e.1 e.2, st.2.1, st.2.2 ++ [⟨e.1, e.2, true⟩])
  else
    let dr := uniformInt st.2.1 0 10
    if dr.1 > 8 then (fv.1, dr.2, st.2.2 ++ [⟨e.1, e.2, false⟩])
    else (fv.1, dr.2, st.2.2)

/-- The triangles left after the insertion loop and the removal of those that use a vertex of
the super-triangle. -/
def triangulate (pts0 : List Vec2) : List Tri :=
  let N := pts0.length
  let minX := pts0.foldl (fun m p => min m p.x) 1000000000
  let maxX := pts0.foldl (fun m p => max m p.x) (-1000000000)
  let minY := pts0.foldl (fun m p => min m p.y) 1000000000
  let maxY := pts0.foldl (fun m p => max m p.y) (-1000000000)
  let dx := maxX - minX
  let dy := maxY - minY
  let margin : ℚ := 100
  let center : Vec2 := ⟨(minX + maxX) / 2, (minY + maxY) / 2⟩
  let pts := pts0 ++ [⟨center.x - margin * dx, center.y - dy⟩, ⟨center.x, center.y + margin * dy⟩,
    ⟨center.x + margin * dx, center.y - dy⟩]
  let tris := (List.range N).foldl (insertPoint pts) [⟨N, N + 1, N + 2, false⟩]
  tris.filter (fun t => !(decide (t.p1 ≥ N) || decide (t.p2 ≥ N) || decide (t.p3 ≥ N)))

/-- The candidate edges `allEdges`: the set `uniqueEdges` in its iteration order. -/
def candidateEdges (mainIdx : List Nat) (tris : List Tri) : List (Nat × Nat) :=
  tris.foldl
    (fun m t =>
      let u := mainIdx.getD t.p1 0
      let v := mainIdx.getD t.p2 0
      let w := mainIdx.getD t.p3 0
      setInsert (ordPair w u) (setInsert (ordPair v w) (setInsert (ordPair u v) m)))
    []

def roomAt (rooms : List RoomObj) (i : Nat) : RoomObj :=
  rooms.getD i ⟨0, 0, 0, 0, 0, Shape.Rect, false, 0, 0⟩

def computeGraph (lib : Lib) (s : DungeonBuilder) : DungeonBuilder :=
  let mainIdx := collectMain 0 s.rooms
  if mainIdx.length < 3 then { s with mainRoomIndices := mainIdx }
  else
    let pts0 : List Vec2 := mainIdx.map (fun idx => ⟨(roomAt s.rooms idx).x, (roomAt s.rooms idx).y⟩)
    let allEdges := candidateEdges mainIdx (triangulate pts0)
    let weights := allEdges.map (fun e =>
      lib.sqrt (distSq (roomAt s.rooms e.1).x (roomAt s.rooms e.1).y
        (roomAt s.rooms e.2).x (roomAt s.rooms e.2).y))
    let idx := sortByWeight weights (List.range allEdges.length)
    let fin := (idx.map (fun i => allEdges.getD i (0, 0))).foldl kruskalStep
      (DSU.mk0 s.rooms.length, s.rng, [])
    { s with mainRoomIndices := mainIdx, rng := fin.2.1, links := fin.2.2 }

/-! ## rasterizeBase -/

/-- The cells `xa, xa+s, ..., xb` visited by `for (x = xa; x != xb+s; x += s)` with
`s = (xb > xa) ? 1 : -1`. -/
def lineCells (a b : Int) : List Int :=
  if b > a then intRange a (b + 1) else (intRange b (a + 1)).reverse

def hline (W H : Int) (g : List Tile) (xa xb y : Int) : List Tile :=
  (lineCells xa xb).foldl
    (fun g x => setTile W H (setTile W H g x y Tile.Floor) x (y + 1) Tile.Floor) g

def vline (W H : Int) (g : List Tile) (ya yb x : Int) : List Tile :=
  (lineCells ya yb).foldl
    (fun g y => setTile W H (setTile W H g x y Tile.Floor) (x + 1) y Tile.Floor) g

/-- The ellipse test `(dx*dx)/(radX*radX) + (dy*dy)/(radY*radY) <= 1.0f`. When a radius is 0
the only offset on that axis is 0, the quotient is `0/0 = NaN` and the comparison is false. -/
def ellipseTest (radX radY dx dy : Int) : Bool :=
  if radX = 0 ∨ radY = 0 then false
  else decide (((dx * dx : Int) : ℚ) / ((radX * radX : Int) : ℚ)
    + ((dy * dy : Int) : ℚ) / ((radY * radY : Int) : ℚ) ≤ 1)

/-- The stamping of one main room. -/
def stampRoom (cfg : GenSettings) (g : List Tile) (r : RoomObj) : List Tile :=
  let W := cfg.gridWidth
  let H := cfg.gridHeight
  if r.shape = Shape.Rect then
    let sx := toGridX cfg (r.x - r.w / 2)
    let sy := toGridY cfg (r.y - r.h / 2)
    let w := if toGridX cfg r.w < 1 then 1 else toGridX cfg r.w
    let h := if toGridY cfg r.h < 1 then 1 else toGridY cfg r.h
    (intRange sy (sy + h)).foldl
      (fun g y => (intRange sx (sx + w)).foldl (fun g x => setTile W H g x y Tile.Floor) g) g
  else
    let cx := toGridX cfg r.x
    let cy := toGridY cfg r.y
    let radX := toGridX cfg (r.w / 2)
    let radY := toGridY cfg (r.w / 2)
    (intRange (cy - radY) (cy + radY + 1)).foldl
      (fun g y => (intRange (cx - radX) (cx + radX + 1)).foldl
        (fun g x => if ellipseTest radX radY (x - cx) (y - cy) then setTile W H g x y Tile.Floor
          else g) g) g

/-- The stamping of the corridor of one link. -/
def stampLink (cfg : GenSettings) (rooms : List RoomObj) (st : List Tile × Rng) (l : Link) :
    List Tile × Rng :=
  let W := cfg.gridWidth
  let H := cfg.gridHeight
  let x1 := toGridX cfg (roomAt rooms l.u).x
  let y1 := toGridY cfg (roomAt rooms l.u).y
  let x2 := toGridX cfg (roomAt rooms l.v).x
  let y2 := toGridY cfg (roomAt rooms l.v).y
  let coin := uniformInt st.2 0 1
  if coin.1 ≠ 0 then
    let mx := Int.tdiv (x1 + x2) 2
    (hline W H (vline W H (hline W H st.1 x1 mx y1) y1 y2 mx) mx x2 y2, coin.2)
  else
    let my := Int.tdiv (y1 + y2) 2
    (vline W H (hline W H (vline W H st.1 y1 my x1) x1 x2 my) my y2 x2, coin.2)

def rasterizeBase (s : DungeonBuilder) : DungeonBuilder :=
  let g0 := List.replicate s.grid.length Tile.Empty
  let g1 := s.mainRoomIndices.foldl (fun g idx => stampRoom s.cfg g (roomAt s.rooms idx)) g0
  let st := s.links.foldl (stampLink s.cfg s.rooms) (g1, s.rng)
  { s with grid := st.1, rng := st.2 }

/-! ## updateWalkers -/

/-- The sanctuary test of one main room at the world position `(wx, wy)`. -/
def roomSanctuary (r : RoomObj) (wx wy : ℚ) : Bool :=
  if r.shape = Shape.Rect then
    decide (wx > r.x - r.w / 2 + 4) && decide (wx < r.x + r.w / 2 - 4)
      && decide (wy > r.y - r.h / 2 + 4) && decide (wy < r.y + r.h / 2 - 4)
  else decide (distSq wx wy r.x r.y < (r.w / 2 - 2) * (r.w / 2 - 2))

/-- The loop over `mainRoomIndices` that sets the flag `sanctuary`. -/
def inSanctuary (cfg : GenSettings) (rooms : List RoomObj) (mainIdx : List Nat) (x y : Int) :
    Bool :=
  mainIdx.any (fun idx =>
    roomSanctuary (roomAt rooms idx) ((x * cfg.tileW : Int) : ℚ) ((y * cfg.tileH : Int) : ℚ))

/-- The walker after the random move and `life--`, for the draw `d` of `0..3`. -/
def moveWalker (w : WalkerAgent) (d : Int) : WalkerAgent :=
  if d = 0 then ⟨w.x - 1, w.y, w.life - 1⟩
  else if d = 1 then ⟨w.x + 1, w.y, w.life - 1⟩
  else if d = 2 then ⟨w.x, w.y - 1, w.life - 1⟩
  else ⟨w.x, w.y + 1, w.life - 1⟩

/-- The body of the loop of `updateWalkers` for one walker. -/
def walkerStep (cfg : GenSettings) (rooms : List RoomObj) (mainIdx : List Nat)
    (g : List Tile) (rng : Rng) (w : WalkerAgent) : WalkerAgent × List Tile × Rng :=
  if w.life ≤ 0 then (w, g, rng)
  else
    let dr := uniformInt rng 0 3
    let m := moveWalker w dr.1
    if m.x < 1 ∨ m.x ≥ cfg.gridWidth - 1 ∨ m.y < 1 ∨ m.y ≥ cfg.gridHeight - 1 then
      ({ m with life := 0 }, g, dr.2)
    else if inSanctuary cfg rooms mainIdx m.x m.y then ({ m with life := 0 }, g, dr.2)
    else (m, setTile cfg.gridWidth cfg.gridHeight g m.x m.y Tile.Floor, dr.2)

/-- The loop `for (auto& w : walkers)` of `updateWalkers`. -/
def walkersLoop (cfg : GenSettings) (rooms : List RoomObj) (mainIdx : List Nat) :
    List WalkerAgent → List Tile → Rng → List WalkerAgent × List Tile × Rng
  | [], g, rng => ([], g, rng)
  | w :: rest, g, rng =>
    let r := walkerStep cfg rooms mainIdx g rng w
    let t := walkersLoop cfg rooms mainIdx rest r.2.1 r.2.2
    (r.1 :: t.1, t.2.1, t.2.2)

def updateWalkers (s : DungeonBuilder) : DungeonBuilder :=
  let r := walkersLoop s.cfg s.rooms s.mainRoomIndices s.walkers s.grid s.rng
  { s with walkers := r.1.filter (fun w => !decide (w.life ≤ 0)), grid := r.2.1, rng := r.2.2 }

/-! ## runAutomataPass -/

/-- The eight Moore offsets in the order of the loops `dy`, `dx`. -/
def mooreOffsets : List (Int × Int) :=
  [(-1, -1), (0, -1), (1, -1), (-1, 0), (1, 0), (-1, 1), (0, 1), (1, 1)]

/-- The counter `n`: the Moore neighbours of `(x, y)` that are not Floor. -/
def countNonFloor (W H : Int) (g : List Tile) (x y : Int) : Nat :=
  (mooreOffsets.filter (fun o => decide (getTile W H g (x + o.1) (y + o.2) ≠ Tile.Floor))).length

/-- The body of the loops of `runAutomataPass` at `(x, y)`: reads `old`, writes `next`. -/
def automataCell (W H : Int) (old next : List Tile) (x y : Int) : List Tile :=
  let n := countNonFloor W H old x y
  if n > 4 then next.set (y * W + x).toNat Tile.Wall
  else if n < 4 then next.set (y * W + x).toNat Tile.Floor
  else next

def runAutomataPass (W H : Int) (g : List Tile) : List Tile :=
  (intRange 1 (H - 1)).foldl
    (fun next y => (intRange 1 (W - 1)).foldl (fun next x => automataCell W H g next x y) next) g

/-! ## Flood fill (shared by despeckleWalls and floodFillPrune) -/

/-- The `candidates` of the cell with index `curr`. -/
def neighbours (W H : Int) (curr : Nat) : List Nat :=
  let cx := Int.tmod (curr : Int) W
  let cy := Int.tdiv (curr : Int) W
  (if cx > 0 then [curr - 1] else []) ++ (if cx < W - 1 then [curr + 1] else [])
    ++ (if cy > 0 then [((curr : Int) - W).toNat] else [])
    ++ (if cy < H - 1 then [((curr : Int) + W).toNat] else [])

/-- The body of the loop over the candidates: label and enqueue `n` when it is an unlabelled
cell of the kind `target`. -/
def visit (g : List Tile) (target : Tile) (rid : Nat) (st : List Nat × List Nat) (n : Nat) :
    List Nat × List Nat :=
  if g.getD n Tile.Empty = target ∧ st.2.getD n 0 = 0 then (st.1 ++ [n], st.2.set n rid)
  else st

/-- The loop `while (head < q.size())`; the state is the queue `q`, `head` and the labels. -/
def bfs (W H : Int) (g : List Tile) (target : Tile) (rid : Nat) :
    Nat → List Nat → Nat → List Nat → List Nat × List Nat
  | 0, q, _, regions => (q, regions)
  | fuel + 1, q, head, regions =>
    if head < q.length then
      let st := (neighbours W H (q.getD head 0)).foldl (visit g target rid) (q, regions)
      bfs W H g target rid fuel st.1 (head + 1) st.2
    else (q, regions)

/-- The state of the labelling loops: the labels, the region counter, and the regions found
(each with its queue of cells). -/
structure Labelling where
  regions : List Nat
  count : Nat
  found : List (List Nat)

/-- The body of the loop over the cells `i` that starts a flood fill at each unlabelled cell of
the kind `target`. -/
def labelStep (W H : Int) (g : List Tile) (target : Tile) (st : Labelling) (i : Nat) :
    Labelling :=
  if g.getD i Tile.Empty = target ∧ st.regions.getD i 0 = 0 then
    let r := bfs W H g target (st.count + 1) (g.length + 1) [i] 0 (st.regions.set i (st.count + 1))
    ⟨r.2, st.count + 1, st.found ++ [r.1]⟩
  else st

def labelRegions (W H : Int) (g : List Tile) (target : Tile) : Labelling :=
  (List.range g.length).foldl (labelStep W H g target) ⟨List.replicate g.length 0, 0, []⟩

/-! ## despeckleWalls -/

/-- The body of the innermost loop of the dissolving pass for the cell `idx`. -/
def dissolveCell (W H : Int) (g : List Tile) (idx : Nat) : List Tile :=
  let cx := Int.tmod (idx : Int) W
  let cy := Int.tdiv (idx : Int) W
  if cx > 0 ∧ cx < W - 1 ∧ cy > 0 ∧ cy < H - 1 then g.set idx Tile.Floor
  else g.set idx Tile.Empty

def despeckleWalls (W H : Int) (g : List Tile) : List Tile :=
  (labelRegions W H g Tile.Wall).found.foldl
    (fun g tiles => if tiles.length < 10 then tiles.foldl (dissolveCell W H) g else g) g

/-! ## pruneDeadEnds -/

/-- The counter `n`: the Floor cells among the four neighbours of `(x, y)`. -/
def floorNeighbours (W H : Int) (g : List Tile) (x y : Int) : Nat :=
  (if getTile W H g (x + 1) y = Tile.Floor then 1 else 0)
    + (if getTile W H g (x - 1) y = Tile.Floor then 1 else 0)
    + (if getTile W H g x (y + 1) = Tile.Floor then 1 else 0)
    + (if getTile W H g x (y - 1) = Tile.Floor then 1 else 0)

/-- The vector `toRemove` of one pass. -/
def deadEnds (W H : Int) (g : List Tile) : List Nat :=
  (intRange 1 (H - 1)).foldl
    (fun acc y => (intRange 1 (W - 1)).foldl
      (fun acc x =>
        if getTile W H g x y ≠ Tile.Floor then acc
        else if floorNeighbours W H g x y ≤ 1 then acc ++ [(y * W + x).toNat] else acc) acc) []

/-- The loop `while (changed && k < 100)` with `n` passes left. -/
def pruneLoop (W H : Int) : Nat → List Tile → List Tile
  | 0, g => g
  | n + 1, g =>
    if (deadEnds W H g).isEmpty then g
    else pruneLoop W H n ((deadEnds W H g).foldl (fun g idx => g.set idx Tile.Empty) g)

def pruneDeadEnds (W H : Int) (g : List Tile) : List Tile := pruneLoop W H 100 g

/-- The body of the loop of `pruneDeadEnds`: one pass. -/
def prunePass (W H : Int) (g : List Tile) : List Tile :=
  (deadEnds W H g).foldl (fun g idx => g.set idx Tile.Empty) g

/-- The counter `k` of the loop of `pruneDeadEnds` when the loop ends, with `n` passes left at
the start. -/
def pruneCount (W H : Int) : Nat → List Tile → Nat
  | 0, _ => 0
  | n + 1, g =>
    if (deadEnds W H g).isEmpty then 1
    else pruneCount W H n ((deadEnds W H g).foldl (fun g idx => g.set idx Tile.Empty) g) + 1

/-! ## floodFillPrune -/

/-- The scan `for (auto [r, s] : sizes) if (s > maxS) ...` over the regions `1, 2, ...` in key
order; the state is `(bestR, maxS)`. -/
def bestRegion (found : List (List Nat)) : Int × Nat :=
  (found.enum.foldl
    (fun (st : Int × Nat) (e : Nat × List Nat) =>
      if e.2.length > st.2 then (((e.1 + 1 : Nat) : Int), e.2.length) else st) (-1, 0))

/-- The retention loop: every Floor cell whose label is not `bestR` becomes Empty. -/
def retain (g : List Tile) (regions : List Nat) (bestR : Int) : List Tile :=
  (List.range g.length).foldl
    (fun g i =>
      if g.getD i Tile.Empty = Tile.Floor ∧ ((regions.getD i 0 : Nat) : Int) ≠ bestR then
        g.set i Tile.Empty
      else g) g

/-- The flag `touch` of the wall generation for the cell `i`. -/
def touchesFloor (W H : Int) (g : List Tile) (i : Nat) : Bool :=
  let cx := Int.tmod (i : Int) W
  let cy := Int.tdiv (i : Int) W
  [(-1 : Int), 0, 1].any (fun dy => [(-1 : Int), 0, 1].any (fun dx =>
    decide (getTile W H g (cx + dx) (cy + dy) = Tile.Floor)))

/-- The loop "Wall Gen" at the end of `floodFillPrune`, in place. -/
def wallGen (W H : Int) (g : List Tile) : List Tile :=
  (List.range g.length).foldl
    (fun g i =>
      if g.getD i Tile.Empty ≠ Tile.Floor then
        g.set i (if touchesFloor W H g i then Tile.Wall else Tile.Empty)
      else g) g

/-- The retention part of `floodFillPrune` (everything before "Wall Gen"). -/
def floodRetain (W H : Int) (g : List Tile) : List Tile :=
  let lab := labelRegions W H g Tile.Floor
  retain g lab.regions (bestRegion lab.found).1

def floodFillPrune (W H : Int) (g : List Tile) : List Tile :=
  wallGen W H (floodRetain W H g)

/-! ## rebuildTileLists and step -/

/-- The cells of kind `t`, in the order of the loops `y`, `x` of `rebuildTileLists`. -/
def tileList (W H : Int) (g : List Tile) (t : Tile) : List Point :=
  (intRange 0 H).foldl
    (fun acc y => (intRange 0 W).foldl
      (fun acc x => if getTile W H g x y = t then acc ++ [⟨x, y⟩] else acc) acc) []

def rebuildTileLists (s : DungeonBuilder) : DungeonBuilder :=
  { s with floors := tileList s.cfg.gridWidth s.cfg.gridHeight s.grid Tile.Floor
           walls := tileList s.cfg.gridWidth s.cfg.gridHeight s.grid Tile.Wall }

/-- The loop "Init Walkers" of `step`, with `n` walkers left to spawn. -/
def spawnWalkers (spawnPoints : List Point) : Nat → Rng → List WalkerAgent → List WalkerAgent × Rng
  | 0, g, acc => (acc, g)
  | n + 1, g, acc =>
    let pi := uniformInt g 0 ((spawnPoints.length : Int) - 1)
    let p := spawnPoints.getD pi.1.toNat ⟨0, 0⟩
    let lf := uniformInt pi.2 30 100
    spawnWalkers spawnPoints n lf.2 (acc ++ [⟨p.x, p.y, lf.1⟩])

/-- `DungeonBuilder::step`. -/
def step (lib : Lib) (s : DungeonBuilder) : DungeonBuilder :=
  match s.phase with
  | Phase.Physics => updatePhysics lib s
  | Phase.Graph => { computeGraph lib s with phase := Phase.Raster }
  | Phase.Raster =>
    let s1 := rebuildTileLists (rasterizeBase s)
    if s1.floors.isEmpty then { s1 with phase := Phase.Walkers }
    else
      let sp := spawnWalkers s1.floors s1.cfg.walkerCount.toNat s1.rng s1.walkers
      { s1 with phase := Phase.Walkers, walkers := sp.1, rng := sp.2 }
  | Phase.Walkers =>
    let s1 := rebuildTileLists (updateWalkers s)
    if s1.walkers.isEmpty then { s1 with phase := Phase.Automata } else s1
  | Phase.Automata =>
    let W := s.cfg.gridWidth
    let H := s.cfg.gridHeight
    let s1 := rebuildTileLists { s with grid := runAutomataPass W H s.grid }
    if s1.caSteps + 1 ≥ 4 then
      rebuildTileLists
        { s1 with caSteps := 0
                  grid := floodFillPrune W H (pruneDeadEnds W H (despeckleWalls W H s1.grid))
                  phase := Phase.Complete }
    else { s1 with caSteps := s1.caSteps + 1 }
  | Phase.Complete => s

/-- The state after `n` calls of `step`. -/
def runSteps (lib : Lib) : Nat → DungeonBuilder → DungeonBuilder
  | 0, s => s
  | n + 1, s => runSteps lib n (step lib s)

/-! ## Concrete inputs -/

/-- The builder as constructed, in a process in which `step` has not run yet. -/
def DungeonBuilder.fresh : DungeonBuilder :=
  { cfg := ⟨150, 50, 400, 200, 150, 4, 4, 0⟩
    rng := ⟨fun _ => 0, 0⟩
    phase := Phase.Physics
    rooms := []
    mainRoomIndices := []
    links := []
    walkers := []
    grid := []
    floors := []
    walls := []
    caSteps := 0 }

/-- An arbitrary instance of `Lib`, used only to apply the general theorems at concrete inputs. -/
def toyLib : Lib :=
  { sqrt := fun q => ((Nat.sqrt (q.num.toNat * q.den * 1000000) : Nat) : ℚ) / ((q.den * 1000 : Nat) : ℚ)
    cos := fun a => 1 - a * a / 2
    sin := fun a => a - a * a * a / 6
    mt19937 := fun seed k => (seed * 1103515245 + 12345 * (k + 1)) % 4294967296
    canonical := fun r => ((r % 4294967296 : Nat) : ℚ) / 4294967296
    stdNormal := fun r => (((r % 2001 : Nat) : ℚ) - 1000) / 500 }

/-- A 5 x 5 grid and no room. -/
def cfgTiny : GenSettings := ⟨0, 50, 400, 5, 5, 4, 4, 1⟩

/-- The first run on `cfgTiny` in a fresh process. -/
def tinyRun (n : Nat) : DungeonBuilder :=
  runSteps toyLib n ((init toyLib 0 cfgTiny DungeonBuilder.fresh).getD DungeonBuilder.fresh)

/-- A run on `cfgTiny` started by `init` on a builder that was abandoned after its first
automata pass. -/
def tinyRerun (n : Nat) : DungeonBuilder :=
  runSteps toyLib n ((init toyLib 0 cfgTiny (tinyRun 5)).getD DungeonBuilder.fresh)

/-- A configuration with the positive grid dimensions 46341 x 46341 and no room. -/
def cfgHuge : GenSettings := ⟨0, 50, 400, 46341, 46341, 4, 4, 1⟩

/-- A configuration with an empty grid and a tile width and height below 1. -/
def cfgDegenerate : GenSettings := ⟨0, 50, 400, 0, 0, -4, 0, 1⟩

/-- An empty 6 x 6 grid. -/
def emptyGrid6 : List Tile := List.replicate 36 Tile.Empty

/-- A 6 x 6 grid with a Wall cell at (1,1), Floor cells at (2,2) and (3,2), and a Floor cell at
(4,4); every other cell is Empty. -/
def sampleGrid6 : List Tile :=
  (((emptyGrid6.set 7 Tile.Wall).set 14 Tile.Floor).set 15 Tile.Floor).set 28 Tile.Floor

/-- The grid of the run on `cfgTiny` after its last automata pass, as `despeckleWalls` gets it. -/
def tinyAutomataGrid : List Tile := runAutomataPass 5 5 (tinyRun 7).grid

/-! ## Predicates, invariants and further inputs of the verification -/

/-- The successor in `Physics -> Graph -> Raster -> Walkers -> Automata -> Complete`. -/
def Phase.successor : Phase → Phase
  | Phase.Physics => Phase.Graph
  | Phase.Graph => Phase.Raster
  | Phase.Raster => Phase.Walkers
  | Phase.Walkers => Phase.Automata
  | Phase.Automata => Phase.Complete
  | Phase.Complete => Phase.Complete

/-- The position of a phase in the order of the phases. -/
def Phase.rank : Phase → Nat
  | Phase.Physics => 0
  | Phase.Graph => 1
  | Phase.Raster => 2
  | Phase.Walkers => 3
  | Phase.Automata => 4
  | Phase.Complete => 5

/-- Two rooms with the same centre, width and velocity. -/
def sameBody (a b : RoomObj) : Prop :=
  a.x = b.x ∧ a.y = b.y ∧ a.w = b.w ∧ a.vx = b.vx ∧ a.vy = b.vy

/-- Three coincident rooms of one width (at least 8) and one velocity, in the Physics phase. -/
def Lockstep (s : DungeonBuilder) : Prop :=
  s.phase = Phase.Physics ∧ ∃ a b c, s.rooms = [a, b, c] ∧ sameBody a b ∧ sameBody a c ∧ 8 ≤ a.w

/-- Room count 3, spread radius 0, a 20 x 20 grid. -/
def cfgStuck : GenSettings := ⟨3, 0, 400, 20, 20, 4, 4, 7⟩

/-- The library `toyLib` with a generator whose raw outputs are all 0. -/
def constLib : Lib := { toyLib with mt19937 := fun _ _ => 0 }

/-- No walker exists before the Walkers phase, and no walker lives longer than 100 steps. -/
def WalkInv (s : DungeonBuilder) : Prop :=
  (s.phase.rank ≤ 2 → s.walkers = []) ∧ ∀ w ∈ s.walkers, w.life ≤ 100

/-- No link exists before the Graph step has run. -/
def LinkInv (s : DungeonBuilder) : Prop := s.phase.rank ≤ 1 → s.links = []

/-- A settled state in the Graph phase on a 40 x 40 grid: three main rooms of width 24 and two
rooms of width 8, all centred on the line `y = 80`, no two overlapping. -/
def collinearState : DungeonBuilder :=
  { cfg := ⟨5, 100, 400, 40, 40, 4, 4, 1⟩
    rng := ⟨fun _ => 0, 5⟩
    phase := Phase.Graph
    rooms := [⟨0, 30, 80, 24, 24, Shape.Rect, true, 0, 0⟩, ⟨1, 55, 80, 8, 8, Shape.Rect, false, 0, 0⟩,
      ⟨2, 80, 80, 24, 24, Shape.Rect, true, 0, 0⟩, ⟨3, 105, 80, 8, 8, Shape.Rect, false, 0, 0⟩,
      ⟨4, 130, 80, 24, 24, Shape.Rect, true, 0, 0⟩]
    mainRoomIndices := []
    links := []
    walkers := []
    grid := List.replicate 1600 Tile.Empty
    floors := []
    walls := []
    caSteps := 0 }

/-- A library whose generator outputs `0, 1, 2, ...` and whose distribution maps turn these into
the draws of a run with five rooms on one horizontal line: every angle is 0, the radius draws
are 0, 1/64, 9/64, 25/64, 36/64, the size deviate is 2 for room 2 and -1 otherwise; `sqrt` is
exact at these radius draws. -/
def lineLib : Lib :=
  { sqrt := fun q => if q = 1 / 64 then 1 / 8 else if q = 9 / 64 then 3 / 8
      else if q = 25 / 64 then 5 / 8 else if q = 36 / 64 then 6 / 8 else 0
    cos := fun a => 1 - a * a / 2
    sin := fun a => a - a * a * a / 6
    mt19937 := fun _ k => k
    canonical := fun r =>
      if r = 7 then 1 / 64 else if r = 13 then 9 / 64 else if r = 19 then 25 / 64
      else if r = 25 then 36 / 64 else 0
    stdNormal := fun r => if r = 14 then 2 else -1 }

/-- Five rooms, spread radius 200, a 100 x 40 grid of 4 x 4 tiles. -/
def cfgLine : GenSettings := ⟨5, 200, 400, 100, 40, 4, 4, 1⟩

/-- The first run on `cfgLine` in a fresh process, with the draws of `lineLib`. -/
def lineRun (n : Nat) : DungeonBuilder :=
  runSteps lineLib n ((init lineLib 0 cfgLine DungeonBuilder.fresh).getD DungeonBuilder.fresh)

/-- The grid has `W * H` cells, for positive `W` and `H`. -/
def GridOK (W H : Int) (g : List Tile) : Prop :=
  0 < W ∧ 0 < H ∧ (g.length : Int) = W * H

/-- The coordinates `(i % W, i / W)` of the cell with index `i`. -/
def coordOf (W : Int) (i : Nat) : Int × Int := (Int.tmod (i : Int) W, Int.tdiv (i : Int) W)

/-- The Floor cells of two grids are the same. -/
def SameFloor (G g : List Tile) : Prop :=
  ∀ j, G.getD j Tile.Empty = Tile.Floor ↔ g.getD j Tile.Empty = Tile.Floor

/-- The value that the wall generation gives the cell `j` of `g`. -/
def shellValue (W H : Int) (g : List Tile) (j : Nat) : Tile :=
  if g.getD j Tile.Empty ≠ Tile.Floor then
    (if touchesFloor W H g j then Tile.Wall else Tile.Empty)
  else g.getD j Tile.Empty

/-- The wall shell: a non-Floor cell of the grid is Wall when one of its 8 neighbours is Floor
and Empty when none is. -/
def Shell (W H : Int) (g : List Tile) : Prop :=
  ∀ x y, inBounds W H x y = true → getTile W H g x y ≠ Tile.Floor →
    ((∃ o ∈ mooreOffsets, getTile W H g (x + o.1) (y + o.2) = Tile.Floor) →
        getTile W H g x y = Tile.Wall) ∧
      ((¬ ∃ o ∈ mooreOffsets, getTile W H g (x + o.1) (y + o.2) = Tile.Floor) →
        getTile W H g x y = Tile.Empty)

/-- Two cells are 4-adjacent. -/
def Adj4 (p q : Int × Int) : Prop :=
  (p.1 = q.1 ∧ (p.2 = q.2 + 1 ∨ q.2 = p.2 + 1)) ∨ (p.2 = q.2 ∧ (p.1 = q.1 + 1 ∨ q.1 = p.1 + 1))

/-- A step between two adjacent cells that carry the same nonzero label. -/
def LabelStep (W : Int) (regs : List Nat) (a b : Nat) : Prop :=
  Adj4 (coordOf W a) (coordOf W b) ∧ regs.getD a 0 = regs.getD b 0 ∧ regs.getD a 0 ≠ 0

/-- Any two cells with the same nonzero label are joined by a path of adjacent cells with that
label. -/
def LabelConn (W : Int) (regs : List Nat) : Prop :=
  ∀ a b, regs.getD a 0 = regs.getD b 0 → regs.getD a 0 ≠ 0 →
    Relation.ReflTransGen (LabelStep W regs) a b

/-- The invariant of the flood fill of region `rid`. -/
structure BfsInv (W : Int) (g : List Tile) (target : Tile) (rid : Nat) (q regs : List Nat) :
    Prop where
  len : regs.length = g.length
  bound : ∀ j, regs.getD j 0 ≤ rid
  sound : ∀ j, regs.getD j 0 ≠ 0 → g.getD j Tile.Empty = target
  conn : LabelConn W regs
  queue : ∀ c ∈ q, regs.getD c 0 = rid

/-- A step between two 4-adjacent Floor cells. -/
def FloorStep (W H : Int) (g : List Tile) (p q : Int × Int) : Prop :=
  Adj4 p q ∧ getTile W H g p.1 p.2 = Tile.Floor ∧ getTile W H g q.1 q.2 = Tile.Floor

/-- Any two Floor cells of the grid are joined by a path of 4-adjacent Floor cells. -/
def FloorConnected (W H : Int) (g : List Tile) : Prop :=
  ∀ p q : Int × Int, getTile W H g p.1 p.2 = Tile.Floor → getTile W H g q.1 q.2 = Tile.Floor →
    Relation.ReflTransGen (FloorStep W H g) p q

/-- The grid has `gridWidth * gridHeight` cells. -/
def GridInv (s : DungeonBuilder) : Prop :=
  s.grid.length = (s.cfg.gridWidth * s.cfg.gridHeight).toNat

/-- In phase Complete the grid is one connected Floor region inside a wall shell. -/
def DoneInv (s : DungeonBuilder) : Prop :=
  s.phase = Phase.Complete →
    FloorConnected s.cfg.gridWidth s.cfg.gridHeight s.grid ∧
      Shell s.cfg.gridWidth s.cfg.gridHeight s.grid

/-- The room with index `k`, if any, has id `i`, is not main and is at rest. -/
def SpawnedAt (rooms : List RoomObj) (k : Nat) (i : Int) : Prop :=
  ∃ r, rooms[k]? = some r ∧ r.id = i ∧ r.isMain = false ∧ r.vx = 0 ∧ r.vy = 0

/-- The cells `1 <= x <= W-2`, `1 <= y <= H-2` that the loops of `runAutomataPass` and of
`pruneDeadEnds` visit: the cells off the outermost border. -/
def Interior (W H x y : Int) : Prop := 1 ≤ x ∧ x ≤ W - 2 ∧ 1 ≤ y ∧ y ≤ H - 2

/-- The double-buffered reference rule of the automata pass: the new value of the cell `(x, y)`,
read off the grid `g` before the pass. -/
def automataReference (W H : Int) (g : List Tile) (x y : Int) : Tile :=
  if countNonFloor W H g x y > 4 then Tile.Wall
  else if countNonFloor W H g x y < 4 then Tile.Floor
  else getTile W H g x y

/-- A Floor cell off the outermost border with at most one Floor cell among its four
neighbours. -/
def DeadEnd (W H : Int) (g : List Tile) (x y : Int) : Prop :=
  Interior W H x y ∧ getTile W H g x y = Tile.Floor ∧ floorNeighbours W H g x y ≤ 1

/-- A step between two 4-adjacent cells of the kind `t`. -/
def TileStep (W H : Int) (g : List Tile) (t : Tile) (p q : Int × Int) : Prop :=
  Adj4 p q ∧ getTile W H g p.1 p.2 = t ∧ getTile W H g q.1 q.2 = t

/-- The list `cells` holds, without repetition, the maximal 4-connected region of the cell `p` of
the kind `t`: the cells that a path of 4-adjacent cells of the kind `t` joins to `p`. -/
def IsComponent (W H : Int) (g : List Tile) (t : Tile) (p : Int × Int)
    (cells : List (Int × Int)) : Prop :=
  getTile W H g p.1 p.2 = t ∧ cells.Nodup ∧
    ∀ q, q ∈ cells ↔ Relation.ReflTransGen (TileStep W H g t) p q

/-- The invariant of the flood fill of region `rid` that was started at the cell `lo`: the
queue holds, without repetition, the cells labelled `rid`; the labels of the earlier regions are
closed under stepping to a neighbour of the kind `target`, and so are the cells of the queue
before `head`. -/
structure BfsFull (W H : Int) (g : List Tile) (target : Tile) (rid lo : Nat) (q : List Nat)
    (head : Nat) (regs : List Nat) : Prop where
  len : regs.length = g.length
  bound : ∀ j, regs.getD j 0 ≤ rid
  sound : ∀ j, regs.getD j 0 ≠ 0 → g.getD j Tile.Empty = target
  nodup : q.Nodup
  queue : ∀ c, c ∈ q ↔ regs.getD c 0 = rid
  qge : ∀ c ∈ q, lo ≤ c
  below : ∀ j, j < lo → g.getD j Tile.Empty = target → regs.getD j 0 ≠ 0
  old : ∀ a b, regs.getD a 0 ≠ 0 → regs.getD a 0 ≠ rid → b ∈ neighbours W H a →
    g.getD b Tile.Empty = target → regs.getD b 0 = regs.getD a 0
  hle : head ≤ q.length
  done : ∀ i, i < head → ∀ b ∈ neighbours W H (q.getD i 0),
    g.getD b Tile.Empty = target → regs.getD b 0 = rid

/-- The labels either stay or go from 0 to `rid`. -/
def LabelsGrow (rid : Nat) (regs regs2 : List Nat) : Prop :=
  ∀ j, regs2.getD j 0 = regs.getD j 0 ∨ (regs.getD j 0 = 0 ∧ regs2.getD j 0 = rid)

/-- The invariant of the labelling loop when it has passed the cells below `k`: every cell of the
kind `target` below `k` is labelled, the labels are closed under stepping to a neighbour of the
kind `target`, and the `r`-th region found lists, without repetition, the cells labelled `r + 1`,
its first cell first; the first cells of the regions increase. -/
structure LabFull (W H : Int) (g : List Tile) (target : Tile) (k : Nat) (st : Labelling) :
    Prop where
  len : st.regions.length = g.length
  bound : ∀ j, st.regions.getD j 0 ≤ st.count
  sound : ∀ j, st.regions.getD j 0 ≠ 0 → g.getD j Tile.Empty = target
  closed : ∀ a b, st.regions.getD a 0 ≠ 0 → b ∈ neighbours W H a →
    g.getD b Tile.Empty = target → st.regions.getD b 0 = st.regions.getD a 0
  below : ∀ j, j < k → g.getD j Tile.Empty = target → st.regions.getD j 0 ≠ 0
  flen : st.found.length = st.count
  fmem : ∀ r, r < st.count → ∀ c, c ∈ st.found.getD r [] ↔ st.regions.getD c 0 = r + 1
  fnodup : ∀ r, r < st.count → (st.found.getD r []).Nodup
  fseed : ∀ r, r < st.count →
    ∃ s tl, st.found.getD r [] = s :: tl ∧ s < k ∧ ∀ c ∈ st.found.getD r [], s ≤ c
  forder : ∀ r r2, r < r2 → r2 < st.count → ∀ s tl s2 tl2,
    st.found.getD r [] = s :: tl → st.found.getD r2 [] = s2 :: tl2 → s < s2

/-- The three vertices that `computeGraph` appends to the points: the super-triangle. -/
def superTriangle (pts0 : List Vec2) : Vec2 × Vec2 × Vec2 :=
  let minX := pts0.foldl (fun m p => min m p.x) 1000000000
  let maxX := pts0.foldl (fun m p => max m p.x) (-1000000000)
  let minY := pts0.foldl (fun m p => min m p.y) 1000000000
  let maxY := pts0.foldl (fun m p => max m p.y) (-1000000000)
  let dx := maxX - minX
  let dy := maxY - minY
  let margin : ℚ := 100
  let center : Vec2 := ⟨(minX + maxX) / 2, (minY + maxY) / 2⟩
  (⟨center.x - margin * dx, center.y - dy⟩, ⟨center.x, center.y + margin * dy⟩,
    ⟨center.x + margin * dx, center.y - dy⟩)

/-- The width `dx` and the height `dy` of the bounding box as `computeGraph` computes them. -/
def boxExtent (pts0 : List Vec2) : ℚ × ℚ :=
  (pts0.foldl (fun m p => max m p.x) (-1000000000) - pts0.foldl (fun m p => min m p.x) 1000000000,
    pts0.foldl (fun m p => max m p.y) (-1000000000) - pts0.foldl (fun m p => min m p.y) 1000000000)

/-- Twice the signed area of the triangle `a b c`. -/
def orient (a b c : Vec2) : ℚ :=
  (b.x - a.x) * (c.y - a.y) - (b.y - a.y) * (c.x - a.x)

/-- The point `p` lies strictly inside the triangle `a b c` (given clockwise). -/
def StrictlyInside (p a b c : Vec2) : Prop :=
  orient a b p < 0 ∧ orient b c p < 0 ∧ orient c a p < 0

/-- The doubled determinant `d` of `getCircumcircle`. -/
def circumDet (p1 p2 p3 : Vec2) : ℚ :=
  2 * (p1.x * (p2.y - p3.y) + p2.x * (p3.y - p1.y) + p3.x * (p1.y - p2.y))

/-- A loop of `setTile(x, y, Floor)` calls over a list of cells. -/
def setFloors (W H : Int) (cells : List (Int × Int)) (g : List Tile) : List Tile :=
  cells.foldl (fun g c => setTile W H g c.1 c.2 Tile.Floor) g

/-- A circular main room of width 20 at the world position (40,40) and two small rooms. -/
def circleRooms : List RoomObj :=
  [⟨0, 40, 40, 20, 20, Shape.Circle, true, 0, 0⟩, ⟨1, 10, 10, 8, 8, Shape.Rect, false, 0, 0⟩,
    ⟨2, 70, 70, 8, 8, Shape.Rect, false, 0, 0⟩]

/-- A state in the Raster phase on a 20 x 20 grid of 4 x 4 tiles with the rooms `circleRooms`. -/
def circleState : DungeonBuilder :=
  { cfg := ⟨3, 50, 400, 20, 20, 4, 4, 1⟩
    rng := ⟨fun _ => 0, 0⟩
    phase := Phase.Raster
    rooms := circleRooms
    mainRoomIndices := [0]
    links := []
    walkers := []
    grid := List.replicate 400 Tile.Empty
    floors := []
    walls := []
    caSteps := 0 }

/-- The state `circleState` with tiles of 16 x 16 world units. -/
def coarseState : DungeonBuilder :=
  { circleState with cfg := ⟨3, 50, 400, 20, 20, 16, 16, 1⟩ }

/-- No cell within 2 cells of an edge is Floor: the sealing invariant. -/
def Sealed (W H : Int) (g : List Tile) : Prop :=
  ∀ x y, inMargin W H x y = true → getTile W H g x y ≠ Tile.Floor

/-- The cells of the grid in row-major order (`y` outer, `x` inner). -/
def rowMajor (W H : Int) : List (Int × Int) :=
  (intRange 0 H).flatMap (fun y => (intRange 0 W).map (fun x => (x, y)))

/-- The state `circleState` after its rasterisation, in the Walkers phase, with a trail of
Floor cells from the room to the cell (2,10) and one walker at the end of the trail. -/
def trailState : DungeonBuilder :=
  { circleState with
    phase := Phase.Walkers
    grid := setFloors 20 20 ((intRange 2 8).map (fun x => (x, 10))) (rasterizeBase circleState).grid
    walkers := [⟨2, 10, 50⟩] }

/-- The tile lists are the Floor cells and the Wall cells of the grid. -/
def TileSync (s : DungeonBuilder) : Prop :=
  s.floors = tileList s.cfg.gridWidth s.cfg.gridHeight s.grid Tile.Floor ∧
    s.walls = tileList s.cfg.gridWidth s.cfg.gridHeight s.grid Tile.Wall

/-- The mean width `avg` of `updatePhysics`. -/
def meanWidth (rooms : List RoomObj) : ℚ :=
  (rooms.map (fun r => r.w)).sum / (rooms.length : ℚ)

/-- Fewer than 3 rooms are main, no room is main before the physics has settled, every room has
a positive width, there are at most 3 rooms and there is no link. -/
def FewInv (s : DungeonBuilder) : Prop :=
  s.rooms.length ≤ 3 ∧ (∀ r ∈ s.rooms, 0 < r.w) ∧
    (s.phase = Phase.Physics → ∀ r ∈ s.rooms, r.isMain = false) ∧
    (s.rooms.filter (fun r => r.isMain)).length < 3 ∧ s.links = []

/-- The test `d2 < minD*minD` of `updatePhysics` for the pair `(A, B)`. -/
def Overlap (A B : RoomObj) : Prop :=
  (A.x - B.x) * (A.x - B.x) + (A.y - B.y) * (A.y - B.y)
    < (A.w * (55 / 100) + B.w * (55 / 100) + 2) * (A.w * (55 / 100) + B.w * (55 / 100) + 2)

/-- A vector that points right, or straight up. -/
def LexPos (f : ℚ × ℚ) : Prop := 0 < f.1 ∨ (f.1 = 0 ∧ 0 < f.2)

/-- The state `collinearState` one step earlier, in the Physics phase with the rooms at rest. -/
def settledState : DungeonBuilder := { collinearState with phase := Phase.Physics }

/-- No cell of the outermost border of the grid is Floor. -/
def BorderClear (W H : Int) (g : List Tile) : Prop :=
  ∀ x y, inBounds W H x y = true → (x = 0 ∨ x = W - 1 ∨ y = 0 ∨ y = H - 1) →
    getTile W H g x y ≠ Tile.Floor

/-- Before the phase Complete no cell of the 2-cell margin is Floor. -/
def SealInv (s : DungeonBuilder) : Prop :=
  s.phase ≠ Phase.Complete → Sealed s.cfg.gridWidth s.cfg.gridHeight s.grid

/-- The loop `for (x = xa; x != stop; x += s)` of `hline` and `vline` with at most `fuel`
iterations: the values of the loop variable in the iterations, or `none` when the loop has not
ended after `fuel` iterations. -/
def lineLoop : Nat → Int → Int → Int → Option (List Int)
  | 0, x, stop, _ => if x = stop then some [] else none
  | fuel + 1, x, stop, s =>
    if x = stop then some [] else (lineLoop fuel (x + s) stop s).map (fun r => x :: r)

/-- Every Floor cell of `g` is a Floor cell of `G`. -/
def FloorLe (g G : List Tile) : Prop :=
  ∀ j, g.getD j Tile.Empty = Tile.Floor → G.getD j Tile.Empty = Tile.Floor

/-- The two centre cells of the link `l` are Floor and a path of 4-adjacent Floor cells joins
them. -/
def Corridor (cfg : GenSettings) (rooms : List RoomObj) (l : Link) (G : List Tile) : Prop :=
  getTile cfg.gridWidth cfg.gridHeight G (toGridX cfg (roomAt rooms l.u).x)
      (toGridY cfg (roomAt rooms l.u).y) = Tile.Floor ∧
    getTile cfg.gridWidth cfg.gridHeight G (toGridX cfg (roomAt rooms l.v).x)
      (toGridY cfg (roomAt rooms l.v).y) = Tile.Floor ∧
    Relation.ReflTransGen (FloorStep cfg.gridWidth cfg.gridHeight G)
      (toGridX cfg (roomAt rooms l.u).x, toGridY cfg (roomAt rooms l.u).y)
      (toGridX cfg (roomAt rooms l.v).x, toGridY cfg (roomAt rooms l.v).y)

/-- A state in the phase Raster on a 20 x 20 grid of 4 x 4 tiles: two main rooms with centre
cells (5, 5) and (12, 9), and one link between them. -/
def corridorState : DungeonBuilder :=
  { cfg := ⟨2, 50, 0, 20, 20, 4, 4, 1⟩
    rng := ⟨fun _ => 1, 0⟩
    phase := Phase.Raster
    rooms := [⟨0, 20, 20, 8, 8, Shape.Rect, true, 0, 0⟩, ⟨1, 48, 36, 8, 8, Shape.Rect, true, 0, 0⟩]
    mainRoomIndices := [0, 1]
    links := [⟨0, 1, true⟩]
    walkers := []
    grid := List.replicate 400 Tile.Empty
    floors := []
    walls := []
    caSteps := 0 }

/-- One step along the parent chain of a union-find structure: `b` is the parent of `a`, and `a`
is not a root. -/
def ParentStep (d : DSU) (a b : Nat) : Prop := d.p.getD a a = b ∧ a ≠ b

/-- The parent chain of `i` ends in the root `r`. -/
def RootOf (d : DSU) (i r : Nat) : Prop :=
  Relation.ReflTransGen (ParentStep d) i r ∧ d.p.getD r r = r

/-- The elements `a` and `b` have the same root: `find(a) == find(b)`. -/
def SameRoot (d : DSU) (a b : Nat) : Prop := ∃ r, RootOf d a r ∧ RootOf d b r

/-- The parents are indices of the vector, and `rk` grows along every parent chain (so that no
chain runs into a cycle). -/
def DsuInv (d : DSU) (rk : Nat → Nat) : Prop :=
  (∀ i, i < d.p.length → d.p.getD i i < d.p.length) ∧
    ∀ i, d.p.getD i i ≠ i → rk i < rk (d.p.getD i i)

/-- The number of indices of rank above the rank of `i`: a bound on the length of the parent
chain of `i`. -/
def above (d : DSU) (rk : Nat → Nat) (i : Nat) : Nat :=
  ((Finset.range d.p.length).filter (fun j => rk i < rk j)).card

/-- Two rooms are connected by the edges of the list `es`, read as undirected edges. -/
def Conn (es : List (Nat × Nat)) : Nat → Nat → Prop :=
  Relation.EqvGen (fun a b => (a, b) ∈ es)

/-- The pairs `(u, v)` of all links, in the order of the list. -/
def linkPairs (links : List Link) : List (Nat × Nat) := links.map (fun l => (l.u, l.v))

/-- The pairs `(u, v)` of the tree links (`isMST = true`), in the order of the list. -/
def treePairs (links : List Link) : List (Nat × Nat) :=
  (links.filter (fun l => l.isMST)).map (fun l => (l.u, l.v))

/-- The invariant of the Kruskal loop of `computeGraph` over a vector of `n` rooms, after the
edges `pre`: the union-find structure is sound and its classes are the components of the tree
links; the ends of every processed edge are joined by tree links; the links are processed
edges, in their order; a tree link joined two rooms that the tree links before it did not join,
a loop link two rooms that they did join. -/
structure KruskalInv (n : Nat) (pre : List (Nat × Nat)) (st : DSU × Rng × List Link) : Prop where
  len : st.1.p.length = n
  inv : ∃ rk, DsuInv st.1 rk
  roots : ∀ a b, SameRoot st.1 a b ↔ Conn (treePairs st.2.2) a b
  span : ∀ e ∈ pre, Conn (treePairs st.2.2) e.1 e.2
  sub : List.Sublist (linkPairs st.2.2) pre
  seq : ∀ A l B, st.2.2 = A ++ l :: B →
    (l.isMST = true → ¬ Conn (treePairs A) l.u l.v) ∧
      (l.isMST = false → Conn (treePairs A) l.u l.v)

/-- The candidate edges `allEdges` of `computeGraph`. -/
def graphEdges (s : DungeonBuilder) : List (Nat × Nat) :=
  candidateEdges (collectMain 0 s.rooms)
    (triangulate ((collectMain 0 s.rooms).map
      (fun idx => (⟨(roomAt s.rooms idx).x, (roomAt s.rooms idx).y⟩ : Vec2))))

/-- The weight that `computeGraph` gives the edge `e`. -/
def edgeWeight (lib : Lib) (rooms : List RoomObj) (e : Nat × Nat) : ℚ :=
  lib.sqrt (distSq (roomAt rooms e.1).x (roomAt rooms e.1).y
    (roomAt rooms e.2).x (roomAt rooms e.2).y)

/-- The candidate edges in the order in which the Kruskal loop of `computeGraph` takes them. -/
def sortedEdges (lib : Lib) (s : DungeonBuilder) : List (Nat × Nat) :=
  (sortByWeight ((graphEdges s).map (edgeWeight lib s.rooms))
    (List.range (graphEdges s).length)).map (fun i => (graphEdges s).getD i (0, 0))

/-- The vertices of a triangle are points inserted before the point `i` or vertices of the
super-triangle (index `N` and above), and they are distinct. -/
def TriOK (N i : Nat) (t : Tri) : Prop :=
  (t.p1 < i ∨ N ≤ t.p1) ∧ (t.p2 < i ∨ N ≤ t.p2) ∧ (t.p3 < i ∨ N ≤ t.p3) ∧
    t.p1 ≠ t.p2 ∧ t.p2 ≠ t.p3 ∧ t.p1 ≠ t.p3

/-- Every link joins two distinct main rooms, the smaller index first, and no unordered pair of
rooms has two links. -/
def LinkWF (s : DungeonBuilder) : Prop :=
  (∀ l ∈ s.links, l.u < l.v ∧ l.v < s.rooms.length ∧ (roomAt s.rooms l.u).isMain = true ∧
      (roomAt s.rooms l.v).isMain = true) ∧
    (s.links.map (fun l => ordPair l.u l.v)).Nodup

/-- The total weight of a list of edges. -/
def wsum (w : Nat × Nat → ℚ) (L : List (Nat × Nat)) : ℚ := (L.map w).sum

/-- A set of edges without a cycle: no edge joins two rooms that the other edges join. -/
def IsForest (F : List (Nat × Nat)) : Prop :=
  ∀ e ∈ F, ¬ Conn (F.filter (fun f => decide (f ≠ e))) e.1 e.2

/-- A list of edges of which each joins two rooms that the edges before it do not join. -/
def SeqForest (X : List (Nat × Nat)) : Prop :=
  ∀ A e B, X = A ++ e :: B → ¬ Conn A e.1 e.2

/-- A state in the phase Graph on a 40 x 40 grid: three main rooms of width 24 with centres
(40, 40), (120, 40) and (80, 100), which are not on one line. -/
def triangleState : DungeonBuilder :=
  { cfg := ⟨3, 100, 400, 40, 40, 4, 4, 1⟩
    rng := ⟨fun _ => 9, 0⟩
    phase := Phase.Graph
    rooms := [⟨0, 40, 40, 24, 24, Shape.Rect, true, 0, 0⟩,
      ⟨1, 120, 40, 24, 24, Shape.Rect, true, 0, 0⟩, ⟨2, 80, 100, 24, 24, Shape.Rect, true, 0, 0⟩]
    mainRoomIndices := []
    links := []
    walkers := []
    grid := List.replicate 1600 Tile.Empty
    floors := []
    walls := []
    caSteps := 0 }

/-- The library `toyLib` with the identity in the place of the square root: the weight of an
edge is then its squared length, which orders the edges as their lengths do. -/
def squareLib : Lib := { toyLib with sqrt := fun q => q }

/-- The power of the point `q` with respect to the circle that `getCircumcircle` returns for
`p1 p2 p3`: negative exactly when the test of the insertion loop holds. -/
def power (p1 p2 p3 q : Vec2) : ℚ :=
  distSq q.x q.y (getCircumcircle p1 p2 p3).1.x (getCircumcircle p1 p2 p3).1.y
    - (getCircumcircle p1 p2 p3).2

/-- The dot product of `q - a` and `q - b`: zero on the circle with diameter `a b`. -/
def edgeDot (a b q : Vec2) : ℚ := (q.x - a.x) * (q.x - b.x) + (q.y - a.y) * (q.y - b.y)

/-- The in-circle determinant of `a b x q`, written along the edge `a b`. -/
def cross4 (a b x q : Vec2) : ℚ := edgeDot a b q * orient a b x - edgeDot a b x * orient a b q

/-- The parameter of the circle through `a`, `b` and `q` in the pencil of circles through
`a` and `b`. -/
def pencil (a b q : Vec2) : ℚ := - edgeDot a b q / orient a b q

/-- The three edge keys of a triangle, in the order in which the insertion loop counts
them. -/
def edgeKeys (t : Tri) : List (Nat × Nat) :=
  [ordPair t.p1 t.p2, ordPair t.p2 t.p3, ordPair t.p3 t.p1]

/-- The keys of a `std::map` kept as an association list are strictly increasing. -/
def KeySorted (m : List ((Nat × Nat) × Nat)) : Prop :=
  m.Pairwise (fun a b => pairLt a.1 b.1 = true)

/-- The triple `p1 p2 p3` is a rearrangement of the triple `a b c`. -/
def Perm3 (p1 p2 p3 a b c : Nat) : Prop :=
  (p1 = a ∧ p2 = b ∧ p3 = c) ∨ (p1 = a ∧ p2 = c ∧ p3 = b) ∨ (p1 = b ∧ p2 = a ∧ p3 = c) ∨
    (p1 = b ∧ p2 = c ∧ p3 = a) ∨ (p1 = c ∧ p2 = a ∧ p3 = b) ∨ (p1 = c ∧ p2 = b ∧ p3 = a)

/-- The edge map that one iteration of the insertion loop builds from the bad triangles. -/
def edgeMap (bad : List Tri) : List ((Nat × Nat) × Nat) :=
  bad.foldl
    (fun m t => mapInc (ordPair t.p3 t.p1) (mapInc (ordPair t.p2 t.p3) (mapInc (ordPair t.p1 t.p2) m)))
    []

/-- The power of the point with the index `q` with respect to the circle that
`getCircumcircle` returns for the triangle with the vertex indices `a b c`. -/
def pw (pts : List Vec2) (a b c q : Nat) : ℚ :=
  power (pts.getD a ⟨0, 0⟩) (pts.getD b ⟨0, 0⟩) (pts.getD c ⟨0, 0⟩) (pts.getD q ⟨0, 0⟩)

/-- No three of the first `n` points have a determinant `d` with `|d| < 0.001`. -/
def GenPos3 (pts : List Vec2) (n : Nat) : Prop :=
  ∀ i < n, ∀ j < n, ∀ l < n, i ≠ j → j ≠ l → i ≠ l →
    ¬ fabs (circumDet (pts.getD i ⟨0, 0⟩) (pts.getD j ⟨0, 0⟩) (pts.getD l ⟨0, 0⟩)) < 1 / 1000

/-- No four of the first `n` points lie on one circle. -/
def GenPos4 (pts : List Vec2) (n : Nat) : Prop :=
  ∀ i < n, ∀ j < n, ∀ l < n, ∀ m < n, i ≠ j → j ≠ l → i ≠ l → m ≠ i → m ≠ j → m ≠ l →
    pw pts i j l m ≠ 0

/-- General position of a list of points. -/
def GenPos (pts : List Vec2) : Prop := GenPos3 pts pts.length ∧ GenPos4 pts pts.length

set_option synthInstance.maxSize 2000 in
instance decGenPos3 (pts : List Vec2) (n : Nat) : Decidable (GenPos3 pts n) := by
  unfold GenPos3
  infer_instance

set_option synthInstance.maxSize 100000 in
set_option synthInstance.maxHeartbeats 1000000 in
instance decGenPos4 (pts : List Vec2) (n : Nat) : Decidable (GenPos4 pts n) := by
  unfold GenPos4
  infer_instance

instance decGenPos (pts : List Vec2) : Decidable (GenPos pts) := by
  unfold GenPos
  infer_instance

/-- The point `j` is active at the insertion of the point `k`: inserted before, or a vertex
of the super-triangle. -/
def Act (N k j : Nat) : Prop := j < k ∨ (N ≤ j ∧ j < N + 3)

/-- The active points other than the ends of the edge `a b`. -/
def edgeSet (N k a b : Nat) : Finset Nat :=
  (Finset.range (N + 3)).filter (fun j => (j < k ∨ N ≤ j) ∧ j ≠ a ∧ j ≠ b)

/-- The invariant of the insertion loop: the list holds exactly the triangles of active points
whose circle has no active point strictly inside, each once. -/
structure DelInv (pts : List Vec2) (N k : Nat) (T : List Tri) : Prop where
  ok : ∀ t ∈ T, Act N k t.p1 ∧ Act N k t.p2 ∧ Act N k t.p3 ∧
    t.p1 ≠ t.p2 ∧ t.p2 ≠ t.p3 ∧ t.p1 ≠ t.p3 ∧ t.bad = false
  empty : ∀ t ∈ T, ∀ j, Act N k j → j ≠ t.p1 → j ≠ t.p2 → j ≠ t.p3 →
    ¬ pw pts t.p1 t.p2 t.p3 j < 0
  compl : ∀ a b c, Act N k a → Act N k b → Act N k c → a ≠ b → b ≠ c → a ≠ c →
    (∀ j, Act N k j → j ≠ a → j ≠ b → j ≠ c → ¬ pw pts a b c j < 0) →
    ∃ t ∈ T, Perm3 t.p1 t.p2 t.p3 a b c
  nodup : T.Pairwise (fun t u => ¬ Perm3 t.p1 t.p2 t.p3 u.p1 u.p2 u.p3)

/-- Four centres that are in general position together with their super-triangle. -/
def kiteCentres : List Vec2 := [⟨0, 0⟩, ⟨7, 1⟩, ⟨2, 9⟩, ⟨3, 4⟩]

/-- A library whose generator outputs `0, 1, 2, ...` and whose distribution maps turn these into
the draws of a run with three rooms on the line `y = cy`: room 1 at the centre of the world,
room 0 at the distance 20 to the right of it (angle 0) and room 2 at the distance 20 to the left
(angle draw 1/2, about pi); every size deviate is -1, so that the rooms 0 and 2 have the width 8
and room 1, whose `big` draw is 9, the width 24. -/
def trioLib : Lib :=
  { sqrt := fun q => if q = 1 / 16 then 1 / 4 else 0
    cos := fun a => if a = 62831 / 20000 then -1 else 1 - a * a / 2
    sin := fun a => if a = 62831 / 20000 then 0 else a - a * a * a / 6
    mt19937 := fun _ k => k
    canonical := fun r => if r = 12 then 1 / 2 else if r = 1 ∨ r = 13 then 1 / 16 else 0
    stdNormal := fun _ => -1 }

/-- Three rooms, spread radius 80, two walkers, a 10 x 10 grid of 4 x 4 tiles. -/
def cfgTrio : GenSettings := ⟨3, 80, 2, 10, 10, 4, 4, 1⟩

/-- The first run on `cfgTrio` in a fresh process, with the draws of `trioLib`. -/
def trioRun (n : Nat) : DungeonBuilder :=
  runSteps trioLib n ((init trioLib 0 cfgTrio DungeonBuilder.fresh).getD DungeonBuilder.fresh)

/-- A library whose generator outputs `0, 1, 2, ...` and whose distribution maps turn these into
the draws of a run with seven rooms: room 0 at the centre of the world, the rooms 1, 2 and 3 of
width 24 at the distance 25 above it, 60 to the right of it and 25 below it, and the rooms 4, 5
and 6 of width 8 at the distances 30, 50 and 70 to the left of it. `sqrt` is exact at the radius
draws and at the squared distances 2500 and 4225 of the rooms 1, 2 and 3. -/
def fanLib : Lib :=
  { sqrt := fun q =>
      if q = 25 / 256 then 5 / 16 else if q = 9 / 16 then 3 / 4 else if q = 9 / 64 then 3 / 8
      else if q = 25 / 64 then 5 / 8 else if q = 49 / 64 then 7 / 8
      else if q = 2500 then 50 else if q = 4225 then 65 else 0
    cos := fun a =>
      if a = 62831 / 40000 then 0 else if a = 62831 / 20000 then -1
      else if a = 188493 / 40000 then 0 else 1 - a * a / 2
    sin := fun a =>
      if a = 62831 / 40000 then 1 else if a = 62831 / 20000 then 0
      else if a = 188493 / 40000 then -1 else a - a * a * a / 6
    mt19937 := fun _ k => k
    canonical := fun r =>
      if r = 6 then 1 / 4 else if r = 18 then 3 / 4
      else if r = 24 ∨ r = 30 ∨ r = 36 then 1 / 2
      else if r = 7 ∨ r = 19 then 25 / 256 else if r = 13 then 9 / 16
      else if r = 25 then 9 / 64 else if r = 31 then 25 / 64 else if r = 37 then 49 / 64
      else 0
    stdNormal := fun r => if r = 14 then 2 else -1 }

/-- Seven rooms, spread radius 80, three walkers, a 44 x 28 grid of 4 x 4 tiles. -/
def cfgFan : GenSettings := ⟨7, 80, 3, 44, 28, 4, 4, 1⟩

/-- The first run on `cfgFan` in a fresh process, with the draws of `fanLib`. -/
def fanRun (n : Nat) : DungeonBuilder :=
  runSteps fanLib n ((init fanLib 0 cfgFan DungeonBuilder.fresh).getD DungeonBuilder.fresh)

/-- A library whose generator outputs `0, 1, 2, ...` and whose distribution maps turn these into
the draws of a run with seven rooms in a row to the right of the centre of the world: the rooms
0, 1, 2 and 3 of width 24 at the distances 112.5, 50, 150 and 12.5, the rooms 4, 5 and 6 of width
8 at the distances 81.25, 175 and 193.75. Every angle draw is 0 except those of the rooms 1 and
3, which are 1/2^24 and 3/2^24 (steps of a 24-bit `canonical`), so that these two angles are
below 0.000002; at such angles `cos` is 1 and `sin a` is `a`, as in `float` arithmetic; `sqrt`
is exact at the radius draws. -/
def flatLib : Lib :=
  { sqrt := fun q =>
      if q = 81 / 256 then 9 / 16 else if q = 1 / 16 then 1 / 4 else if q = 9 / 16 then 3 / 4
      else if q = 1 / 256 then 1 / 16 else if q = 169 / 1024 then 13 / 32
      else if q = 49 / 64 then 7 / 8 else if q = 961 / 1024 then 31 / 32 else 0
    cos := fun _ => 1
    sin := fun a => a
    mt19937 := fun _ k => k
    canonical := fun r =>
      if r = 6 then 1 / 16777216 else if r = 18 then 3 / 16777216
      else if r = 1 then 81 / 256 else if r = 7 then 1 / 16 else if r = 13 then 9 / 16
      else if r = 19 then 1 / 256 else if r = 25 then 169 / 1024 else if r = 31 then 49 / 64
      else if r = 37 then 961 / 1024 else 0
    stdNormal := fun r => if r = 2 ∨ r = 14 then 2 else -1 }

/-- Seven rooms, spread radius 200, a 100 x 40 grid of 4 x 4 tiles. -/
def cfgFlat : GenSettings := ⟨7, 200, 400, 100, 40, 4, 4, 1⟩

/-- The first run on `cfgFlat` in a fresh process, with the draws of `flatLib`. -/
def flatRun (n : Nat) : DungeonBuilder :=
  runSteps flatLib n ((init flatLib 0 cfgFlat DungeonBuilder.fresh).getD DungeonBuilder.fresh)

/-- The vector `pts` of `computeGraph` before the super-triangle is appended: the centres of
the main rooms. -/
def mainCentres (s : DungeonBuilder) : List Vec2 :=
  (collectMain 0 s.rooms).map (fun idx => ⟨(roomAt s.rooms idx).x, (roomAt s.rooms idx).y⟩)

/-! ## The phase machine: basic facts -/

theorem runSteps_add (lib : Lib) (a b : Nat) (s : DungeonBuilder) :
    runSteps lib (a + b) s = runSteps lib b (runSteps lib a s) := by
  induction a generalizing s with
  | zero => simp [runSteps]
  | succ a ih => rw [Nat.succ_add]; simp only [runSteps]; exact ih _

theorem runSteps_succ_last (lib : Lib) (n : Nat) (s : DungeonBuilder) :
    runSteps lib (n + 1) s = step lib (runSteps lib n s) := by
  rw [runSteps_add]; rfl

theorem step_of_physics (lib : Lib) (s : DungeonBuilder) (h : s.phase = Phase.Physics) :
    step lib s = updatePhysics lib s := by
  simp [step, h]

theorem step_of_graph (lib : Lib) (s : DungeonBuilder) (h : s.phase = Phase.Graph) :
    step lib s = { computeGraph lib s with phase := Phase.Raster } := by
  simp [step, h]

theorem step_of_complete (lib : Lib) (s : DungeonBuilder) (h : s.phase = Phase.Complete) :
    step lib s = s := by
  simp [step, h]

theorem step_of_automata (lib : Lib) (s : DungeonBuilder) (h : s.phase = Phase.Automata) :
    (step lib s).walkers = s.walkers ∧ (step lib s).links = s.links ∧
      (step lib s).cfg = s.cfg ∧ (step lib s).rooms = s.rooms ∧ (step lib s).rng = s.rng ∧
      ((4 ≤ s.caSteps + 1 ∧ (step lib s).phase = Phase.Complete ∧ (step lib s).caSteps = 0 ∧
          (step lib s).grid = floodFillPrune s.cfg.gridWidth s.cfg.gridHeight
            (pruneDeadEnds s.cfg.gridWidth s.cfg.gridHeight
              (despeckleWalls s.cfg.gridWidth s.cfg.gridHeight
                (runAutomataPass s.cfg.gridWidth s.cfg.gridHeight s.grid)))) ∨
       (s.caSteps + 1 < 4 ∧ (step lib s).phase = Phase.Automata ∧
          (step lib s).caSteps = s.caSteps + 1 ∧
          (step lib s).grid = runAutomataPass s.cfg.gridWidth s.cfg.gridHeight s.grid)) := by
  simp only [step, h]
  split
  · rename_i h4
    have h4b : 4 ≤ s.caSteps + 1 := h4
    exact ⟨rfl, rfl, rfl, rfl, rfl, Or.inl ⟨h4b, rfl, rfl, rfl⟩⟩
  · rename_i h4
    have h4b : ¬ 4 ≤ s.caSteps + 1 := h4
    exact ⟨rfl, rfl, rfl, rfl, rfl, Or.inr ⟨by omega, rfl, rfl, rfl⟩⟩

theorem runSteps_of_complete (lib : Lib) (n : Nat) (s : DungeonBuilder)
    (h : s.phase = Phase.Complete) : runSteps lib n s = s := by
  induction n with
  | zero => rfl
  | succ n ih => simp only [runSteps]; rw [step_of_complete lib s h]; exact ih

theorem updatePhysics_phase (lib : Lib) (s : DungeonBuilder) :
    (updatePhysics lib s).phase = s.phase ∨ (updatePhysics lib s).phase = Phase.Graph := by
  unfold updatePhysics
  dsimp only
  split
  · right; rfl
  · left; rfl

theorem step_phase (lib : Lib) (s : DungeonBuilder) :
    (step lib s).phase = s.phase ∨
      ((step lib s).phase = s.phase.successor ∧ s.phase ≠ Phase.Complete) := by
  cases hp : s.phase with
  | Physics =>
    rw [step_of_physics lib s hp]
    rcases updatePhysics_phase lib s with h | h
    · left; rw [h, hp]
    · right; exact ⟨h, by simp⟩
  | Graph => right; rw [step_of_graph lib s hp]; exact ⟨rfl, by simp⟩
  | Raster =>
    right
    refine ⟨?_, by simp⟩
    simp only [step, hp]
    split <;> rfl
  | Walkers =>
    simp only [step, hp]
    split
    · right; exact ⟨rfl, by simp⟩
    · left; simp [rebuildTileLists, updateWalkers, hp]
  | Automata =>
    simp only [step, hp]
    split
    · right; exact ⟨rfl, by simp⟩
    · left; simp [rebuildTileLists, hp]
  | Complete => left; rw [step_of_complete lib s hp]; exact hp

/-! ## Walkers: lifespans -/

theorem uniformInt_range (g : Rng) (a b : Int) (h : a ≤ b) :
    a ≤ (uniformInt g a b).1 ∧ (uniformInt g a b).1 ≤ b := by
  have hpos : (0 : Int) < b - a + 1 := by omega
  have h1 := Int.emod_nonneg ((g.raw g.pos : Nat) : Int) (ne_of_gt hpos)
  have h2 := Int.emod_lt_of_pos ((g.raw g.pos : Nat) : Int) hpos
  simp only [uniformInt]
  constructor <;> omega

theorem moveWalker_life (w : WalkerAgent) (d : Int) : (moveWalker w d).life = w.life - 1 := by
  unfold moveWalker
  split_ifs <;> rfl

theorem walkerStep_life (cfg : GenSettings) (rooms : List RoomObj) (mainIdx : List Nat)
    (g : List Tile) (rng : Rng) (w : WalkerAgent) (B : Int) (h : w.life ≤ B) :
    (walkerStep cfg rooms mainIdx g rng w).1.life ≤ 0 ∨
      (walkerStep cfg rooms mainIdx g rng w).1.life ≤ B - 1 := by
  unfold walkerStep
  by_cases h0 : w.life ≤ 0
  · left; simp [h0]
  · simp only [h0, if_false]
    split_ifs
    · left; simp
    · left; simp
    · right; simp only [moveWalker_life]; omega

theorem walkersLoop_life (cfg : GenSettings) (rooms : List RoomObj) (mainIdx : List Nat)
    (B : Int) (ws : List WalkerAgent) (g : List Tile) (rng : Rng)
    (h : ∀ w ∈ ws, w.life ≤ B) :
    ∀ w ∈ (walkersLoop cfg rooms mainIdx ws g rng).1, w.life ≤ 0 ∨ w.life ≤ B - 1 := by
  induction ws generalizing g rng with
  | nil => intro w hw; simp [walkersLoop] at hw
  | cons a rest ih =>
    intro w hw
    simp only [walkersLoop, List.mem_cons] at hw
    rcases hw with hw | hw
    · rw [hw]; exact walkerStep_life cfg rooms mainIdx g rng a B (h a (by simp))
    · exact ih _ _ (fun x hx => h x (by simp [hx])) w hw

theorem updateWalkers_life (s : DungeonBuilder) (B : Int) (h : ∀ w ∈ s.walkers, w.life ≤ B) :
    ∀ w ∈ (updateWalkers s).walkers, 1 ≤ w.life ∧ w.life ≤ B - 1 := by
  intro w hw
  simp only [updateWalkers, List.mem_filter] at hw
  obtain ⟨hm, hpos⟩ := hw
  have hpos2 : ¬ w.life ≤ 0 := by simpa using hpos
  rcases walkersLoop_life s.cfg s.rooms s.mainRoomIndices B s.walkers s.grid s.rng h w hm
    with h1 | h1
  · exact absurd h1 hpos2
  · omega

theorem spawnWalkers_life (pts : List Point) (n : Nat) (g : Rng) (acc : List WalkerAgent)
    (h : ∀ w ∈ acc, 30 ≤ w.life ∧ w.life ≤ 100) :
    ∀ w ∈ (spawnWalkers pts n g acc).1, 30 ≤ w.life ∧ w.life ≤ 100 := by
  induction n generalizing g acc with
  | zero => simpa [spawnWalkers] using h
  | succ n ih =>
    simp only [spawnWalkers]
    apply ih
    intro w hw
    simp only [List.mem_append, List.mem_singleton] at hw
    rcases hw with hw | hw
    · exact h w hw
    · rw [hw]; exact uniformInt_range _ 30 100 (by norm_num)

/-! ## Frame facts of the phases -/

theorem step_rank (lib : Lib) (s : DungeonBuilder) : s.phase.rank ≤ (step lib s).phase.rank := by
  rcases step_phase lib s with h | ⟨h, _⟩
  · rw [h]
  · rw [h]; cases s.phase <;> simp [Phase.successor, Phase.rank]

theorem runSteps_rank (lib : Lib) (n : Nat) (s : DungeonBuilder) :
    s.phase.rank ≤ (runSteps lib n s).phase.rank := by
  induction n generalizing s with
  | zero => exact le_refl _
  | succ n ih => exact le_trans (step_rank lib s) (ih (step lib s))

theorem updatePhysics_frame (lib : Lib) (s : DungeonBuilder) :
    (updatePhysics lib s).links = s.links ∧ (updatePhysics lib s).walkers = s.walkers ∧
      (updatePhysics lib s).grid = s.grid ∧ (updatePhysics lib s).cfg = s.cfg ∧
      (updatePhysics lib s).caSteps = s.caSteps ∧ (updatePhysics lib s).rng = s.rng := by
  unfold updatePhysics
  dsimp only
  split <;> simp

theorem computeGraph_frame (lib : Lib) (s : DungeonBuilder) :
    (computeGraph lib s).walkers = s.walkers ∧ (computeGraph lib s).grid = s.grid ∧
      (computeGraph lib s).cfg = s.cfg ∧ (computeGraph lib s).caSteps = s.caSteps ∧
      (computeGraph lib s).phase = s.phase ∧ (computeGraph lib s).rooms = s.rooms := by
  unfold computeGraph
  dsimp only
  split <;> simp

theorem step_links (lib : Lib) (s : DungeonBuilder) (h : s.phase ≠ Phase.Graph) :
    (step lib s).links = s.links := by
  cases hp : s.phase with
  | Physics => rw [step_of_physics lib s hp]; exact (updatePhysics_frame lib s).1
  | Graph => exact absurd hp h
  | Raster => simp only [step, hp]; split <;> simp [rebuildTileLists, rasterizeBase]
  | Walkers => simp only [step, hp]; split <;> simp [rebuildTileLists, updateWalkers]
  | Automata => simp only [step, hp]; split <;> simp [rebuildTileLists]
  | Complete => rw [step_of_complete lib s hp]

theorem step_cfg (lib : Lib) (s : DungeonBuilder) : (step lib s).cfg = s.cfg := by
  cases hp : s.phase with
  | Physics => rw [step_of_physics lib s hp]; exact (updatePhysics_frame lib s).2.2.2.1
  | Graph => rw [step_of_graph lib s hp]; exact (computeGraph_frame lib s).2.2.1
  | Raster => simp only [step, hp]; split <;> simp [rebuildTileLists, rasterizeBase]
  | Walkers => simp only [step, hp]; split <;> simp [rebuildTileLists, updateWalkers]
  | Automata => simp only [step, hp]; split <;> simp [rebuildTileLists]
  | Complete => rw [step_of_complete lib s hp]

theorem runSteps_links (lib : Lib) (n : Nat) (s : DungeonBuilder) (h : 2 ≤ s.phase.rank) :
    (runSteps lib n s).links = s.links := by
  induction n generalizing s with
  | zero => rfl
  | succ n ih =>
    simp only [runSteps]
    rw [ih (step lib s) (le_trans h (step_rank lib s))]
    apply step_links
    intro hg
    rw [hg] at h
    simp [Phase.rank] at h

/-! ## Bounded runs after the Graph phase -/

theorem automata_run_aux (lib : Lib) (m : Nat) :
    ∀ s : DungeonBuilder, s.phase = Phase.Automata → 3 - s.caSteps ≤ m →
      ∃ k, k ≤ m + 1 ∧ (runSteps lib k s).phase = Phase.Complete := by
  induction m with
  | zero =>
    intro s hp hc
    refine ⟨1, le_refl _, ?_⟩
    have h4 : s.caSteps + 1 ≥ 4 := by omega
    simp [runSteps, step, hp, rebuildTileLists, h4]
  | succ m ih =>
    intro s hp hc
    by_cases h4 : s.caSteps + 1 ≥ 4
    · refine ⟨1, by omega, ?_⟩
      simp [runSteps, step, hp, rebuildTileLists, h4]
    · have hs : (step lib s).phase = Phase.Automata ∧ (step lib s).caSteps = s.caSteps + 1 := by
        simp [step, hp, rebuildTileLists, h4]
      obtain ⟨k, hk, hc2⟩ := ih (step lib s) hs.1 (by rw [hs.2]; omega)
      exact ⟨k + 1, by omega, by simpa [runSteps] using hc2⟩

theorem automata_run (lib : Lib) (s : DungeonBuilder) (hp : s.phase = Phase.Automata) :
    ∃ k, k ≤ 4 ∧ (runSteps lib k s).phase = Phase.Complete := by
  obtain ⟨k, hk, h⟩ := automata_run_aux lib 3 s hp (by omega)
  exact ⟨k, hk, h⟩

theorem step_walkers_cases (lib : Lib) (s : DungeonBuilder) (hp : s.phase = Phase.Walkers) :
    (step lib s).walkers = (updateWalkers s).walkers ∧
      (((updateWalkers s).walkers = [] ∧ (step lib s).phase = Phase.Automata) ∨
       ((updateWalkers s).walkers ≠ [] ∧ (step lib s).phase = Phase.Walkers)) := by
  have hw : (rebuildTileLists (updateWalkers s)).walkers = (updateWalkers s).walkers := rfl
  have hph : (rebuildTileLists (updateWalkers s)).phase = Phase.Walkers := hp
  simp only [step, hp]
  by_cases he : (updateWalkers s).walkers = []
  · have hemp : (rebuildTileLists (updateWalkers s)).walkers.isEmpty = true := by
      rw [hw, he]; rfl
    rw [if_pos hemp]
    exact ⟨hw, Or.inl ⟨he, rfl⟩⟩
  · have hemp : ¬ (rebuildTileLists (updateWalkers s)).walkers.isEmpty = true := by
      rw [hw, List.isEmpty_iff]; exact he
    rw [if_neg hemp]
    exact ⟨hw, Or.inr ⟨he, hph⟩⟩

theorem walkers_run (lib : Lib) (B : Nat) :
    ∀ s : DungeonBuilder, s.phase = Phase.Walkers → (∀ w ∈ s.walkers, w.life ≤ (B : Int)) →
      ∃ k, k ≤ max B 1 ∧ (runSteps lib k s).phase = Phase.Automata := by
  induction B with
  | zero =>
    intro s hp hb
    refine ⟨1, by simp, ?_⟩
    obtain ⟨_, h | h⟩ := step_walkers_cases lib s hp
    · simpa [runSteps] using h.2
    · exfalso
      obtain ⟨w, hw⟩ := List.exists_mem_of_ne_nil _ h.1
      have := updateWalkers_life s 0 hb w hw
      omega
  | succ B ih =>
    intro s hp hb
    obtain ⟨hw, h | h⟩ := step_walkers_cases lib s hp
    · exact ⟨1, by simp, by simpa [runSteps] using h.2⟩
    · obtain ⟨w, hmem⟩ := List.exists_mem_of_ne_nil _ h.1
      have hb2 := updateWalkers_life s ((B + 1 : Nat) : Int) hb
      have hB : 1 ≤ B := by
        have := hb2 w hmem
        omega
      obtain ⟨k, hk, hc⟩ := ih (step lib s) h.2 (by
        intro x hx
        rw [hw] at hx
        have := hb2 x hx
        omega)
      refine ⟨k + 1, ?_, by simpa [runSteps] using hc⟩
      have : max B 1 = B := max_eq_left hB
      have h2 : max (B + 1) 1 = B + 1 := max_eq_left (by omega)
      omega

theorem step_raster_walkers (lib : Lib) (s : DungeonBuilder) (hp : s.phase = Phase.Raster)
    (hw : ∀ w ∈ s.walkers, 30 ≤ w.life ∧ w.life ≤ 100) :
    (step lib s).phase = Phase.Walkers ∧ ∀ w ∈ (step lib s).walkers, 30 ≤ w.life ∧ w.life ≤ 100 := by
  simp only [step, hp]
  split
  · exact ⟨rfl, by simpa [rebuildTileLists, rasterizeBase] using hw⟩
  · refine ⟨rfl, ?_⟩
    apply spawnWalkers_life
    simpa [rebuildTileLists, rasterizeBase] using hw

/-- From the Raster phase with no walker yet, `Complete` is reached within 105 steps. -/
theorem raster_run (lib : Lib) (s : DungeonBuilder) (hp : s.phase = Phase.Raster)
    (hw : s.walkers = []) : ∃ k, k ≤ 105 ∧ (runSteps lib k s).phase = Phase.Complete := by
  obtain ⟨h1, h2⟩ := step_raster_walkers lib s hp (by simp [hw])
  obtain ⟨k1, hk1, hc1⟩ := walkers_run lib 100 (step lib s) h1 (fun w hm => by
    have := (h2 w hm).2
    simpa using this)
  obtain ⟨k2, hk2, hc2⟩ := automata_run lib (runSteps lib k1 (step lib s)) hc1
  refine ⟨1 + k1 + k2, ?_, ?_⟩
  · have : max 100 1 = 100 := by decide
    omega
  · rw [runSteps_add, runSteps_add]
    simpa [runSteps] using hc2

/-- From the Graph phase with no walker yet, `Complete` is reached within 106 steps. -/
theorem graph_run (lib : Lib) (s : DungeonBuilder) (hp : s.phase = Phase.Graph)
    (hw : s.walkers = []) : ∃ k, k ≤ 106 ∧ (runSteps lib k s).phase = Phase.Complete := by
  have hs : (step lib s).phase = Phase.Raster ∧ (step lib s).walkers = [] := by
    rw [step_of_graph lib s hp]
    exact ⟨rfl, by simpa using (computeGraph_frame lib s).1.trans hw⟩
  obtain ⟨k, hk, hc⟩ := raster_run lib (step lib s) hs.1 hs.2
  exact ⟨k + 1, by omega, by simpa [runSteps] using hc⟩

/-- Once `Complete` is reached within `B` steps, the state after exactly `B` steps is that
`Complete` state. -/
theorem complete_by (lib : Lib) (s : DungeonBuilder) (k B : Nat) (hk : k ≤ B)
    (hc : (runSteps lib k s).phase = Phase.Complete) :
    runSteps lib B s = runSteps lib k s := by
  obtain ⟨d, rfl⟩ := Nat.exists_eq_add_of_le hk
  rw [runSteps_add, runSteps_of_complete lib d _ hc]

/-! ## A run that never leaves the Physics phase -/

theorem pairForce_coincident (lib : Lib) (hsq : lib.sqrt 0 = 0) (a b : RoomObj)
    (hx : a.x = b.x) (hy : a.y = b.y) (hw : a.w = b.w) (h8 : 8 ≤ a.w) :
    pairForce lib a b = ((a.w * (55 / 100) + a.w * (55 / 100) + 2) * 5, 0) := by
  have hpos : (0 : ℚ) < (a.w * (55 / 100) + a.w * (55 / 100) + 2) := by linarith
  have hpos2 : (0 : ℚ) < (a.w * (55 / 100) + a.w * (55 / 100) + 2)
      * (a.w * (55 / 100) + a.w * (55 / 100) + 2) := mul_pos hpos hpos
  unfold pairForce
  simp only [← hx, ← hy, ← hw, sub_self, mul_zero, add_zero, hsq, sub_zero]
  rw [if_pos hpos2]
  norm_num

theorem lockstep_updatePhysics (lib : Lib) (hsq : lib.sqrt 0 = 0) (s : DungeonBuilder)
    (h : Lockstep s) : Lockstep (updatePhysics lib s) := by
  obtain ⟨hp, a, b, c, hr, hab, hac, h8⟩ := h
  obtain ⟨habx, haby, habw, habvx, habvy⟩ := hab
  obtain ⟨hacx, hacy, hacw, hacvx, hacvy⟩ := hac
  have fab := pairForce_coincident lib hsq a b habx haby habw h8
  have fac := pairForce_coincident lib hsq a c hacx hacy hacw h8
  have fba := pairForce_coincident lib hsq b a habx.symm haby.symm habw.symm (habw ▸ h8)
  have fbc := pairForce_coincident lib hsq b c (habx.symm.trans hacx) (haby.symm.trans hacy)
    (habw.symm.trans hacw) (habw ▸ h8)
  have fca := pairForce_coincident lib hsq c a hacx.symm hacy.symm hacw.symm (hacw ▸ h8)
  have fcb := pairForce_coincident lib hsq c b (hacx.symm.trans habx) (hacy.symm.trans haby)
    (hacw.symm.trans habw) (hacw ▸ h8)
  have hF : (a.w * (55 / 100) + a.w * (55 / 100) + 2) * 5 ≠ 0 := by
    have : (0 : ℚ) < (a.w * (55 / 100) + a.w * (55 / 100) + 2) * 5 := by linarith
    exact ne_of_gt this
  have hfs : forces lib s.rooms 0 s.rooms =
      [(0 + (a.w * (55 / 100) + a.w * (55 / 100) + 2) * 5 + (a.w * (55 / 100) + a.w * (55 / 100) + 2) * 5, 0 + 0 + 0),
       (0 + (a.w * (55 / 100) + a.w * (55 / 100) + 2) * 5 + (a.w * (55 / 100) + a.w * (55 / 100) + 2) * 5, 0 + 0 + 0),
       (0 + (a.w * (55 / 100) + a.w * (55 / 100) + 2) * 5 + (a.w * (55 / 100) + a.w * (55 / 100) + 2) * 5, 0 + 0 + 0)] := by
    rw [hr]
    simp only [forces, netForce, fab, fac, fba, fbc, fca, fcb, ← habw, ← hacw]
    simp
  have hact : (forces lib s.rooms 0 s.rooms).any
      (fun f => decide (f.1 ≠ 0) || decide (f.2 ≠ 0)) = true := by
    rw [hfs]
    have : (0 : ℚ) < (a.w * (55 / 100) + a.w * (55 / 100) + 2) * 5 := by linarith
    have h2 : (0 : ℚ) + (a.w * (55 / 100) + a.w * (55 / 100) + 2) * 5
        + (a.w * (55 / 100) + a.w * (55 / 100) + 2) * 5 ≠ 0 := by
      apply ne_of_gt; linarith
    simp only [List.any_cons, decide_eq_true h2, Bool.true_or]
  have hup : updatePhysics lib s =
      { s with rooms := (List.map integrate
          (List.zipWith accelerate s.rooms (forces lib s.rooms 0 s.rooms))) } := by
    unfold updatePhysics
    dsimp only
    rw [hact, if_neg (by simp)]
  have hrooms : (updatePhysics lib s).rooms =
      [integrate (accelerate a (0 + (a.w * (55 / 100) + a.w * (55 / 100) + 2) * 5
          + (a.w * (55 / 100) + a.w * (55 / 100) + 2) * 5, 0 + 0 + 0)),
       integrate (accelerate b (0 + (a.w * (55 / 100) + a.w * (55 / 100) + 2) * 5
          + (a.w * (55 / 100) + a.w * (55 / 100) + 2) * 5, 0 + 0 + 0)),
       integrate (accelerate c (0 + (a.w * (55 / 100) + a.w * (55 / 100) + 2) * 5
          + (a.w * (55 / 100) + a.w * (55 / 100) + 2) * 5, 0 + 0 + 0))] := by
    rw [hup]
    show List.map integrate (List.zipWith accelerate s.rooms (forces lib s.rooms 0 s.rooms)) = _
    rw [hfs, hr]
    rfl
  have hphase : (updatePhysics lib s).phase = Phase.Physics := by
    rw [hup]; exact hp
  refine ⟨hphase, _, _, _, hrooms, ?_, ?_, ?_⟩
  · simp [sameBody, integrate, accelerate, habx, haby, habw, habvx, habvy]
  · simp [sameBody, integrate, accelerate, hacx, hacy, hacw, hacvx, hacvy]
  · simpa [integrate, accelerate] using h8

theorem lockstep_runSteps (lib : Lib) (hsq : lib.sqrt 0 = 0) (n : Nat) (s : DungeonBuilder)
    (h : Lockstep s) : Lockstep (runSteps lib n s) := by
  induction n generalizing s with
  | zero => exact h
  | succ n ih =>
    simp only [runSteps]
    apply ih
    rw [step_of_physics lib s h.1]
    exact lockstep_updatePhysics lib hsq s h

theorem spawnRoom_const (lib : Lib) (cfg : GenSettings) (hs : cfg.spreadRadius = 0)
    (cx cy : ℚ) (i : Int) (g : Rng) (hg : ∀ k, g.raw k = 0) :
    (∀ k, (spawnRoom lib cfg cx cy i g).2.raw k = 0) ∧
      (spawnRoom lib cfg cx cy i g).1.x = cx ∧ (spawnRoom lib cfg cx cy i g).1.y = cy ∧
      (spawnRoom lib cfg cx cy i g).1.w = max 8 (12 + 6 * lib.stdNormal 0) ∧
      (spawnRoom lib cfg cx cy i g).1.vx = 0 ∧ (spawnRoom lib cfg cx cy i g).1.vy = 0 := by
  simp [spawnRoom, uniformReal, normalReal, uniformInt, hg, hs]

theorem init_lockstep (lib : Lib) (hmt : ∀ k, lib.mt19937 7 k = 0) (entropy : Nat)
    (old s : DungeonBuilder) (h : init lib entropy cfgStuck old = some s) : Lockstep s := by
  unfold init at h
  have hneg : ¬ (cfgStuck.gridWidth * cfgStuck.gridHeight < 0 ∨ cfgStuck.noOverflow = false) := by
    decide
  rw [if_neg hneg] at h
  have h7 : (if cfgStuck.seed = 0 then entropy else cfgStuck.seed) = 7 := rfl
  have h3 : cfgStuck.roomCount.toNat = 3 := rfl
  simp only [Option.some.injEq] at h
  subst h
  refine ⟨rfl, ?_⟩
  dsimp only
  rw [h7, h3]
  simp only [spawnRooms, List.nil_append, List.cons_append]
  have hs : cfgStuck.spreadRadius = 0 := rfl
  have c0 := spawnRoom_const lib cfgStuck hs
    (((cfgStuck.gridWidth * cfgStuck.tileW : Int) : ℚ) / 2)
    (((cfgStuck.gridHeight * cfgStuck.tileH : Int) : ℚ) / 2) 0 ⟨lib.mt19937 7, 0⟩ hmt
  have c1 := spawnRoom_const lib cfgStuck hs
    (((cfgStuck.gridWidth * cfgStuck.tileW : Int) : ℚ) / 2)
    (((cfgStuck.gridHeight * cfgStuck.tileH : Int) : ℚ) / 2) (0 + 1) _ c0.1
  have c2 := spawnRoom_const lib cfgStuck hs
    (((cfgStuck.gridWidth * cfgStuck.tileW : Int) : ℚ) / 2)
    (((cfgStuck.gridHeight * cfgStuck.tileH : Int) : ℚ) / 2) (0 + 1 + 1) _ c1.1
  refine ⟨_, _, _, rfl, ?_, ?_, ?_⟩
  · exact ⟨c0.2.1.trans c1.2.1.symm, c0.2.2.1.trans c1.2.2.1.symm,
      c0.2.2.2.1.trans c1.2.2.2.1.symm, c0.2.2.2.2.1.trans c1.2.2.2.2.1.symm,
      c0.2.2.2.2.2.trans c1.2.2.2.2.2.symm⟩
  · exact ⟨c0.2.1.trans c2.2.1.symm, c0.2.2.1.trans c2.2.2.1.symm,
      c0.2.2.2.1.trans c2.2.2.2.1.symm, c0.2.2.2.2.1.trans c2.2.2.2.2.1.symm,
      c0.2.2.2.2.2.trans c2.2.2.2.2.2.symm⟩
  · rw [c0.2.2.2.1]; exact le_max_left _ _

theorem constLib_sqrt_zero : constLib.sqrt 0 = 0 := by
  simp [constLib, toyLib]

/-! ## Invariants of the runs started by init -/

theorem init_phase (lib : Lib) (entropy : Nat) (cfg : GenSettings) (old s : DungeonBuilder)
    (h : init lib entropy cfg old = some s) :
    s.phase = Phase.Physics ∧ s.walkers = [] ∧ s.links = [] ∧ s.cfg = cfg ∧
      s.grid = List.replicate (cfg.gridWidth * cfg.gridHeight).toNat Tile.Empty ∧
      s.caSteps = old.caSteps ∧ s.floors = [] ∧ s.walls = [] := by
  unfold init at h
  split at h
  · exact absurd h (by simp)
  · simp only [Option.some.injEq] at h
    subst h
    exact ⟨rfl, rfl, rfl, rfl, rfl, rfl, rfl, rfl⟩

theorem walkInv_init (lib : Lib) (entropy : Nat) (cfg : GenSettings) (old s : DungeonBuilder)
    (h : init lib entropy cfg old = some s) : WalkInv s := by
  obtain ⟨_, hw, _⟩ := init_phase lib entropy cfg old s h
  exact ⟨fun _ => hw, by simp [hw]⟩

theorem walkInv_step (lib : Lib) (s : DungeonBuilder) (h : WalkInv s) : WalkInv (step lib s) := by
  obtain ⟨h1, h2⟩ := h
  cases hp : s.phase with
  | Physics =>
    rw [step_of_physics lib s hp]
    have hf := (updatePhysics_frame lib s).2.1
    have hw : s.walkers = [] := h1 (by rw [hp]; decide)
    exact ⟨fun _ => hf.trans hw, by rw [hf, hw]; simp⟩
  | Graph =>
    rw [step_of_graph lib s hp]
    have hf := (computeGraph_frame lib s).1
    have hw : s.walkers = [] := h1 (by rw [hp]; decide)
    exact ⟨fun _ => hf.trans hw, by
      show ∀ w ∈ (computeGraph lib s).walkers, w.life ≤ 100
      rw [hf, hw]; simp⟩
  | Raster =>
    have hw : s.walkers = [] := h1 (by rw [hp]; decide)
    obtain ⟨hph, hl⟩ := step_raster_walkers lib s hp (by simp [hw])
    exact ⟨fun hr => by rw [hph] at hr; exact absurd hr (by decide), fun w hm => (hl w hm).2⟩
  | Walkers =>
    obtain ⟨hw, hc⟩ := step_walkers_cases lib s hp
    refine ⟨fun hr => ?_, fun w hm => ?_⟩
    · rcases hc with hc | hc <;> rw [hc.2] at hr <;> exact absurd hr (by decide)
    · rw [hw] at hm
      have := updateWalkers_life s 100 h2 w hm
      omega
  | Automata =>
    obtain ⟨hw, _, _, _, _, hc⟩ := step_of_automata lib s hp
    refine ⟨fun hr => ?_, by rw [hw]; exact h2⟩
    rcases hc with hc | hc <;> rw [hc.2.1] at hr <;> exact absurd hr (by decide)
  | Complete =>
    rw [step_of_complete lib s hp]
    exact ⟨h1, h2⟩

theorem walkInv_run (lib : Lib) (entropy : Nat) (cfg : GenSettings) (old s0 : DungeonBuilder)
    (h : init lib entropy cfg old = some s0) (n : Nat) : WalkInv (runSteps lib n s0) := by
  induction n with
  | zero => exact walkInv_init lib entropy cfg old s0 h
  | succ n ih => rw [runSteps_succ_last]; exact walkInv_step lib _ ih

theorem linkInv_step (lib : Lib) (s : DungeonBuilder) (h : LinkInv s) : LinkInv (step lib s) := by
  intro hr
  have hle := step_rank lib s
  have hs : s.phase.rank ≤ 1 := le_trans hle hr
  cases hp : s.phase with
  | Physics =>
    rw [step_of_physics lib s hp, (updatePhysics_frame lib s).1]
    exact h hs
  | Graph =>
    have hph : (step lib s).phase = Phase.Raster := by rw [step_of_graph lib s hp]
    rw [hph] at hr
    exact absurd hr (by decide)
  | Raster => rw [hp] at hs; exact absurd hs (by decide)
  | Walkers => rw [hp] at hs; exact absurd hs (by decide)
  | Automata => rw [hp] at hs; exact absurd hs (by decide)
  | Complete => rw [hp] at hs; exact absurd hs (by decide)

theorem linkInv_run (lib : Lib) (entropy : Nat) (cfg : GenSettings) (old s0 : DungeonBuilder)
    (h : init lib entropy cfg old = some s0) (n : Nat) : LinkInv (runSteps lib n s0) := by
  induction n with
  | zero => exact fun _ => (init_phase lib entropy cfg old s0 h).2.2.1
  | succ n ih => rw [runSteps_succ_last]; exact linkInv_step lib _ ih

theorem computeGraph_few (lib : Lib) (s : DungeonBuilder)
    (h : (collectMain 0 s.rooms).length < 3) :
    computeGraph lib s = { s with mainRoomIndices := collectMain 0 s.rooms } := by
  unfold computeGraph
  dsimp only
  rw [if_pos h]

/-- From a state past the Physics phase that satisfies `WalkInv`, `Complete` is reached within
106 steps. -/
theorem after_physics_run (lib : Lib) (s : DungeonBuilder) (hi : WalkInv s)
    (hp : s.phase ≠ Phase.Physics) :
    ∃ k, k ≤ 106 ∧ (runSteps lib k s).phase = Phase.Complete := by
  cases hq : s.phase with
  | Physics => exact absurd hq hp
  | Graph => exact graph_run lib s hq (hi.1 (by rw [hq]; decide))
  | Raster =>
    obtain ⟨k, hk, hc⟩ := raster_run lib s hq (hi.1 (by rw [hq]; decide))
    exact ⟨k, by omega, hc⟩
  | Walkers =>
    obtain ⟨k1, hk1, hc1⟩ := walkers_run lib 100 s hq (fun w hm => by simpa using hi.2 w hm)
    obtain ⟨k2, hk2, hc2⟩ := automata_run lib (runSteps lib k1 s) hc1
    refine ⟨k1 + k2, ?_, by rw [runSteps_add]; exact hc2⟩
    have : max 100 1 = 100 := by decide
    omega
  | Automata =>
    obtain ⟨k, hk, hc⟩ := automata_run lib s hq
    exact ⟨k, by omega, hc⟩
  | Complete => exact ⟨0, by omega, hq⟩

theorem triangulate_collinear :
    triangulate [⟨30, 80⟩, ⟨80, 80⟩, ⟨130, 80⟩] = [] := by
  decide!

/-- When the triangulation of the main rooms is empty, `computeGraph` produces no link. -/
theorem computeGraph_of_no_triangle (lib : Lib) (s : DungeonBuilder)
    (h3 : ¬ (collectMain 0 s.rooms).length < 3)
    (ht : triangulate ((collectMain 0 s.rooms).map (fun idx =>
      (⟨(roomAt s.rooms idx).x, (roomAt s.rooms idx).y⟩ : Vec2))) = []) :
    (computeGraph lib s).mainRoomIndices = collectMain 0 s.rooms ∧
      (computeGraph lib s).links = [] := by
  unfold computeGraph
  dsimp only
  rw [if_neg h3, ht]
  exact ⟨rfl, rfl⟩

/-! ## Lists and folds -/

theorem getD_set {α : Type} (l : List α) (n m : Nat) (v d : α) :
    (l.set n v).getD m d = if n = m ∧ n < l.length then v else l.getD m d := by
  rw [List.getD_eq_getElem?_getD, List.getD_eq_getElem?_getD, List.getElem?_set]
  by_cases h : n = m
  · subst h
    by_cases h2 : n < l.length
    · simp [h2]
    · simp [h2, List.getElem?_eq_none (not_lt.mp h2)]
  · simp [h]

theorem lt_length_of_getD_ne {α : Type} (l : List α) (n : Nat) (d : α) (h : l.getD n d ≠ d) :
    n < l.length := by
  by_contra hn
  exact h (List.getD_eq_default l d (not_lt.mp hn))

theorem foldl_inv {α β : Type} (P : β → Prop) (f : β → α → β) (l : List α) (b : β) (hb : P b)
    (hf : ∀ b a, a ∈ l → P b → P (f b a)) : P (l.foldl f b) := by
  induction l generalizing b with
  | nil => exact hb
  | cons a rest ih =>
    simp only [List.foldl_cons]
    exact ih (f b a) (hf b a (by simp) hb) (fun b x hx hp => hf b x (by simp [hx]) hp)

/-- A loop over the indices `0, ..., k-1` that rewrites cell `i` at its `i`-th iteration leaves
the list with the new values below `k` and the old ones from `k` on. -/
theorem foldl_range_pointwise {α : Type} (d : α) (f : List α → Nat → List α) (nv : Nat → α)
    (g : List α)
    (hf : ∀ G k, k < g.length → G.length = g.length →
      (∀ j, G.getD j d = if j < k then nv j else g.getD j d) →
      (f G k).length = G.length ∧ ∀ j, (f G k).getD j d = if j = k then nv k else G.getD j d) :
    ∀ k, k ≤ g.length →
      ((List.range k).foldl f g).length = g.length ∧
        ∀ j, ((List.range k).foldl f g).getD j d = if j < k then nv j else g.getD j d := by
  intro k
  induction k with
  | zero => intro _; simp
  | succ k ih =>
    intro hk
    obtain ⟨hl, hv⟩ := ih (by omega)
    rw [List.range_succ, List.foldl_append]
    simp only [List.foldl_cons, List.foldl_nil]
    obtain ⟨hl2, hv2⟩ := hf _ k (by omega) hl hv
    refine ⟨hl2.trans hl, fun j => ?_⟩
    rw [hv2 j, hv j]
    by_cases hjk : j = k
    · subst hjk; simp
    · by_cases hlt : j < k
      · have : j < k + 1 := by omega
        simp [hjk, hlt, this]
      · have : ¬ j < k + 1 := by omega
        simp [hjk, hlt, this]

/-! ## Cells and indices -/

theorem coordOf_eq (W : Int) (hW : 0 < W) (i : Nat) :
    coordOf W i = ((i : Int) % W, (i : Int) / W) := by
  unfold coordOf
  rw [Int.tmod_eq_emod (Int.ofNat_nonneg i) (le_of_lt hW),
    Int.tdiv_eq_ediv (Int.ofNat_nonneg i) (le_of_lt hW)]

theorem coordOf_bounds (W H : Int) (g : List Tile) (hg : GridOK W H g) (i : Nat)
    (hi : i < g.length) :
    0 ≤ (coordOf W i).1 ∧ (coordOf W i).1 < W ∧ 0 ≤ (coordOf W i).2 ∧ (coordOf W i).2 < H ∧
      (coordOf W i).2 * W + (coordOf W i).1 = (i : Int) := by
  obtain ⟨hW, hH, hlen⟩ := hg
  rw [coordOf_eq W hW]
  have h1 := Int.emod_nonneg (i : Int) (ne_of_gt hW)
  have h2 := Int.emod_lt_of_pos (i : Int) hW
  have h3 := Int.emod_add_ediv (i : Int) W
  have h4 : 0 ≤ (i : Int) / W := Int.ediv_nonneg (Int.ofNat_nonneg i) (le_of_lt hW)
  have hiW : (i : Int) < W * H := by rw [← hlen]; exact_mod_cast hi
  have h5 : (i : Int) / W < H := by
    by_contra hcon
    have hge : H ≤ (i : Int) / W := not_lt.mp hcon
    have : W * H ≤ W * ((i : Int) / W) := Int.mul_le_mul_of_nonneg_left hge (le_of_lt hW)
    linarith
  refine ⟨h1, h2, h4, h5, ?_⟩
  dsimp only
  linarith [mul_comm ((i : Int) / W) W]

theorem coordOf_index (W : Int) (hW : 0 < W) (x y : Int) (hx0 : 0 ≤ x) (hx : x < W)
    (hy0 : 0 ≤ y) : coordOf W (y * W + x).toNat = (x, y) := by
  have hnn : 0 ≤ y * W + x := by positivity
  rw [coordOf_eq W hW, Int.toNat_of_nonneg hnn]
  have := (Int.ediv_emod_unique (a := y * W + x) (r := x) (q := y) hW).mpr
    ⟨by linarith [mul_comm y W], hx0, hx⟩
  rw [this.1, this.2]

theorem index_lt (W H : Int) (g : List Tile) (hg : GridOK W H g) (x y : Int)
    (hb : inBounds W H x y = true) : (y * W + x).toNat < g.length := by
  obtain ⟨hW, hH, hlen⟩ := hg
  simp only [inBounds, Bool.and_eq_true, decide_eq_true_eq] at hb
  obtain ⟨⟨⟨hx0, hx⟩, hy0⟩, hy⟩ := hb
  have hnn : 0 ≤ y * W + x := by positivity
  have : y * W + x < W * H := by
    have : (y + 1) * W ≤ H * W := Int.mul_le_mul_of_nonneg_right (by omega) (le_of_lt hW)
    linarith [mul_comm H W]
  have h2 : ((y * W + x).toNat : Int) < (g.length : Int) := by
    rw [Int.toNat_of_nonneg hnn, hlen]; exact this
  exact_mod_cast h2

/-- Reading a cell through `getTile` at the coordinates of an index of the grid. -/
theorem getTile_coordOf (W H : Int) (g G : List Tile) (hg : GridOK W H g) (i : Nat)
    (hi : i < g.length) :
    getTile W H G (coordOf W i).1 (coordOf W i).2 = G.getD i Tile.Empty := by
  obtain ⟨h1, h2, h3, h4, h5⟩ := coordOf_bounds W H g hg i hi
  unfold getTile
  have hb : inBounds W H (coordOf W i).1 (coordOf W i).2 = true := by
    simp [inBounds, h1, h2, h3, h4]
  rw [if_pos hb, h5]
  simp

theorem inBounds_of_getTile (W H : Int) (g : List Tile) (x y : Int)
    (h : getTile W H g x y ≠ Tile.Empty) : inBounds W H x y = true := by
  unfold getTile at h
  by_contra hb
  rw [if_neg hb] at h
  exact h rfl

theorem getTile_sameFloor (W H : Int) (G g : List Tile) (h : SameFloor G g) (x y : Int) :
    getTile W H G x y = Tile.Floor ↔ getTile W H g x y = Tile.Floor := by
  unfold getTile
  split
  · exact h _
  · exact Iff.rfl

/-! ## Wall generation -/

theorem shellValue_floor (W H : Int) (g : List Tile) (j : Nat) :
    shellValue W H g j = Tile.Floor ↔ g.getD j Tile.Empty = Tile.Floor := by
  unfold shellValue
  by_cases h : g.getD j Tile.Empty = Tile.Floor
  · rw [if_neg (not_not.mpr h)]
  · rw [if_pos h]
    constructor
    · intro h2
      split at h2 <;> cases h2
    · intro h2
      exact absurd h2 h

theorem touchesFloor_congr (W H : Int) (G g : List Tile) (h : SameFloor G g) (i : Nat) :
    touchesFloor W H G i = touchesFloor W H g i := by
  unfold touchesFloor
  have : ∀ x y, decide (getTile W H G x y = Tile.Floor) = decide (getTile W H g x y = Tile.Floor) :=
    fun x y => decide_eq_decide.mpr (getTile_sameFloor W H G g h x y)
  simp only [this]

theorem touchesFloor_iff (W H : Int) (G : List Tile) (i : Nat) :
    touchesFloor W H G i = true ↔
      (getTile W H G (coordOf W i).1 (coordOf W i).2 = Tile.Floor ∨
        ∃ o ∈ mooreOffsets,
          getTile W H G ((coordOf W i).1 + o.1) ((coordOf W i).2 + o.2) = Tile.Floor) := by
  simp only [touchesFloor, coordOf, mooreOffsets, List.any_cons, List.any_nil, Bool.or_false,
    Bool.or_eq_true, decide_eq_true_eq, List.mem_cons, List.mem_singleton, exists_eq_or_imp,
    exists_eq_left, add_zero, List.not_mem_nil, false_and, exists_false, or_false]
  tauto

theorem wallGen_spec (W H : Int) (g : List Tile) :
    (wallGen W H g).length = g.length ∧
      ∀ j, (wallGen W H g).getD j Tile.Empty =
        if j < g.length then shellValue W H g j else g.getD j Tile.Empty := by
  unfold wallGen
  apply foldl_range_pointwise Tile.Empty _ (shellValue W H g) g _ g.length (le_refl _)
  intro G k hk hl hv
  have hsame : SameFloor G g := by
    intro j
    rw [hv j]
    split
    · exact shellValue_floor W H g j
    · exact Iff.rfl
  have hGk : G.getD k Tile.Empty = g.getD k Tile.Empty := by
    rw [hv k]; simp
  by_cases hfl : G.getD k Tile.Empty = Tile.Floor
  · simp only [ne_eq, hfl, not_true_eq_false, if_false, true_and]
    intro j
    by_cases hjk : j = k
    · subst hjk
      rw [if_pos rfl, hfl]
      unfold shellValue
      rw [← hGk, if_neg (not_not.mpr hfl), hfl]
    · rw [if_neg hjk]
  · simp only [ne_eq, hfl, not_false_eq_true, if_true, List.length_set, true_and]
    intro j
    rw [getD_set]
    by_cases hjk : j = k
    · subst hjk
      have hkl : j < G.length := by omega
      simp only [true_and, hkl, if_true]
      unfold shellValue
      rw [← hGk, touchesFloor_congr W H G g hsame, if_pos hfl]
    · have : ¬ (k = j ∧ k < G.length) := fun h => hjk h.1.symm
      rw [if_neg this, if_neg hjk]

theorem wallGen_sameFloor (W H : Int) (g : List Tile) : SameFloor (wallGen W H g) g := by
  intro j
  rw [(wallGen_spec W H g).2 j]
  split
  · exact shellValue_floor W H g j
  · exact Iff.rfl

theorem wallGen_shell (W H : Int) (g : List Tile) (hg : GridOK W H g) :
    Shell W H (wallGen W H g) := by
  intro x y hb hnf
  obtain ⟨hlen, hval⟩ := wallGen_spec W H g
  have hi : (y * W + x).toNat < g.length := index_lt W H g hg x y hb
  have hb2 := hb
  simp only [inBounds, Bool.and_eq_true, decide_eq_true_eq] at hb2
  obtain ⟨⟨⟨hx0, hx⟩, hy0⟩, hy⟩ := hb2
  have hco : coordOf W (y * W + x).toNat = (x, y) := coordOf_index W hg.1 x y hx0 hx hy0
  have hget : getTile W H (wallGen W H g) x y = shellValue W H g (y * W + x).toNat := by
    unfold getTile
    rw [if_pos hb, hval, if_pos hi]
  have hsame := wallGen_sameFloor W H g
  have hgnf : g.getD (y * W + x).toNat Tile.Empty ≠ Tile.Floor := by
    intro hf
    apply hnf
    rw [hget]
    exact (shellValue_floor W H g _).mpr hf
  have htouch := touchesFloor_iff W H (wallGen W H g) (y * W + x).toNat
  rw [hco] at htouch
  dsimp only at htouch
  rw [touchesFloor_congr W H _ g hsame] at htouch
  have hsv : shellValue W H g (y * W + x).toNat =
      if touchesFloor W H g (y * W + x).toNat then Tile.Wall else Tile.Empty := by
    unfold shellValue
    rw [if_pos hgnf]
  rw [hget, hsv]
  constructor
  · intro hex
    rw [if_pos (htouch.mpr (Or.inr hex))]
  · intro hne
    have : ¬ touchesFloor W H g (y * W + x).toNat = true := by
      intro ht
      rcases htouch.mp ht with h | h
      · exact hnf h
      · exact hne h
    rw [if_neg this]

/-! ## Flood fill: every region is 4-connected -/

theorem adj4_symm (p q : Int × Int) (h : Adj4 p q) : Adj4 q p := by
  unfold Adj4 at *
  rcases h with ⟨h1, h2 | h2⟩ | ⟨h1, h2 | h2⟩
  · exact Or.inl ⟨h1.symm, Or.inr h2⟩
  · exact Or.inl ⟨h1.symm, Or.inl h2⟩
  · exact Or.inr ⟨h1.symm, Or.inr h2⟩
  · exact Or.inr ⟨h1.symm, Or.inl h2⟩

theorem coordOf_of_decomp (W : Int) (hW : 0 < W) (n : Nat) (x y : Int)
    (h : x + W * y = (n : Int)) (hx0 : 0 ≤ x) (hx : x < W) : coordOf W n = (x, y) := by
  rw [coordOf_eq W hW]
  have := (Int.ediv_emod_unique (a := (n : Int)) (r := x) (q := y) hW).mpr ⟨h, hx0, hx⟩
  rw [this.1, this.2]

theorem neighbours_adj (W H : Int) (hW : 0 < W) (curr n : Nat) (h : n ∈ neighbours W H curr) :
    Adj4 (coordOf W curr) (coordOf W n) := by
  have hc := coordOf_eq W hW curr
  have h1 := Int.emod_nonneg (curr : Int) (ne_of_gt hW)
  have h2 := Int.emod_lt_of_pos (curr : Int) hW
  have h3 := Int.emod_add_ediv (curr : Int) W
  have h4 : 0 ≤ (curr : Int) / W := Int.ediv_nonneg (Int.ofNat_nonneg curr) (le_of_lt hW)
  have hx : Int.tmod (curr : Int) W = (curr : Int) % W :=
    Int.tmod_eq_emod (Int.ofNat_nonneg curr) (le_of_lt hW)
  have hy : Int.tdiv (curr : Int) W = (curr : Int) / W :=
    Int.tdiv_eq_ediv (Int.ofNat_nonneg curr) (le_of_lt hW)
  unfold neighbours at h
  simp only [hx, hy, List.mem_append] at h
  rw [hc]
  rcases h with ((h | h) | h) | h
  · split at h
    · rename_i hpos
      simp only [List.mem_singleton] at h
      have hge : 1 ≤ curr := by
        by_contra hlt
        have : curr = 0 := by omega
        rw [this] at hpos
        simp at hpos
      have hcast : ((n : Nat) : Int) = (curr : Int) - 1 := by rw [h]; omega
      rw [coordOf_of_decomp W hW n ((curr : Int) % W - 1) ((curr : Int) / W)
        (by rw [hcast]; linarith) (by omega) (by omega)]
      exact Or.inr ⟨rfl, Or.inl (by simp)⟩
    · simp at h
  · split at h
    · rename_i hlt
      simp only [List.mem_singleton] at h
      have hcast : ((n : Nat) : Int) = (curr : Int) + 1 := by rw [h]; omega
      rw [coordOf_of_decomp W hW n ((curr : Int) % W + 1) ((curr : Int) / W)
        (by rw [hcast]; linarith) (by omega) (by omega)]
      exact Or.inr ⟨rfl, Or.inr (by simp)⟩
    · simp at h
  · split at h
    · rename_i hpos
      simp only [List.mem_singleton] at h
      have hge : W ≤ (curr : Int) := by
        have : W * 1 ≤ W * ((curr : Int) / W) :=
          Int.mul_le_mul_of_nonneg_left (by omega) (le_of_lt hW)
        linarith
      have hcast : ((n : Nat) : Int) = (curr : Int) - W := by
        rw [h, Int.toNat_of_nonneg (by omega)]
      rw [coordOf_of_decomp W hW n ((curr : Int) % W) ((curr : Int) / W - 1)
        (by rw [hcast]; linarith [mul_sub W ((curr : Int) / W) 1]) h1 h2]
      exact Or.inl ⟨rfl, Or.inl (by simp)⟩
    · simp at h
  · split at h
    · rename_i hlt
      simp only [List.mem_singleton] at h
      have hcast : ((n : Nat) : Int) = (curr : Int) + W := by
        rw [h, Int.toNat_of_nonneg (by omega)]
      rw [coordOf_of_decomp W hW n ((curr : Int) % W) ((curr : Int) / W + 1)
        (by rw [hcast]; linarith [mul_add W ((curr : Int) / W) 1]) h1 h2]
      exact Or.inl ⟨rfl, Or.inr (by simp)⟩
    · simp at h

theorem labelStep_set (W : Int) (regs : List Nat) (n rid : Nat) (hn : regs.getD n 0 = 0)
    (a b : Nat) (h : LabelStep W regs a b) : LabelStep W (regs.set n rid) a b := by
  obtain ⟨h1, h2, h3⟩ := h
  have ha : a ≠ n := fun e => h3 (e ▸ hn)
  have hb : b ≠ n := fun e => h3 (h2.trans (e ▸ hn))
  refine ⟨h1, ?_, ?_⟩
  · rw [getD_set, getD_set, if_neg (fun h => ha h.1.symm), if_neg (fun h => hb h.1.symm)]
    exact h2
  · rw [getD_set, if_neg (fun h => ha h.1.symm)]
    exact h3

theorem visit_inv (W : Int) (g : List Tile) (target : Tile) (ht : target ≠ Tile.Empty)
    (rid : Nat) (hr : rid ≠ 0) (q regs : List Nat) (curr n : Nat)
    (inv : BfsInv W g target rid q regs) (hc : regs.getD curr 0 = rid)
    (hadj : Adj4 (coordOf W curr) (coordOf W n)) :
    BfsInv W g target rid (visit g target rid (q, regs) n).1 (visit g target rid (q, regs) n).2 ∧
      (visit g target rid (q, regs) n).2.getD curr 0 = rid := by
  unfold visit
  by_cases hcond : g.getD n Tile.Empty = target ∧ regs.getD n 0 = 0
  · rw [if_pos hcond]
    obtain ⟨hgt, hz⟩ := hcond
    have hnlen : n < regs.length := by
      rw [inv.len]
      exact lt_length_of_getD_ne g n Tile.Empty (by rw [hgt]; exact ht)
    have hcn : curr ≠ n := fun e => hr (by rw [← hc, e, hz])
    have hget : ∀ j, (regs.set n rid).getD j 0 = if j = n then rid else regs.getD j 0 := by
      intro j
      rw [getD_set]
      by_cases hj : j = n
      · subst hj; simp [hnlen]
      · rw [if_neg (fun h => hj h.1.symm), if_neg hj]
    have hcurr : (regs.set n rid).getD curr 0 = rid := by
      rw [hget, if_neg hcn]; exact hc
    have hlift : ∀ a b, Relation.ReflTransGen (LabelStep W regs) a b →
        Relation.ReflTransGen (LabelStep W (regs.set n rid)) a b :=
      fun a b h => Relation.ReflTransGen.mono (labelStep_set W regs n rid hz) h
    have hedge : LabelStep W (regs.set n rid) curr n := by
      refine ⟨hadj, ?_, ?_⟩
      · rw [hcurr, hget, if_pos rfl]
      · rw [hcurr]; exact hr
    have hedge2 : LabelStep W (regs.set n rid) n curr := by
      refine ⟨adj4_symm _ _ hadj, ?_, ?_⟩
      · rw [hcurr, hget, if_pos rfl]
      · rw [hget, if_pos rfl]; exact hr
    refine ⟨⟨?_, ?_, ?_, ?_, ?_⟩, hcurr⟩
    · dsimp only; rw [List.length_set]; exact inv.len
    · intro j
      dsimp only
      rw [hget]
      split
      · exact le_refl _
      · exact inv.bound j
    · intro j hj
      dsimp only at hj
      rw [hget] at hj
      by_cases hjn : j = n
      · rw [hjn]; exact hgt
      · rw [if_neg hjn] at hj
        exact inv.sound j hj
    · intro a b hab hne
      dsimp only at hab hne ⊢
      rw [hget, hget] at hab
      rw [hget] at hne
      by_cases han : a = n
      · by_cases hbn : b = n
        · rw [han, hbn]
        · rw [if_pos han, if_neg hbn] at hab
          have hpath := hlift curr b (inv.conn curr b (hc.trans hab) (by rw [hc]; exact hr))
          rw [han]
          exact Relation.ReflTransGen.head hedge2 hpath
      · by_cases hbn : b = n
        · rw [if_neg han, if_pos hbn] at hab
          rw [if_neg han] at hne
          have hpath := hlift a curr (inv.conn a curr (hab.trans hc.symm) hne)
          rw [hbn]
          exact Relation.ReflTransGen.tail hpath hedge
        · rw [if_neg han, if_neg hbn] at hab
          rw [if_neg han] at hne
          exact hlift a b (inv.conn a b hab hne)
    · intro c hcm
      dsimp only at hcm ⊢
      rw [hget]
      simp only [List.mem_append, List.mem_singleton] at hcm
      rcases hcm with hcm | hcm
      · split
        · rfl
        · exact inv.queue c hcm
      · rw [if_pos hcm]
  · rw [if_neg hcond]
    exact ⟨inv, hc⟩

theorem bfs_inv (W H : Int) (hW : 0 < W) (g : List Tile) (target : Tile)
    (ht : target ≠ Tile.Empty) (rid : Nat) (hr : rid ≠ 0) (fuel : Nat) :
    ∀ (q : List Nat) (head : Nat) (regs : List Nat), BfsInv W g target rid q regs →
      BfsInv W g target rid (bfs W H g target rid fuel q head regs).1
        (bfs W H g target rid fuel q head regs).2 := by
  induction fuel with
  | zero => intro q head regs inv; exact inv
  | succ fuel ih =>
    intro q head regs inv
    simp only [bfs]
    split
    · rename_i hlt
      have hmem : q.getD head 0 ∈ q := by
        rw [List.getD_eq_getElem q 0 hlt]
        exact List.getElem_mem hlt
      have hc := inv.queue _ hmem
      have hfold := foldl_inv
        (fun st : List Nat × List Nat =>
          BfsInv W g target rid st.1 st.2 ∧ st.2.getD (q.getD head 0) 0 = rid)
        (visit g target rid) (neighbours W H (q.getD head 0)) (q, regs) ⟨inv, hc⟩
        (fun st n hn hst =>
          visit_inv W g target ht rid hr st.1 st.2 (q.getD head 0) n hst.1 hst.2
            (neighbours_adj W H hW _ n hn))
      exact ih _ _ _ hfold.1
    · exact inv

theorem getD_replicate_zero (n j : Nat) : (List.replicate n 0).getD j 0 = 0 := by
  by_cases h : j < n
  · rw [List.getD_eq_getElem _ _ (by simpa using h)]
    simp
  · exact List.getD_eq_default _ _ (by simpa using h)

theorem labelStep_inv (W H : Int) (hW : 0 < W) (g : List Tile) (target : Tile)
    (ht : target ≠ Tile.Empty) (st : Labelling) (i : Nat)
    (inv : BfsInv W g target st.count [] st.regions) :
    BfsInv W g target (labelStep W H g target st i).count []
      (labelStep W H g target st i).regions := by
  unfold labelStep
  by_cases hcond : g.getD i Tile.Empty = target ∧ st.regions.getD i 0 = 0
  · rw [if_pos hcond]
    obtain ⟨hgt, hz⟩ := hcond
    dsimp only
    have hilen : i < st.regions.length := by
      rw [inv.len]
      exact lt_length_of_getD_ne g i Tile.Empty (by rw [hgt]; exact ht)
    have hget : ∀ j, (st.regions.set i (st.count + 1)).getD j 0 =
        if j = i then st.count + 1 else st.regions.getD j 0 := by
      intro j
      rw [getD_set]
      by_cases hj : j = i
      · subst hj; simp [hilen]
      · rw [if_neg (fun h => hj h.1.symm), if_neg hj]
    have hstart : BfsInv W g target (st.count + 1) [i] (st.regions.set i (st.count + 1)) := by
      refine ⟨?_, ?_, ?_, ?_, ?_⟩
      · rw [List.length_set]; exact inv.len
      · intro j
        rw [hget]
        split
        · exact le_refl _
        · exact le_trans (inv.bound j) (Nat.le_succ _)
      · intro j hj
        rw [hget] at hj
        by_cases hji : j = i
        · rw [hji]; exact hgt
        · rw [if_neg hji] at hj
          exact inv.sound j hj
      · intro a b hab hne
        rw [hget, hget] at hab
        rw [hget] at hne
        have hbd := inv.bound
        by_cases hai : a = i
        · by_cases hbi : b = i
          · rw [hai, hbi]
          · rw [if_pos hai, if_neg hbi] at hab
            have := hbd b
            omega
        · by_cases hbi : b = i
          · rw [if_neg hai, if_pos hbi] at hab
            have := hbd a
            omega
          · rw [if_neg hai, if_neg hbi] at hab
            rw [if_neg hai] at hne
            exact Relation.ReflTransGen.mono (labelStep_set W st.regions i _ hz)
              (inv.conn a b hab hne)
      · intro c hc
        simp only [List.mem_singleton] at hc
        rw [hget, if_pos hc]
    have hend := bfs_inv W H hW g target ht (st.count + 1) (Nat.succ_ne_zero _) (g.length + 1)
      [i] 0 _ hstart
    exact ⟨hend.len, hend.bound, hend.sound, hend.conn, fun c hc => by simp at hc⟩
  · rw [if_neg hcond]
    exact inv

theorem labelRegions_inv (W H : Int) (hW : 0 < W) (g : List Tile) (target : Tile)
    (ht : target ≠ Tile.Empty) :
    BfsInv W g target (labelRegions W H g target).count [] (labelRegions W H g target).regions := by
  unfold labelRegions
  apply foldl_inv (fun st : Labelling => BfsInv W g target st.count [] st.regions)
  · refine ⟨by simp, fun j => ?_, fun j hj => ?_, fun a b _ hne => ?_, fun c hc => by simp at hc⟩
    · rw [getD_replicate_zero]
    · exact absurd (getD_replicate_zero _ j) hj
    · exact absurd (getD_replicate_zero _ a) hne
  · intro st i _ inv
    exact labelStep_inv W H hW g target ht st i inv

/-! ## Flood-fill retention -/

theorem bestRegion_ne_zero (found : List (List Nat)) : (bestRegion found).1 ≠ 0 := by
  unfold bestRegion
  apply foldl_inv (fun st : Int × Nat => st.1 ≠ 0)
  · decide
  · intro st e _ hst
    dsimp only
    split
    · dsimp only; omega
    · exact hst

theorem retain_spec (g : List Tile) (regs : List Nat) (b : Int) :
    ∀ j, (retain g regs b).getD j Tile.Empty =
      if g.getD j Tile.Empty = Tile.Floor ∧ ((regs.getD j 0 : Nat) : Int) ≠ b then Tile.Empty
      else g.getD j Tile.Empty := by
  have h := foldl_range_pointwise Tile.Empty
    (fun G i =>
      if G.getD i Tile.Empty = Tile.Floor ∧ ((regs.getD i 0 : Nat) : Int) ≠ b then
        G.set i Tile.Empty
      else G)
    (fun j =>
      if g.getD j Tile.Empty = Tile.Floor ∧ ((regs.getD j 0 : Nat) : Int) ≠ b then Tile.Empty
      else g.getD j Tile.Empty) g
    (by
      intro G k hk hl hv
      beta_reduce at hv ⊢
      have hGk : G.getD k Tile.Empty = g.getD k Tile.Empty := by rw [hv k]; simp
      rw [hGk]
      by_cases hc : g.getD k Tile.Empty = Tile.Floor ∧ ((regs.getD k 0 : Nat) : Int) ≠ b
      · rw [if_pos hc]
        refine ⟨List.length_set _ _ _, fun j => ?_⟩
        rw [getD_set]
        by_cases hjk : j = k
        · rw [hjk, if_pos ⟨rfl, by omega⟩, if_pos rfl, if_pos hc]
        · rw [if_neg (fun h => hjk h.1.symm), if_neg hjk]
      · rw [if_neg hc]
        refine ⟨rfl, fun j => ?_⟩
        by_cases hjk : j = k
        · rw [hjk, if_pos rfl, if_neg hc]; exact hGk
        · rw [if_neg hjk])
    g.length (le_refl _)
  intro j
  unfold retain
  rw [h.2 j]
  by_cases hj : j < g.length
  · rw [if_pos hj]
  · rw [if_neg hj]
    have : g.getD j Tile.Empty = Tile.Empty := List.getD_eq_default _ _ (not_lt.mp hj)
    rw [this]
    simp

theorem retain_floor (g : List Tile) (regs : List Nat) (b : Int) (j : Nat) :
    (retain g regs b).getD j Tile.Empty = Tile.Floor ↔
      g.getD j Tile.Empty = Tile.Floor ∧ ((regs.getD j 0 : Nat) : Int) = b := by
  rw [retain_spec]
  by_cases h1 : g.getD j Tile.Empty = Tile.Floor
  · by_cases h2 : ((regs.getD j 0 : Nat) : Int) = b
    · rw [if_neg (fun h => h.2 h2)]
      exact ⟨fun _ => ⟨h1, h2⟩, fun _ => h1⟩
    · rw [if_pos ⟨h1, h2⟩]
      exact ⟨fun h => (by cases h), fun h => absurd h.2 h2⟩
  · rw [if_neg (fun h => h1 h.1)]
    exact ⟨fun h => absurd h h1, fun h => absurd h.1 h1⟩

theorem floorConnected_congr (W H : Int) (G g : List Tile) (h : SameFloor G g)
    (hc : FloorConnected W H g) : FloorConnected W H G := by
  intro p q hp hq
  have := hc p q ((getTile_sameFloor W H G g h _ _).mp hp) ((getTile_sameFloor W H G g h _ _).mp hq)
  refine Relation.ReflTransGen.mono ?_ this
  intro a b hab
  exact ⟨hab.1, (getTile_sameFloor W H G g h _ _).mpr hab.2.1,
    (getTile_sameFloor W H G g h _ _).mpr hab.2.2⟩

theorem floodRetain_connected (W H : Int) (g : List Tile) (hg : GridOK W H g) :
    FloorConnected W H (floodRetain W H g) := by
  have hW := hg.1
  have inv := labelRegions_inv W H hW g Tile.Floor (by decide)
  have hb0 := bestRegion_ne_zero (labelRegions W H g Tile.Floor).found
  unfold floodRetain
  dsimp only
  generalize (bestRegion (labelRegions W H g Tile.Floor).found).1 = b at hb0
  generalize hregs : (labelRegions W H g Tile.Floor).regions = regs at inv
  have hfl := retain_floor g regs b
  -- a path of labelled cells is a path of Floor cells of the retained grid
  have hlift : ∀ a c, Relation.ReflTransGen (LabelStep W regs) a c →
      ((regs.getD a 0 : Nat) : Int) = b →
      Relation.ReflTransGen (FloorStep W H (retain g regs b)) (coordOf W a) (coordOf W c) ∧
        ((regs.getD c 0 : Nat) : Int) = b := by
    intro a c hpath ha
    induction hpath with
    | refl => exact ⟨Relation.ReflTransGen.refl, ha⟩
    | @tail m c2 _ hstep ih =>
      obtain ⟨hp, hm⟩ := ih
      obtain ⟨hadj, heq, hne⟩ := hstep
      have hc2 : ((regs.getD c2 0 : Nat) : Int) = b := by rw [← heq]; exact hm
      have hne2 : regs.getD c2 0 ≠ 0 := by rw [← heq]; exact hne
      have hgm := inv.sound m hne
      have hgc := inv.sound c2 hne2
      have hml : m < g.length := lt_length_of_getD_ne g m Tile.Empty (by rw [hgm]; decide)
      have hcl : c2 < g.length := lt_length_of_getD_ne g c2 Tile.Empty (by rw [hgc]; decide)
      refine ⟨Relation.ReflTransGen.tail hp ⟨hadj, ?_, ?_⟩, hc2⟩
      · rw [getTile_coordOf W H g _ hg m hml]
        exact (hfl m).mpr ⟨hgm, hm⟩
      · rw [getTile_coordOf W H g _ hg c2 hcl]
        exact (hfl c2).mpr ⟨hgc, hc2⟩
  intro p q hp hq
  have hbp := inBounds_of_getTile W H _ p.1 p.2 (by rw [hp]; decide)
  have hbq := inBounds_of_getTile W H _ q.1 q.2 (by rw [hq]; decide)
  have hip := index_lt W H g hg p.1 p.2 hbp
  have hiq := index_lt W H g hg q.1 q.2 hbq
  have hcp : coordOf W (p.2 * W + p.1).toNat = p := by
    simp only [inBounds, Bool.and_eq_true, decide_eq_true_eq] at hbp
    exact coordOf_index W hW p.1 p.2 hbp.1.1.1 hbp.1.1.2 hbp.1.2
  have hcq : coordOf W (q.2 * W + q.1).toNat = q := by
    simp only [inBounds, Bool.and_eq_true, decide_eq_true_eq] at hbq
    exact coordOf_index W hW q.1 q.2 hbq.1.1.1 hbq.1.1.2 hbq.1.2
  have hp2 : (retain g regs b).getD (p.2 * W + p.1).toNat Tile.Empty = Tile.Floor := by
    unfold getTile at hp
    rw [if_pos hbp] at hp
    exact hp
  have hq2 : (retain g regs b).getD (q.2 * W + q.1).toNat Tile.Empty = Tile.Floor := by
    unfold getTile at hq
    rw [if_pos hbq] at hq
    exact hq
  have hlp := ((hfl _).mp hp2).2
  have hlq := ((hfl _).mp hq2).2
  have hsame : regs.getD (p.2 * W + p.1).toNat 0 = regs.getD (q.2 * W + q.1).toNat 0 := by
    have : ((regs.getD (p.2 * W + p.1).toNat 0 : Nat) : Int)
        = ((regs.getD (q.2 * W + q.1).toNat 0 : Nat) : Int) := hlp.trans hlq.symm
    exact_mod_cast this
  have hnz : regs.getD (p.2 * W + p.1).toNat 0 ≠ 0 := by
    intro h0
    rw [h0] at hlp
    exact hb0 hlp.symm
  have := (hlift _ _ (inv.conn _ _ hsame hnz) hlp).1
  rw [hcp, hcq] at this
  exact this

theorem floodFillPrune_connected (W H : Int) (g : List Tile) (hg : GridOK W H g) :
    FloorConnected W H (floodFillPrune W H g) := by
  unfold floodFillPrune
  exact floorConnected_congr W H _ _ (wallGen_sameFloor W H _) (floodRetain_connected W H g hg)

/-! ## The grid keeps its size -/

theorem setTile_length (W H : Int) (g : List Tile) (x y : Int) (t : Tile) :
    (setTile W H g x y t).length = g.length := by
  unfold setTile
  split
  · split
    · rfl
    · exact List.length_set _ _ _
  · rfl

theorem foldl_length {α : Type} (f : List Tile → α → List Tile) (l : List α) (g : List Tile)
    (hf : ∀ G a, (f G a).length = G.length) : (l.foldl f g).length = g.length :=
  foldl_inv (fun G => G.length = g.length) f l g rfl (fun G a _ hG => (hf G a).trans hG)

theorem hline_length (W H : Int) (g : List Tile) (xa xb y : Int) :
    (hline W H g xa xb y).length = g.length := by
  unfold hline
  apply foldl_length
  intro G x
  rw [setTile_length, setTile_length]

theorem vline_length (W H : Int) (g : List Tile) (ya yb x : Int) :
    (vline W H g ya yb x).length = g.length := by
  unfold vline
  apply foldl_length
  intro G y
  rw [setTile_length, setTile_length]

theorem stampRoom_length (cfg : GenSettings) (g : List Tile) (r : RoomObj) :
    (stampRoom cfg g r).length = g.length := by
  unfold stampRoom
  dsimp only
  split
  · apply foldl_length
    intro G y
    apply foldl_length
    intro G2 x
    exact setTile_length _ _ _ _ _ _
  · apply foldl_length
    intro G y
    apply foldl_length
    intro G2 x
    split
    · exact setTile_length _ _ _ _ _ _
    · rfl

theorem stampLink_length (cfg : GenSettings) (rooms : List RoomObj) (st : List Tile × Rng)
    (l : Link) : (stampLink cfg rooms st l).1.length = st.1.length := by
  unfold stampLink
  dsimp only
  split
  · dsimp only
    rw [hline_length, vline_length, hline_length]
  · dsimp only
    rw [vline_length, hline_length, vline_length]

theorem rasterizeBase_length (s : DungeonBuilder) :
    (rasterizeBase s).grid.length = s.grid.length := by
  unfold rasterizeBase
  dsimp only
  have h1 : (s.mainRoomIndices.foldl (fun g idx => stampRoom s.cfg g (roomAt s.rooms idx))
      (List.replicate s.grid.length Tile.Empty)).length = s.grid.length := by
    rw [foldl_length _ _ _ (fun G a => stampRoom_length s.cfg G _)]
    simp
  have h2 := foldl_inv (fun st : List Tile × Rng => st.1.length = s.grid.length)
    (stampLink s.cfg s.rooms) s.links
    (s.mainRoomIndices.foldl (fun g idx => stampRoom s.cfg g (roomAt s.rooms idx))
      (List.replicate s.grid.length Tile.Empty), s.rng) h1
    (fun st l _ hst => (stampLink_length s.cfg s.rooms st l).trans hst)
  exact h2

theorem walkerStep_length (cfg : GenSettings) (rooms : List RoomObj) (mainIdx : List Nat)
    (g : List Tile) (rng : Rng) (w : WalkerAgent) :
    (walkerStep cfg rooms mainIdx g rng w).2.1.length = g.length := by
  unfold walkerStep
  split
  · rfl
  · dsimp only
    split
    · rfl
    · split
      · rfl
      · exact setTile_length _ _ _ _ _ _

theorem walkersLoop_length (cfg : GenSettings) (rooms : List RoomObj) (mainIdx : List Nat)
    (ws : List WalkerAgent) (g : List Tile) (rng : Rng) :
    (walkersLoop cfg rooms mainIdx ws g rng).2.1.length = g.length := by
  induction ws generalizing g rng with
  | nil => rfl
  | cons w rest ih =>
    simp only [walkersLoop]
    rw [ih, walkerStep_length]

theorem automataCell_length (W H : Int) (old next : List Tile) (x y : Int) :
    (automataCell W H old next x y).length = next.length := by
  unfold automataCell
  dsimp only
  split
  · exact List.length_set _ _ _
  · split
    · exact List.length_set _ _ _
    · rfl

theorem runAutomataPass_length (W H : Int) (g : List Tile) :
    (runAutomataPass W H g).length = g.length := by
  unfold runAutomataPass
  apply foldl_length
  intro G y
  apply foldl_length
  intro G2 x
  exact automataCell_length _ _ _ _ _ _

theorem dissolveCell_length (W H : Int) (g : List Tile) (idx : Nat) :
    (dissolveCell W H g idx).length = g.length := by
  unfold dissolveCell
  dsimp only
  split <;> exact List.length_set _ _ _

theorem despeckleWalls_length (W H : Int) (g : List Tile) :
    (despeckleWalls W H g).length = g.length := by
  unfold despeckleWalls
  apply foldl_length
  intro G tiles
  split
  · apply foldl_length
    intro G2 idx
    exact dissolveCell_length _ _ _ _
  · rfl

theorem pruneLoop_length (W H : Int) (n : Nat) (g : List Tile) :
    (pruneLoop W H n g).length = g.length := by
  induction n generalizing g with
  | zero => rfl
  | succ n ih =>
    simp only [pruneLoop]
    split
    · rfl
    · rw [ih]
      apply foldl_length
      intro G idx
      exact List.length_set _ _ _

theorem retain_length (g : List Tile) (regs : List Nat) (b : Int) :
    (retain g regs b).length = g.length := by
  unfold retain
  apply foldl_length
  intro G i
  split
  · exact List.length_set _ _ _
  · rfl

theorem floodFillPrune_length (W H : Int) (g : List Tile) :
    (floodFillPrune W H g).length = g.length := by
  unfold floodFillPrune floodRetain
  rw [(wallGen_spec W H _).1, retain_length]

theorem step_grid_length (lib : Lib) (s : DungeonBuilder) :
    (step lib s).grid.length = s.grid.length := by
  cases hp : s.phase with
  | Physics => rw [step_of_physics lib s hp, (updatePhysics_frame lib s).2.2.1]
  | Graph =>
    rw [step_of_graph lib s hp]
    show (computeGraph lib s).grid.length = s.grid.length
    rw [(computeGraph_frame lib s).2.1]
  | Raster =>
    simp only [step, hp]
    split
    · exact rasterizeBase_length s
    · exact rasterizeBase_length s
  | Walkers =>
    simp only [step, hp]
    split
    · exact walkersLoop_length _ _ _ _ _ _
    · exact walkersLoop_length _ _ _ _ _ _
  | Automata =>
    obtain ⟨_, _, _, _, _, hc⟩ := step_of_automata lib s hp
    rcases hc with hc | hc
    · rw [hc.2.2.2, floodFillPrune_length]
      unfold pruneDeadEnds
      rw [pruneLoop_length, despeckleWalls_length, runAutomataPass_length]
    · rw [hc.2.2.2, runAutomataPass_length]
  | Complete => rw [step_of_complete lib s hp]

theorem gridInv_run (lib : Lib) (entropy : Nat) (cfg : GenSettings) (old s0 : DungeonBuilder)
    (h : init lib entropy cfg old = some s0) (n : Nat) :
    GridInv (runSteps lib n s0) ∧ (runSteps lib n s0).cfg = cfg := by
  induction n with
  | zero =>
    obtain ⟨_, _, _, hcfg, hgrid, _⟩ := init_phase lib entropy cfg old s0 h
    refine ⟨?_, hcfg⟩
    unfold GridInv
    simp only [runSteps]
    rw [hgrid, hcfg, List.length_replicate]
  | succ n ih =>
    rw [runSteps_succ_last]
    refine ⟨?_, (step_cfg lib _).trans ih.2⟩
    unfold GridInv
    rw [step_grid_length, step_cfg]
    exact ih.1

/-! ## The Complete state -/

theorem no_cell_of_degenerate (W H : Int) (h : ¬ (0 < W ∧ 0 < H)) (x y : Int) :
    inBounds W H x y = false := by
  by_contra hb
  have hb2 : inBounds W H x y = true := by simpa using hb
  simp only [inBounds, Bool.and_eq_true, decide_eq_true_eq] at hb2
  apply h
  constructor <;> omega

/-- The grid that `floodFillPrune` returns: one connected Floor region inside a wall shell. -/
theorem floodFillPrune_done (W H : Int) (g : List Tile) (hlen : g.length = (W * H).toNat) :
    FloorConnected W H (floodFillPrune W H g) ∧ Shell W H (floodFillPrune W H g) := by
  by_cases hpos : 0 < W ∧ 0 < H
  · have hg : GridOK W H g := by
      refine ⟨hpos.1, hpos.2, ?_⟩
      rw [hlen, Int.toNat_of_nonneg (le_of_lt (mul_pos hpos.1 hpos.2))]
    refine ⟨floodFillPrune_connected W H g hg, ?_⟩
    unfold floodFillPrune
    apply wallGen_shell
    refine ⟨hpos.1, hpos.2, ?_⟩
    unfold floodRetain
    rw [retain_length]
    exact hg.2.2
  · constructor
    · intro p q hp _
      have := inBounds_of_getTile W H _ p.1 p.2 (by rw [hp]; decide)
      rw [no_cell_of_degenerate W H hpos] at this
      exact absurd this (by decide)
    · intro x y hb _
      rw [no_cell_of_degenerate W H hpos] at hb
      exact absurd hb (by decide)

theorem doneInv_step (lib : Lib) (s : DungeonBuilder) (hgi : GridInv s) (h : DoneInv s) :
    DoneInv (step lib s) := by
  intro hc
  cases hp : s.phase with
  | Physics =>
    rcases step_phase lib s with h1 | ⟨h1, _⟩ <;> rw [h1, hp] at hc <;> cases hc
  | Graph =>
    rcases step_phase lib s with h1 | ⟨h1, _⟩ <;> rw [h1, hp] at hc <;> cases hc
  | Raster =>
    rcases step_phase lib s with h1 | ⟨h1, _⟩ <;> rw [h1, hp] at hc <;> cases hc
  | Walkers =>
    rcases step_phase lib s with h1 | ⟨h1, _⟩ <;> rw [h1, hp] at hc <;> cases hc
  | Automata =>
    obtain ⟨_, _, hcfg, _, _, hcase⟩ := step_of_automata lib s hp
    rcases hcase with hcase | hcase
    · rw [hcfg, hcase.2.2.2]
      apply floodFillPrune_done
      unfold pruneDeadEnds
      rw [pruneLoop_length, despeckleWalls_length, runAutomataPass_length]
      exact hgi
    · rw [hcase.2.1] at hc
      cases hc
  | Complete =>
    rw [step_of_complete lib s hp]
    exact h hp

theorem doneInv_run (lib : Lib) (entropy : Nat) (cfg : GenSettings) (old s0 : DungeonBuilder)
    (h : init lib entropy cfg old = some s0) (n : Nat) : DoneInv (runSteps lib n s0) := by
  induction n with
  | zero =>
    intro hc
    rw [show runSteps lib 0 s0 = s0 from rfl, (init_phase lib entropy cfg old s0 h).1] at hc
    cases hc
  | succ n ih =>
    rw [runSteps_succ_last]
    exact doneInv_step lib _ (gridInv_run lib entropy cfg old s0 h n).1 ih

/-! ## The fuel of the flood fill is never exhausted -/

theorem count_zero_set (regs : List Nat) (n rid : Nat) (hn : n < regs.length)
    (hz : regs.getD n 0 = 0) (hr : rid ≠ 0) :
    (regs.set n rid).count 0 + 1 = regs.count 0 := by
  induction regs generalizing n with
  | nil => simp at hn
  | cons a rest ih =>
    cases n with
    | zero =>
      simp only [List.getD_cons_zero] at hz
      subst hz
      simp only [List.set_cons_zero, List.count_cons]
      simp [hr]
    | succ n =>
      simp only [List.getD_cons_succ] at hz
      simp only [List.length_cons, Nat.succ_lt_succ_iff] at hn
      simp only [List.set_cons_succ, List.count_cons]
      have := ih n hn hz
      omega

theorem visit_measure (g : List Tile) (target : Tile) (ht : target ≠ Tile.Empty) (rid : Nat)
    (hr : rid ≠ 0) (st : List Nat × List Nat) (n : Nat) (hlen : st.2.length = g.length) :
    (visit g target rid st n).2.length = g.length ∧
      st.1.length ≤ (visit g target rid st n).1.length ∧
      (visit g target rid st n).1.length + (visit g target rid st n).2.count 0
        = st.1.length + st.2.count 0 := by
  unfold visit
  split
  · rename_i hc
    have hn : n < st.2.length := by
      rw [hlen]
      exact lt_length_of_getD_ne g n Tile.Empty (by rw [hc.1]; exact ht)
    have := count_zero_set st.2 n rid hn hc.2 hr
    refine ⟨by rw [List.length_set]; exact hlen, ?_, ?_⟩
    · simp only [List.length_append, List.length_singleton]
      omega
    · simp only [List.length_append, List.length_singleton]
      omega
  · exact ⟨hlen, le_refl _, rfl⟩

theorem visit_fold_measure (g : List Tile) (target : Tile) (ht : target ≠ Tile.Empty)
    (rid : Nat) (hr : rid ≠ 0) (ns : List Nat) (st : List Nat × List Nat)
    (hlen : st.2.length = g.length) :
    (ns.foldl (visit g target rid) st).2.length = g.length ∧
      st.1.length ≤ (ns.foldl (visit g target rid) st).1.length ∧
      (ns.foldl (visit g target rid) st).1.length + (ns.foldl (visit g target rid) st).2.count 0
        = st.1.length + st.2.count 0 :=
  foldl_inv
    (fun s2 : List Nat × List Nat =>
      s2.2.length = g.length ∧ st.1.length ≤ s2.1.length ∧
        s2.1.length + s2.2.count 0 = st.1.length + st.2.count 0)
    (visit g target rid) ns st ⟨hlen, le_refl _, rfl⟩
    (fun s2 n _ h2 =>
      ⟨(visit_measure g target ht rid hr s2 n h2.1).1,
        le_trans h2.2.1 (visit_measure g target ht rid hr s2 n h2.1).2.1,
        (visit_measure g target ht rid hr s2 n h2.1).2.2.trans h2.2.2⟩)

/-- With fuel at least the number of queued cells not yet processed plus the number of
unlabelled cells, the flood fill stops because its queue is exhausted: more fuel gives the
same result. -/
theorem bfs_fuel_stable (W H : Int) (g : List Tile) (target : Tile) (ht : target ≠ Tile.Empty)
    (rid : Nat) (hr : rid ≠ 0) (fuel : Nat) :
    ∀ (q : List Nat) (head : Nat) (regs : List Nat) (extra : Nat), regs.length = g.length →
      (q.length - head) + regs.count 0 ≤ fuel →
      bfs W H g target rid (fuel + extra) q head regs = bfs W H g target rid fuel q head regs := by
  induction fuel with
  | zero =>
    intro q head regs extra _ hm
    cases extra with
    | zero => rfl
    | succ e =>
      have : ¬ head < q.length := by omega
      simp only [Nat.zero_add, bfs, this, if_false]
  | succ fuel ih =>
    intro q head regs extra hlen hm
    rw [show fuel + 1 + extra = (fuel + extra) + 1 by omega]
    simp only [bfs]
    split
    · rename_i hlt
      have hf := visit_fold_measure g target ht rid hr (neighbours W H (q.getD head 0))
        (q, regs) hlen
      apply ih
      · exact hf.1
      · have hf2 : (List.foldl (visit g target rid) (q, regs)
            (neighbours W H (q.getD head 0))).1.length
            + (List.foldl (visit g target rid) (q, regs)
              (neighbours W H (q.getD head 0))).2.count 0
            = q.length + regs.count 0 := hf.2.2
        have hf3 : q.length ≤ (List.foldl (visit g target rid) (q, regs)
            (neighbours W H (q.getD head 0))).1.length := hf.2.1
        omega
    · rfl

/-- The fuel `g.length + 1` that `labelStep` hands to the flood fill is enough. -/
theorem labelStep_fuel_enough (W H : Int) (g : List Tile) (target : Tile)
    (ht : target ≠ Tile.Empty) (regs : List Nat) (count i extra : Nat)
    (hlen : regs.length = g.length) (hi : i < g.length) (hz : regs.getD i 0 = 0) :
    bfs W H g target (count + 1) (g.length + 1 + extra) [i] 0 (regs.set i (count + 1))
      = bfs W H g target (count + 1) (g.length + 1) [i] 0 (regs.set i (count + 1)) := by
  apply bfs_fuel_stable W H g target ht (count + 1) (Nat.succ_ne_zero _)
  · rw [List.length_set]; exact hlen
  · have h1 := count_zero_set regs i (count + 1) (by omega) hz (Nat.succ_ne_zero _)
    have h2 : regs.count 0 ≤ regs.length := List.count_le_length 0 regs
    simp only [List.length_singleton]
    omega

/-! ## Cells, writes and reads -/

theorem index_inj (W : Int) (hW : 0 < W) (x y x2 y2 : Int) (hx0 : 0 ≤ x) (hx : x < W)
    (hy0 : 0 ≤ y) (h20 : 0 ≤ x2) (h2 : x2 < W) (hy20 : 0 ≤ y2)
    (h : (y * W + x).toNat = (y2 * W + x2).toNat) : x = x2 ∧ y = y2 := by
  have h1 := coordOf_index W hW x y hx0 hx hy0
  have h3 := coordOf_index W hW x2 y2 h20 h2 hy20
  rw [h] at h1
  rw [h1] at h3
  exact ⟨(Prod.mk.inj h3).1, (Prod.mk.inj h3).2⟩

theorem inBounds_iff (W H x y : Int) :
    inBounds W H x y = true ↔ 0 ≤ x ∧ x < W ∧ 0 ≤ y ∧ y < H := by
  simp only [inBounds, Bool.and_eq_true, decide_eq_true_eq]
  tauto

theorem getTile_index (W H : Int) (g : List Tile) (x y : Int) (hb : inBounds W H x y = true) :
    getTile W H g x y = g.getD (y * W + x).toNat Tile.Empty := by
  unfold getTile
  rw [if_pos hb]

/-- Reading a cell after a write through `List.set` at the index of another in-bounds cell. -/
theorem getTile_set (W H : Int) (g : List Tile) (hg : GridOK W H g) (x y x2 y2 : Int) (t : Tile)
    (hb : inBounds W H x y = true) :
    getTile W H (g.set (y * W + x).toNat t) x2 y2 =
      if x2 = x ∧ y2 = y then t else getTile W H g x2 y2 := by
  have hlt := index_lt W H g hg x y hb
  obtain ⟨hx0, hx, hy0, hy⟩ := (inBounds_iff W H x y).mp hb
  unfold getTile
  by_cases hb2 : inBounds W H x2 y2 = true
  · rw [if_pos hb2, if_pos hb2, getD_set]
    obtain ⟨h20, h2, hy20, hy2⟩ := (inBounds_iff W H x2 y2).mp hb2
    by_cases he : x2 = x ∧ y2 = y
    · rw [if_pos he, if_pos]
      exact ⟨by rw [he.1, he.2], hlt⟩
    · rw [if_neg he, if_neg]
      rintro ⟨hidx, _⟩
      have := index_inj W hg.1 x y x2 y2 hx0 hx hy0 h20 h2 hy20 hidx
      exact he ⟨this.1.symm, this.2.symm⟩
  · rw [if_neg hb2, if_neg hb2, if_neg]
    rintro ⟨rfl, rfl⟩
    exact hb2 hb

theorem interior_inBounds (W H x y : Int) (h : Interior W H x y) : inBounds W H x y = true := by
  obtain ⟨h1, h2, h3, h4⟩ := h
  exact (inBounds_iff W H x y).mpr ⟨by omega, by omega, by omega, by omega⟩

theorem gridOK_emptyGrid6 : GridOK 6 6 emptyGrid6 := by
  refine ⟨by decide, by decide, ?_⟩
  simp [emptyGrid6]

theorem gridOK_sampleGrid6 : GridOK 6 6 sampleGrid6 := by
  refine ⟨by decide, by decide, ?_⟩
  simp [sampleGrid6, emptyGrid6]

/-! ## The rooms that init spawns -/

theorem spawnRooms_spec (lib : Lib) (cfg : GenSettings) (cx cy : ℚ) (n : Nat) :
    ∀ (i : Int) (g : Rng) (acc : List RoomObj),
      (spawnRooms lib cfg cx cy n i g acc).1.length = acc.length + n ∧
        (∀ k, k < acc.length → (spawnRooms lib cfg cx cy n i g acc).1[k]? = acc[k]?) ∧
        ∀ k, k < n → SpawnedAt (spawnRooms lib cfg cx cy n i g acc).1 (acc.length + k) (i + k) := by
  induction n with
  | zero =>
    intro i g acc
    exact ⟨rfl, fun _ _ => rfl, fun k hk => absurd hk (Nat.not_lt_zero k)⟩
  | succ n ih =>
    intro i g acc
    simp only [spawnRooms]
    obtain ⟨h1, h2, h3⟩ := ih (i + 1) (spawnRoom lib cfg cx cy i g).2
      (acc ++ [(spawnRoom lib cfg cx cy i g).1])
    refine ⟨?_, fun k hk => ?_, fun k hk => ?_⟩
    · rw [h1, List.length_append, List.length_singleton]; omega
    · rw [h2 k (by rw [List.length_append]; omega), List.getElem?_append_left hk]
    · cases k with
      | zero =>
        refine ⟨(spawnRoom lib cfg cx cy i g).1, ?_, ?_, rfl, rfl, rfl⟩
        · rw [Nat.add_zero, h2 acc.length (by rw [List.length_append, List.length_singleton]; omega)]
          simp
        · simp [spawnRoom]
      | succ k =>
        have := h3 k (by omega)
        rw [List.length_append, List.length_singleton] at this
        have e1 : acc.length + 1 + k = acc.length + (k + 1) := by omega
        have e2 : i + 1 + (k : Int) = i + ((k + 1 : Nat) : Int) := by push_cast; ring
        rw [e1, e2] at this
        exact this

/-! ## Nested loops and loops of writes -/

theorem mem_intRange (lo hi v : Int) : v ∈ intRange lo hi ↔ lo ≤ v ∧ v < hi := by
  unfold intRange
  simp only [List.mem_map, List.bind_eq_flatMap, List.mem_flatMap, List.mem_range, List.pure_def, List.mem_singleton]
  constructor
  · rintro ⟨k, ⟨a, ha, rfl⟩, rfl⟩
    have h1 : (a : Int) < ((hi - lo).toNat : Int) := by exact_mod_cast ha
    omega
  · intro h
    refine ⟨v - lo, ⟨(v - lo).toNat, ?_, ?_⟩, by omega⟩
    · have : ((v - lo).toNat : Int) < ((hi - lo).toNat : Int) := by omega
      exact_mod_cast this
    · omega

/-- Two nested loops are one loop over the pairs, row by row. -/
theorem foldl_nested {σ α β : Type} (F : σ → α → β → σ) (xs : List α) (ys : List β) (s : σ) :
    ys.foldl (fun s y => xs.foldl (fun s x => F s x y) s) s =
      (ys.flatMap (fun y => xs.map (fun x => (x, y)))).foldl (fun s c => F s c.1 c.2) s := by
  induction ys generalizing s with
  | nil => rfl
  | cons y ys ih =>
    simp only [List.foldl_cons, List.flatMap_cons, List.foldl_append, List.foldl_map]
    exact ih _

/-- A loop over lists with an inner loop over each list is one loop over the concatenation. -/
theorem foldl_flatMap_inner {σ α β : Type} (F : σ → α → σ) (h : β → List α) (ys : List β)
    (s : σ) : ys.foldl (fun s y => (h y).foldl F s) s = (ys.flatMap h).foldl F s := by
  induction ys generalizing s with
  | nil => rfl
  | cons y ys ih =>
    simp only [List.foldl_cons, List.flatMap_cons, List.foldl_append]
    exact ih _

/-- A loop that appends `h c` for the elements `c` that pass a test collects the images of the
elements that pass, in order. -/
theorem foldl_collect {ι β : Type} (p : ι → Prop) [DecidablePred p] (h : ι → β) (cells : List ι)
    (acc : List β) :
    cells.foldl (fun acc c => if p c then acc ++ [h c] else acc) acc =
      acc ++ (cells.filter (fun c => decide (p c))).map h := by
  induction cells generalizing acc with
  | nil => simp
  | cons c rest ih =>
    simp only [List.foldl_cons, List.filter_cons]
    rw [ih]
    by_cases hc : p c
    · simp [hc]
    · simp [hc]

/-- The pairs that the loops `y in [1, H-1)`, `x in [1, W-1)` visit. -/
theorem mem_interior_cells (W H : Int) (c : Int × Int) :
    c ∈ (intRange 1 (H - 1)).flatMap (fun y => (intRange 1 (W - 1)).map (fun x => (x, y))) ↔
      Interior W H c.1 c.2 := by
  simp only [List.mem_flatMap, List.mem_map, mem_intRange, Interior]
  constructor
  · rintro ⟨y, hy, x, hx, rfl⟩
    dsimp only
    omega
  · intro h
    exact ⟨c.2, by omega, c.1, by omega, rfl⟩

/-- A loop of writes, each of which puts the value `v j` at its index `j`, leaves `v j` at the
indices written and the old value elsewhere. -/
theorem foldl_writes {α ι : Type} (d : α) (g : List α) (v : Nat → α) (f : List α → ι → List α)
    (idx : ι → Nat) (cells : List ι)
    (hf : ∀ G c, c ∈ cells → G.length = g.length →
      (∀ j, G.getD j d = g.getD j d ∨ G.getD j d = v j) →
      (f G c).length = G.length ∧
        ∀ j, (f G c).getD j d = if j = idx c then v j else G.getD j d) :
    (cells.foldl f g).length = g.length ∧
      ∀ j, ((∃ c ∈ cells, idx c = j) → (cells.foldl f g).getD j d = v j) ∧
        ((¬ ∃ c ∈ cells, idx c = j) → (cells.foldl f g).getD j d = g.getD j d) := by
  have key : ∀ (cs : List ι), (∀ c ∈ cs, c ∈ cells) → ∀ G0 : List α, G0.length = g.length →
      (∀ j, G0.getD j d = g.getD j d ∨ G0.getD j d = v j) →
      (cs.foldl f G0).length = g.length ∧
        ∀ j, ((∃ c ∈ cs, idx c = j) → (cs.foldl f G0).getD j d = v j) ∧
          ((¬ ∃ c ∈ cs, idx c = j) → (cs.foldl f G0).getD j d = G0.getD j d) := by
    intro cs
    induction cs with
    | nil =>
      intro _ G0 hl _
      exact ⟨hl, fun j => ⟨fun h => by simp at h, fun _ => rfl⟩⟩
    | cons c rest ih =>
      intro hsub G0 hl hdis
      obtain ⟨hl1, hv1⟩ := hf G0 c (hsub c (by simp)) hl hdis
      have hdis1 : ∀ j, (f G0 c).getD j d = g.getD j d ∨ (f G0 c).getD j d = v j := by
        intro j
        rw [hv1 j]
        split
        · exact Or.inr rfl
        · exact hdis j
      obtain ⟨hl2, hv2⟩ := ih (fun c2 h2 => hsub c2 (by simp [h2])) (f G0 c) (hl1.trans hl) hdis1
      simp only [List.foldl_cons]
      refine ⟨hl2, fun j => ⟨fun hex => ?_, fun hnex => ?_⟩⟩
      · by_cases hr : ∃ c2 ∈ rest, idx c2 = j
        · exact (hv2 j).1 hr
        · rw [(hv2 j).2 hr, hv1 j]
          obtain ⟨c2, hc2, hj⟩ := hex
          simp only [List.mem_cons] at hc2
          rcases hc2 with rfl | hc2
          · rw [if_pos hj.symm]
          · exact absurd ⟨c2, hc2, hj⟩ hr
      · have hr : ¬ ∃ c2 ∈ rest, idx c2 = j := fun ⟨c2, hc2, hj⟩ =>
          hnex ⟨c2, by simp [hc2], hj⟩
        rw [(hv2 j).2 hr, hv1 j, if_neg]
        intro hj
        exact hnex ⟨c, by simp, hj.symm⟩
  exact key cells (fun _ h => h) g rfl (fun _ => Or.inl rfl)

/-! ## The automata pass, cell by cell -/

theorem runAutomataPass_cells (W H : Int) (g : List Tile) (hg : GridOK W H g) :
    ∀ j, ((∃ c : Int × Int, Interior W H c.1 c.2 ∧ (c.2 * W + c.1).toNat = j) →
        (runAutomataPass W H g).getD j Tile.Empty =
          automataReference W H g (coordOf W j).1 (coordOf W j).2) ∧
      ((¬ ∃ c : Int × Int, Interior W H c.1 c.2 ∧ (c.2 * W + c.1).toNat = j) →
        (runAutomataPass W H g).getD j Tile.Empty = g.getD j Tile.Empty) := by
  have hW := hg.1
  have h := foldl_writes Tile.Empty g
    (fun j => automataReference W H g (coordOf W j).1 (coordOf W j).2)
    (fun next (c : Int × Int) => automataCell W H g next c.1 c.2)
    (fun c => (c.2 * W + c.1).toNat)
    ((intRange 1 (H - 1)).flatMap (fun y => (intRange 1 (W - 1)).map (fun x => (x, y))))
    (by
      intro G c hc hl hdis
      rw [mem_interior_cells] at hc
      obtain ⟨h1, h2, h3, h4⟩ := hc
      have hb : inBounds W H c.1 c.2 = true :=
        (inBounds_iff W H c.1 c.2).mpr ⟨by omega, by omega, by omega, by omega⟩
      have hlt := index_lt W H g hg c.1 c.2 hb
      have hco := coordOf_index W hW c.1 c.2 (by omega) (by omega) (by omega)
      have hgt : getTile W H g c.1 c.2 = g.getD (c.2 * W + c.1).toNat Tile.Empty := by
        unfold getTile
        rw [if_pos hb]
      refine ⟨automataCell_length W H g G c.1 c.2, fun j => ?_⟩
      beta_reduce
      unfold automataCell
      dsimp only
      by_cases hj : j = (c.2 * W + c.1).toNat
      · rw [if_pos hj, hj, hco]
        unfold automataReference
        by_cases hn1 : countNonFloor W H g c.1 c.2 > 4
        · rw [if_pos hn1, if_pos hn1, getD_set, if_pos ⟨rfl, by omega⟩]
        · rw [if_neg hn1, if_neg hn1]
          by_cases hn2 : countNonFloor W H g c.1 c.2 < 4
          · rw [if_pos hn2, if_pos hn2, getD_set, if_pos ⟨rfl, by omega⟩]
          · rw [if_neg hn2, if_neg hn2, hgt]
            rcases hdis (c.2 * W + c.1).toNat with hd | hd
            · exact hd
            · rw [hd]
              beta_reduce
              rw [hco]
              unfold automataReference
              rw [if_neg hn1, if_neg hn2, hgt]
      · rw [if_neg hj]
        split
        · rw [getD_set, if_neg (fun h => hj h.1.symm)]
        · split
          · rw [getD_set, if_neg (fun h => hj h.1.symm)]
          · rfl)
  intro j
  have hrun : runAutomataPass W H g =
      ((intRange 1 (H - 1)).flatMap (fun y => (intRange 1 (W - 1)).map (fun x => (x, y)))).foldl
        (fun next (c : Int × Int) => automataCell W H g next c.1 c.2) g := by
    unfold runAutomataPass
    exact foldl_nested (fun next x y => automataCell W H g next x y) _ _ g
  rw [hrun]
  refine ⟨fun hex => (h.2 j).1 ?_, fun hnex => (h.2 j).2 ?_⟩
  · obtain ⟨c, hc, hj⟩ := hex
    exact ⟨c, (mem_interior_cells W H c).mpr hc, hj⟩
  · rintro ⟨c, hc, hj⟩
    exact hnex ⟨c, (mem_interior_cells W H c).mp hc, hj⟩

/-! ## The passes of pruneDeadEnds -/

theorem mem_deadEnds (W H : Int) (g : List Tile) (j : Nat) :
    j ∈ deadEnds W H g ↔ ∃ c : Int × Int, DeadEnd W H g c.1 c.2 ∧ (c.2 * W + c.1).toNat = j := by
  have hrun : deadEnds W H g =
      ((intRange 1 (H - 1)).flatMap (fun y => (intRange 1 (W - 1)).map (fun x => (x, y)))).foldl
        (fun acc (c : Int × Int) =>
          if getTile W H g c.1 c.2 = Tile.Floor ∧ floorNeighbours W H g c.1 c.2 ≤ 1 then
            acc ++ [(c.2 * W + c.1).toNat]
          else acc) [] := by
    unfold deadEnds
    rw [foldl_nested (fun acc x y =>
      if getTile W H g x y ≠ Tile.Floor then acc
      else if floorNeighbours W H g x y ≤ 1 then acc ++ [(y * W + x).toNat] else acc)]
    congr 1
    funext acc c
    by_cases h1 : getTile W H g c.1 c.2 = Tile.Floor
    · by_cases h2 : floorNeighbours W H g c.1 c.2 ≤ 1
      · rw [if_neg (not_not.mpr h1), if_pos h2, if_pos ⟨h1, h2⟩]
      · rw [if_neg (not_not.mpr h1), if_neg h2, if_neg (fun h => h2 h.2)]
    · rw [if_pos h1, if_neg (fun h => h1 h.1)]
  rw [hrun, foldl_collect]
  simp only [List.nil_append, List.mem_map, List.mem_filter, decide_eq_true_eq,
    mem_interior_cells, DeadEnd]

theorem deadEnds_isEmpty (W H : Int) (g : List Tile) :
    (deadEnds W H g).isEmpty = true ↔ ¬ ∃ x y, DeadEnd W H g x y := by
  rw [List.isEmpty_iff]
  constructor
  · rintro h ⟨x, y, hd⟩
    have := (mem_deadEnds W H g (y * W + x).toNat).mpr ⟨(x, y), hd, rfl⟩
    rw [h] at this
    simp at this
  · intro h
    apply List.eq_nil_iff_forall_not_mem.mpr
    intro j hj
    obtain ⟨c, hc, _⟩ := (mem_deadEnds W H g j).mp hj
    exact h ⟨c.1, c.2, hc⟩

theorem prunePass_length (W H : Int) (g : List Tile) : (prunePass W H g).length = g.length := by
  unfold prunePass
  exact foldl_length _ _ _ (fun G a => List.length_set _ _ _)

/-- One pass of `pruneDeadEnds`, cell by cell. -/
theorem prunePass_spec (W H : Int) (g : List Tile) (hg : GridOK W H g) (x y : Int)
    (hb : inBounds W H x y = true) :
    (DeadEnd W H g x y → getTile W H (prunePass W H g) x y = Tile.Empty) ∧
      (¬ DeadEnd W H g x y → getTile W H (prunePass W H g) x y = getTile W H g x y) := by
  have h := foldl_writes Tile.Empty g (fun _ => Tile.Empty)
    (fun (G : List Tile) (idx : Nat) => G.set idx Tile.Empty) (fun i => i) (deadEnds W H g)
    (by
      intro G c hc hl _
      obtain ⟨p, hp, hidx⟩ := (mem_deadEnds W H g c).mp hc
      have hlt := index_lt W H g hg p.1 p.2 (interior_inBounds W H _ _ hp.1)
      rw [hidx] at hlt
      refine ⟨List.length_set _ _ _, fun j => ?_⟩
      rw [getD_set]
      by_cases hj : j = c
      · rw [if_pos ⟨hj.symm, by omega⟩, if_pos hj]
      · rw [if_neg (fun h => hj h.1.symm), if_neg hj])
  obtain ⟨hx0, hx, hy0, hy⟩ := (inBounds_iff W H x y).mp hb
  have hget : ∀ G : List Tile, getTile W H G x y = G.getD (y * W + x).toNat Tile.Empty := by
    intro G
    unfold getTile
    rw [if_pos hb]
  rw [hget, hget]
  unfold prunePass
  refine ⟨fun hd => (h.2 _).1 ⟨_, (mem_deadEnds W H g _).mpr ⟨(x, y), hd, rfl⟩, rfl⟩,
    fun hnd => (h.2 _).2 ?_⟩
  rintro ⟨c, hc, rfl⟩
  obtain ⟨p, hp, hidx⟩ := (mem_deadEnds W H g _).mp hc
  obtain ⟨⟨h1, h2, h3, h4⟩, _⟩ := id hp
  have := index_inj W hg.1 p.1 p.2 x y (by omega) (by omega) (by omega) hx0 hx hy0 hidx
  rw [this.1, this.2] at hp
  exact hnd hp

theorem prunePass_of_none (W H : Int) (g : List Tile) (h : (deadEnds W H g).isEmpty = true) :
    prunePass W H g = g := by
  unfold prunePass
  rw [List.isEmpty_iff.mp h]
  rfl

/-- The loop of `pruneDeadEnds` with `n` passes left runs `pruneCount` passes: every pass but the
last removes a cell, and the last removes none unless all `n` passes were used. -/
theorem pruneLoop_spec (W H : Int) (n : Nat) :
    ∀ g : List Tile, 0 < n →
      1 ≤ pruneCount W H n g ∧ pruneCount W H n g ≤ n ∧
      pruneLoop W H n g = (prunePass W H)^[pruneCount W H n g] g ∧
      (∀ i, i + 1 < pruneCount W H n g → ∃ x y, DeadEnd W H ((prunePass W H)^[i] g) x y) ∧
      ((∃ x y, DeadEnd W H ((prunePass W H)^[pruneCount W H n g - 1] g) x y) →
        pruneCount W H n g = n) := by
  induction n with
  | zero => intro g h; exact absurd h (lt_irrefl 0)
  | succ n ih =>
    intro g _
    simp only [pruneLoop, pruneCount]
    by_cases he : (deadEnds W H g).isEmpty = true
    · rw [if_pos he, if_pos he]
      refine ⟨le_refl _, by omega, ?_, fun i hi => by omega, fun hex => ?_⟩
      · rw [Function.iterate_one, prunePass_of_none W H g he]
      · exact absurd hex ((deadEnds_isEmpty W H g).mp he)
    · rw [if_neg he, if_neg he]
      have hex0 : ∃ x y, DeadEnd W H g x y := by
        by_contra hcon
        exact he ((deadEnds_isEmpty W H g).mpr hcon)
      change _ ∧ _ ∧ pruneLoop W H n (prunePass W H g) = _ ∧ _
      have hpc : pruneCount W H n
          ((deadEnds W H g).foldl (fun g idx => g.set idx Tile.Empty) g)
          = pruneCount W H n (prunePass W H g) := rfl
      rw [hpc]
      cases n with
      | zero =>
        simp only [pruneLoop, pruneCount]
        refine ⟨le_refl _, le_refl _, ?_, fun i hi => by omega, fun _ => trivial⟩
        rw [Function.iterate_one]
      | succ m =>
        obtain ⟨h1, h2, h3, h4, h5⟩ := ih (prunePass W H g) (Nat.succ_pos m)
        refine ⟨by omega, by omega, ?_, fun i hi => ?_, fun hex => ?_⟩
        · rw [h3, Function.iterate_succ_apply]
        · cases i with
          | zero => exact hex0
          | succ i =>
            rw [Function.iterate_succ_apply]
            exact h4 i (by omega)
        · have e : pruneCount W H (m + 1) (prunePass W H g) + 1 - 1
              = (pruneCount W H (m + 1) (prunePass W H g) - 1) + 1 := by omega
          rw [e, Function.iterate_succ_apply] at hex
          rw [h5 hex]

/-! ## Flood fill: every region is a whole component -/

theorem neighbours_mem (W H : Int) (a b : Nat) :
    b ∈ neighbours W H a ↔
      ((coordOf W a).1 > 0 ∧ b = a - 1) ∨ ((coordOf W a).1 < W - 1 ∧ b = a + 1) ∨
      ((coordOf W a).2 > 0 ∧ b = ((a : Int) - W).toNat) ∨
      ((coordOf W a).2 < H - 1 ∧ b = ((a : Int) + W).toNat) := by
  unfold neighbours coordOf
  simp only [List.mem_append, List.mem_ite_nil_right, List.mem_singleton, or_assoc]

theorem coordOf_inj (W H : Int) (g : List Tile) (hg : GridOK W H g) (a b : Nat)
    (ha : a < g.length) (hb : b < g.length) (h : coordOf W a = coordOf W b) : a = b := by
  have h1 := (coordOf_bounds W H g hg a ha).2.2.2.2
  have h2 := (coordOf_bounds W H g hg b hb).2.2.2.2
  rw [h] at h1
  have : (a : Int) = (b : Int) := h1.symm.trans h2
  exact_mod_cast this

theorem mem_neighbours_iff (W H : Int) (g : List Tile) (hg : GridOK W H g) (a b : Nat)
    (ha : a < g.length) :
    b ∈ neighbours W H a ↔ b < g.length ∧ Adj4 (coordOf W a) (coordOf W b) := by
  have hW := hg.1
  obtain ⟨hx0, hx, hy0, hy, hdec⟩ := coordOf_bounds W H g hg a ha
  constructor
  · intro hmem
    refine ⟨?_, neighbours_adj W H hW a b hmem⟩
    rcases (neighbours_mem W H a b).mp hmem with ⟨_, h⟩ | ⟨hc, h⟩ | ⟨_, h⟩ | ⟨hc, h⟩
    · omega
    · have := index_lt W H g hg ((coordOf W a).1 + 1) (coordOf W a).2
        ((inBounds_iff _ _ _ _).mpr ⟨by omega, by omega, hy0, hy⟩)
      have e : (coordOf W a).2 * W + ((coordOf W a).1 + 1) = (a : Int) + 1 := by linarith
      rw [e] at this
      omega
    · omega
    · have := index_lt W H g hg (coordOf W a).1 ((coordOf W a).2 + 1)
        ((inBounds_iff _ _ _ _).mpr ⟨hx0, hx, by omega, by omega⟩)
      have e : ((coordOf W a).2 + 1) * W + (coordOf W a).1 = (a : Int) + W := by linarith
      rw [e] at this
      omega
  · rintro ⟨hb, hadj⟩
    obtain ⟨hx0b, hxb, hy0b, hyb, hdecb⟩ := coordOf_bounds W H g hg b hb
    rw [neighbours_mem]
    unfold Adj4 at hadj
    rcases hadj with ⟨h1, h2 | h2⟩ | ⟨h1, h2 | h2⟩
    · right; right; left
      refine ⟨by omega, ?_⟩
      have e : (a : Int) - W = (b : Int) := by
        rw [← hdec, ← hdecb, h1, h2]; ring
      rw [e]; simp
    · right; right; right
      refine ⟨by omega, ?_⟩
      have e : (a : Int) + W = (b : Int) := by
        rw [← hdec, ← hdecb, h1, h2]; ring
      rw [e]; simp
    · left
      refine ⟨by omega, ?_⟩
      have e : (a : Int) - 1 = (b : Int) := by
        rw [← hdec, ← hdecb, h1, h2]; ring
      omega
    · right; left
      refine ⟨by omega, ?_⟩
      have e : (a : Int) + 1 = (b : Int) := by
        rw [← hdec, ← hdecb, h1, h2]; ring
      omega

theorem neighbours_symm (W H : Int) (g : List Tile) (hg : GridOK W H g) (a b : Nat)
    (ha : a < g.length) (h : b ∈ neighbours W H a) : a ∈ neighbours W H b := by
  obtain ⟨hb, hadj⟩ := (mem_neighbours_iff W H g hg a b ha).mp h
  exact (mem_neighbours_iff W H g hg b a hb).mpr ⟨ha, adj4_symm _ _ hadj⟩

theorem labelsGrow_refl (rid : Nat) (regs : List Nat) : LabelsGrow rid regs regs :=
  fun _ => Or.inl rfl

theorem labelsGrow_trans (rid : Nat) (r1 r2 r3 : List Nat) (h12 : LabelsGrow rid r1 r2)
    (h23 : LabelsGrow rid r2 r3) : LabelsGrow rid r1 r3 := by
  intro j
  rcases h12 j with h | ⟨h0, h⟩
  · rcases h23 j with h2 | ⟨h20, h2⟩
    · exact Or.inl (h2.trans h)
    · exact Or.inr ⟨by rw [← h]; exact h20, h2⟩
  · rcases h23 j with h2 | ⟨h20, h2⟩
    · exact Or.inr ⟨h0, h2.trans h⟩
    · exact Or.inr ⟨h0, h2⟩

theorem labelsGrow_keep (rid : Nat) (r1 r2 : List Nat) (h : LabelsGrow rid r1 r2) (j : Nat)
    (hj : r1.getD j 0 ≠ 0) : r2.getD j 0 = r1.getD j 0 := by
  rcases h j with h | ⟨h0, _⟩
  · exact h
  · exact absurd h0 hj

theorem visit_full (W H : Int) (g : List Tile) (target : Tile) (ht : target ≠ Tile.Empty)
    (rid lo : Nat) (hr : rid ≠ 0) (q : List Nat) (head : Nat) (regs : List Nat) (n : Nat)
    (inv : BfsFull W H g target rid lo q head regs) :
    BfsFull W H g target rid lo (visit g target rid (q, regs) n).1 head
        (visit g target rid (q, regs) n).2 ∧
      LabelsGrow rid regs (visit g target rid (q, regs) n).2 ∧
      (g.getD n Tile.Empty = target → (visit g target rid (q, regs) n).2.getD n 0 ≠ 0) ∧
      ∃ tl, (visit g target rid (q, regs) n).1 = q ++ tl := by
  unfold visit
  by_cases hcond : g.getD n Tile.Empty = target ∧ regs.getD n 0 = 0
  · rw [if_pos hcond]
    obtain ⟨hgt, hz⟩ := hcond
    have hnlen : n < regs.length := by
      rw [inv.len]
      exact lt_length_of_getD_ne g n Tile.Empty (by rw [hgt]; exact ht)
    have hget : ∀ j, (regs.set n rid).getD j 0 = if j = n then rid else regs.getD j 0 := by
      intro j
      rw [getD_set]
      by_cases hj : j = n
      · subst hj; simp [hnlen]
      · rw [if_neg (fun h => hj h.1.symm), if_neg hj]
    have hnq : n ∉ q := fun hm => hr (((inv.queue n).mp hm).symm.trans hz)
    refine ⟨⟨?_, ?_, ?_, ?_, ?_, ?_, ?_, ?_, ?_, ?_⟩, ?_, ?_, ⟨[n], rfl⟩⟩
    · dsimp only; rw [List.length_set]; exact inv.len
    · intro j
      dsimp only
      rw [hget]
      split
      · exact le_refl _
      · exact inv.bound j
    · intro j hj
      dsimp only at hj
      rw [hget] at hj
      by_cases hjn : j = n
      · rw [hjn]; exact hgt
      · rw [if_neg hjn] at hj
        exact inv.sound j hj
    · dsimp only
      exact List.Nodup.append inv.nodup (List.nodup_singleton n)
        (by
          intro a ha1 ha2
          simp only [List.mem_singleton] at ha2
          exact hnq (ha2 ▸ ha1))
    · intro c
      dsimp only
      rw [hget, List.mem_append, List.mem_singleton]
      by_cases hcn : c = n
      · rw [if_pos hcn]
        exact ⟨fun _ => rfl, fun _ => Or.inr hcn⟩
      · rw [if_neg hcn]
        exact ⟨fun h => h.elim (fun h => (inv.queue c).mp h) (fun h => absurd h hcn),
          fun h => Or.inl ((inv.queue c).mpr h)⟩
    · intro c hc
      dsimp only at hc
      rw [List.mem_append, List.mem_singleton] at hc
      rcases hc with hc | hc
      · exact inv.qge c hc
      · rw [hc]
        by_contra hlt
        exact inv.below n (not_le.mp hlt) hgt hz
    · intro j hj hjt
      dsimp only
      rw [hget]
      split
      · exact hr
      · exact inv.below j hj hjt
    · intro a b ha0 har hb hbt
      dsimp only at ha0 har ⊢
      rw [hget] at ha0 har
      rw [hget, hget]
      by_cases han : a = n
      · rw [if_pos han] at har
        exact absurd rfl har
      · rw [if_neg han] at ha0 har
        have := inv.old a b ha0 har hb hbt
        have hbn : b ≠ n := fun e => ha0 (by rw [← this, e, hz])
        rw [if_neg han, if_neg hbn]
        exact this
    · dsimp only
      rw [List.length_append]
      exact le_trans inv.hle (Nat.le_add_right _ _)
    · intro i hi b hb hbt
      dsimp only at hb ⊢
      have hiq : i < q.length := lt_of_lt_of_le hi inv.hle
      rw [List.getD_append _ _ _ _ hiq] at hb
      have := inv.done i hi b hb hbt
      have hbn : b ≠ n := fun e => hr (by rw [← this, e, hz])
      rw [hget, if_neg hbn]
      exact this
    · intro j
      dsimp only
      rw [hget]
      by_cases hjn : j = n
      · rw [if_pos hjn, hjn]
        exact Or.inr ⟨hz, rfl⟩
      · rw [if_neg hjn]
        exact Or.inl rfl
    · intro _
      dsimp only
      rw [hget, if_pos rfl]
      exact hr
  · rw [if_neg hcond]
    refine ⟨inv, labelsGrow_refl rid regs, fun hgt hz => hcond ⟨hgt, hz⟩, ⟨[], by simp⟩⟩

theorem visit_fold_full (W H : Int) (g : List Tile) (target : Tile) (ht : target ≠ Tile.Empty)
    (rid lo : Nat) (hr : rid ≠ 0) (head : Nat) (ns : List Nat) :
    ∀ (q regs : List Nat), BfsFull W H g target rid lo q head regs →
      BfsFull W H g target rid lo (ns.foldl (visit g target rid) (q, regs)).1 head
          (ns.foldl (visit g target rid) (q, regs)).2 ∧
        LabelsGrow rid regs (ns.foldl (visit g target rid) (q, regs)).2 ∧
        (∀ b ∈ ns, g.getD b Tile.Empty = target →
          (ns.foldl (visit g target rid) (q, regs)).2.getD b 0 ≠ 0) ∧
        ∃ tl, (ns.foldl (visit g target rid) (q, regs)).1 = q ++ tl := by
  induction ns with
  | nil =>
    intro q regs inv
    exact ⟨inv, labelsGrow_refl rid regs, fun b hb => by simp at hb, ⟨[], by simp⟩⟩
  | cons n rest ih =>
    intro q regs inv
    simp only [List.foldl_cons]
    obtain ⟨h1, h2, h3, ⟨tl1, h4⟩⟩ := visit_full W H g target ht rid lo hr q head regs n inv
    obtain ⟨k1, k2, k3, ⟨tl2, k4⟩⟩ := ih (visit g target rid (q, regs) n).1
      (visit g target rid (q, regs) n).2 h1
    refine ⟨k1, labelsGrow_trans rid _ _ _ h2 k2, fun b hb hbt => ?_, ⟨tl1 ++ tl2, ?_⟩⟩
    · simp only [List.mem_cons] at hb
      rcases hb with hb | hb
      · rw [hb, labelsGrow_keep rid _ _ k2 n (h3 (hb ▸ hbt))]
        exact h3 (hb ▸ hbt)
      · exact k3 b hb hbt
    · rw [k4, h4, List.append_assoc]

theorem bfsFull_head (W H : Int) (g : List Tile) (target : Tile) (rid lo : Nat)
    (q : List Nat) (head : Nat) (regs : List Nat)
    (inv : BfsFull W H g target rid lo q head regs) (h : q.length ≤ head) :
    BfsFull W H g target rid lo q q.length regs :=
  ⟨inv.len, inv.bound, inv.sound, inv.nodup, inv.queue, inv.qge, inv.below, inv.old, le_refl _,
    fun i hi => inv.done i (lt_of_lt_of_le hi h)⟩

theorem bfs_full (W H : Int) (g : List Tile) (hg : GridOK W H g) (target : Tile)
    (ht : target ≠ Tile.Empty) (rid lo : Nat) (hr : rid ≠ 0) (fuel : Nat) :
    ∀ (q : List Nat) (head : Nat) (regs : List Nat),
      BfsFull W H g target rid lo q head regs → (q.length - head) + regs.count 0 ≤ fuel →
      BfsFull W H g target rid lo (bfs W H g target rid fuel q head regs).1
          (bfs W H g target rid fuel q head regs).1.length
          (bfs W H g target rid fuel q head regs).2 ∧
        LabelsGrow rid regs (bfs W H g target rid fuel q head regs).2 ∧
        ∃ tl, (bfs W H g target rid fuel q head regs).1 = q ++ tl := by
  induction fuel with
  | zero =>
    intro q head regs inv hm
    exact ⟨bfsFull_head W H g target rid lo q head regs inv (by omega), labelsGrow_refl rid regs,
      ⟨[], by simp [bfs]⟩⟩
  | succ fuel ih =>
    intro q head regs inv hm
    simp only [bfs]
    split
    · rename_i hlt
      obtain ⟨h1, h2, h3, ⟨tl, h4⟩⟩ := visit_fold_full W H g target ht rid lo hr head
        (neighbours W H (q.getD head 0)) q regs inv
      have hms := visit_fold_measure g target ht rid hr (neighbours W H (q.getD head 0)) (q, regs)
        inv.len
      have hms2 : ((neighbours W H (q.getD head 0)).foldl (visit g target rid) (q, regs)).1.length
          + ((neighbours W H (q.getD head 0)).foldl (visit g target rid) (q, regs)).2.count 0
          = q.length + regs.count 0 := hms.2.2
      have hms1 : q.length ≤
          ((neighbours W H (q.getD head 0)).foldl (visit g target rid) (q, regs)).1.length :=
        hms.2.1
      generalize hst : (neighbours W H (q.getD head 0)).foldl (visit g target rid) (q, regs) = st
        at h1 h2 h3 h4 hms1 hms2
      have hcq : st.1.getD head 0 = q.getD head 0 := by
        rw [h4, List.getD_append _ _ _ _ hlt]
      have hcm : q.getD head 0 ∈ st.1 := by
        rw [h4, List.mem_append]
        left
        rw [List.getD_eq_getElem q 0 hlt]
        exact List.getElem_mem hlt
      have hcl := (h1.queue _).mp hcm
      have hct := h1.sound _ (by rw [hcl]; exact hr)
      have hclen : q.getD head 0 < g.length :=
        lt_length_of_getD_ne g _ Tile.Empty (by rw [hct]; exact ht)
      have hnext : BfsFull W H g target rid lo st.1 (head + 1) st.2 := by
        refine ⟨h1.len, h1.bound, h1.sound, h1.nodup, h1.queue, h1.qge, h1.below, h1.old,
          by omega, fun i hi b hb hbt => ?_⟩
        by_cases hih : i < head
        · exact h1.done i hih b hb hbt
        · have hie : i = head := by omega
          rw [hie, hcq] at hb
          have hb0 := h3 b hb hbt
          by_contra hne
          have hsym := neighbours_symm W H g hg _ b hclen hb
          have := h1.old b _ hb0 hne hsym hct
          exact hne (this.symm.trans hcl)
      obtain ⟨r1, r2, ⟨tl2, r3⟩⟩ := ih st.1 (head + 1) st.2 hnext (by omega)
      exact ⟨r1, labelsGrow_trans rid _ _ _ h2 r2, ⟨tl ++ tl2, by rw [r3, h4, List.append_assoc]⟩⟩
    · rename_i hge
      exact ⟨bfsFull_head W H g target rid lo q head regs inv (not_lt.mp hge),
        labelsGrow_refl rid regs, ⟨[], by simp⟩⟩

theorem labelStep_full (W H : Int) (g : List Tile) (hg : GridOK W H g) (target : Tile)
    (ht : target ≠ Tile.Empty) (st : Labelling) (k : Nat) (hk : k < g.length)
    (inv : LabFull W H g target k st) :
    LabFull W H g target (k + 1) (labelStep W H g target st k) := by
  unfold labelStep
  by_cases hcond : g.getD k Tile.Empty = target ∧ st.regions.getD k 0 = 0
  · rw [if_pos hcond]
    obtain ⟨hgt, hz⟩ := hcond
    have hklen : k < st.regions.length := by rw [inv.len]; exact hk
    have hget : ∀ j, (st.regions.set k (st.count + 1)).getD j 0 =
        if j = k then st.count + 1 else st.regions.getD j 0 := by
      intro j
      rw [getD_set]
      by_cases hj : j = k
      · subst hj; simp [hklen]
      · rw [if_neg (fun h => hj h.1.symm), if_neg hj]
    have hstart : BfsFull W H g target (st.count + 1) k [k] 0
        (st.regions.set k (st.count + 1)) := by
      refine ⟨?_, ?_, ?_, List.nodup_singleton k, ?_, ?_, ?_, ?_, Nat.zero_le _, ?_⟩
      · rw [List.length_set]; exact inv.len
      · intro j
        rw [hget]
        split
        · exact le_refl _
        · exact le_trans (inv.bound j) (Nat.le_succ _)
      · intro j hj
        rw [hget] at hj
        by_cases hjk : j = k
        · rw [hjk]; exact hgt
        · rw [if_neg hjk] at hj
          exact inv.sound j hj
      · intro c
        rw [hget, List.mem_singleton]
        by_cases hck : c = k
        · rw [if_pos hck]
          exact ⟨fun _ => rfl, fun _ => hck⟩
        · rw [if_neg hck]
          have := inv.bound c
          exact ⟨fun h => absurd h hck, fun h => by omega⟩
      · intro c hc
        rw [List.mem_singleton] at hc
        omega
      · intro j hj hjt
        rw [hget, if_neg (by omega)]
        exact inv.below j hj hjt
      · intro a b ha0 har hb hbt
        rw [hget] at ha0 har
        rw [hget, hget]
        by_cases hak : a = k
        · rw [if_pos hak] at har
          exact absurd rfl har
        · rw [if_neg hak] at ha0 har
          have := inv.closed a b ha0 hb hbt
          have hbk : b ≠ k := fun e => ha0 (by rw [← this, e, hz])
          rw [if_neg hak, if_neg hbk]
          exact this
      · intro i hi
        exact absurd hi (Nat.not_lt_zero i)
    have hfuel : ([k].length - 0) + (st.regions.set k (st.count + 1)).count 0 ≤ g.length + 1 := by
      have := List.count_le_length 0 (st.regions.set k (st.count + 1))
      rw [List.length_set, inv.len] at this
      simp only [List.length_singleton]
      omega
    obtain ⟨r1, r2, ⟨tl, r3⟩⟩ := bfs_full W H g hg target ht (st.count + 1) k
      (Nat.succ_ne_zero _) (g.length + 1) [k] 0 _ hstart hfuel
    generalize hres : bfs W H g target (st.count + 1) (g.length + 1) [k] 0
      (st.regions.set k (st.count + 1)) = res at r1 r2 r3
    dsimp only
    -- the labels of the earlier regions are the same before and after the flood fill
    have hkeep : ∀ j, st.regions.getD j 0 ≠ 0 → res.2.getD j 0 = st.regions.getD j 0 := by
      intro j hj
      have hjk : j ≠ k := fun e => hj (e ▸ hz)
      have h0 : (st.regions.set k (st.count + 1)).getD j 0 = st.regions.getD j 0 := by
        rw [hget, if_neg hjk]
      rw [labelsGrow_keep _ _ _ r2 j (by rw [h0]; exact hj), h0]
    have hback : ∀ j r, r < st.count → res.2.getD j 0 = r + 1 → st.regions.getD j 0 = r + 1 := by
      intro j r hr hj
      rcases r2 j with h | ⟨_, h⟩
      · rw [hget] at h
        by_cases hjk : j = k
        · rw [if_pos hjk] at h
          omega
        · rw [if_neg hjk] at h
          rw [← h]; exact hj
      · omega
    have hfoundOld : ∀ r, r < st.count → (st.found ++ [res.1]).getD r [] = st.found.getD r [] := by
      intro r hr
      exact List.getD_append _ _ _ _ (by rw [inv.flen]; exact hr)
    have hfoundNew : (st.found ++ [res.1]).getD st.count [] = res.1 := by
      rw [List.getD_append_right _ _ _ _ (by rw [inv.flen]), inv.flen, Nat.sub_self]
      rfl
    have hkres : res.1 = k :: tl := by rw [r3]; rfl
    refine ⟨r1.len, r1.bound, r1.sound, ?_, ?_, ?_, ?_, ?_, ?_, ?_⟩
    · intro a b ha0 hb hbt
      by_cases har : res.2.getD a 0 = st.count + 1
      · have ham := (r1.queue a).mpr har
        obtain ⟨i, hi, hia⟩ := List.getElem_of_mem ham
        have hd := r1.done i hi b (by rw [List.getD_eq_getElem _ _ hi, hia]; exact hb) hbt
        rw [hd, har]
      · exact r1.old a b ha0 har hb hbt
    · intro j hj hjt
      by_cases hjk : j = k
      · have : k ∈ res.1 := by rw [hkres]; simp
        rw [hjk, (r1.queue k).mp this]
        exact Nat.succ_ne_zero _
      · exact r1.below j (by omega) hjt
    · dsimp only
      rw [List.length_append, inv.flen]
      rfl
    · intro r hr c
      dsimp only at hr ⊢
      by_cases hrc : r < st.count
      · rw [hfoundOld r hrc, inv.fmem r hrc c]
        constructor
        · intro h
          rw [hkeep c (by rw [h]; exact Nat.succ_ne_zero _), h]
        · exact hback c r hrc
      · have hre : r = st.count := by omega
        rw [hre, hfoundNew]
        exact r1.queue c
    · intro r hr
      dsimp only at hr ⊢
      by_cases hrc : r < st.count
      · rw [hfoundOld r hrc]
        exact inv.fnodup r hrc
      · have hre : r = st.count := by omega
        rw [hre, hfoundNew]
        exact r1.nodup
    · intro r hr
      dsimp only at hr ⊢
      by_cases hrc : r < st.count
      · rw [hfoundOld r hrc]
        obtain ⟨s, tl0, h1, h2, h3⟩ := inv.fseed r hrc
        exact ⟨s, tl0, h1, by omega, h3⟩
      · have hre : r = st.count := by omega
        rw [hre, hfoundNew]
        exact ⟨k, tl, hkres, by omega, fun c hc => r1.qge c hc⟩
    · intro r r2i hlt hr2 s tl0 s2 tl2 h1 h2
      dsimp only at hr2 h1 h2
      by_cases hrc : r2i < st.count
      · rw [hfoundOld r (by omega)] at h1
        rw [hfoundOld r2i hrc] at h2
        exact inv.forder r r2i hlt hrc s tl0 s2 tl2 h1 h2
      · have hre : r2i = st.count := by omega
        rw [hfoundOld r (by omega)] at h1
        rw [hre, hfoundNew, hkres] at h2
        obtain ⟨s0, tl00, e1, e2, _⟩ := inv.fseed r (by omega)
        rw [h1] at e1
        have hs : s = s0 := (List.cons.inj e1).1
        have hs2 : k = s2 := (List.cons.inj h2).1
        omega
  · rw [if_neg hcond]
    refine ⟨inv.len, inv.bound, inv.sound, inv.closed, ?_, inv.flen, inv.fmem, inv.fnodup, ?_,
      inv.forder⟩
    · intro j hj hjt
      by_cases hjk : j = k
      · rw [hjk] at hjt ⊢
        exact fun h0 => hcond ⟨hjt, h0⟩
      · exact inv.below j (by omega) hjt
    · intro r hr
      obtain ⟨s, tl0, h1, h2, h3⟩ := inv.fseed r hr
      exact ⟨s, tl0, h1, by omega, h3⟩

theorem labelRegions_full (W H : Int) (g : List Tile) (hg : GridOK W H g) (target : Tile)
    (ht : target ≠ Tile.Empty) :
    LabFull W H g target g.length (labelRegions W H g target) := by
  have key : ∀ k, k ≤ g.length →
      LabFull W H g target k
        ((List.range k).foldl (labelStep W H g target) ⟨List.replicate g.length 0, 0, []⟩) := by
    intro k
    induction k with
    | zero =>
      intro _
      refine ⟨by simp, fun j => ?_, fun j hj => ?_, fun a b ha _ _ => ?_, fun j hj => ?_, rfl,
        fun r hr => ?_, fun r hr => ?_, fun r hr => ?_, fun r r2 _ hr2 => ?_⟩
      · simp only [List.range_zero, List.foldl_nil]
        rw [getD_replicate_zero]
      · simp only [List.range_zero, List.foldl_nil] at hj
        exact absurd (getD_replicate_zero _ j) hj
      · simp only [List.range_zero, List.foldl_nil] at ha
        exact absurd (getD_replicate_zero _ a) ha
      · exact absurd hj (Nat.not_lt_zero j)
      · exact absurd hr (Nat.not_lt_zero r)
      · exact absurd hr (Nat.not_lt_zero r)
      · exact absurd hr (Nat.not_lt_zero r)
      · exact absurd hr2 (Nat.not_lt_zero r2)
    | succ k ih =>
      intro hk
      rw [List.range_succ, List.foldl_append]
      simp only [List.foldl_cons, List.foldl_nil]
      exact labelStep_full W H g hg target ht _ k (by omega) (ih (by omega))
  exact key g.length (le_refl _)

theorem isComponent_length (W H : Int) (g : List Tile) (t : Tile) (p : Int × Int)
    (c1 c2 : List (Int × Int)) (h1 : IsComponent W H g t p c1) (h2 : IsComponent W H g t p c2) :
    c1.length = c2.length := by
  apply List.Perm.length_eq
  rw [List.perm_ext_iff_of_nodup h1.2.1 h2.2.1]
  intro q
  rw [h1.2.2 q, h2.2.2 q]

/-- A path of cells of the kind `target` stays inside one label. -/
theorem path_label (W H : Int) (g : List Tile) (hg : GridOK W H g) (target : Tile)
    (ht : target ≠ Tile.Empty) (st : Labelling) (inv : LabFull W H g target g.length st)
    (a : Nat) (ha : a < g.length) (hl : st.regions.getD a 0 ≠ 0) (q : Int × Int)
    (hp : Relation.ReflTransGen (TileStep W H g target) (coordOf W a) q) :
    ∃ c, c < g.length ∧ coordOf W c = q ∧ st.regions.getD c 0 = st.regions.getD a 0 := by
  induction hp with
  | refl => exact ⟨a, ha, rfl, rfl⟩
  | @tail m c2 _ hstep ih =>
    obtain ⟨cm, hcm, hcoord, hlab⟩ := ih
    obtain ⟨hadj, _, hq⟩ := hstep
    have hb := inBounds_of_getTile W H g c2.1 c2.2 (by rw [hq]; exact ht)
    obtain ⟨hx0, hx, hy0, hy⟩ := (inBounds_iff W H c2.1 c2.2).mp hb
    have hlt := index_lt W H g hg c2.1 c2.2 hb
    have hco : coordOf W (c2.2 * W + c2.1).toNat = c2 := coordOf_index W hg.1 c2.1 c2.2 hx0 hx hy0
    refine ⟨(c2.2 * W + c2.1).toNat, hlt, hco, ?_⟩
    have hmem : (c2.2 * W + c2.1).toNat ∈ neighbours W H cm :=
      (mem_neighbours_iff W H g hg cm _ hcm).mpr ⟨hlt, by rw [hcoord, hco]; exact hadj⟩
    have hgt : g.getD (c2.2 * W + c2.1).toNat Tile.Empty = target := by
      rw [← getTile_index W H g c2.1 c2.2 hb]; exact hq
    rw [inv.closed cm _ (by rw [hlab]; exact hl) hmem hgt, hlab]

/-- Two cells with one label are joined by a path of cells of the kind `target`. -/
theorem label_path (W H : Int) (g : List Tile) (hg : GridOK W H g) (target : Tile)
    (ht : target ≠ Tile.Empty) (regs : List Nat)
    (hsound : ∀ j, regs.getD j 0 ≠ 0 → g.getD j Tile.Empty = target)
    (a c : Nat) (hp : Relation.ReflTransGen (LabelStep W regs) a c) :
    Relation.ReflTransGen (TileStep W H g target) (coordOf W a) (coordOf W c) := by
  induction hp with
  | refl => exact Relation.ReflTransGen.refl
  | @tail m c2 _ hstep ih =>
    obtain ⟨hadj, heq, hne⟩ := hstep
    have hne2 : regs.getD c2 0 ≠ 0 := by rw [← heq]; exact hne
    have hgm := hsound m hne
    have hgc := hsound c2 hne2
    have hml : m < g.length := lt_length_of_getD_ne g m Tile.Empty (by rw [hgm]; exact ht)
    have hcl : c2 < g.length := lt_length_of_getD_ne g c2 Tile.Empty (by rw [hgc]; exact ht)
    refine Relation.ReflTransGen.tail ih ⟨hadj, ?_, ?_⟩
    · rw [getTile_coordOf W H g _ hg m hml]; exact hgm
    · rw [getTile_coordOf W H g _ hg c2 hcl]; exact hgc

/-- The `r`-th region that the labelling finds is the maximal 4-connected region of each of its
cells. -/
theorem labelRegions_component (W H : Int) (g : List Tile) (hg : GridOK W H g) (target : Tile)
    (ht : target ≠ Tile.Empty) (a r : Nat) 
    (hl : (labelRegions W H g target).regions.getD a 0 = r + 1) :
    IsComponent W H g target (coordOf W a)
      (((labelRegions W H g target).found.getD r []).map (coordOf W)) := by
  have full := labelRegions_full W H g hg target ht
  have inv := labelRegions_inv W H hg.1 g target ht
  generalize labelRegions W H g target = st at hl full inv
  have hl0 : st.regions.getD a 0 ≠ 0 := by rw [hl]; exact Nat.succ_ne_zero r
  have hga := full.sound a hl0
  have ha : a < g.length := lt_length_of_getD_ne g a Tile.Empty (by rw [hga]; exact ht)
  have hr : r < st.count := by
    have := full.bound a
    omega
  have hlen : ∀ c, c ∈ st.found.getD r [] → c < g.length := by
    intro c hc
    have := (full.fmem r hr c).mp hc
    exact lt_length_of_getD_ne g c Tile.Empty
      (by rw [full.sound c (by rw [this]; exact Nat.succ_ne_zero r)]; exact ht)
  refine ⟨?_, ?_, fun q => ?_⟩
  · rw [getTile_coordOf W H g g hg a ha]; exact hga
  · apply List.Nodup.map_on _ (full.fnodup r hr)
    intro x hx y hy hxy
    exact coordOf_inj W H g hg x y (hlen x hx) (hlen y hy) hxy
  · rw [List.mem_map]
    constructor
    · rintro ⟨c, hc, rfl⟩
      have hcl := (full.fmem r hr c).mp hc
      exact label_path W H g hg target ht st.regions full.sound a c
        (inv.conn a c (hl.trans hcl.symm) hl0)
    · intro hp
      obtain ⟨c, hc, hco, hlab⟩ := path_label W H g hg target ht st full a ha hl0 q hp
      exact ⟨c, (full.fmem r hr c).mpr (hlab.trans hl), hco⟩

/-- Every cell of the kind `target` carries the label of a region that was found. -/
theorem labelRegions_covers (W H : Int) (g : List Tile) (hg : GridOK W H g) (target : Tile)
    (ht : target ≠ Tile.Empty) (a : Nat) (ha : g.getD a Tile.Empty = target) :
    ∃ r, r < (labelRegions W H g target).count ∧
      (labelRegions W H g target).regions.getD a 0 = r + 1 := by
  have full := labelRegions_full W H g hg target ht
  have hlt : a < g.length := lt_length_of_getD_ne g a Tile.Empty (by rw [ha]; exact ht)
  have h0 := full.below a hlt ha
  have hb := full.bound a
  exact ⟨(labelRegions W H g target).regions.getD a 0 - 1, by omega, by omega⟩

/-! ## The dissolving pass of despeckleWalls -/

theorem mem_found (found : List (List Nat)) (tiles : List Nat) (h : tiles ∈ found) :
    ∃ r, r < found.length ∧ found.getD r [] = tiles := by
  obtain ⟨r, hr, he⟩ := List.getElem_of_mem h
  exact ⟨r, hr, by rw [List.getD_eq_getElem _ _ hr, he]⟩

theorem getD_mem_found (found : List (List Nat)) (r : Nat) (h : r < found.length) :
    found.getD r [] ∈ found := by
  rw [List.getD_eq_getElem _ _ h]
  exact List.getElem_mem h

/-- The value that the dissolving pass writes to the cell `j`. -/
theorem dissolveCell_getD (W H : Int) (G : List Tile) (c j : Nat) (hc : c < G.length) :
    (dissolveCell W H G c).getD j Tile.Empty =
      if j = c then
        (if 0 < (coordOf W j).1 ∧ (coordOf W j).1 < W - 1 ∧ 0 < (coordOf W j).2 ∧
            (coordOf W j).2 < H - 1 then Tile.Floor else Tile.Empty)
      else G.getD j Tile.Empty := by
  unfold dissolveCell coordOf
  dsimp only
  by_cases hj : j = c
  · rw [if_pos hj, hj]
    split
    · rw [getD_set, if_pos ⟨rfl, hc⟩]
    · rw [getD_set, if_pos ⟨rfl, hc⟩]
  · rw [if_neg hj]
    split
    · rw [getD_set, if_neg (fun h => hj h.1.symm)]
    · rw [getD_set, if_neg (fun h => hj h.1.symm)]

/-- The pass `despeckleWalls`, cell by cell: the cells of the regions found with fewer than 10
cells are rewritten, the others are kept. -/
theorem despeckleWalls_cells (W H : Int) (g : List Tile) (hg : GridOK W H g) (j : Nat) :
    ((∃ r, r < (labelRegions W H g Tile.Wall).count ∧
        ((labelRegions W H g Tile.Wall).found.getD r []).length < 10 ∧
        (labelRegions W H g Tile.Wall).regions.getD j 0 = r + 1) →
      (despeckleWalls W H g).getD j Tile.Empty =
        if 0 < (coordOf W j).1 ∧ (coordOf W j).1 < W - 1 ∧ 0 < (coordOf W j).2 ∧
          (coordOf W j).2 < H - 1 then Tile.Floor else Tile.Empty) ∧
    ((¬ ∃ r, r < (labelRegions W H g Tile.Wall).count ∧
        ((labelRegions W H g Tile.Wall).found.getD r []).length < 10 ∧
        (labelRegions W H g Tile.Wall).regions.getD j 0 = r + 1) →
      (despeckleWalls W H g).getD j Tile.Empty = g.getD j Tile.Empty) := by
  have full := labelRegions_full W H g hg Tile.Wall (by decide)
  have hrun : despeckleWalls W H g =
      ((labelRegions W H g Tile.Wall).found.flatMap
        (fun tiles => if tiles.length < 10 then tiles else [])).foldl (dissolveCell W H) g := by
    unfold despeckleWalls
    rw [← foldl_flatMap_inner]
    congr 1
    funext G tiles
    split
    · rfl
    · rfl
  rw [hrun]
  generalize labelRegions W H g Tile.Wall = st at full
  have hmem : ∀ c, c ∈ st.found.flatMap (fun tiles => if tiles.length < 10 then tiles else []) ↔
      ∃ r, r < st.count ∧ (st.found.getD r []).length < 10 ∧ st.regions.getD c 0 = r + 1 := by
    intro c
    rw [List.mem_flatMap]
    constructor
    · rintro ⟨tiles, ht, hc⟩
      obtain ⟨r, hr, he⟩ := mem_found st.found tiles ht
      rw [full.flen] at hr
      by_cases hs : tiles.length < 10
      · rw [if_pos hs] at hc
        exact ⟨r, hr, by rw [he]; exact hs, (full.fmem r hr c).mp (by rw [he]; exact hc)⟩
      · rw [if_neg hs] at hc
        simp at hc
    · rintro ⟨r, hr, hs, hc⟩
      refine ⟨st.found.getD r [], getD_mem_found _ _ (by rw [full.flen]; exact hr), ?_⟩
      rw [if_pos hs]
      exact (full.fmem r hr c).mpr hc
  have h := foldl_writes Tile.Empty g
    (fun j => if 0 < (coordOf W j).1 ∧ (coordOf W j).1 < W - 1 ∧ 0 < (coordOf W j).2 ∧
      (coordOf W j).2 < H - 1 then Tile.Floor else Tile.Empty)
    (dissolveCell W H) (fun c => c)
    (st.found.flatMap (fun tiles => if tiles.length < 10 then tiles else []))
    (by
      intro G c hc hl _
      obtain ⟨r, hr, _, hlab⟩ := (hmem c).mp hc
      have hclt : c < g.length := lt_length_of_getD_ne g c Tile.Empty
        (by rw [full.sound c (by rw [hlab]; exact Nat.succ_ne_zero r)]; decide)
      refine ⟨dissolveCell_length W H G c, fun j => ?_⟩
      rw [dissolveCell_getD W H G c j (by rw [hl]; exact hclt)])
  refine ⟨fun hex => (h.2 j).1 ⟨j, (hmem j).mpr hex, rfl⟩, fun hnex => (h.2 j).2 ?_⟩
  rintro ⟨c, hc, rfl⟩
  exact hnex ((hmem c).mp hc)

/-! ## The best region and the retention -/

/-- The scan for the best region returns the first region of the greatest size, when one has
more cells than the size it starts with. -/
theorem bestRegion_scan (l : List (List Nat)) :
    ∀ (k : Nat) (b0 : Int) (m0 : Nat),
      (((l.enumFrom k).foldl
          (fun (st : Int × Nat) (e : Nat × List Nat) =>
            if e.2.length > st.2 then (((e.1 + 1 : Nat) : Int), e.2.length) else st) (b0, m0)
          = (b0, m0)) ∧ ∀ r, r < l.length → (l.getD r []).length ≤ m0) ∨
      ∃ r, r < l.length ∧
        (l.enumFrom k).foldl
          (fun (st : Int × Nat) (e : Nat × List Nat) =>
            if e.2.length > st.2 then (((e.1 + 1 : Nat) : Int), e.2.length) else st) (b0, m0)
          = (((k + r + 1 : Nat) : Int), (l.getD r []).length) ∧
        m0 < (l.getD r []).length ∧
        (∀ r2, r2 < r → (l.getD r2 []).length < (l.getD r []).length) ∧
        ∀ r2, r2 < l.length → (l.getD r2 []).length ≤ (l.getD r []).length := by
  induction l with
  | nil =>
    intro k b0 m0
    exact Or.inl ⟨rfl, fun r hr => absurd hr (Nat.not_lt_zero r)⟩
  | cons e rest ih =>
    intro k b0 m0
    simp only [List.enumFrom_cons, List.foldl_cons]
    by_cases he : e.length > m0
    · rw [if_pos he]
      rcases ih (k + 1) (((k + 1 : Nat) : Int)) e.length with ⟨h1, h2⟩ | ⟨r, hr, h1, h2, h3, h4⟩
      · right
        refine ⟨0, by simp, ?_, he, fun r2 hr2 => absurd hr2 (Nat.not_lt_zero r2), fun r2 hr2 => ?_⟩
        · rw [h1]; rfl
        · cases r2 with
          | zero => exact le_refl _
          | succ s =>
            rw [List.getD_cons_succ]
            exact h2 s (by simpa using hr2)
      · right
        refine ⟨r + 1, by simpa using hr, ?_, ?_, fun r2 hr2 => ?_, fun r2 hr2 => ?_⟩
        · rw [h1, List.getD_cons_succ]
          have : k + 1 + r + 1 = k + (r + 1) + 1 := by omega
          rw [this]
        · rw [List.getD_cons_succ]; omega
        · rw [List.getD_cons_succ]
          cases r2 with
          | zero => exact h2
          | succ s =>
            rw [List.getD_cons_succ]
            exact h3 s (by omega)
        · rw [List.getD_cons_succ]
          cases r2 with
          | zero => exact le_of_lt h2
          | succ s =>
            rw [List.getD_cons_succ]
            exact h4 s (by simpa using hr2)
    · rw [if_neg he]
      rcases ih (k + 1) b0 m0 with ⟨h1, h2⟩ | ⟨r, hr, h1, h2, h3, h4⟩
      · left
        refine ⟨h1, fun r2 hr2 => ?_⟩
        cases r2 with
        | zero => exact not_lt.mp he
        | succ s =>
          rw [List.getD_cons_succ]
          exact h2 s (by simpa using hr2)
      · right
        refine ⟨r + 1, by simpa using hr, ?_, ?_, fun r2 hr2 => ?_, fun r2 hr2 => ?_⟩
        · rw [h1, List.getD_cons_succ]
          have : k + 1 + r + 1 = k + (r + 1) + 1 := by omega
          rw [this]
        · rw [List.getD_cons_succ]; exact h2
        · rw [List.getD_cons_succ]
          cases r2 with
          | zero =>
            have : e.length ≤ m0 := not_lt.mp he
            exact lt_of_le_of_lt this h2
          | succ s =>
            rw [List.getD_cons_succ]
            exact h3 s (by omega)
        · rw [List.getD_cons_succ]
          cases r2 with
          | zero =>
            have : e.length ≤ m0 := not_lt.mp he
            exact le_of_lt (lt_of_le_of_lt this h2)
          | succ s =>
            rw [List.getD_cons_succ]
            exact h4 s (by simpa using hr2)

/-- The best region: the first of the regions of the greatest size, when every region found has
a cell. -/
theorem bestRegion_spec (found : List (List Nat)) (hne : found ≠ [])
    (hpos : ∀ r, r < found.length → 0 < (found.getD r []).length) :
    ∃ r, r < found.length ∧ (bestRegion found).1 = ((r + 1 : Nat) : Int) ∧
      (∀ r2, r2 < r → (found.getD r2 []).length < (found.getD r []).length) ∧
      ∀ r2, r2 < found.length → (found.getD r2 []).length ≤ (found.getD r []).length := by
  have hlen : 0 < found.length := List.length_pos.mpr hne
  unfold bestRegion
  rw [List.enum]
  rcases bestRegion_scan found 0 (-1) 0 with ⟨_, h2⟩ | ⟨r, hr, h1, _, h3, h4⟩
  · have := hpos 0 hlen
    have := h2 0 hlen
    omega
  · refine ⟨r, hr, ?_, h3, h4⟩
    rw [h1]
    simp

/-- The retention keeps no cell but Floor cells: a cell that is not Floor stays as it is. -/
theorem floodRetain_frame (W H : Int) (g : List Tile) (x y : Int)
    (h : getTile W H g x y ≠ Tile.Floor) :
    getTile W H (floodRetain W H g) x y = getTile W H g x y := by
  unfold getTile at h ⊢
  split
  · rename_i hb
    rw [if_pos hb] at h
    unfold floodRetain
    dsimp only
    rw [retain_spec, if_neg (fun hc => h hc.1)]
  · rfl

/-- The retention, in terms of the regions found: when the grid has a Floor cell, the Floor
cells kept are those of the first region of the greatest size. -/
theorem floodRetain_best (W H : Int) (g : List Tile) (hg : GridOK W H g)
    (hex : ∃ x y, getTile W H g x y = Tile.Floor) :
    ∃ r s tl, r < (labelRegions W H g Tile.Floor).count ∧
      (labelRegions W H g Tile.Floor).found.getD r [] = s :: tl ∧
      (∀ c ∈ (labelRegions W H g Tile.Floor).found.getD r [], s ≤ c) ∧
      (∀ j, (floodRetain W H g).getD j Tile.Empty = Tile.Floor ↔
        (labelRegions W H g Tile.Floor).regions.getD j 0 = r + 1) ∧
      (∀ r2, r2 < r → ((labelRegions W H g Tile.Floor).found.getD r2 []).length <
        ((labelRegions W H g Tile.Floor).found.getD r []).length) ∧
      ∀ r2, r2 < (labelRegions W H g Tile.Floor).count →
        ((labelRegions W H g Tile.Floor).found.getD r2 []).length ≤
          ((labelRegions W H g Tile.Floor).found.getD r []).length := by
  have full := labelRegions_full W H g hg Tile.Floor (by decide)
  obtain ⟨x0, y0, hf0⟩ := hex
  have hb0 := inBounds_of_getTile W H g x0 y0 (by rw [hf0]; decide)
  rw [getTile_index W H g x0 y0 hb0] at hf0
  obtain ⟨r0, hr0, _⟩ := labelRegions_covers W H g hg Tile.Floor (by decide) _ hf0
  unfold floodRetain
  dsimp only
  generalize labelRegions W H g Tile.Floor = st at full hr0
  have hne : st.found ≠ [] := by
    intro h
    have := full.flen
    rw [h] at this
    simp at this
    omega
  have hpos : ∀ r, r < st.found.length → 0 < (st.found.getD r []).length := by
    intro r hr
    obtain ⟨s, tl, h1, _, _⟩ := full.fseed r (by rw [← full.flen]; exact hr)
    rw [h1]
    simp
  obtain ⟨r, hr, hb, h3, h4⟩ := bestRegion_spec st.found hne hpos
  rw [full.flen] at hr h4
  obtain ⟨s, tl, hs1, _, hs3⟩ := full.fseed r hr
  refine ⟨r, s, tl, hr, hs1, hs3, fun j => ?_, h3, h4⟩
  rw [retain_floor, hb]
  constructor
  · rintro ⟨_, h⟩
    exact_mod_cast h
  · intro h
    exact ⟨full.sound j (by rw [h]; exact Nat.succ_ne_zero r), by exact_mod_cast h⟩

/-! ## Circumcircle and super-triangle -/

theorem foldl_min_le (l : List Vec2) (f : Vec2 → ℚ) (m0 : ℚ) :
    l.foldl (fun m p => min m (f p)) m0 ≤ m0 ∧ ∀ p ∈ l, l.foldl (fun m p => min m (f p)) m0 ≤ f p := by
  induction l generalizing m0 with
  | nil => exact ⟨le_refl _, fun p hp => by simp at hp⟩
  | cons a rest ih =>
    simp only [List.foldl_cons]
    obtain ⟨h1, h2⟩ := ih (min m0 (f a))
    refine ⟨le_trans h1 (min_le_left _ _), fun p hp => ?_⟩
    simp only [List.mem_cons] at hp
    rcases hp with rfl | hp
    · exact le_trans h1 (min_le_right _ _)
    · exact h2 p hp

theorem le_foldl_max (l : List Vec2) (f : Vec2 → ℚ) (m0 : ℚ) :
    m0 ≤ l.foldl (fun m p => max m (f p)) m0 ∧ ∀ p ∈ l, f p ≤ l.foldl (fun m p => max m (f p)) m0 := by
  induction l generalizing m0 with
  | nil => exact ⟨le_refl _, fun p hp => by simp at hp⟩
  | cons a rest ih =>
    simp only [List.foldl_cons]
    obtain ⟨h1, h2⟩ := ih (max m0 (f a))
    refine ⟨le_trans (le_max_left _ _) h1, fun p hp => ?_⟩
    simp only [List.mem_cons] at hp
    rcases hp with rfl | hp
    · exact le_trans (le_max_right _ _) h1
    · exact h2 p hp

/-- The points of `triangulate` are the centres followed by the super-triangle. -/
theorem triangulate_superTriangle (pts0 : List Vec2) :
    triangulate pts0 =
      ((List.range pts0.length).foldl
        (insertPoint (pts0 ++ [(superTriangle pts0).1, (superTriangle pts0).2.1,
          (superTriangle pts0).2.2]))
        [⟨pts0.length, pts0.length + 1, pts0.length + 2, false⟩]).filter
        (fun t => !(decide (t.p1 ≥ pts0.length) || decide (t.p2 ≥ pts0.length)
          || decide (t.p3 ≥ pts0.length))) := rfl

/-! ## Loops of setTile calls -/

/-- Reading a cell after one `setTile(x, y, Floor)`. -/
theorem getTile_setTile_floor (W H : Int) (g : List Tile) (hg : GridOK W H g) (x y x2 y2 : Int) :
    getTile W H (setTile W H g x y Tile.Floor) x2 y2 =
      if x2 = x ∧ y2 = y ∧ inBounds W H x y = true ∧ inMargin W H x y = false then Tile.Floor
      else getTile W H g x2 y2 := by
  unfold setTile
  by_cases hb : inBounds W H x y = true
  · rw [if_pos hb]
    by_cases hm : inMargin W H x y = true
    · rw [if_pos ⟨rfl, hm⟩, if_neg]
      rintro ⟨_, _, _, h⟩
      rw [hm] at h
      exact Bool.noConfusion h
    · rw [if_neg (fun h => hm h.2), getTile_set W H g hg x y x2 y2 Tile.Floor hb]
      have hm2 : inMargin W H x y = false := by simpa using hm
      by_cases he : x2 = x ∧ y2 = y
      · rw [if_pos he, if_pos ⟨he.1, he.2, hb, hm2⟩]
      · rw [if_neg he, if_neg (fun h => he ⟨h.1, h.2.1⟩)]
  · rw [if_neg hb, if_neg]
    rintro ⟨_, _, h, _⟩
    exact hb h

theorem gridOK_setTile (W H : Int) (g : List Tile) (hg : GridOK W H g) (x y : Int) (t : Tile) :
    GridOK W H (setTile W H g x y t) :=
  ⟨hg.1, hg.2.1, by rw [setTile_length]; exact hg.2.2⟩

theorem setFloors_length (W H : Int) (cells : List (Int × Int)) (g : List Tile) :
    (setFloors W H cells g).length = g.length := by
  unfold setFloors
  exact foldl_length _ _ _ (fun G c => setTile_length W H G c.1 c.2 Tile.Floor)

/-- A loop of `setTile(x, y, Floor)` calls makes Floor exactly the cells of the list that lie
inside the grid and outside the 2-cell margin, and leaves every other cell as it was. -/
theorem setFloors_spec (W H : Int) (cells : List (Int × Int)) :
    ∀ (g : List Tile), GridOK W H g → ∀ x y,
      ((x, y) ∈ cells ∧ inBounds W H x y = true ∧ inMargin W H x y = false →
        getTile W H (setFloors W H cells g) x y = Tile.Floor) ∧
      (¬ ((x, y) ∈ cells ∧ inBounds W H x y = true ∧ inMargin W H x y = false) →
        getTile W H (setFloors W H cells g) x y = getTile W H g x y) := by
  induction cells with
  | nil =>
    intro g _ x y
    exact ⟨fun h => by simp at h, fun _ => rfl⟩
  | cons c rest ih =>
    intro g hg x y
    have hstep : setFloors W H (c :: rest) g
        = setFloors W H rest (setTile W H g c.1 c.2 Tile.Floor) := rfl
    rw [hstep]
    obtain ⟨h1, h2⟩ := ih (setTile W H g c.1 c.2 Tile.Floor) (gridOK_setTile W H g hg _ _ _) x y
    have hs := getTile_setTile_floor W H g hg c.1 c.2 x y
    refine ⟨fun ⟨hm, hb, hmg⟩ => ?_, fun hn => ?_⟩
    · by_cases hr : (x, y) ∈ rest
      · exact h1 ⟨hr, hb, hmg⟩
      · rw [h2 (fun h => hr h.1), hs]
        have hc : (x, y) = c := by
          simp only [List.mem_cons] at hm
          exact hm.resolve_right hr
        have hx : x = c.1 := by rw [← hc]
        have hy : y = c.2 := by rw [← hc]
        rw [if_pos ⟨hx, hy, by rw [← hx, ← hy]; exact hb, by rw [← hx, ← hy]; exact hmg⟩]
    · rw [h2 (fun h => hn ⟨by simp [h.1], h.2.1, h.2.2⟩), hs, if_neg]
      rintro ⟨hx, hy, hb, hmg⟩
      apply hn
      refine ⟨?_, by rw [hx, hy]; exact hb, by rw [hx, hy]; exact hmg⟩
      rw [hx, hy]
      simp

/-- A loop with a test in its body is the loop over the elements that pass. -/
theorem foldl_filter_cond {σ α : Type} (p : α → Bool) (F : σ → α → σ) (l : List α) (s : σ) :
    l.foldl (fun s a => if p a = true then F s a else s) s = (l.filter p).foldl F s := by
  induction l generalizing s with
  | nil => rfl
  | cons a rest ih =>
    simp only [List.foldl_cons, List.filter_cons]
    by_cases h : p a = true
    · rw [if_pos h, if_pos h, List.foldl_cons]
      exact ih _
    · rw [if_neg h, if_neg h]
      exact ih _

/-- The stamping of a circular room is a loop of `setTile(x, y, Floor)` calls over the cells of
the box around the centre that pass the ellipse test. -/
theorem stampRoom_circle (cfg : GenSettings) (g : List Tile) (r : RoomObj)
    (hs : r.shape = Shape.Circle) :
    stampRoom cfg g r =
      setFloors cfg.gridWidth cfg.gridHeight
        (((intRange (toGridY cfg r.y - toGridY cfg (r.w / 2))
            (toGridY cfg r.y + toGridY cfg (r.w / 2) + 1)).flatMap
          (fun y => (intRange (toGridX cfg r.x - toGridX cfg (r.w / 2))
            (toGridX cfg r.x + toGridX cfg (r.w / 2) + 1)).map (fun x => (x, y)))).filter
          (fun c => ellipseTest (toGridX cfg (r.w / 2)) (toGridY cfg (r.w / 2))
            (c.1 - toGridX cfg r.x) (c.2 - toGridY cfg r.y))) g := by
  unfold stampRoom setFloors
  have hne : ¬ r.shape = Shape.Rect := by rw [hs]; decide
  simp only [if_neg hne]
  rw [foldl_nested (fun g x y =>
    if ellipseTest (toGridX cfg (r.w / 2)) (toGridY cfg (r.w / 2)) (x - toGridX cfg r.x)
        (y - toGridY cfg r.y) = true then
      setTile cfg.gridWidth cfg.gridHeight g x y Tile.Floor
    else g)]
  exact foldl_filter_cond
    (fun c : Int × Int => ellipseTest (toGridX cfg (r.w / 2)) (toGridY cfg (r.w / 2))
      (c.1 - toGridX cfg r.x) (c.2 - toGridY cfg r.y))
    (fun g c => setTile cfg.gridWidth cfg.gridHeight g c.1 c.2 Tile.Floor) _ g

/-- Inside the ellipse with positive radii the offsets are within the radii. -/
theorem ellipse_in_box (radX radY dx dy : Int) (hx : 0 < radX) (hy : 0 < radY)
    (h : ((dx * dx : Int) : ℚ) / ((radX * radX : Int) : ℚ)
      + ((dy * dy : Int) : ℚ) / ((radY * radY : Int) : ℚ) ≤ 1) :
    -radX ≤ dx ∧ dx ≤ radX ∧ -radY ≤ dy ∧ dy ≤ radY := by
  have hxq : (0 : ℚ) < ((radX * radX : Int) : ℚ) := by exact_mod_cast Int.mul_pos hx hx
  have hyq : (0 : ℚ) < ((radY * radY : Int) : ℚ) := by exact_mod_cast Int.mul_pos hy hy
  have h1 : (0 : ℚ) ≤ ((dx * dx : Int) : ℚ) / ((radX * radX : Int) : ℚ) :=
    div_nonneg (by exact_mod_cast mul_self_nonneg dx) (le_of_lt hxq)
  have h2 : (0 : ℚ) ≤ ((dy * dy : Int) : ℚ) / ((radY * radY : Int) : ℚ) :=
    div_nonneg (by exact_mod_cast mul_self_nonneg dy) (le_of_lt hyq)
  have hdx : ((dx * dx : Int) : ℚ) ≤ ((radX * radX : Int) : ℚ) := by
    have : ((dx * dx : Int) : ℚ) / ((radX * radX : Int) : ℚ) ≤ 1 := by linarith
    rwa [div_le_one hxq] at this
  have hdy : ((dy * dy : Int) : ℚ) ≤ ((radY * radY : Int) : ℚ) := by
    have : ((dy * dy : Int) : ℚ) / ((radY * radY : Int) : ℚ) ≤ 1 := by linarith
    rwa [div_le_one hyq] at this
  have hdx2 : dx * dx ≤ radX * radX := by exact_mod_cast hdx
  have hdy2 : dy * dy ≤ radY * radY := by exact_mod_cast hdy
  refine ⟨?_, ?_, ?_, ?_⟩ <;> nlinarith

/-! ## The automata pass and the sealing margin -/

/-- The automata pass at a cell of the grid: the reference rule off the border, the old value
on it. -/
theorem runAutomataPass_at (W H : Int) (g : List Tile) (hg : GridOK W H g) (x y : Int)
    (hb : inBounds W H x y = true) :
    (Interior W H x y →
        getTile W H (runAutomataPass W H g) x y = automataReference W H g x y) ∧
      (¬ Interior W H x y →
        getTile W H (runAutomataPass W H g) x y = getTile W H g x y) := by
  obtain ⟨hx0, hx, hy0, hy⟩ := (inBounds_iff W H x y).mp hb
  have hc := runAutomataPass_cells W H g hg (y * W + x).toNat
  rw [getTile_index W H (runAutomataPass W H g) x y hb, getTile_index W H g x y hb]
  refine ⟨fun hi => ?_, fun hni => ?_⟩
  · rw [hc.1 ⟨(x, y), hi, rfl⟩, coordOf_index W hg.1 x y hx0 hx hy0]
  · apply hc.2
    rintro ⟨c, hci, hidx⟩
    obtain ⟨h1, h2, h3, h4⟩ := hci
    have := index_inj W hg.1 c.1 c.2 x y (by omega) (by omega) (by omega) hx0 hx hy0 hidx
    exact hni (by rw [← this.1, ← this.2]; exact ⟨h1, h2, h3, h4⟩)

/-- Five Moore neighbours that are not Floor make the counter `n` exceed 4. -/
theorem countNonFloor_of_five (W H : Int) (g : List Tile) (x y : Int) (sub : List (Int × Int))
    (hsub : sub.Sublist mooreOffsets) (hlen : sub.length = 5)
    (h : ∀ o ∈ sub, getTile W H g (x + o.1) (y + o.2) ≠ Tile.Floor) :
    4 < countNonFloor W H g x y := by
  unfold countNonFloor
  have h1 := (hsub.filter
    (fun o => decide (getTile W H g (x + o.1) (y + o.2) ≠ Tile.Floor))).length_le
  have h2 : sub.filter (fun o => decide (getTile W H g (x + o.1) (y + o.2) ≠ Tile.Floor)) = sub :=
    List.filter_eq_self.mpr (fun o ho => by simpa using h o ho)
  rw [h2, hlen] at h1
  omega

theorem inMargin_iff (W H x y : Int) :
    inMargin W H x y = true ↔ x ≤ 1 ∨ x ≥ W - 2 ∨ y ≤ 1 ∨ y ≥ H - 2 := by
  simp only [inMargin, Bool.or_eq_true, decide_eq_true_eq]
  tauto

/-- A cell of the margin of a sealed grid has more than 4 neighbours that are not Floor. -/
theorem margin_count (W H : Int) (g : List Tile) (hseal : Sealed W H g) (x y : Int)
    (hm : inMargin W H x y = true) : 4 < countNonFloor W H g x y := by
  have hnb : ∀ a b : Int, inMargin W H (x + a) (y + b) = true →
      getTile W H g (x + a) (y + b) ≠ Tile.Floor := fun a b h => hseal _ _ h
  rcases (inMargin_iff W H x y).mp hm with hc | hc | hc | hc
  · apply countNonFloor_of_five W H g x y [(-1, -1), (0, -1), (-1, 0), (-1, 1), (0, 1)]
      (by decide) rfl
    intro o ho
    apply hnb
    rw [inMargin_iff]
    simp only [List.mem_cons, List.mem_singleton, List.not_mem_nil, or_false] at ho
    rcases ho with rfl | rfl | rfl | rfl | rfl <;> left <;> dsimp only <;> omega
  · apply countNonFloor_of_five W H g x y [(0, -1), (1, -1), (1, 0), (0, 1), (1, 1)]
      (by decide) rfl
    intro o ho
    apply hnb
    rw [inMargin_iff]
    simp only [List.mem_cons, List.mem_singleton, List.not_mem_nil, or_false] at ho
    rcases ho with rfl | rfl | rfl | rfl | rfl <;> right <;> left <;> dsimp only <;> omega
  · apply countNonFloor_of_five W H g x y [(-1, -1), (0, -1), (1, -1), (-1, 0), (1, 0)]
      (by decide) rfl
    intro o ho
    apply hnb
    rw [inMargin_iff]
    simp only [List.mem_cons, List.mem_singleton, List.not_mem_nil, or_false] at ho
    rcases ho with rfl | rfl | rfl | rfl | rfl <;> right <;> right <;> left <;>
      dsimp only <;> omega
  · apply countNonFloor_of_five W H g x y [(-1, 0), (1, 0), (-1, 1), (0, 1), (1, 1)]
      (by decide) rfl
    intro o ho
    apply hnb
    rw [inMargin_iff]
    simp only [List.mem_cons, List.mem_singleton, List.not_mem_nil, or_false] at ho
    rcases ho with rfl | rfl | rfl | rfl | rfl <;> right <;> right <;> right <;>
      dsimp only <;> omega

theorem automata_keeps_sealed (W H : Int) (g : List Tile) (hg : GridOK W H g)
    (hseal : Sealed W H g) : Sealed W H (runAutomataPass W H g) := by
  intro x y hm
  by_cases hb : inBounds W H x y = true
  · obtain ⟨h1, h2⟩ := runAutomataPass_at W H g hg x y hb
    by_cases hi : Interior W H x y
    · rw [h1 hi]
      unfold automataReference
      rw [if_pos (margin_count W H g hseal x y hm)]
      decide
    · rw [h2 hi]
      exact hseal x y hm
  · unfold getTile
    rw [if_neg hb]
    decide

/-! ## Tile lists -/

/-- The list that `rebuildTileLists` builds for the kind `t`: the cells of the kind `t` in
row-major order. -/
theorem tileList_eq (W H : Int) (g : List Tile) (t : Tile) :
    tileList W H g t =
      ((rowMajor W H).filter (fun c => decide (getTile W H g c.1 c.2 = t))).map
        (fun c => (⟨c.1, c.2⟩ : Point)) := by
  unfold tileList rowMajor
  rw [foldl_nested (fun (acc : List Point) (x y : Int) =>
    if getTile W H g x y = t then acc ++ [(⟨x, y⟩ : Point)] else acc)]
  rw [foldl_collect (fun c : Int × Int => getTile W H g c.1 c.2 = t)
    (fun c => (⟨c.1, c.2⟩ : Point))]
  simp

theorem mem_rowMajor (W H : Int) (c : Int × Int) :
    c ∈ rowMajor W H ↔ inBounds W H c.1 c.2 = true := by
  unfold rowMajor
  rw [inBounds_iff]
  simp only [List.mem_flatMap, List.mem_map, mem_intRange]
  constructor
  · rintro ⟨y, hy, x, hx, rfl⟩
    exact ⟨hx.1, hx.2, hy.1, hy.2⟩
  · rintro ⟨h1, h2, h3, h4⟩
    exact ⟨c.2, ⟨h3, h4⟩, c.1, ⟨h1, h2⟩, rfl⟩

theorem mem_tileList (W H : Int) (g : List Tile) (t : Tile) (p : Point) :
    p ∈ tileList W H g t ↔ inBounds W H p.x p.y = true ∧ getTile W H g p.x p.y = t := by
  rw [tileList_eq, List.mem_map]
  constructor
  · rintro ⟨c, hc, rfl⟩
    rw [List.mem_filter, mem_rowMajor] at hc
    exact ⟨hc.1, by simpa using hc.2⟩
  · rintro ⟨hb, ht⟩
    refine ⟨(p.x, p.y), ?_, rfl⟩
    rw [List.mem_filter, mem_rowMajor]
    exact ⟨hb, by simpa using ht⟩

/-! ## Walkers: spawning, carving and death -/

theorem spawnWalkers_spec (pts : List Point) (hne : pts ≠ []) (n : Nat) :
    ∀ (g : Rng) (acc : List WalkerAgent),
      (spawnWalkers pts n g acc).1.length = acc.length + n ∧
        ∀ w ∈ (spawnWalkers pts n g acc).1,
          w ∈ acc ∨ ((⟨w.x, w.y⟩ : Point) ∈ pts ∧ 30 ≤ w.life ∧ w.life ≤ 100) := by
  have hlen : 0 < pts.length := List.length_pos.mpr hne
  induction n with
  | zero =>
    intro g acc
    exact ⟨rfl, fun w hw => Or.inl hw⟩
  | succ n ih =>
    intro g acc
    simp only [spawnWalkers]
    obtain ⟨h1, h2⟩ := ih (uniformInt (uniformInt g 0 ((pts.length : Int) - 1)).2 30 100).2
      (acc ++ [⟨(pts.getD (uniformInt g 0 ((pts.length : Int) - 1)).1.toNat ⟨0, 0⟩).x,
        (pts.getD (uniformInt g 0 ((pts.length : Int) - 1)).1.toNat ⟨0, 0⟩).y,
        (uniformInt (uniformInt g 0 ((pts.length : Int) - 1)).2 30 100).1⟩])
    refine ⟨?_, fun w hw => ?_⟩
    · rw [h1, List.length_append, List.length_singleton]
      omega
    · rcases h2 w hw with h | h
      · rw [List.mem_append, List.mem_singleton] at h
        rcases h with h | h
        · exact Or.inl h
        · right
          have hr := uniformInt_range g 0 ((pts.length : Int) - 1) (by omega)
          have hl := uniformInt_range (uniformInt g 0 ((pts.length : Int) - 1)).2 30 100
            (by decide)
          have hidx : (uniformInt g 0 ((pts.length : Int) - 1)).1.toNat < pts.length := by
            omega
          rw [h]
          refine ⟨?_, hl.1, hl.2⟩
          dsimp only
          rw [List.getD_eq_getElem _ _ hidx]
          exact List.getElem_mem hidx
      · exact Or.inr h

/-- The Raster step, when no walker exists before it. -/
theorem step_raster_spawn (lib : Lib) (s : DungeonBuilder) (hp : s.phase = Phase.Raster)
    (hw : s.walkers = []) :
    (step lib s).grid = (rasterizeBase s).grid ∧ (step lib s).cfg = s.cfg ∧
      (step lib s).floors = tileList s.cfg.gridWidth s.cfg.gridHeight (rasterizeBase s).grid
        Tile.Floor ∧
      ((step lib s).floors = [] → (step lib s).walkers = []) ∧
      ((step lib s).floors ≠ [] →
        (step lib s).walkers.length = s.cfg.walkerCount.toNat ∧
          ∀ w ∈ (step lib s).walkers,
            (⟨w.x, w.y⟩ : Point) ∈ (step lib s).floors ∧ 30 ≤ w.life ∧ w.life ≤ 100) := by
  have hcfg : (rasterizeBase s).cfg = s.cfg := rfl
  have hwk : (rebuildTileLists (rasterizeBase s)).walkers = [] := hw
  have hfl : (rebuildTileLists (rasterizeBase s)).floors
      = tileList s.cfg.gridWidth s.cfg.gridHeight (rasterizeBase s).grid Tile.Floor := rfl
  simp only [step, hp]
  by_cases he : (rebuildTileLists (rasterizeBase s)).floors = []
  · have he2 : (rebuildTileLists (rasterizeBase s)).floors.isEmpty = true := by
      rw [he]; rfl
    rw [if_pos he2]
    exact ⟨rfl, rfl, hfl, fun _ => hwk, fun h => absurd he h⟩
  · have he2 : ¬ (rebuildTileLists (rasterizeBase s)).floors.isEmpty = true := by
      rw [List.isEmpty_iff]; exact he
    rw [if_neg he2]
    refine ⟨rfl, rfl, hfl, fun h => absurd h he, fun _ => ?_⟩
    dsimp only
    have hsp := spawnWalkers_spec (rebuildTileLists (rasterizeBase s)).floors he
      (rebuildTileLists (rasterizeBase s)).cfg.walkerCount.toNat
      (rebuildTileLists (rasterizeBase s)).rng (rebuildTileLists (rasterizeBase s)).walkers
    rw [hwk] at hsp ⊢
    refine ⟨?_, fun w hw2 => ?_⟩
    · have h1 := hsp.1
      simp only [List.length_nil, Nat.zero_add] at h1
      exact h1
    · rcases hsp.2 w hw2 with h | h
      · simp at h
      · exact h

theorem setTile_floor_mono (W H : Int) (g : List Tile) (x y : Int) (j : Nat)
    (h : g.getD j Tile.Empty = Tile.Floor) :
    (setTile W H g x y Tile.Floor).getD j Tile.Empty = Tile.Floor := by
  unfold setTile
  split
  · split
    · exact h
    · rw [getD_set]
      split
      · rfl
      · exact h
  · exact h

theorem walkerStep_floor_mono (cfg : GenSettings) (rooms : List RoomObj) (mainIdx : List Nat)
    (g : List Tile) (rng : Rng) (w : WalkerAgent) (j : Nat)
    (h : g.getD j Tile.Empty = Tile.Floor) :
    (walkerStep cfg rooms mainIdx g rng w).2.1.getD j Tile.Empty = Tile.Floor := by
  unfold walkerStep
  split
  · exact h
  · dsimp only
    split
    · exact h
    · split
      · exact h
      · exact setTile_floor_mono _ _ _ _ _ _ h

theorem walkersLoop_floor_mono (cfg : GenSettings) (rooms : List RoomObj) (mainIdx : List Nat)
    (ws : List WalkerAgent) :
    ∀ (g : List Tile) (rng : Rng) (j : Nat), g.getD j Tile.Empty = Tile.Floor →
      (walkersLoop cfg rooms mainIdx ws g rng).2.1.getD j Tile.Empty = Tile.Floor := by
  induction ws with
  | nil => intro g rng j h; exact h
  | cons w rest ih =>
    intro g rng j h
    simp only [walkersLoop]
    exact ih _ _ j (walkerStep_floor_mono cfg rooms mainIdx g rng w j h)

/-- The walker that the loop body returns, when it is still alive: it has moved to a cell off
the outermost border that is in no sanctuary. -/
theorem walkerStep_alive (cfg : GenSettings) (rooms : List RoomObj) (mainIdx : List Nat)
    (g : List Tile) (rng : Rng) (w : WalkerAgent)
    (h : 0 < (walkerStep cfg rooms mainIdx g rng w).1.life) :
    Interior cfg.gridWidth cfg.gridHeight (walkerStep cfg rooms mainIdx g rng w).1.x
        (walkerStep cfg rooms mainIdx g rng w).1.y ∧
      inSanctuary cfg rooms mainIdx (walkerStep cfg rooms mainIdx g rng w).1.x
        (walkerStep cfg rooms mainIdx g rng w).1.y = false := by
  unfold walkerStep at h ⊢
  by_cases h0 : w.life ≤ 0
  · rw [if_pos h0] at h
    exact absurd h (by dsimp only; omega)
  · rw [if_neg h0] at h ⊢
    dsimp only at h ⊢
    by_cases hout : (moveWalker w (uniformInt rng 0 3).1).x < 1 ∨
        (moveWalker w (uniformInt rng 0 3).1).x ≥ cfg.gridWidth - 1 ∨
        (moveWalker w (uniformInt rng 0 3).1).y < 1 ∨
        (moveWalker w (uniformInt rng 0 3).1).y ≥ cfg.gridHeight - 1
    · rw [if_pos hout] at h
      exact absurd h (lt_irrefl 0)
    · rw [if_neg hout] at h ⊢
      by_cases hs : inSanctuary cfg rooms mainIdx (moveWalker w (uniformInt rng 0 3).1).x
          (moveWalker w (uniformInt rng 0 3).1).y = true
      · rw [if_pos hs] at h
        exact absurd h (lt_irrefl 0)
      · rw [if_neg hs]
        dsimp only
        refine ⟨?_, by simpa using hs⟩
        unfold Interior
        omega

theorem walkersLoop_alive (cfg : GenSettings) (rooms : List RoomObj) (mainIdx : List Nat)
    (ws : List WalkerAgent) :
    ∀ (g : List Tile) (rng : Rng), ∀ w ∈ (walkersLoop cfg rooms mainIdx ws g rng).1,
      0 < w.life →
        Interior cfg.gridWidth cfg.gridHeight w.x w.y ∧
          inSanctuary cfg rooms mainIdx w.x w.y = false := by
  induction ws with
  | nil => intro g rng w hw; simp [walkersLoop] at hw
  | cons a rest ih =>
    intro g rng w hw hl
    simp only [walkersLoop, List.mem_cons] at hw
    rcases hw with rfl | hw
    · exact walkerStep_alive cfg rooms mainIdx g rng a hl
    · exact ih _ _ w hw hl

/-- The loop body for a living walker whose move stays off the outermost border and outside
every sanctuary: the walker moves and `setTile(x, y, Floor)` is called at its new cell. -/
theorem walkerStep_carves (cfg : GenSettings) (rooms : List RoomObj) (mainIdx : List Nat)
    (g : List Tile) (rng : Rng) (w : WalkerAgent) (hl : 0 < w.life)
    (hin : Interior cfg.gridWidth cfg.gridHeight (moveWalker w (uniformInt rng 0 3).1).x
      (moveWalker w (uniformInt rng 0 3).1).y)
    (hs : inSanctuary cfg rooms mainIdx (moveWalker w (uniformInt rng 0 3).1).x
      (moveWalker w (uniformInt rng 0 3).1).y = false) :
    (walkerStep cfg rooms mainIdx g rng w).1 = moveWalker w (uniformInt rng 0 3).1 ∧
      (walkerStep cfg rooms mainIdx g rng w).2.1 =
        setTile cfg.gridWidth cfg.gridHeight g (moveWalker w (uniformInt rng 0 3).1).x
          (moveWalker w (uniformInt rng 0 3).1).y Tile.Floor := by
  unfold walkerStep
  rw [if_neg (by omega)]
  dsimp only
  unfold Interior at hin
  rw [if_neg (by omega), if_neg (by rw [hs]; decide)]
  exact ⟨rfl, rfl⟩

/-- The position of the walker that the loop body returns is its new position. -/
theorem walkerStep_pos (cfg : GenSettings) (rooms : List RoomObj) (mainIdx : List Nat)
    (g : List Tile) (rng : Rng) (w : WalkerAgent) (hl : 0 < w.life) :
    (walkerStep cfg rooms mainIdx g rng w).1.x = (moveWalker w (uniformInt rng 0 3).1).x ∧
      (walkerStep cfg rooms mainIdx g rng w).1.y = (moveWalker w (uniformInt rng 0 3).1).y := by
  unfold walkerStep
  rw [if_neg (by omega)]
  dsimp only
  split
  · exact ⟨rfl, rfl⟩
  · split
    · exact ⟨rfl, rfl⟩
    · exact ⟨rfl, rfl⟩

theorem walkerStep_margin (cfg : GenSettings) (rooms : List RoomObj) (mainIdx : List Nat)
    (g : List Tile) (hg : GridOK cfg.gridWidth cfg.gridHeight g) (rng : Rng) (w : WalkerAgent)
    (x y : Int) (hm : inMargin cfg.gridWidth cfg.gridHeight x y = true) :
    getTile cfg.gridWidth cfg.gridHeight (walkerStep cfg rooms mainIdx g rng w).2.1 x y =
      getTile cfg.gridWidth cfg.gridHeight g x y := by
  unfold walkerStep
  split
  · rfl
  · dsimp only
    split
    · rfl
    · split
      · rfl
      · dsimp only
        rw [getTile_setTile_floor _ _ g hg, if_neg]
        rintro ⟨rfl, rfl, _, h⟩
        rw [hm] at h
        exact Bool.noConfusion h

theorem walkerStep_gridOK (cfg : GenSettings) (rooms : List RoomObj) (mainIdx : List Nat)
    (g : List Tile) (hg : GridOK cfg.gridWidth cfg.gridHeight g) (rng : Rng) (w : WalkerAgent) :
    GridOK cfg.gridWidth cfg.gridHeight (walkerStep cfg rooms mainIdx g rng w).2.1 :=
  ⟨hg.1, hg.2.1, by rw [walkerStep_length]; exact hg.2.2⟩

theorem walkersLoop_margin (cfg : GenSettings) (rooms : List RoomObj) (mainIdx : List Nat)
    (ws : List WalkerAgent) :
    ∀ (g : List Tile) (rng : Rng), GridOK cfg.gridWidth cfg.gridHeight g → ∀ x y,
      inMargin cfg.gridWidth cfg.gridHeight x y = true →
      getTile cfg.gridWidth cfg.gridHeight (walkersLoop cfg rooms mainIdx ws g rng).2.1 x y =
        getTile cfg.gridWidth cfg.gridHeight g x y := by
  induction ws with
  | nil => intro g rng _ x y _; rfl
  | cons w rest ih =>
    intro g rng hg x y hm
    simp only [walkersLoop]
    rw [ih _ _ (walkerStep_gridOK cfg rooms mainIdx g hg rng w) x y hm]
    exact walkerStep_margin cfg rooms mainIdx g hg rng w x y hm

theorem getTile_floor_mono (W H : Int) (g G : List Tile)
    (h : ∀ j, g.getD j Tile.Empty = Tile.Floor → G.getD j Tile.Empty = Tile.Floor) (x y : Int)
    (hf : getTile W H g x y = Tile.Floor) : getTile W H G x y = Tile.Floor := by
  unfold getTile at hf ⊢
  split
  · rename_i hb
    rw [if_pos hb] at hf
    exact h _ hf
  · rename_i hb
    rw [if_neg hb] at hf
    exact absurd hf (by decide)

/-- The walker at position `i` of the list, if it is alive and the cell it arrives at is off the
outermost border, in no sanctuary and outside the 2-cell margin: the cell is Floor after the
loop. -/
theorem walkersLoop_carves (cfg : GenSettings) (rooms : List RoomObj) (mainIdx : List Nat)
    (ws : List WalkerAgent) :
    ∀ (g : List Tile) (rng : Rng), GridOK cfg.gridWidth cfg.gridHeight g →
      ∀ (i : Nat) (w m : WalkerAgent), ws[i]? = some w →
        (walkersLoop cfg rooms mainIdx ws g rng).1[i]? = some m → 0 < w.life →
        Interior cfg.gridWidth cfg.gridHeight m.x m.y →
        inSanctuary cfg rooms mainIdx m.x m.y = false →
        inMargin cfg.gridWidth cfg.gridHeight m.x m.y = false →
        getTile cfg.gridWidth cfg.gridHeight (walkersLoop cfg rooms mainIdx ws g rng).2.1 m.x m.y
          = Tile.Floor := by
  induction ws with
  | nil => intro g rng _ i w m hw; simp at hw
  | cons a rest ih =>
    intro g rng hg i w m hw hm hl hin hs hmg
    simp only [walkersLoop] at hm ⊢
    cases i with
    | zero =>
      simp only [List.getElem?_cons_zero, Option.some.injEq] at hw hm
      subst hw
      have hpos := walkerStep_pos cfg rooms mainIdx g rng a hl
      rw [hm] at hpos
      rw [hpos.1, hpos.2] at hin hs hmg
      have hc := walkerStep_carves cfg rooms mainIdx g rng a hl hin hs
      apply getTile_floor_mono _ _ (walkerStep cfg rooms mainIdx g rng a).2.1 _
        (fun j hj => walkersLoop_floor_mono cfg rooms mainIdx rest _ _ j hj)
      rw [hc.2, hpos.1, hpos.2, getTile_setTile_floor _ _ g hg,
        if_pos ⟨rfl, rfl, interior_inBounds _ _ _ _ hin, hmg⟩]
    | succ i =>
      simp only [List.getElem?_cons_succ] at hw hm
      exact ih _ _ (walkerStep_gridOK cfg rooms mainIdx g hg rng a) i w m hw hm hl hin hs hmg

/-- The walker at position `i` after the loop comes from the walker at position `i` before it,
and is alive only if that one was. -/
theorem walkersLoop_index (cfg : GenSettings) (rooms : List RoomObj) (mainIdx : List Nat)
    (ws : List WalkerAgent) :
    ∀ (g : List Tile) (rng : Rng) (m : WalkerAgent),
      m ∈ (walkersLoop cfg rooms mainIdx ws g rng).1 → 0 < m.life →
      ∃ (i : Nat) (u : WalkerAgent), ws[i]? = some u ∧
        (walkersLoop cfg rooms mainIdx ws g rng).1[i]? = some m ∧ 0 < u.life := by
  induction ws with
  | nil => intro g rng m hm; simp [walkersLoop] at hm
  | cons a rest ih =>
    intro g rng m hm hl
    simp only [walkersLoop, List.mem_cons] at hm
    rcases hm with rfl | hm
    · refine ⟨0, a, List.getElem?_cons_zero, ?_, ?_⟩
      · simp only [walkersLoop]
        exact List.getElem?_cons_zero
      by_contra h0
      unfold walkerStep at hl
      rw [if_pos (by omega)] at hl
      exact h0 hl
    · obtain ⟨i, u, h1, h2, h3⟩ := ih _ _ m hm hl
      refine ⟨i + 1, u, ?_, ?_, h3⟩
      · rw [List.getElem?_cons_succ]; exact h1
      · simp only [walkersLoop]
        rw [List.getElem?_cons_succ]; exact h2

/-! ## The tile lists follow the grid -/

theorem intRange_eq (lo hi : Int) :
    intRange lo hi = (List.range (hi - lo).toNat).map (fun k : Nat => lo + (k : Int)) := by
  unfold intRange
  simp only [List.map_flatMap, List.bind_eq_flatMap, List.pure_def, List.map_cons, List.map_nil]
  induction List.range (hi - lo).toNat with
  | nil => rfl
  | cons a rest ih => simp only [List.flatMap_cons, List.map_cons, ih]; rfl

theorem intRange_nodup (lo hi : Int) : (intRange lo hi).Nodup := by
  rw [intRange_eq]
  apply List.Nodup.map _ (List.nodup_range _)
  intro a b h
  simpa using h

theorem rowMajor_nodup (W H : Int) : (rowMajor W H).Nodup := by
  unfold rowMajor
  rw [List.nodup_flatMap]
  refine ⟨fun y _ => ?_, ?_⟩
  · apply List.Nodup.map _ (intRange_nodup 0 W)
    intro a b h
    exact (Prod.mk.inj h).1
  · apply List.Pairwise.imp_of_mem _ (intRange_nodup 0 H)
    intro a b _ _ hab
    intro l h1 h2
    simp only [List.mem_map] at h1 h2
    obtain ⟨_, _, rfl⟩ := h1
    obtain ⟨_, _, h⟩ := h2
    exact hab (Prod.mk.inj h).2.symm

theorem tileList_nodup (W H : Int) (g : List Tile) (t : Tile) : (tileList W H g t).Nodup := by
  rw [tileList_eq]
  apply List.Nodup.map _ ((rowMajor_nodup W H).filter _)
  intro a b h
  have h1 : a.1 = b.1 := congrArg Point.x h
  have h2 : a.2 = b.2 := congrArg Point.y h
  exact Prod.ext h1 h2

theorem getTile_replicate_empty (W H : Int) (n : Nat) (x y : Int) :
    getTile W H (List.replicate n Tile.Empty) x y = Tile.Empty := by
  unfold getTile
  split
  · rw [List.getD_eq_getElem?_getD, List.getElem?_replicate]
    split <;> rfl
  · rfl

theorem tileList_replicate_empty (W H : Int) (n : Nat) (t : Tile) (ht : t ≠ Tile.Empty) :
    tileList W H (List.replicate n Tile.Empty) t = [] := by
  apply List.eq_nil_iff_forall_not_mem.mpr
  intro p hp
  have := ((mem_tileList W H _ t p).mp hp).2
  rw [getTile_replicate_empty] at this
  exact ht this.symm

theorem tileSync_init (lib : Lib) (entropy : Nat) (cfg : GenSettings) (old s : DungeonBuilder)
    (h : init lib entropy cfg old = some s) : TileSync s := by
  obtain ⟨_, _, _, _, hgrid, _, hf, hw⟩ := init_phase lib entropy cfg old s h
  unfold TileSync
  rw [hf, hw, hgrid, tileList_replicate_empty _ _ _ _ (by decide),
    tileList_replicate_empty _ _ _ _ (by decide)]
  exact ⟨rfl, rfl⟩

theorem updatePhysics_lists (lib : Lib) (s : DungeonBuilder) :
    (updatePhysics lib s).floors = s.floors ∧ (updatePhysics lib s).walls = s.walls := by
  unfold updatePhysics
  dsimp only
  split <;> exact ⟨rfl, rfl⟩

theorem computeGraph_lists (lib : Lib) (s : DungeonBuilder) :
    (computeGraph lib s).floors = s.floors ∧ (computeGraph lib s).walls = s.walls := by
  unfold computeGraph
  dsimp only
  split <;> exact ⟨rfl, rfl⟩

theorem tileSync_rebuild (s : DungeonBuilder) : TileSync (rebuildTileLists s) := ⟨rfl, rfl⟩

theorem tileSync_step (lib : Lib) (s : DungeonBuilder) (h : TileSync s) :
    TileSync (step lib s) := by
  cases hp : s.phase with
  | Physics =>
    rw [step_of_physics lib s hp]
    obtain ⟨_, _, hg, hc, _, _⟩ := updatePhysics_frame lib s
    obtain ⟨hf, hw⟩ := updatePhysics_lists lib s
    unfold TileSync
    rw [hf, hw, hg, hc]
    exact h
  | Graph =>
    rw [step_of_graph lib s hp]
    obtain ⟨_, hg, hc, _, _, _⟩ := computeGraph_frame lib s
    obtain ⟨hf, hw⟩ := computeGraph_lists lib s
    unfold TileSync
    dsimp only
    rw [hf, hw, hg, hc]
    exact h
  | Raster =>
    simp only [step, hp]
    split
    · exact tileSync_rebuild (rasterizeBase s)
    · exact tileSync_rebuild (rasterizeBase s)
  | Walkers =>
    simp only [step, hp]
    split
    · exact tileSync_rebuild (updateWalkers s)
    · exact tileSync_rebuild (updateWalkers s)
  | Automata =>
    simp only [step, hp]
    split
    · exact tileSync_rebuild _
    · exact tileSync_rebuild _
  | Complete =>
    rw [step_of_complete lib s hp]
    exact h

theorem tileSync_run (lib : Lib) (entropy : Nat) (cfg : GenSettings) (old s0 : DungeonBuilder)
    (h : init lib entropy cfg old = some s0) (n : Nat) : TileSync (runSteps lib n s0) := by
  induction n with
  | zero => exact tileSync_init lib entropy cfg old s0 h
  | succ n ih => rw [runSteps_succ_last]; exact tileSync_step lib _ ih

/-! ## Not every room is main -/

theorem sum_gt_of_all_gt (l : List RoomObj) (c : ℚ) (hne : l ≠ [])
    (h : ∀ r ∈ l, c < r.w) : c * (l.length : ℚ) < (l.map (fun r => r.w)).sum := by
  induction l with
  | nil => exact absurd rfl hne
  | cons a rest ih =>
    simp only [List.map_cons, List.sum_cons, List.length_cons]
    have ha := h a (by simp)
    by_cases hr : rest = []
    · subst hr
      simp only [List.length_nil, List.map_nil, List.sum_nil]
      push_cast
      linarith
    · have := ih hr (fun r hr2 => h r (by simp [hr2]))
      push_cast
      linarith

theorem sum_pos_of_all_pos (l : List RoomObj) (hne : l ≠ []) (h : ∀ r ∈ l, 0 < r.w) :
    0 < (l.map (fun r => r.w)).sum := by
  have := sum_gt_of_all_gt l 0 hne h
  linarith

/-- Some room is not wider than 1.3 times the mean width. -/
theorem exists_not_main (rooms : List RoomObj) (hne : rooms ≠ [])
    (hpos : ∀ r ∈ rooms, 0 < r.w) :
    ∃ r ∈ rooms, ¬ (r.w > meanWidth rooms * (13 / 10)) := by
  by_contra hcon
  push_neg at hcon
  have hsum := sum_pos_of_all_pos rooms hne hpos
  have hlen : (0 : ℚ) < (rooms.length : ℚ) := by
    exact_mod_cast List.length_pos.mpr hne
  have h1 := sum_gt_of_all_gt rooms (meanWidth rooms * (13 / 10)) hne hcon
  unfold meanWidth at h1
  have h2 : (rooms.map (fun r => r.w)).sum / (rooms.length : ℚ) * (13 / 10) * (rooms.length : ℚ)
      = (rooms.map (fun r => r.w)).sum * (13 / 10) := by
    field_simp
    ring
  rw [h2] at h1
  linarith

theorem forces_length (lib : Lib) (all : List RoomObj) (rest : List RoomObj) :
    ∀ i, (forces lib all i rest).length = rest.length := by
  induction rest with
  | nil => intro i; rfl
  | cons a r ih => intro i; simp only [forces, List.length_cons, ih]

/-- The rooms after the acceleration and the integration: as many as before, each with the width
and the flag `isMain` of the room it comes from. -/
theorem moved_rooms (rooms : List RoomObj) (fs : List (ℚ × ℚ)) (hlen : fs.length = rooms.length) :
    ((List.zipWith accelerate rooms fs).map integrate).length = rooms.length ∧
      ((List.zipWith accelerate rooms fs).map integrate).map (fun r => r.w)
        = rooms.map (fun r => r.w) ∧
      ((List.zipWith accelerate rooms fs).map integrate).map (fun r => r.isMain)
        = rooms.map (fun r => r.isMain) := by
  induction rooms generalizing fs with
  | nil => simp
  | cons a rest ih =>
    cases fs with
    | nil => simp at hlen
    | cons f fr =>
      simp only [List.length_cons, add_left_inj] at hlen
      obtain ⟨h1, h2, h3⟩ := ih fr hlen
      simp only [List.zipWith_cons_cons, List.map_cons, List.length_cons, h1, h2, h3]
      exact ⟨trivial, by simp [integrate, accelerate], by simp [integrate, accelerate]⟩

theorem collectMain_length (rooms : List RoomObj) :
    ∀ i, (collectMain i rooms).length = (rooms.filter (fun r => r.isMain)).length := by
  induction rooms with
  | nil => intro i; rfl
  | cons a rest ih =>
    intro i
    simp only [collectMain, List.filter_cons]
    split
    · simp only [List.length_cons, ih]
    · exact ih _

theorem forall_of_map_eq {β : Type} (f : RoomObj → β) (P : β → Prop) (l1 l2 : List RoomObj)
    (h : l1.map f = l2.map f) (hp : ∀ r ∈ l2, P (f r)) : ∀ r ∈ l1, P (f r) := by
  intro r hr
  have : f r ∈ l1.map f := List.mem_map_of_mem f hr
  rw [h] at this
  obtain ⟨r2, hr2, he⟩ := List.mem_map.mp this
  rw [← he]
  exact hp r2 hr2

theorem updatePhysics_rooms (lib : Lib) (s : DungeonBuilder) :
    (updatePhysics lib s).rooms.length = s.rooms.length ∧
      (updatePhysics lib s).rooms.map (fun r => r.w) = s.rooms.map (fun r => r.w) ∧
      (((updatePhysics lib s).phase = s.phase ∧
          (updatePhysics lib s).rooms.map (fun r => r.isMain) = s.rooms.map (fun r => r.isMain)) ∨
        ((updatePhysics lib s).phase = Phase.Graph ∧
          (updatePhysics lib s).rooms.map (fun r => r.isMain) =
            (updatePhysics lib s).rooms.map
              (fun r => decide (r.w > meanWidth (updatePhysics lib s).rooms * (13 / 10))))) := by
  obtain ⟨h1, h2, h3⟩ := moved_rooms s.rooms (forces lib s.rooms 0 s.rooms)
    (forces_length lib s.rooms s.rooms 0)
  unfold updatePhysics
  dsimp only
  split
  · dsimp only
    have hw : ∀ l : List RoomObj, (l.map (fun r =>
        ({ r with isMain := decide (r.w > (l.map (fun r => r.w)).sum / (l.length : ℚ) * (13 / 10)) }
          : RoomObj))).map (fun r => r.w) = l.map (fun r => r.w) := by
      intro l
      rw [List.map_map]
      rfl
    refine ⟨by rw [List.length_map]; exact h1, by rw [hw]; exact h2, Or.inr ⟨rfl, ?_⟩⟩
    unfold meanWidth
    rw [hw]
    simp only [List.length_map, List.map_map]
    apply List.map_congr_left
    intro a _
    rfl
  · exact ⟨h1, h2, Or.inl ⟨rfl, h3⟩⟩

theorem filter_isMain_length (l : List RoomObj) :
    (l.filter (fun r => r.isMain)).length = ((l.map (fun r => r.isMain)).filter id).length := by
  rw [List.filter_map]
  simp only [List.length_map]
  rfl

theorem step_rooms_late (lib : Lib) (s : DungeonBuilder) (h : 1 ≤ s.phase.rank) :
    (step lib s).rooms = s.rooms := by
  cases hp : s.phase with
  | Physics => rw [hp] at h; exact absurd h (by decide)
  | Graph => rw [step_of_graph lib s hp]; exact (computeGraph_frame lib s).2.2.2.2.2
  | Raster =>
    simp only [step, hp]
    split <;> rfl
  | Walkers =>
    simp only [step, hp]
    split <;> rfl
  | Automata => exact (step_of_automata lib s hp).2.2.2.1
  | Complete => rw [step_of_complete lib s hp]

theorem fewInv_step (lib : Lib) (s : DungeonBuilder) (h : FewInv s) : FewInv (step lib s) := by
  obtain ⟨hlen, hpos, hphys, hcount, hlinks⟩ := h
  cases hp : s.phase with
  | Physics =>
    rw [step_of_physics lib s hp]
    obtain ⟨h1, h2, h3⟩ := updatePhysics_rooms lib s
    have hl := (updatePhysics_frame lib s).1
    have hpos2 : ∀ r ∈ (updatePhysics lib s).rooms, 0 < r.w :=
      forall_of_map_eq (fun r => r.w) (fun w => 0 < w) _ _ h2 hpos
    refine ⟨by rw [h1]; exact hlen, hpos2, ?_, ?_, by rw [hl]; exact hlinks⟩
    · intro hph
      rcases h3 with ⟨_, h4⟩ | ⟨h4, _⟩
      · exact forall_of_map_eq (fun r => r.isMain) (fun b => b = false) _ _ h4 (hphys hp)
      · rw [h4] at hph
        exact absurd hph (by decide)
    · rcases h3 with ⟨_, h4⟩ | ⟨_, h4⟩
      · rw [filter_isMain_length, h4, ← filter_isMain_length]
        exact hcount
      · by_cases hne : (updatePhysics lib s).rooms = []
        · rw [hne]
          decide
        · obtain ⟨r, hr, hnot⟩ := exists_not_main _ hne hpos2
          have hlt : ((updatePhysics lib s).rooms.filter (fun r => r.isMain)).length
              < (updatePhysics lib s).rooms.length := by
            rw [List.length_filter_lt_length_iff_exists]
            refine ⟨r, hr, ?_⟩
            have hmem : r.isMain ∈ (updatePhysics lib s).rooms.map (fun r => r.isMain) :=
              List.mem_map_of_mem _ hr
            have hflag : ∀ q ∈ (updatePhysics lib s).rooms,
                q.isMain = decide (q.w > meanWidth (updatePhysics lib s).rooms * (13 / 10)) := by
              intro q hq
              obtain ⟨i, hi, rfl⟩ := List.getElem_of_mem hq
              have e1 := congrArg (fun l => l[i]?) h4
              simp only [List.getElem?_map, List.getElem?_eq_getElem hi, Option.map_some'] at e1
              exact Option.some.inj e1
            rw [hflag r hr]
            simpa using hnot
          omega
  | Graph =>
    rw [step_of_graph lib s hp]
    have hfew : (collectMain 0 s.rooms).length < 3 := by
      rw [collectMain_length]; exact hcount
    rw [computeGraph_few lib s hfew]
    refine ⟨hlen, hpos, ?_, hcount, hlinks⟩
    intro hph
    exact Phase.noConfusion hph
  | Raster =>
    have hr := step_rooms_late lib s (by rw [hp]; decide)
    have hl := step_links lib s (by rw [hp]; decide)
    have hph : (step lib s).phase ≠ Phase.Physics := by
      rcases step_phase lib s with h | h
      · rw [h, hp]; decide
      · rw [h.1, hp]; decide
    unfold FewInv
    rw [hr, hl]
    exact ⟨hlen, hpos, fun h => absurd h hph, hcount, hlinks⟩
  | Walkers =>
    have hr := step_rooms_late lib s (by rw [hp]; decide)
    have hl := step_links lib s (by rw [hp]; decide)
    have hph : (step lib s).phase ≠ Phase.Physics := by
      rcases step_phase lib s with h | h
      · rw [h, hp]; decide
      · rw [h.1, hp]; decide
    unfold FewInv
    rw [hr, hl]
    exact ⟨hlen, hpos, fun h => absurd h hph, hcount, hlinks⟩
  | Automata =>
    have hr := step_rooms_late lib s (by rw [hp]; decide)
    have hl := step_links lib s (by rw [hp]; decide)
    have hph : (step lib s).phase ≠ Phase.Physics := by
      rcases step_phase lib s with h | h
      · rw [h, hp]; decide
      · rw [h.1, hp]; decide
    unfold FewInv
    rw [hr, hl]
    exact ⟨hlen, hpos, fun h => absurd h hph, hcount, hlinks⟩
  | Complete =>
    rw [step_of_complete lib s hp]
    exact ⟨hlen, hpos, hphys, hcount, hlinks⟩

theorem spawnRooms_width (lib : Lib) (cfg : GenSettings) (cx cy : ℚ) (n : Nat) :
    ∀ (i : Int) (g : Rng) (acc : List RoomObj),
      ∀ r ∈ (spawnRooms lib cfg cx cy n i g acc).1, r ∈ acc ∨ (8 ≤ r.w ∧ r.isMain = false) := by
  induction n with
  | zero => intro i g acc r hr; exact Or.inl hr
  | succ n ih =>
    intro i g acc r hr
    simp only [spawnRooms] at hr
    rcases ih _ _ _ r hr with h | h
    · rw [List.mem_append, List.mem_singleton] at h
      rcases h with h | h
      · exact Or.inl h
      · right
        rw [h]
        refine ⟨?_, rfl⟩
        simp only [spawnRoom]
        split
        · have : (8 : ℚ) ≤ max 8 (normalReal lib (uniformReal lib (uniformReal lib g 0
              (62831 / 10000)).2 0 1).2 12 6).1 := le_max_left _ _
          linarith
        · exact le_max_left _ _
    · exact Or.inr h

theorem fewInv_init (lib : Lib) (entropy : Nat) (cfg : GenSettings) (old s : DungeonBuilder)
    (h : init lib entropy cfg old = some s) (hc : cfg.roomCount ≤ 3) : FewInv s := by
  obtain ⟨hph, _, hl, _, _⟩ := init_phase lib entropy cfg old s h
  unfold init at h
  split at h
  · exact absurd h (by simp)
  · have hs := Option.some.inj h
    have hrooms : s.rooms = (spawnRooms lib cfg
        (((cfg.gridWidth * cfg.tileW : Int) : ℚ) / 2) (((cfg.gridHeight * cfg.tileH : Int) : ℚ) / 2)
        cfg.roomCount.toNat 0
        ⟨lib.mt19937 (if cfg.seed = 0 then entropy else cfg.seed), 0⟩ []).1 := by
      rw [← hs]
    have hw := spawnRooms_width lib cfg
      (((cfg.gridWidth * cfg.tileW : Int) : ℚ) / 2) (((cfg.gridHeight * cfg.tileH : Int) : ℚ) / 2)
      cfg.roomCount.toNat 0 ⟨lib.mt19937 (if cfg.seed = 0 then entropy else cfg.seed), 0⟩ []
    have hlen := (spawnRooms_spec lib cfg
      (((cfg.gridWidth * cfg.tileW : Int) : ℚ) / 2) (((cfg.gridHeight * cfg.tileH : Int) : ℚ) / 2)
      cfg.roomCount.toNat 0 ⟨lib.mt19937 (if cfg.seed = 0 then entropy else cfg.seed), 0⟩ []).1
    rw [← hrooms] at hw hlen
    have hall : ∀ r ∈ s.rooms, 8 ≤ r.w ∧ r.isMain = false := by
      intro r hr
      rcases hw r hr with h | h
      · simp at h
      · exact h
    have hfil : s.rooms.filter (fun r => r.isMain) = [] := by
      apply List.filter_eq_nil_iff.mpr
      intro r hr
      rw [(hall r hr).2]
      decide
    refine ⟨?_, fun r hr => by linarith [(hall r hr).1], fun _ r hr => (hall r hr).2, ?_, hl⟩
    · rw [hlen]
      simp only [List.length_nil, Nat.zero_add]
      omega
    · rw [hfil]
      decide

theorem fewInv_run (lib : Lib) (entropy : Nat) (cfg : GenSettings) (old s0 : DungeonBuilder)
    (h : init lib entropy cfg old = some s0) (hc : cfg.roomCount ≤ 3) (n : Nat) :
    FewInv (runSteps lib n s0) := by
  induction n with
  | zero => exact fewInv_init lib entropy cfg old s0 h hc
  | succ n ih => rw [runSteps_succ_last]; exact fewInv_step lib _ ih

/-! ## The physics: quiescence -/

theorem overlap_symm (A B : RoomObj) (h : Overlap A B) : Overlap B A := by
  unfold Overlap at h ⊢
  have e1 : (B.x - A.x) * (B.x - A.x) + (B.y - A.y) * (B.y - A.y)
      = (A.x - B.x) * (A.x - B.x) + (A.y - B.y) * (A.y - B.y) := by ring
  have e2 : (B.w * (55 / 100) + A.w * (55 / 100) + 2) * (B.w * (55 / 100) + A.w * (55 / 100) + 2)
      = (A.w * (55 / 100) + B.w * (55 / 100) + 2) * (A.w * (55 / 100) + B.w * (55 / 100) + 2) := by
    ring
  rw [e1, e2]
  exact h

theorem pairForce_of_not_overlap (lib : Lib) (A B : RoomObj) (h : ¬ Overlap A B) :
    pairForce lib A B = (0, 0) := by
  unfold pairForce
  dsimp only
  exact if_neg h

theorem pairForce_lexPos (lib : Lib) (A B : RoomObj)
    (hsqrt : ∀ x m : ℚ, 0 < m → x < m * m → lib.sqrt x < m)
    (hA : 0 < A.w) (hB : 0 < B.w) (hov : Overlap A B)
    (hlex : B.x < A.x ∨ (B.x = A.x ∧ B.y ≤ A.y)) : LexPos (pairForce lib A B) := by
  have hm : 0 < A.w * (55 / 100) + B.w * (55 / 100) + 2 := by linarith
  have hd := hsqrt _ _ hm hov
  unfold pairForce
  dsimp only
  have hov2 := hov
  unfold Overlap at hov2
  rw [if_pos hov2]
  have hforce : 0 < (A.w * (55 / 100) + B.w * (55 / 100) + 2
      - lib.sqrt ((A.x - B.x) * (A.x - B.x) + (A.y - B.y) * (A.y - B.y))) * 5 := by linarith
  by_cases hs : lib.sqrt ((A.x - B.x) * (A.x - B.x) + (A.y - B.y) * (A.y - B.y)) < 1 / 10
  · rw [if_pos hs, if_pos hs]
    left
    dsimp only
    linarith
  · rw [if_neg hs, if_neg hs]
    have hdpos : 0 < lib.sqrt ((A.x - B.x) * (A.x - B.x) + (A.y - B.y) * (A.y - B.y)) := by
      linarith
    rcases hlex with hx | ⟨hx, hy⟩
    · left
      dsimp only
      exact mul_pos (div_pos (by linarith) hdpos) hforce
    · right
      dsimp only
      have hy2 : B.y < A.y := by
        rcases lt_or_eq_of_le hy with h | h
        · exact h
        · exfalso
          apply hs
          have : (A.x - B.x) * (A.x - B.x) + (A.y - B.y) * (A.y - B.y) = 0 := by
            rw [hx, h]; ring
          rw [this]
          exact hsqrt 0 (1 / 10) (by norm_num) (by norm_num)
      refine ⟨?_, mul_pos (div_pos (by linarith) hdpos) hforce⟩
      rw [hx]
      simp

theorem roomAt_cons_succ (a : RoomObj) (rest : List RoomObj) (k : Nat) :
    roomAt (a :: rest) (k + 1) = roomAt rest k := rfl

theorem roomAt_cons_zero (a : RoomObj) (rest : List RoomObj) : roomAt (a :: rest) 0 = a := rfl

theorem roomAt_mem (rooms : List RoomObj) (i : Nat) (h : i < rooms.length) :
    roomAt rooms i ∈ rooms := by
  unfold roomAt
  rw [List.getD_eq_getElem _ _ h]
  exact List.getElem_mem h

/-- Without an applicable pair force the inner loop returns its accumulator. -/
theorem netForce_zero (lib : Lib) (i : Nat) (A : RoomObj) :
    ∀ (rest : List RoomObj) (j : Nat) (f : ℚ × ℚ),
      (∀ k, k < rest.length → j + k ≠ i → pairForce lib A (roomAt rest k) = (0, 0)) →
      netForce lib i A j rest f = f := by
  intro rest
  induction rest with
  | nil => intro j f _; rfl
  | cons B rest ih =>
    intro j f h
    have hrest : ∀ k, k < rest.length → j + 1 + k ≠ i →
        pairForce lib A (roomAt rest k) = (0, 0) := by
      intro k hk hne
      have := h (k + 1) (by simp only [List.length_cons]; omega) (by omega)
      rwa [roomAt_cons_succ] at this
    simp only [netForce]
    split
    · exact ih _ _ hrest
    · rename_i hij
      have h0 := h 0 (by simp) (by omega)
      rw [roomAt_cons_zero] at h0
      rw [ih _ _ hrest, h0]
      simp

theorem lexPos_add (f g : ℚ × ℚ) (hf : LexPos f) (hg : LexPos g ∨ g = (0, 0)) :
    LexPos (f.1 + g.1, f.2 + g.2) := by
  unfold LexPos at *
  rcases hg with hg | hg
  · rcases hf with hf | ⟨hf1, hf2⟩
    · rcases hg with hg | ⟨hg1, hg2⟩
      · left; dsimp only; linarith
      · left; dsimp only; linarith
    · rcases hg with hg | ⟨hg1, hg2⟩
      · left; dsimp only; linarith
      · right; dsimp only; exact ⟨by linarith, by linarith⟩
  · rw [hg]
    simpa using hf

/-- With every applicable pair force pointing right or straight up, or zero, the inner loop
keeps such an accumulator, and makes one from a zero accumulator if some pair force is not
zero. -/
theorem netForce_lexPos (lib : Lib) (i : Nat) (A : RoomObj) :
    ∀ (rest : List RoomObj) (j : Nat) (f : ℚ × ℚ),
      (∀ k, k < rest.length → j + k ≠ i →
        LexPos (pairForce lib A (roomAt rest k)) ∨ pairForce lib A (roomAt rest k) = (0, 0)) →
      (LexPos f → LexPos (netForce lib i A j rest f)) ∧
      (f = (0, 0) → (∃ k, k < rest.length ∧ j + k ≠ i ∧ LexPos (pairForce lib A (roomAt rest k))) →
        LexPos (netForce lib i A j rest f)) := by
  intro rest
  induction rest with
  | nil =>
    intro j f _
    refine ⟨fun h => h, fun _ h => ?_⟩
    obtain ⟨k, hk, _⟩ := h
    simp at hk
  | cons B rest ih =>
    intro j f h
    have hrest : ∀ k, k < rest.length → j + 1 + k ≠ i →
        LexPos (pairForce lib A (roomAt rest k)) ∨ pairForce lib A (roomAt rest k) = (0, 0) := by
      intro k hk hne
      have := h (k + 1) (by simp only [List.length_cons]; omega) (by omega)
      rwa [roomAt_cons_succ] at this
    constructor
    · intro hf
      simp only [netForce]
      split
      · exact (ih (j + 1) f hrest).1 hf
      · rename_i hij
        have h0 := h 0 (by simp) (by omega)
        rw [roomAt_cons_zero] at h0
        exact (ih (j + 1) _ hrest).1 (lexPos_add f _ hf h0)
    · intro hf hex
      obtain ⟨k, hk, hne, hpos⟩ := hex
      simp only [netForce]
      split
      · rename_i hij
        cases k with
        | zero => exact absurd hij (by omega)
        | succ k =>
          rw [roomAt_cons_succ] at hpos
          exact (ih (j + 1) f hrest).2 hf
            ⟨k, by simp only [List.length_cons] at hk; omega, by omega, hpos⟩
      · rename_i hij
        have h0 := h 0 (by simp) (by omega)
        rw [roomAt_cons_zero] at h0
        cases k with
        | zero =>
          rw [roomAt_cons_zero] at hpos
          apply (ih (j + 1) _ hrest).1
          rw [hf]
          simpa using hpos
        | succ k =>
          rw [roomAt_cons_succ] at hpos
          rcases h0 with h0 | h0
          · apply (ih (j + 1) _ hrest).1
            rw [hf]
            simpa using h0
          · apply (ih (j + 1) _ hrest).2
            · rw [hf, h0]
              simp
            · exact ⟨k, by simp only [List.length_cons] at hk; omega, by omega, hpos⟩

theorem lexPos_ne_zero (f : ℚ × ℚ) (h : LexPos f) : f ≠ (0, 0) := by
  intro e
  rw [e] at h
  rcases h with h | ⟨_, h⟩
  · exact lt_irrefl _ h
  · exact lt_irrefl _ h

/-- The flag `active` is false iff every net force is zero. -/
theorem forces_any (lib : Lib) (all : List RoomObj) :
    ∀ (rest : List RoomObj) (i : Nat),
      ((forces lib all i rest).any (fun f => decide (f.1 ≠ 0) || decide (f.2 ≠ 0)) = false) ↔
        ∀ k, k < rest.length → netForce lib (i + k) (roomAt rest k) 0 all (0, 0) = (0, 0) := by
  intro rest
  induction rest with
  | nil =>
    intro i
    simp [forces]
  | cons A rest ih =>
    intro i
    simp only [forces, List.any_cons, Bool.or_eq_false_iff, ih (i + 1)]
    constructor
    · rintro ⟨⟨h1, h2⟩, h3⟩ k hk
      cases k with
      | zero =>
        rw [roomAt_cons_zero]
        simp only [decide_eq_false_iff_not, ne_eq, not_not] at h1 h2
        exact Prod.ext h1 h2
      | succ k =>
        rw [roomAt_cons_succ]
        have := h3 k (by simp only [List.length_cons] at hk; omega)
        rwa [show i + 1 + k = i + (k + 1) by omega] at this
    · intro h
      have h0 := h 0 (by simp)
      rw [roomAt_cons_zero] at h0
      refine ⟨?_, fun k hk => ?_⟩
      · simp only [Nat.add_zero] at h0
        rw [h0]
        simp
      · have := h (k + 1) (by simp only [List.length_cons]; omega)
        rwa [roomAt_cons_succ, show i + (k + 1) = i + 1 + k by omega] at this

theorem exists_lex_max (rooms : List RoomObj) (P : Nat → Prop) (i0 : Nat) (h0 : P i0)
    (hP : ∀ i, P i → i < rooms.length) :
    ∃ i, P i ∧ ∀ k, P k → ((roomAt rooms k).x < (roomAt rooms i).x ∨
      ((roomAt rooms k).x = (roomAt rooms i).x ∧ (roomAt rooms k).y ≤ (roomAt rooms i).y)) := by
  classical
  have hne : ((Finset.range rooms.length).filter P).Nonempty :=
    ⟨i0, Finset.mem_filter.mpr ⟨Finset.mem_range.mpr (hP i0 h0), h0⟩⟩
  obtain ⟨i, hi, hmax⟩ := Finset.exists_max_image _
    (fun k => toLex ((roomAt rooms k).x, (roomAt rooms k).y)) hne
  refine ⟨i, (Finset.mem_filter.mp hi).2, fun k hk => ?_⟩
  have := hmax k (Finset.mem_filter.mpr ⟨Finset.mem_range.mpr (hP k hk), hk⟩)
  rw [Prod.Lex.le_iff] at this
  exact this

/-- Zero net forces on all rooms: no two distinct rooms overlap. -/
theorem no_overlap_of_quiet (lib : Lib) (rooms : List RoomObj)
    (hsqrt : ∀ x m : ℚ, 0 < m → x < m * m → lib.sqrt x < m)
    (hpos : ∀ r ∈ rooms, 0 < r.w)
    (hq : ∀ k, k < rooms.length → netForce lib k (roomAt rooms k) 0 rooms (0, 0) = (0, 0))
    (i j : Nat) (hi : i < rooms.length) (hj : j < rooms.length) (hij : i ≠ j) :
    ¬ Overlap (roomAt rooms i) (roomAt rooms j) := by
  intro hov
  obtain ⟨m, ⟨hm, l, hl, hml, hovm⟩, hmax⟩ := exists_lex_max rooms
    (fun a => a < rooms.length ∧ ∃ b, b < rooms.length ∧ a ≠ b ∧
      Overlap (roomAt rooms a) (roomAt rooms b)) i ⟨hi, j, hj, hij, hov⟩ (fun a ha => ha.1)
  have hall : ∀ k, k < rooms.length → 0 + k ≠ m →
      LexPos (pairForce lib (roomAt rooms m) (roomAt rooms k)) ∨
        pairForce lib (roomAt rooms m) (roomAt rooms k) = (0, 0) := by
    intro k hk hkm
    by_cases ho : Overlap (roomAt rooms m) (roomAt rooms k)
    · left
      exact pairForce_lexPos lib _ _ hsqrt (hpos _ (roomAt_mem rooms m hm))
        (hpos _ (roomAt_mem rooms k hk)) ho
        (hmax k ⟨hk, m, hm, by omega, overlap_symm _ _ ho⟩)
    · right
      exact pairForce_of_not_overlap lib _ _ ho
  have hpos2 := (netForce_lexPos lib m (roomAt rooms m) rooms 0 (0, 0) hall).2 rfl
    ⟨l, hl, by omega, pairForce_lexPos lib _ _ hsqrt (hpos _ (roomAt_mem rooms m hm))
      (hpos _ (roomAt_mem rooms l hl)) hovm
      (hmax l ⟨hl, m, hm, by omega, overlap_symm _ _ hovm⟩)⟩
  exact lexPos_ne_zero _ hpos2 (hq m hm)

theorem quiet_of_no_overlap (lib : Lib) (rooms : List RoomObj)
    (h : ∀ i j, i < rooms.length → j < rooms.length → i ≠ j →
      ¬ Overlap (roomAt rooms i) (roomAt rooms j))
    (k : Nat) (hk : k < rooms.length) :
    netForce lib k (roomAt rooms k) 0 rooms (0, 0) = (0, 0) := by
  apply netForce_zero
  intro j hj hne
  exact pairForce_of_not_overlap lib _ _ (h k j hk hj (by omega))

theorem overlap_iff (A B : RoomObj) :
    Overlap A B ↔ distSq A.x A.y B.x B.y < ((55 / 100) * (A.w + B.w) + 2) ^ 2 := by
  unfold Overlap distSq
  have e : ((55 / 100 : ℚ) * (A.w + B.w) + 2) ^ 2
      = (A.w * (55 / 100) + B.w * (55 / 100) + 2) * (A.w * (55 / 100) + B.w * (55 / 100) + 2) := by
    ring
  rw [e]

theorem toyLib_sqrt (x m : ℚ) (hm : 0 < m) (h : x < m * m) : toyLib.sqrt x < m := by
  show ((Nat.sqrt (x.num.toNat * x.den * 1000000) : Nat) : ℚ) / ((x.den * 1000 : Nat) : ℚ) < m
  have hden : (0 : ℚ) < ((x.den * 1000 : Nat) : ℚ) := by
    have := x.den_pos
    exact_mod_cast (by omega : 0 < x.den * 1000)
  rw [div_lt_iff₀ hden]
  by_contra hcon
  push_neg at hcon
  have hs := Nat.sqrt_le (x.num.toNat * x.den * 1000000)
  have hsq : (m * ((x.den * 1000 : Nat) : ℚ)) * (m * ((x.den * 1000 : Nat) : ℚ))
      ≤ ((Nat.sqrt (x.num.toNat * x.den * 1000000) : Nat) : ℚ)
        * ((Nat.sqrt (x.num.toNat * x.den * 1000000) : Nat) : ℚ) := by
    apply mul_le_mul hcon hcon (by positivity) (by positivity)
  have hs2 : ((Nat.sqrt (x.num.toNat * x.den * 1000000) : Nat) : ℚ)
        * ((Nat.sqrt (x.num.toNat * x.den * 1000000) : Nat) : ℚ)
      ≤ ((x.num.toNat * x.den * 1000000 : Nat) : ℚ) := by
    exact_mod_cast hs
  have hdq : (0 : ℚ) < (x.den : ℚ) := by exact_mod_cast x.den_pos
  have hx : x = (x.num : ℚ) / (x.den : ℚ) := (Rat.num_div_den x).symm
  by_cases hn : 0 ≤ x.num
  · have hnum : ((x.num.toNat : Nat) : ℚ) = (x.num : ℚ) := by
      have : ((x.num.toNat : Nat) : Int) = x.num := Int.toNat_of_nonneg hn
      exact_mod_cast this
    have hxd : (x.num : ℚ) = x * (x.den : ℚ) := (Rat.mul_den_eq_num x).symm
    push_cast at hs2 hsq
    rw [hnum, hxd] at hs2
    have : x * (x.den : ℚ) * (x.den : ℚ) * 1000000 < m * m * (x.den : ℚ) * (x.den : ℚ) * 1000000 := by
      have h2 : 0 < (x.den : ℚ) * (x.den : ℚ) * 1000000 := by positivity
      nlinarith
    nlinarith
  · have hz : x.num.toNat = 0 := by
      apply Int.toNat_eq_zero.mpr
      omega
    have h0 : Nat.sqrt (x.num.toNat * x.den * 1000000) = 0 := by
      rw [hz]
      simp
    rw [h0, Nat.cast_zero] at hcon
    exact absurd hcon (not_le.mpr (mul_pos hm hden))

/-! ## The physics: the settled layout -/

theorem getD_le_sum (l : List ℚ) (h : ∀ x ∈ l, 0 ≤ x) : ∀ i, l.getD i 0 ≤ l.sum := by
  induction l with
  | nil => intro i; simp
  | cons a rest ih =>
    intro i
    have ha := h a (by simp)
    have hr : 0 ≤ rest.sum := List.sum_nonneg (fun x hx => h x (by simp [hx]))
    have ih2 := ih (fun x hx => h x (by simp [hx]))
    cases i with
    | zero => simp only [List.getD_cons_zero, List.sum_cons]; linarith
    | succ i => simp only [List.getD_cons_succ, List.sum_cons]; linarith [ih2 i]

theorem getD_add_le_sum (l : List ℚ) (h : ∀ x ∈ l, 0 ≤ x) :
    ∀ i j, i ≠ j → l.getD i 0 + l.getD j 0 ≤ l.sum := by
  induction l with
  | nil => intro i j _; simp
  | cons a rest ih =>
    intro i j hij
    have ha := h a (by simp)
    have hrest : ∀ x ∈ rest, 0 ≤ x := fun x hx => h x (by simp [hx])
    cases i with
    | zero =>
      cases j with
      | zero => exact absurd rfl hij
      | succ j =>
        simp only [List.getD_cons_zero, List.getD_cons_succ, List.sum_cons]
        linarith [getD_le_sum rest hrest j]
    | succ i =>
      cases j with
      | zero =>
        simp only [List.getD_cons_zero, List.getD_cons_succ, List.sum_cons]
        linarith [getD_le_sum rest hrest i]
      | succ j =>
        simp only [List.getD_cons_succ, List.sum_cons]
        linarith [ih hrest i j (by omega)]

theorem roomAt_map (f : RoomObj → RoomObj) (l : List RoomObj) (i : Nat) (h : i < l.length) :
    roomAt (l.map f) i = f (roomAt l i) := by
  unfold roomAt
  rw [List.getD_eq_getElem _ _ (by rw [List.length_map]; exact h), List.getD_eq_getElem _ _ h,
    List.getElem_map]

theorem roomAt_zipWith (l : List RoomObj) (fs : List (ℚ × ℚ)) (i : Nat) (h : i < l.length)
    (hf : fs.length = l.length) :
    roomAt (List.zipWith accelerate l fs) i = accelerate (roomAt l i) (fs.getD i (0, 0)) := by
  unfold roomAt
  rw [List.getD_eq_getElem _ _ (by rw [List.length_zipWith, hf, Nat.min_self]; exact h),
    List.getD_eq_getElem _ _ h, List.getD_eq_getElem _ _ (by rw [hf]; exact h),
    List.getElem_zipWith]

/-- Two centres at least `1.1 R + 2` apart, each moved by a tenth of a velocity, the two
velocities with squared lengths that sum to less than 1, are at least `R` apart. -/
theorem settle_bound (xa ya xb yb wa wb vax vay vbx vby : ℚ) (hwa : 0 < wa) (hwb : 0 < wb)
    (hno : (wa * (55 / 100) + wb * (55 / 100) + 2) * (wa * (55 / 100) + wb * (55 / 100) + 2)
      ≤ (xa - xb) * (xa - xb) + (ya - yb) * (ya - yb))
    (he : (vax * vax + vay * vay) + (vbx * vbx + vby * vby) < 1) :
    (wa / 2 + wb / 2) ^ 2 ≤ distSq (xa + vax * (1 / 10)) (ya + vay * (1 / 10))
      (xb + vbx * (1 / 10)) (yb + vby * (1 / 10)) := by
  unfold distSq
  nlinarith [sq_nonneg ((xa - xb) + (vax - vbx)), sq_nonneg ((ya - yb) + (vay - vby)),
    sq_nonneg (vax + vbx), sq_nonneg (vay + vby), sq_nonneg (wa + wb), mul_pos hwa hwb]

/-! ## The margin stays sealed until the last automata step -/

theorem sealed_of_degenerate (W H : Int) (g : List Tile) (h : ¬ (0 < W ∧ 0 < H)) :
    Sealed W H g := by
  intro x y _ hf
  have hb := inBounds_of_getTile W H g x y (by rw [hf]; decide)
  rw [inBounds_iff] at hb
  apply h
  constructor <;> omega

theorem gridOK_of_length (W H : Int) (g : List Tile) (hW : 0 < W) (hH : 0 < H)
    (h : g.length = (W * H).toNat) : GridOK W H g := by
  refine ⟨hW, hH, ?_⟩
  rw [h]
  exact Int.toNat_of_nonneg (le_of_lt (mul_pos hW hH))

theorem sealOK_setTile (W H : Int) (g : List Tile) (x y : Int)
    (h : GridOK W H g ∧ Sealed W H g) :
    GridOK W H (setTile W H g x y Tile.Floor) ∧ Sealed W H (setTile W H g x y Tile.Floor) := by
  refine ⟨gridOK_setTile W H g h.1 x y Tile.Floor, ?_⟩
  intro x2 y2 hm
  rw [getTile_setTile_floor W H g h.1]
  split
  · rename_i hc
    obtain ⟨rfl, rfl, _, hnm⟩ := hc
    rw [hm] at hnm
    exact absurd hnm (by decide)
  · exact h.2 x2 y2 hm

theorem sealOK_hline (W H : Int) (g : List Tile) (xa xb y : Int)
    (h : GridOK W H g ∧ Sealed W H g) :
    GridOK W H (hline W H g xa xb y) ∧ Sealed W H (hline W H g xa xb y) := by
  unfold hline
  exact foldl_inv (fun G => GridOK W H G ∧ Sealed W H G) _ _ g h
    (fun G x _ hG => sealOK_setTile W H _ _ _ (sealOK_setTile W H G _ _ hG))

theorem sealOK_vline (W H : Int) (g : List Tile) (ya yb x : Int)
    (h : GridOK W H g ∧ Sealed W H g) :
    GridOK W H (vline W H g ya yb x) ∧ Sealed W H (vline W H g ya yb x) := by
  unfold vline
  exact foldl_inv (fun G => GridOK W H G ∧ Sealed W H G) _ _ g h
    (fun G x _ hG => sealOK_setTile W H _ _ _ (sealOK_setTile W H G _ _ hG))

theorem sealOK_stampRoom (cfg : GenSettings) (g : List Tile) (r : RoomObj)
    (h : GridOK cfg.gridWidth cfg.gridHeight g ∧ Sealed cfg.gridWidth cfg.gridHeight g) :
    GridOK cfg.gridWidth cfg.gridHeight (stampRoom cfg g r) ∧
      Sealed cfg.gridWidth cfg.gridHeight (stampRoom cfg g r) := by
  unfold stampRoom
  dsimp only
  split
  · apply foldl_inv (fun G => GridOK cfg.gridWidth cfg.gridHeight G ∧
      Sealed cfg.gridWidth cfg.gridHeight G) _ _ g h
    intro G y _ hG
    apply foldl_inv (fun G => GridOK cfg.gridWidth cfg.gridHeight G ∧
      Sealed cfg.gridWidth cfg.gridHeight G) _ _ G hG
    intro G2 x _ hG2
    exact sealOK_setTile _ _ G2 _ _ hG2
  · apply foldl_inv (fun G => GridOK cfg.gridWidth cfg.gridHeight G ∧
      Sealed cfg.gridWidth cfg.gridHeight G) _ _ g h
    intro G y _ hG
    apply foldl_inv (fun G => GridOK cfg.gridWidth cfg.gridHeight G ∧
      Sealed cfg.gridWidth cfg.gridHeight G) _ _ G hG
    intro G2 x _ hG2
    split
    · exact sealOK_setTile _ _ G2 _ _ hG2
    · exact hG2

theorem sealOK_stampLink (cfg : GenSettings) (rooms : List RoomObj) (st : List Tile × Rng)
    (l : Link)
    (h : GridOK cfg.gridWidth cfg.gridHeight st.1 ∧ Sealed cfg.gridWidth cfg.gridHeight st.1) :
    GridOK cfg.gridWidth cfg.gridHeight (stampLink cfg rooms st l).1 ∧
      Sealed cfg.gridWidth cfg.gridHeight (stampLink cfg rooms st l).1 := by
  unfold stampLink
  dsimp only
  split
  · exact sealOK_hline _ _ _ _ _ _ (sealOK_vline _ _ _ _ _ _ (sealOK_hline _ _ _ _ _ _ h))
  · exact sealOK_vline _ _ _ _ _ _ (sealOK_hline _ _ _ _ _ _ (sealOK_vline _ _ _ _ _ _ h))

theorem sealOK_rasterizeBase (s : DungeonBuilder)
    (hg : GridOK s.cfg.gridWidth s.cfg.gridHeight s.grid) :
    GridOK s.cfg.gridWidth s.cfg.gridHeight (rasterizeBase s).grid ∧
      Sealed s.cfg.gridWidth s.cfg.gridHeight (rasterizeBase s).grid := by
  unfold rasterizeBase
  dsimp only
  have h0 : GridOK s.cfg.gridWidth s.cfg.gridHeight (List.replicate s.grid.length Tile.Empty) ∧
      Sealed s.cfg.gridWidth s.cfg.gridHeight (List.replicate s.grid.length Tile.Empty) := by
    refine ⟨⟨hg.1, hg.2.1, ?_⟩, ?_⟩
    · rw [List.length_replicate]
      exact hg.2.2
    · intro x y _
      rw [getTile_replicate_empty]
      decide
  have h1 := foldl_inv (fun G => GridOK s.cfg.gridWidth s.cfg.gridHeight G ∧
      Sealed s.cfg.gridWidth s.cfg.gridHeight G)
    (fun g idx => stampRoom s.cfg g (roomAt s.rooms idx)) s.mainRoomIndices _ h0
    (fun G idx _ hG => sealOK_stampRoom s.cfg G _ hG)
  exact foldl_inv (fun st : List Tile × Rng => GridOK s.cfg.gridWidth s.cfg.gridHeight st.1 ∧
      Sealed s.cfg.gridWidth s.cfg.gridHeight st.1)
    (stampLink s.cfg s.rooms) s.links _ h1
    (fun st l _ hst => sealOK_stampLink s.cfg s.rooms st l hst)

theorem step_grid (lib : Lib) (s : DungeonBuilder) :
    (s.phase = Phase.Physics ∨ s.phase = Phase.Graph ∨ s.phase = Phase.Complete →
        (step lib s).grid = s.grid) ∧
      (s.phase = Phase.Raster → (step lib s).grid = (rasterizeBase s).grid) ∧
      (s.phase = Phase.Walkers → (step lib s).grid =
        (walkersLoop s.cfg s.rooms s.mainRoomIndices s.walkers s.grid s.rng).2.1) := by
  refine ⟨fun h => ?_, fun h => ?_, fun h => ?_⟩
  · rcases h with h | h | h
    · rw [step_of_physics lib s h]
      exact (updatePhysics_frame lib s).2.2.1
    · rw [step_of_graph lib s h]
      exact (computeGraph_frame lib s).2.1
    · rw [step_of_complete lib s h]
  · simp only [step, h]
    split <;> rfl
  · simp only [step, h]
    split <;> rfl

theorem sealInv_step (lib : Lib) (s : DungeonBuilder) (hinv : GridInv s) (h : SealInv s) :
    SealInv (step lib s) := by
  intro hnc
  rw [step_cfg]
  by_cases hpos : 0 < s.cfg.gridWidth ∧ 0 < s.cfg.gridHeight
  · have hg : GridOK s.cfg.gridWidth s.cfg.gridHeight s.grid :=
      gridOK_of_length _ _ _ hpos.1 hpos.2 hinv
    cases hp : s.phase with
    | Physics =>
      rw [(step_grid lib s).1 (Or.inl hp)]
      exact h (by rw [hp]; decide)
    | Graph =>
      rw [(step_grid lib s).1 (Or.inr (Or.inl hp))]
      exact h (by rw [hp]; decide)
    | Raster =>
      rw [(step_grid lib s).2.1 hp]
      exact (sealOK_rasterizeBase s hg).2
    | Walkers =>
      rw [(step_grid lib s).2.2 hp]
      intro x y hm
      rw [walkersLoop_margin s.cfg s.rooms s.mainRoomIndices s.walkers s.grid s.rng hg x y hm]
      exact h (by rw [hp]; decide) x y hm
    | Automata =>
      rcases (step_of_automata lib s hp).2.2.2.2.2 with ⟨_, hc, _⟩ | ⟨_, _, _, hgrid⟩
      · exact absurd hc hnc
      · rw [hgrid]
        exact automata_keeps_sealed _ _ _ hg (h (by rw [hp]; decide))
    | Complete =>
      rw [step_of_complete lib s hp] at hnc
      exact absurd hp hnc
  · exact sealed_of_degenerate _ _ _ hpos

theorem sealInv_run (lib : Lib) (entropy : Nat) (cfg : GenSettings) (old s0 : DungeonBuilder)
    (h : init lib entropy cfg old = some s0) (n : Nat) : SealInv (runSteps lib n s0) := by
  induction n with
  | zero =>
    intro _ x y _
    obtain ⟨_, _, _, _, hgrid, _⟩ := init_phase lib entropy cfg old s0 h
    show getTile _ _ s0.grid x y ≠ Tile.Floor
    rw [hgrid, getTile_replicate_empty]
    decide
  | succ n ih =>
    rw [runSteps_succ_last]
    exact sealInv_step lib _ (gridInv_run lib entropy cfg old s0 h n).1 ih

/-! ## No dead end survives the pruning, the retention and the wall generation -/

theorem borderClear_of_sealed (W H : Int) (g : List Tile) (h : Sealed W H g) :
    BorderClear W H g := by
  intro x y _ hb
  apply h x y
  rw [inMargin_iff]
  omega

theorem borderClear_despeckle (W H : Int) (g : List Tile) (hg : GridOK W H g)
    (h : BorderClear W H g) : BorderClear W H (despeckleWalls W H g) := by
  intro x y hb hbd
  have hb2 := (inBounds_iff W H x y).mp hb
  have hco := coordOf_index W hg.1 x y hb2.1 hb2.2.1 hb2.2.2.1
  rw [getTile_index W H _ x y hb]
  by_cases hc : ∃ r, r < (labelRegions W H g Tile.Wall).count ∧
        ((labelRegions W H g Tile.Wall).found.getD r []).length < 10 ∧
        (labelRegions W H g Tile.Wall).regions.getD (y * W + x).toNat 0 = r + 1
  · rw [(despeckleWalls_cells W H g hg (y * W + x).toNat).1 hc, hco]
    dsimp only
    rw [if_neg (by omega)]
    decide
  · rw [(despeckleWalls_cells W H g hg (y * W + x).toNat).2 hc, ← getTile_index W H g x y hb]
    exact h x y hb hbd

theorem borderClear_prunePass (W H : Int) (g : List Tile) (hg : GridOK W H g)
    (h : BorderClear W H g) : BorderClear W H (prunePass W H g) := by
  intro x y hb hbd
  by_cases hd : DeadEnd W H g x y
  · rw [(prunePass_spec W H g hg x y hb).1 hd]
    decide
  · rw [(prunePass_spec W H g hg x y hb).2 hd]
    exact h x y hb hbd

theorem borderClear_iterate (W H : Int) (k : Nat) :
    ∀ g : List Tile, GridOK W H g → BorderClear W H g →
      GridOK W H ((prunePass W H)^[k] g) ∧ BorderClear W H ((prunePass W H)^[k] g) := by
  induction k with
  | zero => intro g hg h; exact ⟨hg, h⟩
  | succ k ih =>
    intro g hg h
    rw [Function.iterate_succ_apply]
    exact ih _ ⟨hg.1, hg.2.1, by rw [prunePass_length]; exact hg.2.2⟩
      (borderClear_prunePass W H g hg h)

/-- When the last pass of `pruneDeadEnds` removed nothing, which is the case whenever the loop
ended before its cap of 100 passes, the grid it returns has no dead end. -/
theorem pruneDeadEnds_clean (W H : Int) (g : List Tile)
    (hstop : pruneCount W H 100 g < 100 ∨
      (deadEnds W H ((prunePass W H)^[pruneCount W H 100 g - 1] g)).isEmpty = true) :
    pruneDeadEnds W H g = (prunePass W H)^[pruneCount W H 100 g - 1] g ∧
      ¬ ∃ x y, DeadEnd W H (pruneDeadEnds W H g) x y := by
  obtain ⟨h1, _, h3, _, h5⟩ := pruneLoop_spec W H 100 g (by decide)
  have hempty : (deadEnds W H ((prunePass W H)^[pruneCount W H 100 g - 1] g)).isEmpty = true := by
    rcases hstop with hlt | he
    · rw [deadEnds_isEmpty]
      intro hex
      have := h5 hex
      omega
    · exact he
  have heq : pruneDeadEnds W H g = (prunePass W H)^[pruneCount W H 100 g - 1] g := by
    unfold pruneDeadEnds
    rw [h3]
    have : pruneCount W H 100 g = (pruneCount W H 100 g - 1) + 1 := by omega
    nth_rewrite 1 [this]
    rw [Function.iterate_succ_apply', prunePass_of_none W H _ hempty]
  refine ⟨heq, ?_⟩
  rw [heq]
  exact (deadEnds_isEmpty W H _).mp hempty

theorem floorNeighbours_mono (W H : Int) (g G : List Tile) (x y : Int)
    (h : ∀ p : Int × Int, Adj4 (x, y) p → getTile W H g p.1 p.2 = Tile.Floor →
      getTile W H G p.1 p.2 = Tile.Floor) :
    floorNeighbours W H g x y ≤ floorNeighbours W H G x y := by
  have h1 := h (x + 1, y) (Or.inr ⟨rfl, Or.inr rfl⟩)
  have h2 := h (x - 1, y) (Or.inr ⟨rfl, Or.inl (by show x = x - 1 + 1; omega)⟩)
  have h3 := h (x, y + 1) (Or.inl ⟨rfl, Or.inr rfl⟩)
  have h4 := h (x, y - 1) (Or.inl ⟨rfl, Or.inl (by show y = y - 1 + 1; omega)⟩)
  dsimp only at h1 h2 h3 h4
  unfold floorNeighbours
  by_cases c1 : getTile W H g (x + 1) y = Tile.Floor <;>
  by_cases c2 : getTile W H g (x - 1) y = Tile.Floor <;>
  by_cases c3 : getTile W H g x (y + 1) = Tile.Floor <;>
  by_cases c4 : getTile W H g x (y - 1) = Tile.Floor <;>
  simp only [c1, c2, c3, c4, h1, h2, h3, h4, if_true, if_false, not_false_eq_true] <;>
  omega

/-- The retention keeps, with a Floor cell, its Floor neighbours. -/
theorem floodRetain_neighbour (W H : Int) (g : List Tile) (hg : GridOK W H g) (x y : Int)
    (hf : getTile W H (floodRetain W H g) x y = Tile.Floor) (p : Int × Int)
    (hadj : Adj4 (x, y) p) (hp : getTile W H g p.1 p.2 = Tile.Floor) :
    getTile W H (floodRetain W H g) p.1 p.2 = Tile.Floor := by
  have hfg : getTile W H g x y = Tile.Floor := by
    by_contra hne
    rw [floodRetain_frame W H g x y hne] at hf
    exact hne hf
  obtain ⟨r, _, _, _, _, _, hiff, _⟩ := floodRetain_best W H g hg ⟨x, y, hfg⟩
  have hb := inBounds_of_getTile W H g x y (by rw [hfg]; decide)
  have hb2 := (inBounds_iff W H x y).mp hb
  have hco := coordOf_index W hg.1 x y hb2.1 hb2.2.1 hb2.2.2.1
  have ha := index_lt W H g hg x y hb
  rw [getTile_index W H _ x y hb] at hf
  have hl := (hiff _).mp hf
  have full := labelRegions_full W H g hg Tile.Floor (by decide)
  obtain ⟨c, hc, hcq, hlab⟩ := path_label W H g hg Tile.Floor (by decide) _ full
    (y * W + x).toNat ha (by rw [hl]; exact Nat.succ_ne_zero r) p
    (Relation.ReflTransGen.single (by rw [hco]; exact ⟨hadj, hfg, hp⟩))
  have := (hiff c).mpr (hlab.trans hl)
  rw [← getTile_coordOf W H g _ hg c hc, hcq] at this
  exact this

/-! ## Corridors -/

theorem intRange_cons (lo hi : Int) (h : lo < hi) :
    intRange lo hi = lo :: intRange (lo + 1) hi := by
  rw [intRange_eq, intRange_eq]
  have e : (hi - lo).toNat = (hi - (lo + 1)).toNat + 1 := by omega
  rw [e, List.range_succ_eq_map, List.map_cons, List.map_map]
  congr 1
  · simp
  · apply List.map_congr_left
    intro k _
    simp only [Function.comp, Nat.succ_eq_add_one]
    push_cast
    ring

theorem intRange_snoc (lo hi : Int) (h : lo ≤ hi) :
    intRange lo (hi + 1) = intRange lo hi ++ [hi] := by
  rw [intRange_eq, intRange_eq]
  have e : (hi + 1 - lo).toNat = (hi - lo).toNat + 1 := by omega
  rw [e, List.range_succ, List.map_append, List.map_cons, List.map_nil]
  congr 2
  have : (((hi - lo).toNat : Nat) : Int) = hi - lo := Int.toNat_of_nonneg (by omega)
  rw [this]
  ring

theorem intRange_empty (lo hi : Int) (h : hi ≤ lo) : intRange lo hi = [] := by
  rw [intRange_eq]
  have e : (hi - lo).toNat = 0 := by omega
  rw [e]
  rfl

theorem lineLoop_up (n : Nat) :
    ∀ xa xb : Int, (xb + 1 - xa).toNat = n → xa ≤ xb + 1 →
      lineLoop n xa (xb + 1) 1 = some (intRange xa (xb + 1)) := by
  induction n with
  | zero =>
    intro xa xb hn hle
    have : xa = xb + 1 := by omega
    simp only [lineLoop, this, if_true]
    rw [intRange_empty _ _ (le_refl _)]
  | succ n ih =>
    intro xa xb hn hle
    have hlt : xa < xb + 1 := by omega
    simp only [lineLoop]
    rw [if_neg (by omega), ih (xa + 1) xb (by omega) (by omega), intRange_cons xa (xb + 1) hlt]
    rfl

theorem lineLoop_down (n : Nat) :
    ∀ xa xb : Int, (xa + 1 - xb).toNat = n → xb ≤ xa + 1 →
      lineLoop n xa (xb + -1) (-1) = some (intRange xb (xa + 1)).reverse := by
  induction n with
  | zero =>
    intro xa xb hn hle
    have : xa = xb + -1 := by omega
    simp only [lineLoop, this, if_true]
    rw [intRange_empty _ _ (by omega)]
    rfl
  | succ n ih =>
    intro xa xb hn hle
    have hlt : xb ≤ xa := by omega
    simp only [lineLoop]
    rw [if_neg (by omega), ih (xa + -1) xb (by omega) (by omega), intRange_snoc xb xa hlt]
    have e : xa + -1 + 1 = xa := by ring
    rw [e, List.reverse_append]
    rfl

/-- The loop of `hline` and `vline` ends, after `|xb - xa| + 1` iterations, and its iterations
are the cells of `lineCells`. -/
theorem lineLoop_terminates (xa xb : Int) :
    lineLoop ((xb - xa).natAbs + 1) xa (xb + (if xb > xa then 1 else -1))
      (if xb > xa then 1 else -1) = some (lineCells xa xb) := by
  unfold lineCells
  by_cases h : xb > xa
  · rw [if_pos h, if_pos h]
    exact lineLoop_up _ xa xb (by omega) (by omega)
  · rw [if_neg h, if_neg h]
    exact lineLoop_down _ xa xb (by omega) (by omega)

theorem mem_lineCells (a b x : Int) :
    x ∈ lineCells a b ↔ min a b ≤ x ∧ x ≤ max a b := by
  unfold lineCells
  split
  · rw [mem_intRange]
    omega
  · rw [List.mem_reverse, mem_intRange]
    omega

theorem floorLe_refl (g : List Tile) : FloorLe g g := fun _ h => h

theorem floorLe_trans (a b c : List Tile) (h1 : FloorLe a b) (h2 : FloorLe b c) : FloorLe a c :=
  fun j h => h2 j (h1 j h)

theorem floorLe_setTile (W H : Int) (g : List Tile) (x y : Int) :
    FloorLe g (setTile W H g x y Tile.Floor) :=
  fun j h => setTile_floor_mono W H g x y j h

/-- A loop of pairs of `setTile(.., Floor)` calls, the first of each pair at `c a`: no Floor cell
is lost, and every first cell that lies in the grid and outside the margin is Floor afterwards. -/
theorem line_spec (W H : Int) (c d : Int → Int × Int) (cells : List Int) :
    ∀ g : List Tile, GridOK W H g →
      GridOK W H (cells.foldl (fun g a => setTile W H (setTile W H g (c a).1 (c a).2 Tile.Floor)
        (d a).1 (d a).2 Tile.Floor) g) ∧
      FloorLe g (cells.foldl (fun g a => setTile W H (setTile W H g (c a).1 (c a).2 Tile.Floor)
        (d a).1 (d a).2 Tile.Floor) g) ∧
      ∀ a ∈ cells, inBounds W H (c a).1 (c a).2 = true → inMargin W H (c a).1 (c a).2 = false →
        getTile W H (cells.foldl (fun g a => setTile W H (setTile W H g (c a).1 (c a).2 Tile.Floor)
          (d a).1 (d a).2 Tile.Floor) g) (c a).1 (c a).2 = Tile.Floor := by
  induction cells with
  | nil =>
    intro g hg
    exact ⟨hg, floorLe_refl g, fun a ha => absurd ha (List.not_mem_nil a)⟩
  | cons a0 rest ih =>
    intro g hg
    simp only [List.foldl_cons]
    have hg1 := gridOK_setTile W H g hg (c a0).1 (c a0).2 Tile.Floor
    have hg2 := gridOK_setTile W H _ hg1 (d a0).1 (d a0).2 Tile.Floor
    obtain ⟨i1, i2, i3⟩ := ih _ hg2
    have hle : FloorLe g (setTile W H (setTile W H g (c a0).1 (c a0).2 Tile.Floor)
        (d a0).1 (d a0).2 Tile.Floor) :=
      floorLe_trans _ _ _ (floorLe_setTile W H g _ _) (floorLe_setTile W H _ _ _)
    refine ⟨i1, floorLe_trans _ _ _ hle i2, ?_⟩
    intro a ha hb hm
    rcases List.mem_cons.mp ha with rfl | har
    · apply getTile_floor_mono W H _ _ i2
      apply getTile_floor_mono W H _ _ (floorLe_setTile W H _ (d a).1 (d a).2)
      rw [getTile_setTile_floor W H g hg, if_pos ⟨rfl, rfl, hb, hm⟩]
    · exact i3 a har hb hm

theorem hline_spec (W H : Int) (g : List Tile) (hg : GridOK W H g) (xa xb y : Int) :
    GridOK W H (hline W H g xa xb y) ∧ FloorLe g (hline W H g xa xb y) ∧
      ∀ x, min xa xb ≤ x → x ≤ max xa xb → inBounds W H x y = true → inMargin W H x y = false →
        getTile W H (hline W H g xa xb y) x y = Tile.Floor := by
  obtain ⟨h1, h2, h3⟩ := line_spec W H (fun x => (x, y)) (fun x => (x, y + 1))
    (lineCells xa xb) g hg
  exact ⟨h1, h2, fun x hx1 hx2 hb hm => h3 x ((mem_lineCells xa xb x).mpr ⟨hx1, hx2⟩) hb hm⟩

theorem vline_spec (W H : Int) (g : List Tile) (hg : GridOK W H g) (ya yb x : Int) :
    GridOK W H (vline W H g ya yb x) ∧ FloorLe g (vline W H g ya yb x) ∧
      ∀ y, min ya yb ≤ y → y ≤ max ya yb → inBounds W H x y = true → inMargin W H x y = false →
        getTile W H (vline W H g ya yb x) x y = Tile.Floor := by
  obtain ⟨h1, h2, h3⟩ := line_spec W H (fun y => (x, y)) (fun y => (x + 1, y))
    (lineCells ya yb) g hg
  exact ⟨h1, h2, fun y hy1 hy2 hb hm => h3 y ((mem_lineCells ya yb y).mpr ⟨hy1, hy2⟩) hb hm⟩

theorem floorStep_symm (W H : Int) (G : List Tile) : Symmetric (FloorStep W H G) :=
  fun p q h => ⟨adj4_symm p q h.1, h.2.2, h.2.1⟩

theorem hpath_up (W H : Int) (G : List Tile) (y : Int) (n : Nat) :
    ∀ xa xb : Int, (xb - xa).toNat = n → xa ≤ xb →
      (∀ x, xa ≤ x → x ≤ xb → getTile W H G x y = Tile.Floor) →
      Relation.ReflTransGen (FloorStep W H G) (xa, y) (xb, y) := by
  induction n with
  | zero =>
    intro xa xb hn hle _
    have : xa = xb := by omega
    rw [this]
  | succ n ih =>
    intro xa xb hn hle hf
    refine Relation.ReflTransGen.head ?_
      (ih (xa + 1) xb (by omega) (by omega) (fun x h1 h2 => hf x (by omega) h2))
    exact ⟨Or.inr ⟨rfl, Or.inr rfl⟩, hf xa (le_refl _) hle, hf (xa + 1) (by omega) (by omega)⟩

theorem vpath_up (W H : Int) (G : List Tile) (x : Int) (n : Nat) :
    ∀ ya yb : Int, (yb - ya).toNat = n → ya ≤ yb →
      (∀ y, ya ≤ y → y ≤ yb → getTile W H G x y = Tile.Floor) →
      Relation.ReflTransGen (FloorStep W H G) (x, ya) (x, yb) := by
  induction n with
  | zero =>
    intro ya yb hn hle _
    have : ya = yb := by omega
    rw [this]
  | succ n ih =>
    intro ya yb hn hle hf
    refine Relation.ReflTransGen.head ?_
      (ih (ya + 1) yb (by omega) (by omega) (fun y h1 h2 => hf y (by omega) h2))
    exact ⟨Or.inl ⟨rfl, Or.inr rfl⟩, hf ya (le_refl _) hle, hf (ya + 1) (by omega) (by omega)⟩

theorem hpath (W H : Int) (G : List Tile) (y xa xb : Int)
    (hf : ∀ x, min xa xb ≤ x → x ≤ max xa xb → getTile W H G x y = Tile.Floor) :
    Relation.ReflTransGen (FloorStep W H G) (xa, y) (xb, y) := by
  rcases le_total xa xb with h | h
  · exact hpath_up W H G y _ xa xb rfl h
      (fun x h1 h2 => hf x (by rw [min_eq_left h]; exact h1) (by rw [max_eq_right h]; exact h2))
  · exact Relation.ReflTransGen.symmetric (floorStep_symm W H G)
      (hpath_up W H G y _ xb xa rfl h
        (fun x h1 h2 => hf x (by rw [min_eq_right h]; exact h1)
          (by rw [max_eq_left h]; exact h2)))

theorem vpath (W H : Int) (G : List Tile) (x ya yb : Int)
    (hf : ∀ y, min ya yb ≤ y → y ≤ max ya yb → getTile W H G x y = Tile.Floor) :
    Relation.ReflTransGen (FloorStep W H G) (x, ya) (x, yb) := by
  rcases le_total ya yb with h | h
  · exact vpath_up W H G x _ ya yb rfl h
      (fun y h1 h2 => hf y (by rw [min_eq_left h]; exact h1) (by rw [max_eq_right h]; exact h2))
  · exact Relation.ReflTransGen.symmetric (floorStep_symm W H G)
      (vpath_up W H G x _ yb ya rfl h
        (fun y h1 h2 => hf y (by rw [min_eq_right h]; exact h1)
          (by rw [max_eq_left h]; exact h2)))

theorem corridor_mono (cfg : GenSettings) (rooms : List RoomObj) (l : Link) (g G : List Tile)
    (hle : FloorLe g G) (h : Corridor cfg rooms l g) : Corridor cfg rooms l G := by
  refine ⟨getTile_floor_mono _ _ g G hle _ _ h.1, getTile_floor_mono _ _ g G hle _ _ h.2.1, ?_⟩
  exact Relation.ReflTransGen.mono
    (fun p q hs => ⟨hs.1, getTile_floor_mono _ _ g G hle _ _ hs.2.1,
      getTile_floor_mono _ _ g G hle _ _ hs.2.2⟩) h.2.2

theorem stampLink_spec (cfg : GenSettings) (rooms : List RoomObj) (st : List Tile × Rng)
    (l : Link) (hg : GridOK cfg.gridWidth cfg.gridHeight st.1) :
    GridOK cfg.gridWidth cfg.gridHeight (stampLink cfg rooms st l).1 ∧
      FloorLe st.1 (stampLink cfg rooms st l).1 ∧
      (inMargin cfg.gridWidth cfg.gridHeight (toGridX cfg (roomAt rooms l.u).x)
          (toGridY cfg (roomAt rooms l.u).y) = false →
        inMargin cfg.gridWidth cfg.gridHeight (toGridX cfg (roomAt rooms l.v).x)
          (toGridY cfg (roomAt rooms l.v).y) = false →
        Corridor cfg rooms l (stampLink cfg rooms st l).1) := by
  unfold stampLink Corridor
  dsimp only
  generalize toGridX cfg (roomAt rooms l.u).x = x1
  generalize toGridY cfg (roomAt rooms l.u).y = y1
  generalize toGridX cfg (roomAt rooms l.v).x = x2
  generalize toGridY cfg (roomAt rooms l.v).y = y2
  generalize cfg.gridWidth = W at hg ⊢
  generalize cfg.gridHeight = H at hg ⊢
  have hok : ∀ x y, 2 ≤ x → x ≤ W - 3 → 2 ≤ y → y ≤ H - 3 →
      inBounds W H x y = true ∧ inMargin W H x y = false := by
    intro x y a b c d
    refine ⟨(inBounds_iff W H x y).mpr (by omega), ?_⟩
    have := inMargin_iff W H x y
    cases hm : inMargin W H x y
    · rfl
    · have := this.mp hm
      omega
  have hout : ∀ x y, inMargin W H x y = false → 2 ≤ x ∧ x ≤ W - 3 ∧ 2 ≤ y ∧ y ≤ H - 3 := by
    intro x y hm
    have := inMargin_iff W H x y
    rw [hm] at this
    have h2 : ¬ (x ≤ 1 ∨ x ≥ W - 2 ∨ y ≤ 1 ∨ y ≥ H - 2) := fun h => by
      have := this.mpr h
      exact absurd this (by decide)
    omega
  split
  · dsimp only
    obtain ⟨a1, a2, a3⟩ := hline_spec W H st.1 hg x1 (Int.tdiv (x1 + x2) 2) y1
    obtain ⟨b1, b2, b3⟩ := vline_spec W H _ a1 y1 y2 (Int.tdiv (x1 + x2) 2)
    obtain ⟨c1, c2, c3⟩ := hline_spec W H _ b1 (Int.tdiv (x1 + x2) 2) x2 y2
    refine ⟨c1, floorLe_trans _ _ _ a2 (floorLe_trans _ _ _ b2 c2), ?_⟩
    intro hm1 hm2
    have o1 := hout _ _ hm1
    have o2 := hout _ _ hm2
    have hmx : Int.tdiv (x1 + x2) 2 = (x1 + x2) / 2 :=
      Int.tdiv_eq_ediv (by omega) (by decide)
    rw [hmx] at a3 b3 c3 c2 b2 ⊢
    have s1 : ∀ x, min x1 ((x1 + x2) / 2) ≤ x → x ≤ max x1 ((x1 + x2) / 2) →
        getTile W H (hline W H (vline W H (hline W H st.1 x1 ((x1 + x2) / 2) y1) y1 y2
          ((x1 + x2) / 2)) ((x1 + x2) / 2) x2 y2) x y1 = Tile.Floor := by
      intro x h1 h2
      have ok := hok x y1 (by omega) (by omega) (by omega) (by omega)
      exact getTile_floor_mono W H _ _ (floorLe_trans _ _ _ b2 c2) _ _ (a3 x h1 h2 ok.1 ok.2)
    have s2 : ∀ y, min y1 y2 ≤ y → y ≤ max y1 y2 →
        getTile W H (hline W H (vline W H (hline W H st.1 x1 ((x1 + x2) / 2) y1) y1 y2
          ((x1 + x2) / 2)) ((x1 + x2) / 2) x2 y2) ((x1 + x2) / 2) y = Tile.Floor := by
      intro y h1 h2
      have ok := hok ((x1 + x2) / 2) y (by omega) (by omega) (by omega) (by omega)
      exact getTile_floor_mono W H _ _ c2 _ _ (b3 y h1 h2 ok.1 ok.2)
    have s3 : ∀ x, min ((x1 + x2) / 2) x2 ≤ x → x ≤ max ((x1 + x2) / 2) x2 →
        getTile W H (hline W H (vline W H (hline W H st.1 x1 ((x1 + x2) / 2) y1) y1 y2
          ((x1 + x2) / 2)) ((x1 + x2) / 2) x2 y2) x y2 = Tile.Floor := by
      intro x h1 h2
      have ok := hok x y2 (by omega) (by omega) (by omega) (by omega)
      exact c3 x h1 h2 ok.1 ok.2
    refine ⟨s1 x1 (min_le_left _ _) (le_max_left _ _), s3 x2 (min_le_right _ _)
      (le_max_right _ _), ?_⟩
    exact ((hpath W H _ y1 x1 _ s1).trans (vpath W H _ _ y1 y2 s2)).trans (hpath W H _ y2 _ x2 s3)
  · dsimp only
    obtain ⟨a1, a2, a3⟩ := vline_spec W H st.1 hg y1 (Int.tdiv (y1 + y2) 2) x1
    obtain ⟨b1, b2, b3⟩ := hline_spec W H _ a1 x1 x2 (Int.tdiv (y1 + y2) 2)
    obtain ⟨c1, c2, c3⟩ := vline_spec W H _ b1 (Int.tdiv (y1 + y2) 2) y2 x2
    refine ⟨c1, floorLe_trans _ _ _ a2 (floorLe_trans _ _ _ b2 c2), ?_⟩
    intro hm1 hm2
    have o1 := hout _ _ hm1
    have o2 := hout _ _ hm2
    have hmy : Int.tdiv (y1 + y2) 2 = (y1 + y2) / 2 :=
      Int.tdiv_eq_ediv (by omega) (by decide)
    rw [hmy] at a3 b3 c3 c2 b2 ⊢
    have s1 : ∀ y, min y1 ((y1 + y2) / 2) ≤ y → y ≤ max y1 ((y1 + y2) / 2) →
        getTile W H (vline W H (hline W H (vline W H st.1 y1 ((y1 + y2) / 2) x1) x1 x2
          ((y1 + y2) / 2)) ((y1 + y2) / 2) y2 x2) x1 y = Tile.Floor := by
      intro y h1 h2
      have ok := hok x1 y (by omega) (by omega) (by omega) (by omega)
      exact getTile_floor_mono W H _ _ (floorLe_trans _ _ _ b2 c2) _ _ (a3 y h1 h2 ok.1 ok.2)
    have s2 : ∀ x, min x1 x2 ≤ x → x ≤ max x1 x2 →
        getTile W H (vline W H (hline W H (vline W H st.1 y1 ((y1 + y2) / 2) x1) x1 x2
          ((y1 + y2) / 2)) ((y1 + y2) / 2) y2 x2) x ((y1 + y2) / 2) = Tile.Floor := by
      intro x h1 h2
      have ok := hok x ((y1 + y2) / 2) (by omega) (by omega) (by omega) (by omega)
      exact getTile_floor_mono W H _ _ c2 _ _ (b3 x h1 h2 ok.1 ok.2)
    have s3 : ∀ y, min ((y1 + y2) / 2) y2 ≤ y → y ≤ max ((y1 + y2) / 2) y2 →
        getTile W H (vline W H (hline W H (vline W H st.1 y1 ((y1 + y2) / 2) x1) x1 x2
          ((y1 + y2) / 2)) ((y1 + y2) / 2) y2 x2) x2 y = Tile.Floor := by
      intro y h1 h2
      have ok := hok x2 y (by omega) (by omega) (by omega) (by omega)
      exact c3 y h1 h2 ok.1 ok.2
    refine ⟨s1 y1 (min_le_left _ _) (le_max_left _ _), s3 y2 (min_le_right _ _)
      (le_max_right _ _), ?_⟩
    exact ((vpath W H _ x1 y1 _ s1).trans (hpath W H _ _ x1 x2 s2)).trans (vpath W H _ x2 _ y2 s3)

theorem stampLinks_spec (cfg : GenSettings) (rooms : List RoomObj) (links : List Link) :
    ∀ st : List Tile × Rng, GridOK cfg.gridWidth cfg.gridHeight st.1 →
      GridOK cfg.gridWidth cfg.gridHeight (links.foldl (stampLink cfg rooms) st).1 ∧
        FloorLe st.1 (links.foldl (stampLink cfg rooms) st).1 ∧
        ∀ l ∈ links,
          inMargin cfg.gridWidth cfg.gridHeight (toGridX cfg (roomAt rooms l.u).x)
            (toGridY cfg (roomAt rooms l.u).y) = false →
          inMargin cfg.gridWidth cfg.gridHeight (toGridX cfg (roomAt rooms l.v).x)
            (toGridY cfg (roomAt rooms l.v).y) = false →
          Corridor cfg rooms l (links.foldl (stampLink cfg rooms) st).1 := by
  induction links with
  | nil =>
    intro st hg
    exact ⟨hg, floorLe_refl _, fun l hl => absurd hl (List.not_mem_nil l)⟩
  | cons l0 rest ih =>
    intro st hg
    simp only [List.foldl_cons]
    obtain ⟨a1, a2, a3⟩ := stampLink_spec cfg rooms st l0 hg
    obtain ⟨i1, i2, i3⟩ := ih _ a1
    refine ⟨i1, floorLe_trans _ _ _ a2 i2, ?_⟩
    intro l hl hm1 hm2
    rcases List.mem_cons.mp hl with rfl | hr
    · exact corridor_mono cfg rooms l _ _ i2 (a3 hm1 hm2)
    · exact i3 l hr hm1 hm2

/-! ## Union-find -/

theorem parentStep_of_root (d : DSU) (r x : Nat) (hr : d.p.getD r r = r)
    (h : Relation.ReflTransGen (ParentStep d) r x) : x = r := by
  induction h using Relation.ReflTransGen.head_induction_on with
  | refl => rfl
  | head hs _ _ => exact absurd (hr.symm.trans hs.1) hs.2

theorem rootOf_unique (d : DSU) (j x y : Nat) (hx : RootOf d j x) (hy : RootOf d j y) :
    x = y := by
  obtain ⟨px, rx⟩ := hx
  obtain ⟨py, ry⟩ := hy
  induction px using Relation.ReflTransGen.head_induction_on with
  | refl => exact (parentStep_of_root d _ y rx py).symm
  | head hs _ ih =>
    rcases Relation.ReflTransGen.cases_head py with h | ⟨c, hc, hrest⟩
    · rw [← h] at ry
      exact absurd (ry.symm.trans hs.1) hs.2
    · have : c = _ := hc.1.symm.trans hs.1
      rw [this] at hrest
      exact ih hrest

theorem rootOf_self (d : DSU) (r : Nat) (hr : d.p.getD r r = r) : RootOf d r r :=
  ⟨Relation.ReflTransGen.refl, hr⟩

theorem rootOf_step (d : DSU) (j q x : Nat) (hs : ParentStep d j q) :
    RootOf d j x ↔ RootOf d q x := by
  constructor
  · rintro ⟨p, r⟩
    rcases Relation.ReflTransGen.cases_head p with h | ⟨c, hc, hrest⟩
    · rw [← h] at r
      exact absurd (r.symm.trans hs.1) hs.2
    · have : c = q := hc.1.symm.trans hs.1
      rw [this] at hrest
      exact ⟨hrest, r⟩
  · rintro ⟨p, r⟩
    exact ⟨Relation.ReflTransGen.head hs p, r⟩

theorem rank_le_of_path (d : DSU) (rk : Nat → Nat) (inv : DsuInv d rk) (j x : Nat)
    (h : Relation.ReflTransGen (ParentStep d) j x) : rk j ≤ rk x := by
  induction h using Relation.ReflTransGen.head_induction_on with
  | refl => exact le_refl _
  | head hs _ ih =>
    have := inv.2 _ (by rw [hs.1]; exact fun e => hs.2 e.symm)
    rw [hs.1] at this
    omega

theorem path_lt (d : DSU) (rk : Nat → Nat) (inv : DsuInv d rk) (j x : Nat) (hj : j < d.p.length)
    (h : Relation.ReflTransGen (ParentStep d) j x) : x < d.p.length := by
  induction h with
  | refl => exact hj
  | tail _ hs ih =>
    have := inv.1 _ ih
    rw [hs.1] at this
    exact this

theorem not_root_lt (d : DSU) (i : Nat) (h : d.p.getD i i ≠ i) : i < d.p.length := by
  by_contra hge
  exact h (List.getD_eq_default _ _ (not_lt.mp hge))

/-- Redirecting a non-root to its root (path compression) changes no root. -/
theorem rootOf_set (d : DSU) (i r : Nat) (hroot : RootOf d i r) (hne : i ≠ r)
    (hi : i < d.p.length) (j x : Nat) :
    RootOf ⟨d.p.set i r⟩ j x ↔ RootOf d j x := by
  have hget : ∀ m, (d.p.set i r).getD m m = if i = m then r else d.p.getD m m := by
    intro m
    rw [getD_set]
    by_cases h : i = m
    · rw [if_pos ⟨h, hi⟩, if_pos h]
    · rw [if_neg (fun hc => h hc.1), if_neg h]
  have hinr : d.p.getD i i ≠ i := by
    intro hc
    exact hne (rootOf_unique d i i r (rootOf_self d i hc) hroot)
  constructor
  · rintro ⟨p, hr⟩
    have hxi : i ≠ x := by
      intro hc
      have := hget x
      rw [if_pos hc] at this
      have h2 : (⟨d.p.set i r⟩ : DSU).p.getD x x = x := hr
      rw [show (⟨d.p.set i r⟩ : DSU).p = d.p.set i r from rfl, this] at h2
      exact hne (hc.trans h2.symm)
    have hxr : d.p.getD x x = x := by
      have h2 : (d.p.set i r).getD x x = x := hr
      rw [hget x, if_neg hxi] at h2
      exact h2
    refine ⟨?_, hxr⟩
    induction p using Relation.ReflTransGen.head_induction_on with
    | refl => exact Relation.ReflTransGen.refl
    | head hs hrest ih =>
      rename_i a c
      have hs1 : (d.p.set i r).getD a a = c := hs.1
      rw [hget a] at hs1
      by_cases hia : i = a
      · rw [if_pos hia] at hs1
        have hrx : x = r := by
          have := rootOf_unique d r x r ⟨by rw [hs1]; exact ih, hxr⟩ (rootOf_self d r hroot.2)
          exact this
        rw [← hia, hrx]
        exact hroot.1
      · rw [if_neg hia] at hs1
        exact Relation.ReflTransGen.head ⟨hs1, hs.2⟩ ih
  · rintro ⟨p, hr⟩
    have hxi : i ≠ x := fun hc => hinr (by rw [hc]; exact hr)
    have hxr : (⟨d.p.set i r⟩ : DSU).p.getD x x = x := by
      show (d.p.set i r).getD x x = x
      rw [hget x, if_neg hxi]
      exact hr
    refine ⟨?_, hxr⟩
    have key : ∀ a, Relation.ReflTransGen (ParentStep d) a x →
        Relation.ReflTransGen (ParentStep ⟨d.p.set i r⟩) a x := by
      intro a pa
      induction pa using Relation.ReflTransGen.head_induction_on with
      | refl => exact Relation.ReflTransGen.refl
      | head hs hrest ih =>
        rename_i a c
        by_cases hia : i = a
        · have hxr2 : x = r := by
            have h1 : RootOf d i x := by
              rw [hia]
              exact ⟨Relation.ReflTransGen.head hs hrest, hr⟩
            exact rootOf_unique d i x r h1 hroot
          rw [hxr2, ← hia]
          refine Relation.ReflTransGen.single ⟨?_, hne⟩
          show (d.p.set i r).getD i i = r
          rw [hget i, if_pos rfl]
        · refine Relation.ReflTransGen.head ⟨?_, hs.2⟩ ih
          show (d.p.set i r).getD a a = c
          rw [hget a, if_neg hia]
          exact hs.1
    exact key j p

theorem above_lt (d : DSU) (rk : Nat → Nat) (i q : Nat) (hq : q < d.p.length)
    (h : rk i < rk q) : above d rk q < above d rk i := by
  unfold above
  apply Finset.card_lt_card
  rw [Finset.ssubset_iff_of_subset]
  · refine ⟨q, ?_, ?_⟩
    · rw [Finset.mem_filter, Finset.mem_range]
      exact ⟨hq, h⟩
    · rw [Finset.mem_filter]
      exact fun hc => lt_irrefl _ hc.2
  · intro j hj
    rw [Finset.mem_filter] at hj ⊢
    exact ⟨hj.1, lt_trans h hj.2⟩

/-- The method `find` returns the root of `i`, and its path compression keeps all roots: with
fuel above the number of indices of higher rank, hence with fuel `p.size()`. -/
theorem find_spec (rk : Nat → Nat) :
    ∀ (fuel : Nat) (d : DSU) (i : Nat), DsuInv d rk → above d rk i < fuel →
      (DSU.find fuel d i).1.p.length = d.p.length ∧ DsuInv (DSU.find fuel d i).1 rk ∧
        RootOf d i (DSU.find fuel d i).2 ∧
        ∀ j x, RootOf (DSU.find fuel d i).1 j x ↔ RootOf d j x := by
  intro fuel
  induction fuel with
  | zero => intro d i _ h; exact absurd h (Nat.not_lt_zero _)
  | succ fuel ih =>
    intro d i inv hf
    unfold DSU.find
    by_cases hroot : d.p.getD i i = i
    · rw [if_pos hroot]
      exact ⟨rfl, inv, rootOf_self d i hroot, fun j x => Iff.rfl⟩
    · rw [if_neg hroot]
      dsimp only
      have hi := not_root_lt d i hroot
      have hq := inv.1 i hi
      have hrk := inv.2 i hroot
      have hab := above_lt d rk i _ hq hrk
      obtain ⟨h1, h2, h3, h4⟩ := ih d (d.p.getD i i) inv (by omega)
      have hstep : ParentStep d i (d.p.getD i i) := ⟨rfl, fun e => hroot e.symm⟩
      have hri : RootOf d i (DSU.find fuel d (d.p.getD i i)).2 :=
        (rootOf_step d i _ _ hstep).mpr h3
      have hrlt := path_lt d rk inv _ _ hq h3.1
      have hle := rank_le_of_path d rk inv _ _ h3.1
      have hne : i ≠ (DSU.find fuel d (d.p.getD i i)).2 := by
        intro e
        rw [← e] at hle
        omega
      have hget : ∀ m, ((DSU.find fuel d (d.p.getD i i)).1.p.set i
          (DSU.find fuel d (d.p.getD i i)).2).getD m m =
          if i = m then (DSU.find fuel d (d.p.getD i i)).2
          else (DSU.find fuel d (d.p.getD i i)).1.p.getD m m := by
        intro m
        rw [getD_set]
        by_cases h : i = m
        · rw [if_pos ⟨h, by rw [h1]; exact hi⟩, if_pos h]
        · rw [if_neg (fun hc => h hc.1), if_neg h]
      refine ⟨by rw [List.length_set]; exact h1, ⟨?_, ?_⟩, hri, ?_⟩
      · intro m hm
        rw [List.length_set] at hm ⊢
        show ((DSU.find fuel d (d.p.getD i i)).1.p.set i _).getD m m < _
        rw [hget m]
        split
        · rw [h1]; exact hrlt
        · exact h2.1 m hm
      · intro m hm
        have hm2 : ((DSU.find fuel d (d.p.getD i i)).1.p.set i
          (DSU.find fuel d (d.p.getD i i)).2).getD m m ≠ m := hm
        show rk m < rk (((DSU.find fuel d (d.p.getD i i)).1.p.set i _).getD m m)
        rw [hget m] at hm2 ⊢
        by_cases him : i = m
        · rw [if_pos him, ← him]
          omega
        · rw [if_neg him] at hm2 ⊢
          exact h2.2 m hm2
      · intro j x
        rw [rootOf_set _ i _ ((h4 i _).mpr hri) hne (by rw [h1]; exact hi) j x]
        exact h4 j x

theorem above_lt_length (d : DSU) (rk : Nat → Nat) (i : Nat) (hi : i < d.p.length) :
    above d rk i < d.p.length := by
  unfold above
  have : ((Finset.range d.p.length).filter (fun j => rk i < rk j)).card
      < (Finset.range d.p.length).card := by
    apply Finset.card_lt_card
    rw [Finset.ssubset_iff_of_subset (Finset.filter_subset _ _)]
    exact ⟨i, Finset.mem_range.mpr hi, fun hc => lt_irrefl _ (Finset.mem_filter.mp hc).2⟩
  rwa [Finset.card_range] at this

/-- The call `find(i)` as the code makes it, for an index of the vector. -/
theorem find_full (rk : Nat → Nat) (d : DSU) (i : Nat) (inv : DsuInv d rk)
    (hi : i < d.p.length) :
    (DSU.find d.p.length d i).1.p.length = d.p.length ∧
      DsuInv (DSU.find d.p.length d i).1 rk ∧ RootOf d i (DSU.find d.p.length d i).2 ∧
      ∀ j x, RootOf (DSU.find d.p.length d i).1 j x ↔ RootOf d j x :=
  find_spec rk d.p.length d i inv (above_lt_length d rk i hi)

/-- Every element has a root. -/
theorem exists_root (d : DSU) (rk : Nat → Nat) (inv : DsuInv d rk) (j : Nat) :
    ∃ r, RootOf d j r := by
  by_cases hj : j < d.p.length
  · exact ⟨_, (find_full rk d j inv hj).2.2.1⟩
  · exact ⟨j, rootOf_self d j (List.getD_eq_default _ _ (not_lt.mp hj))⟩

theorem sameRoot_iff (d : DSU) (a b ra rb : Nat) (ha : RootOf d a ra) (hb : RootOf d b rb) :
    SameRoot d a b ↔ ra = rb := by
  constructor
  · rintro ⟨r, h1, h2⟩
    exact (rootOf_unique d a ra r ha h1).trans (rootOf_unique d b r rb h2 hb)
  · intro e
    exact ⟨ra, ha, by rw [e]; exact hb⟩

/-- Hanging the root `r1` under the root `r2`: the elements of root `r1` get the root `r2`, the
other roots stay. -/
theorem rootOf_link (d : DSU) (rk : Nat → Nat) (inv : DsuInv d rk) (r1 r2 : Nat)
    (hr1 : d.p.getD r1 r1 = r1) (hr2 : d.p.getD r2 r2 = r2) (hne : r1 ≠ r2)
    (h1 : r1 < d.p.length) (h2 : r2 < d.p.length) :
    (∃ rk2, DsuInv ⟨d.p.set r1 r2⟩ rk2) ∧
      ∀ j x, RootOf d j x → RootOf ⟨d.p.set r1 r2⟩ j (if x = r1 then r2 else x) := by
  have hget : ∀ m, (d.p.set r1 r2).getD m m = if r1 = m then r2 else d.p.getD m m := by
    intro m
    rw [getD_set]
    by_cases h : r1 = m
    · rw [if_pos ⟨h, h1⟩, if_pos h]
    · rw [if_neg (fun hc => h hc.1), if_neg h]
  constructor
  · classical
    refine ⟨fun x => if RootOf d x r2 then rk x + rk r1 + 1 else rk x, ⟨?_, ?_⟩⟩
    · intro m hm
      show (d.p.set r1 r2).getD m m < (d.p.set r1 r2).length
      rw [List.length_set] at hm ⊢
      rw [hget m]
      split
      · exact h2
      · exact inv.1 m hm
    · intro m hm
      have hm2 : (d.p.set r1 r2).getD m m ≠ m := hm
      show (if RootOf d m r2 then rk m + rk r1 + 1 else rk m) <
        (if RootOf d ((d.p.set r1 r2).getD m m) r2 then
          rk ((d.p.set r1 r2).getD m m) + rk r1 + 1 else rk ((d.p.set r1 r2).getD m m))
      rw [hget m] at hm2 ⊢
      by_cases hrm : r1 = m
      · rw [if_pos hrm, ← hrm]
        have hn1 : ¬ RootOf d r1 r2 := fun hc =>
          hne (rootOf_unique d r1 r1 r2 (rootOf_self d r1 hr1) hc)
        rw [if_neg hn1, if_pos (rootOf_self d r2 hr2)]
        omega
      · rw [if_neg hrm] at hm2 ⊢
        have hstep : ParentStep d m (d.p.getD m m) := ⟨rfl, fun e => hm2 e.symm⟩
        have hlt := inv.2 m hm2
        by_cases hc : RootOf d m r2
        · rw [if_pos hc, if_pos ((rootOf_step d m _ r2 hstep).mp hc)]
          omega
        · rw [if_neg hc, if_neg (fun h => hc ((rootOf_step d m _ r2 hstep).mpr h))]
          exact hlt
  · intro j x hx
    obtain ⟨p, hr⟩ := hx
    induction p using Relation.ReflTransGen.head_induction_on with
    | refl =>
      by_cases hx1 : x = r1
      · rw [if_pos hx1, hx1]
        refine ⟨Relation.ReflTransGen.single ⟨?_, hne⟩, ?_⟩
        · show (d.p.set r1 r2).getD r1 r1 = r2
          rw [hget r1, if_pos rfl]
        · show (d.p.set r1 r2).getD r2 r2 = r2
          rw [hget r2, if_neg hne]
          exact hr2
      · rw [if_neg hx1]
        refine ⟨Relation.ReflTransGen.refl, ?_⟩
        show (d.p.set r1 r2).getD x x = x
        rw [hget x, if_neg (fun e => hx1 e.symm)]
        exact hr
    | head hs hrest ih =>
      rename_i a c
      have ha1 : r1 ≠ a := by
        intro e
        rw [← e] at hs
        exact hs.2 (hr1.symm.trans hs.1)
      refine ⟨Relation.ReflTransGen.head ⟨?_, hs.2⟩ ih.1, ih.2⟩
      show (d.p.set r1 r2).getD a a = c
      rw [hget a, if_neg ha1]
      exact hs.1

/-- The method `unite` on two elements with different roots: afterwards two elements have the
same root iff they had, or one had the root of `i` and the other the root of `j`. -/
theorem unite_spec (d : DSU) (rk : Nat → Nat) (inv : DsuInv d rk) (i j : Nat)
    (hi : i < d.p.length) (hj : j < d.p.length) (hdiff : ¬ SameRoot d i j) :
    (DSU.unite d i j).p.length = d.p.length ∧ (∃ rk2, DsuInv (DSU.unite d i j) rk2) ∧
      ∀ a b, SameRoot (DSU.unite d i j) a b ↔
        (SameRoot d a b ∨ (SameRoot d a i ∧ SameRoot d j b) ∨ (SameRoot d a j ∧ SameRoot d i b)) := by
  obtain ⟨a1, a2, a3, a4⟩ := find_full rk d i inv hi
  obtain ⟨b1, b2, b3, b4⟩ := find_spec rk d.p.length (DSU.find d.p.length d i).1 j a2
    (by
      have := above_lt_length (DSU.find d.p.length d i).1 rk j (by rw [a1]; exact hj)
      rw [a1] at this
      exact this)
  have hrj : RootOf d j (DSU.find d.p.length (DSU.find d.p.length d i).1 j).2 := (a4 j _).mp b3
  have hne : (DSU.find d.p.length d i).2 ≠
      (DSU.find d.p.length (DSU.find d.p.length d i).1 j).2 := by
    intro e
    exact hdiff ⟨_, a3, by rw [e]; exact hrj⟩
  have hroots : ∀ m x, RootOf (DSU.find d.p.length (DSU.find d.p.length d i).1 j).1 m x ↔
      RootOf d m x := fun m x => (b4 m x).trans (a4 m x)
  have hl1 : (DSU.find d.p.length d i).2 < d.p.length := path_lt d rk inv i _ hi a3.1
  have hl2 : (DSU.find d.p.length (DSU.find d.p.length d i).1 j).2 < d.p.length :=
    path_lt d rk inv j _ hj hrj.1
  have hlen : (DSU.find d.p.length (DSU.find d.p.length d i).1 j).1.p.length = d.p.length :=
    b1.trans a1
  obtain ⟨c1, c2⟩ := rootOf_link (DSU.find d.p.length (DSU.find d.p.length d i).1 j).1 rk b2
    (DSU.find d.p.length d i).2 (DSU.find d.p.length (DSU.find d.p.length d i).1 j).2
    ((hroots _ _).mpr (rootOf_self d _ a3.2)).2 ((hroots _ _).mpr (rootOf_self d _ hrj.2)).2 hne
    (by rw [hlen]; exact hl1) (by rw [hlen]; exact hl2)
  have hun : DSU.unite d i j = ⟨(DSU.find d.p.length (DSU.find d.p.length d i).1 j).1.p.set
      (DSU.find d.p.length d i).2 (DSU.find d.p.length (DSU.find d.p.length d i).1 j).2⟩ := by
    unfold DSU.unite
    dsimp only
    rw [if_pos hne]
  rw [hun]
  refine ⟨by rw [List.length_set]; exact hlen, c1, ?_⟩
  intro a b
  obtain ⟨ra, hra⟩ := exists_root d rk inv a
  obtain ⟨rb, hrb⟩ := exists_root d rk inv b
  have ha2 := c2 a ra ((hroots a ra).mpr hra)
  have hb2 := c2 b rb ((hroots b rb).mpr hrb)
  rw [sameRoot_iff _ a b _ _ ha2 hb2, sameRoot_iff d a b ra rb hra hrb,
    sameRoot_iff d a i ra _ hra a3, sameRoot_iff d j b _ rb hrj hrb,
    sameRoot_iff d a j ra _ hra hrj, sameRoot_iff d i b _ rb a3 hrb]
  by_cases e1 : ra = (DSU.find d.p.length d i).2 <;>
  by_cases e2 : rb = (DSU.find d.p.length d i).2
  · rw [if_pos e1, if_pos e2]
    constructor
    · intro _; exact Or.inl (e1.trans e2.symm)
    · intro _; rfl
  · rw [if_pos e1, if_neg e2]
    constructor
    · intro h; exact Or.inr (Or.inl ⟨e1, h⟩)
    · rintro (h | ⟨_, h⟩ | ⟨h, h3⟩)
      · exact absurd (h.symm.trans e1) e2
      · exact h
      · exact absurd (e1.symm.trans h) hne
  · rw [if_neg e1, if_pos e2]
    constructor
    · intro h; exact Or.inr (Or.inr ⟨h, e2.symm⟩)
    · rintro (h | ⟨h, _⟩ | ⟨h, _⟩)
      · exact absurd (h.trans e2) e1
      · exact absurd h e1
      · exact h
  · rw [if_neg e1, if_neg e2]
    constructor
    · intro h; exact Or.inl h
    · rintro (h | ⟨h, _⟩ | ⟨_, h⟩)
      · exact h
      · exact absurd h e1
      · exact absurd h.symm e2

/-! ## Connectivity by a list of edges -/

theorem conn_mono (L M : List (Nat × Nat)) (h : ∀ e ∈ L, e ∈ M) (a b : Nat)
    (hc : Conn L a b) : Conn M a b :=
  Relation.EqvGen.mono (fun x y hxy => h (x, y) hxy) hc

theorem conn_of_forall (L : List (Nat × Nat)) (R : Nat → Nat → Prop)
    (hrefl : ∀ a, R a a) (hsymm : ∀ a b, R a b → R b a) (htrans : ∀ a b c, R a b → R b c → R a c)
    (h : ∀ e ∈ L, R e.1 e.2) (a b : Nat) (hc : Conn L a b) : R a b := by
  induction hc with
  | rel x y hxy => exact h (x, y) hxy
  | refl x => exact hrefl x
  | symm x y _ ih => exact hsymm x y ih
  | trans x y z _ _ ih1 ih2 => exact htrans x y z ih1 ih2

theorem conn_refl (L : List (Nat × Nat)) (a : Nat) : Conn L a a := Relation.EqvGen.refl a

theorem conn_symm (L : List (Nat × Nat)) (a b : Nat) (h : Conn L a b) : Conn L b a :=
  Relation.EqvGen.symm a b h

theorem conn_trans (L : List (Nat × Nat)) (a b c : Nat) (h1 : Conn L a b) (h2 : Conn L b c) :
    Conn L a c := Relation.EqvGen.trans a b c h1 h2

theorem conn_edge (L : List (Nat × Nat)) (e : Nat × Nat) (h : e ∈ L) : Conn L e.1 e.2 :=
  Relation.EqvGen.rel e.1 e.2 h

/-- Connectivity after one more edge `(u, v)`. -/
theorem conn_add_edge (S : List (Nat × Nat)) (u v a b : Nat) :
    Conn (S ++ [(u, v)]) a b ↔
      (Conn S a b ∨ (Conn S a u ∧ Conn S v b) ∨ (Conn S a v ∧ Conn S u b)) := by
  constructor
  · intro h
    apply conn_of_forall (S ++ [(u, v)])
      (fun a b => Conn S a b ∨ (Conn S a u ∧ Conn S v b) ∨ (Conn S a v ∧ Conn S u b)) _ _ _ _ a b h
    · intro x; exact Or.inl (conn_refl S x)
    · rintro x y (h | ⟨h1, h2⟩ | ⟨h1, h2⟩)
      · exact Or.inl (conn_symm S _ _ h)
      · exact Or.inr (Or.inr ⟨conn_symm S _ _ h2, conn_symm S _ _ h1⟩)
      · exact Or.inr (Or.inl ⟨conn_symm S _ _ h2, conn_symm S _ _ h1⟩)
    · rintro x y z (h | ⟨h1, h2⟩ | ⟨h1, h2⟩) (k | ⟨k1, k2⟩ | ⟨k1, k2⟩)
      · exact Or.inl (conn_trans S _ _ _ h k)
      · exact Or.inr (Or.inl ⟨conn_trans S _ _ _ h k1, k2⟩)
      · exact Or.inr (Or.inr ⟨conn_trans S _ _ _ h k1, k2⟩)
      · exact Or.inr (Or.inl ⟨h1, conn_trans S _ _ _ h2 k⟩)
      · exact Or.inl (conn_trans S _ _ _ h1 (conn_trans S _ _ _
          (conn_symm S _ _ (conn_trans S _ _ _ h2 k1)) k2))
      · exact Or.inl (conn_trans S _ _ _ h1 k2)
      · exact Or.inr (Or.inr ⟨h1, conn_trans S _ _ _ h2 k⟩)
      · exact Or.inl (conn_trans S _ _ _ h1 k2)
      · exact Or.inl (conn_trans S _ _ _ h1 (conn_trans S _ _ _
          (conn_symm S _ _ (conn_trans S _ _ _ h2 k1)) k2))
    · intro e he
      rcases List.mem_append.mp he with h | h
      · exact Or.inl (conn_edge S e h)
      · rw [List.mem_singleton] at h
        rw [h]
        exact Or.inr (Or.inl ⟨conn_refl S u, conn_refl S v⟩)
  · have hm : ∀ x y, Conn S x y → Conn (S ++ [(u, v)]) x y :=
      fun x y => conn_mono S _ (fun e he => List.mem_append_left _ he) x y
    have he : Conn (S ++ [(u, v)]) u v := conn_edge _ (u, v) (by simp)
    rintro (h | ⟨h1, h2⟩ | ⟨h1, h2⟩)
    · exact hm _ _ h
    · exact conn_trans _ _ _ _ (hm _ _ h1) (conn_trans _ _ _ _ he (hm _ _ h2))
    · exact conn_trans _ _ _ _ (hm _ _ h1) (conn_trans _ _ _ _ (conn_symm _ _ _ he) (hm _ _ h2))

/-! ## The Kruskal loop -/

theorem treePairs_append (A B : List Link) : treePairs (A ++ B) = treePairs A ++ treePairs B := by
  unfold treePairs
  rw [List.filter_append, List.map_append]

theorem linkPairs_append (A B : List Link) : linkPairs (A ++ B) = linkPairs A ++ linkPairs B := by
  unfold linkPairs
  rw [List.map_append]

theorem treePairs_sublist (L : List Link) : List.Sublist (treePairs L) (linkPairs L) := by
  unfold treePairs linkPairs
  exact List.Sublist.map _ (List.filter_sublist _)

theorem split_snoc {α : Type} (L A B : List α) (l0 l : α) (h : L ++ [l0] = A ++ l :: B) :
    (B = [] ∧ A = L ∧ l = l0) ∨ ∃ B0, B = B0 ++ [l0] ∧ L = A ++ l :: B0 := by
  rcases List.eq_nil_or_concat B with hB | ⟨B0, b, hB⟩
  · subst hB
    have := List.append_inj' h rfl
    exact Or.inl ⟨rfl, this.1.symm, (List.singleton_inj.mp this.2).symm⟩
  · rw [List.concat_eq_append] at hB
    subst hB
    have h2 : L ++ [l0] = (A ++ l :: B0) ++ [b] := by
      rw [h]
      simp
    have := List.append_inj' h2 rfl
    right
    refine ⟨B0, ?_, this.1⟩
    rw [List.singleton_inj.mp this.2]

theorem kruskalInv_init (n : Nat) (rng : Rng) : KruskalInv n [] (DSU.mk0 n, rng, []) := by
  have hget : ∀ i, (DSU.mk0 n).p.getD i i = i := by
    intro i
    show (List.range n).getD i i = i
    by_cases hi : i < n
    · rw [List.getD_eq_getElem _ _ (by rw [List.length_range]; exact hi), List.getElem_range]
    · exact List.getD_eq_default _ _ (by rw [List.length_range]; omega)
  refine ⟨List.length_range n, ⟨fun _ => 0, ?_, ?_⟩, ?_, ?_, ?_, ?_⟩
  · intro i hi
    rw [hget i]
    exact hi
  · intro i hi
    exact absurd (hget i) hi
  · intro a b
    rw [sameRoot_iff _ a b a b (rootOf_self _ a (hget a)) (rootOf_self _ b (hget b))]
    constructor
    · intro e
      rw [e]
      exact conn_refl _ b
    · intro h
      exact conn_of_forall [] (fun a b => a = b) (fun _ => rfl) (fun _ _ h => h.symm)
        (fun _ _ _ h1 h2 => h1.trans h2) (fun e he => absurd he (List.not_mem_nil e)) a b h
  · intro e he
    exact absurd he (List.not_mem_nil e)
  · exact List.Sublist.slnil
  · intro A l B h
    exact absurd h (by simp)

/-- One iteration of the Kruskal loop keeps the invariant; it adds a tree link iff the two ends
of the edge are not yet joined by tree links, and otherwise a loop link or nothing. -/
theorem kruskalStep_spec (n : Nat) (pre : List (Nat × Nat)) (st : DSU × Rng × List Link)
    (e : Nat × Nat) (hinv : KruskalInv n pre st) (h1 : e.1 < n) (h2 : e.2 < n) :
    KruskalInv n (pre ++ [e]) (kruskalStep st e) ∧
      ((¬ Conn (treePairs st.2.2) e.1 e.2 ∧
          (kruskalStep st e).2.2 = st.2.2 ++ [⟨e.1, e.2, true⟩]) ∨
        (Conn (treePairs st.2.2) e.1 e.2 ∧
          ((kruskalStep st e).2.2 = st.2.2 ++ [⟨e.1, e.2, false⟩] ∨
            (kruskalStep st e).2.2 = st.2.2))) := by
  obtain ⟨hlen, ⟨rk, hrk⟩, hroots, hspan, hsub, hseq⟩ := hinv
  obtain ⟨a1, a2, a3, a4⟩ := find_full rk st.1 e.1 hrk (by rw [hlen]; exact h1)
  obtain ⟨b1, b2, b3, b4⟩ := find_spec rk st.1.p.length (DSU.find st.1.p.length st.1 e.1).1 e.2 a2
    (by
      have := above_lt_length (DSU.find st.1.p.length st.1 e.1).1 rk e.2
        (by rw [a1, hlen]; exact h2)
      rw [a1] at this
      exact this)
  have hr2 : RootOf st.1 e.2 (DSU.find st.1.p.length (DSU.find st.1.p.length st.1 e.1).1 e.2).2 :=
    (a4 _ _).mp b3
  have hsame : SameRoot st.1 e.1 e.2 ↔ (DSU.find st.1.p.length st.1 e.1).2 =
      (DSU.find st.1.p.length (DSU.find st.1.p.length st.1 e.1).1 e.2).2 :=
    sameRoot_iff st.1 e.1 e.2 _ _ a3 hr2
  have hroots2 : ∀ a b,
      SameRoot (DSU.find st.1.p.length (DSU.find st.1.p.length st.1 e.1).1 e.2).1 a b ↔
        SameRoot st.1 a b := by
    intro a b
    constructor
    · rintro ⟨r, x, y⟩
      exact ⟨r, (a4 _ _).mp ((b4 _ _).mp x), (a4 _ _).mp ((b4 _ _).mp y)⟩
    · rintro ⟨r, x, y⟩
      exact ⟨r, (b4 _ _).mpr ((a4 _ _).mpr x), (b4 _ _).mpr ((a4 _ _).mpr y)⟩
  have hlen2 : (DSU.find st.1.p.length (DSU.find st.1.p.length st.1 e.1).1 e.2).1.p.length = n :=
    (b1.trans a1).trans hlen
  have hsub2 : ∀ x ∈ treePairs st.2.2, x ∈ treePairs st.2.2 ++ [e] :=
    fun x hx => List.mem_append_left _ hx
  unfold kruskalStep
  dsimp only
  by_cases hne : (DSU.find st.1.p.length st.1 e.1).2 ≠
      (DSU.find st.1.p.length (DSU.find st.1.p.length st.1 e.1).1 e.2).2
  · rw [if_pos hne]
    have hnc : ¬ Conn (treePairs st.2.2) e.1 e.2 := fun hc =>
      hne (hsame.mp ((hroots _ _).mpr hc))
    obtain ⟨c1, c2, c3⟩ := unite_spec
      (DSU.find st.1.p.length (DSU.find st.1.p.length st.1 e.1).1 e.2).1 rk b2 e.1 e.2
      (by rw [hlen2]; exact h1) (by rw [hlen2]; exact h2)
      (fun hc => hne (hsame.mp ((hroots2 _ _).mp hc)))
    have htp : treePairs (st.2.2 ++ [⟨e.1, e.2, true⟩]) = treePairs st.2.2 ++ [(e.1, e.2)] := by
      rw [treePairs_append]
      rfl
    refine ⟨⟨c1.trans hlen2, c2, ?_, ?_, ?_, ?_⟩, Or.inl ⟨hnc, rfl⟩⟩
    · intro a b
      show SameRoot _ a b ↔ Conn (treePairs (st.2.2 ++ [⟨e.1, e.2, true⟩])) a b
      rw [htp, conn_add_edge, c3 a b, hroots2, hroots2, hroots2, hroots2, hroots2, hroots,
        hroots, hroots, hroots, hroots]
    · intro x hx
      show Conn (treePairs (st.2.2 ++ [⟨e.1, e.2, true⟩])) x.1 x.2
      rw [htp]
      rcases List.mem_append.mp hx with h | h
      · exact conn_mono _ _ (fun y hy => List.mem_append_left _ hy) _ _ (hspan x h)
      · rw [List.mem_singleton] at h
        rw [h]
        exact conn_edge _ (e.1, e.2) (by simp)
    · show List.Sublist (linkPairs (st.2.2 ++ [⟨e.1, e.2, true⟩])) (pre ++ [e])
      rw [linkPairs_append]
      exact List.Sublist.append hsub (List.Sublist.refl _)
    · intro A l B hsplit
      have hsplit2 : st.2.2 ++ [⟨e.1, e.2, true⟩] = A ++ l :: B := hsplit
      rcases split_snoc _ _ _ _ _ hsplit2 with ⟨_, hA, hl⟩ | ⟨B0, _, hL⟩
      · rw [hA, hl]
        exact ⟨fun _ => hnc, fun h => Bool.noConfusion h⟩
      · exact hseq A l B0 hL
  · rw [if_neg hne]
    have hc : Conn (treePairs st.2.2) e.1 e.2 :=
      (hroots _ _).mp (hsame.mpr (not_not.mp hne))
    have hbase : ∀ L : List Link, (treePairs L = treePairs st.2.2) →
        List.Sublist (linkPairs L) (pre ++ [e]) →
        (∀ A l B, L = A ++ l :: B →
          (l.isMST = true → ¬ Conn (treePairs A) l.u l.v) ∧
            (l.isMST = false → Conn (treePairs A) l.u l.v)) →
        KruskalInv n (pre ++ [e])
          ((DSU.find st.1.p.length (DSU.find st.1.p.length st.1 e.1).1 e.2).1,
            (uniformInt st.2.1 0 10).2, L) := by
      intro L hT hS hQ
      refine ⟨hlen2, ⟨rk, b2⟩, ?_, ?_, hS, hQ⟩
      · intro a b
        show SameRoot _ a b ↔ Conn (treePairs L) a b
        rw [hT, hroots2, hroots]
      · intro x hx
        show Conn (treePairs L) x.1 x.2
        rw [hT]
        rcases List.mem_append.mp hx with h | h
        · exact hspan x h
        · rw [List.mem_singleton] at h
          rw [h]
          exact hc
    split
    · refine ⟨hbase _ ?_ ?_ ?_, Or.inr ⟨hc, Or.inl rfl⟩⟩
      · rw [treePairs_append]
        show treePairs st.2.2 ++ [] = _
        rw [List.append_nil]
      · rw [linkPairs_append]
        exact List.Sublist.append hsub (List.Sublist.refl _)
      · intro A l B hsplit
        rcases split_snoc _ _ _ _ _ hsplit with ⟨_, hA, hl⟩ | ⟨B0, _, hL⟩
        · rw [hA, hl]
          exact ⟨fun h => Bool.noConfusion h, fun _ => hc⟩
        · exact hseq A l B0 hL
    · refine ⟨hbase _ rfl ?_ hseq, Or.inr ⟨hc, Or.inr rfl⟩⟩
      exact List.Sublist.trans hsub (List.sublist_append_left _ _)

/-- The Kruskal loop over the edges `es`, from the fresh union-find structure, keeps the
invariant. -/
theorem kruskal_inv (n : Nat) (rng : Rng) (es : List (Nat × Nat))
    (hes : ∀ e ∈ es, e.1 < n ∧ e.2 < n) :
    KruskalInv n es (es.foldl kruskalStep (DSU.mk0 n, rng, [])) := by
  induction es using List.reverseRecOn with
  | nil => exact kruskalInv_init n rng
  | append_singleton pre e ih =>
    rw [List.foldl_append]
    have hp := ih (fun x hx => hes x (List.mem_append_left _ hx))
    have he := hes e (by simp)
    exact (kruskalStep_spec n pre _ e hp he.1 he.2).1

/-- In a list of edges of which each joins two rooms that the edges before it do not join,
no edge joins two rooms that the other edges join: the list has no cycle. -/
theorem bridges_of_seq (T : List (Nat × Nat)) :
    (∀ A e B, T = A ++ e :: B → ¬ Conn A e.1 e.2) →
      ∀ A e B, T = A ++ e :: B → ¬ Conn (A ++ B) e.1 e.2 := by
  induction T using List.reverseRecOn with
  | nil =>
    intro _ A e B h
    exact absurd h (by simp)
  | append_singleton T0 f ih =>
    intro hseq A e B hsplit
    have hseq0 : ∀ A e B, T0 = A ++ e :: B → ¬ Conn A e.1 e.2 := by
      intro A e B h
      apply hseq A e (B ++ [f])
      rw [h]
      simp
    have hf : ¬ Conn T0 f.1 f.2 := hseq T0 f [] rfl
    rcases split_snoc _ _ _ _ _ hsplit with ⟨hB, hA, he⟩ | ⟨B0, hB, hL⟩
    · rw [hB, hA, he, List.append_nil]
      exact hf
    · rw [hB, ← List.append_assoc]
      have hbr := ih hseq0 A e B0 hL
      intro hc
      have hc2 : Conn ((A ++ B0) ++ [(f.1, f.2)]) e.1 e.2 := hc
      have hsubT : ∀ x ∈ A ++ B0, x ∈ T0 := by
        intro x hx
        rw [hL]
        rcases List.mem_append.mp hx with h | h
        · exact List.mem_append_left _ h
        · exact List.mem_append_right _ (List.mem_cons_of_mem _ h)
      have heT : Conn T0 e.1 e.2 := conn_edge T0 e (by rw [hL]; simp)
      rcases (conn_add_edge _ _ _ _ _).mp hc2 with h | ⟨h1, h2⟩ | ⟨h1, h2⟩
      · exact hbr h
      · apply hf
        exact conn_trans _ _ _ _ (conn_symm _ _ _ (conn_mono _ _ hsubT _ _ h1))
          (conn_trans _ _ _ _ heT (conn_symm _ _ _ (conn_mono _ _ hsubT _ _ h2)))
      · apply hf
        exact conn_trans _ _ _ _ (conn_mono _ _ hsubT _ _ h2)
          (conn_trans _ _ _ _ (conn_symm _ _ _ heT) (conn_mono _ _ hsubT _ _ h1))

theorem treePairs_split (L : List Link) :
    ∀ (A2 : List (Nat × Nat)) (e : Nat × Nat) (B2 : List (Nat × Nat)),
      treePairs L = A2 ++ e :: B2 →
      ∃ A l B, L = A ++ l :: B ∧ l.isMST = true ∧ (l.u, l.v) = e ∧ treePairs A = A2 := by
  induction L with
  | nil =>
    intro A2 e B2 h
    exact absurd h (by simp [treePairs])
  | cons l0 rest ih =>
    intro A2 e B2 h
    by_cases hm : l0.isMST = true
    · have hcons : treePairs (l0 :: rest) = (l0.u, l0.v) :: treePairs rest := by
        simp [treePairs, hm]
      rw [hcons] at h
      cases A2 with
      | nil =>
        simp only [List.nil_append, List.cons.injEq] at h
        exact ⟨[], l0, rest, rfl, hm, h.1, rfl⟩
      | cons a A3 =>
        simp only [List.cons_append, List.cons.injEq] at h
        obtain ⟨A, l, B, h1, h2, h3, h4⟩ := ih A3 e B2 h.2
        refine ⟨l0 :: A, l, B, by rw [h1]; rfl, h2, h3, ?_⟩
        have : treePairs (l0 :: A) = (l0.u, l0.v) :: treePairs A := by
          simp [treePairs, hm]
        rw [this, h4, h.1]
    · have hcons : ∀ X, treePairs (l0 :: X) = treePairs X := by
        intro X
        simp [treePairs, hm]
      rw [hcons] at h
      obtain ⟨A, l, B, h1, h2, h3, h4⟩ := ih A2 e B2 h
      exact ⟨l0 :: A, l, B, by rw [h1]; rfl, h2, h3, by rw [hcons, h4]⟩

/-- The tree links of a state that satisfies the invariant: no cycle, and they join exactly the
rooms that the processed edges join. -/
theorem kruskalInv_forest (n : Nat) (pre : List (Nat × Nat)) (st : DSU × Rng × List Link)
    (h : KruskalInv n pre st) :
    (∀ A e B, treePairs st.2.2 = A ++ e :: B → ¬ Conn A e.1 e.2) ∧
      (∀ A e B, treePairs st.2.2 = A ++ e :: B → ¬ Conn (A ++ B) e.1 e.2) ∧
      (∀ e ∈ treePairs st.2.2, e ∈ pre) ∧
      ∀ a b, Conn (treePairs st.2.2) a b ↔ Conn pre a b := by
  have hseq : ∀ A e B, treePairs st.2.2 = A ++ e :: B → ¬ Conn A e.1 e.2 := by
    intro A2 e B2 hs
    obtain ⟨A, l, B, h1, h2, h3, h4⟩ := treePairs_split st.2.2 A2 e B2 hs
    rw [← h4, ← h3]
    exact (h.seq A l B h1).1 h2
  have hsub : ∀ e ∈ treePairs st.2.2, e ∈ pre :=
    fun e he => h.sub.subset ((treePairs_sublist st.2.2).subset he)
  refine ⟨hseq, bridges_of_seq _ hseq, hsub, fun a b => ⟨conn_mono _ _ hsub a b, ?_⟩⟩
  exact conn_of_forall pre (Conn (treePairs st.2.2)) (conn_refl _) (conn_symm _) (conn_trans _)
    h.span a b

/-! ## The candidate edges -/

theorem computeGraph_links (lib : Lib) (s : DungeonBuilder)
    (h : 3 ≤ (collectMain 0 s.rooms).length) :
    (computeGraph lib s).links =
      ((sortedEdges lib s).foldl kruskalStep (DSU.mk0 s.rooms.length, s.rng, [])).2.2 := by
  unfold computeGraph
  dsimp only
  rw [if_neg (by omega)]
  rfl

theorem collectMain_spec (rooms : List RoomObj) :
    ∀ i, (∀ k ∈ collectMain i rooms, i ≤ k ∧ k < i + rooms.length ∧
        (roomAt rooms (k - i)).isMain = true) ∧
      (collectMain i rooms).Pairwise (fun a b => a < b) := by
  induction rooms with
  | nil =>
    intro i
    exact ⟨fun k hk => absurd hk (List.not_mem_nil k), List.Pairwise.nil⟩
  | cons r rest ih =>
    intro i
    obtain ⟨h1, h2⟩ := ih (i + 1)
    have hrest : ∀ k ∈ collectMain (i + 1) rest, i ≤ k ∧ k < i + (r :: rest).length ∧
        (roomAt (r :: rest) (k - i)).isMain = true := by
      intro k hk
      obtain ⟨a, b, c⟩ := h1 k hk
      refine ⟨by omega, by simp only [List.length_cons]; omega, ?_⟩
      have : k - i = (k - (i + 1)) + 1 := by omega
      rw [this, roomAt_cons_succ]
      exact c
    simp only [collectMain]
    split
    · rename_i hm
      constructor
      · intro k hk
        rcases List.mem_cons.mp hk with rfl | hk
        · refine ⟨le_refl _, by simp only [List.length_cons]; omega, ?_⟩
          rw [Nat.sub_self, roomAt_cons_zero]
          exact hm
        · exact hrest k hk
      · rw [List.pairwise_cons]
        exact ⟨fun k hk => by have := (h1 k hk).1; omega, h2⟩
    · exact ⟨hrest, h2⟩

theorem getD_strict (l : List Nat) (h : l.Pairwise (fun a b => a < b)) (a b : Nat)
    (ha : a < l.length) (hb : b < l.length) (hab : a < b) : l.getD a 0 < l.getD b 0 := by
  rw [List.getD_eq_getElem _ _ ha, List.getD_eq_getElem _ _ hb]
  exact List.pairwise_iff_getElem.mp h a b ha hb hab

theorem getD_ne_of_ne (l : List Nat) (h : l.Pairwise (fun a b => a < b)) (a b : Nat)
    (ha : a < l.length) (hb : b < l.length) (hab : a ≠ b) : l.getD a 0 ≠ l.getD b 0 := by
  rcases Nat.lt_or_gt_of_ne hab with h1 | h1
  · exact ne_of_lt (getD_strict l h a b ha hb h1)
  · exact (ne_of_lt (getD_strict l h b a hb ha h1)).symm

theorem mem_mapInc (k : Nat × Nat) (m : List ((Nat × Nat) × Nat)) :
    ∀ x ∈ mapInc k m, x.1 = k ∨ ∃ y ∈ m, x.1 = y.1 := by
  induction m with
  | nil =>
    intro x hx
    simp only [mapInc, List.mem_singleton] at hx
    left
    rw [hx]
  | cons e rest ih =>
    intro x hx
    simp only [mapInc] at hx
    split at hx
    · rcases List.mem_cons.mp hx with h | h
      · right
        exact ⟨e, List.mem_cons_self _ _, by rw [h]⟩
      · right
        exact ⟨x, List.mem_cons_of_mem _ h, rfl⟩
    · split at hx
      · rcases List.mem_cons.mp hx with h | h
        · left
          rw [h]
        · right
          exact ⟨x, h, rfl⟩
      · rcases List.mem_cons.mp hx with h | h
        · right
          exact ⟨e, List.mem_cons_self _ _, by rw [h]⟩
        · rcases ih x h with h2 | ⟨y, hy, h2⟩
          · exact Or.inl h2
          · exact Or.inr ⟨y, List.mem_cons_of_mem _ hy, h2⟩

theorem ordPair_cases (u v : Nat) :
    (ordPair u v = (u, v) ∧ u ≤ v) ∨ (ordPair u v = (v, u) ∧ v < u) := by
  unfold ordPair
  split
  · right
    exact ⟨rfl, by omega⟩
  · left
    exact ⟨rfl, by omega⟩

/-- The keys of the edge map of one insertion are edges of triangles of the list. -/
theorem edgeMap_keys (bad : List Tri) :
    ∀ x ∈ bad.foldl (fun m t =>
        mapInc (ordPair t.p3 t.p1) (mapInc (ordPair t.p2 t.p3) (mapInc (ordPair t.p1 t.p2) m))) [],
      ∃ t ∈ bad, x.1 = ordPair t.p1 t.p2 ∨ x.1 = ordPair t.p2 t.p3 ∨ x.1 = ordPair t.p3 t.p1 := by
  apply foldl_inv (fun m : List ((Nat × Nat) × Nat) => ∀ x ∈ m,
    ∃ t ∈ bad, x.1 = ordPair t.p1 t.p2 ∨ x.1 = ordPair t.p2 t.p3 ∨ x.1 = ordPair t.p3 t.p1)
  · intro x hx
    exact absurd hx (List.not_mem_nil x)
  · intro m t ht hm x hx
    rcases mem_mapInc _ _ x hx with h | ⟨y, hy, h⟩
    · exact ⟨t, ht, Or.inr (Or.inr h)⟩
    · rcases mem_mapInc _ _ y hy with h2 | ⟨z, hz, h2⟩
      · exact ⟨t, ht, Or.inr (Or.inl (h.trans h2))⟩
      · rcases mem_mapInc _ _ z hz with h3 | ⟨w, hw, h3⟩
        · exact ⟨t, ht, Or.inl ((h.trans h2).trans h3)⟩
        · obtain ⟨t2, ht2, h4⟩ := hm w hw
          refine ⟨t2, ht2, ?_⟩
          rw [h, h2, h3]
          exact h4

theorem insertPoint_ok (pts : List Vec2) (tris : List Tri) (N i : Nat) (hi : i < N)
    (h : ∀ t ∈ tris, TriOK N i t) : ∀ t ∈ insertPoint pts tris i, TriOK N (i + 1) t := by
  have hup : ∀ t, TriOK N i t → TriOK N (i + 1) t := by
    intro t ⟨a, b, c, d⟩
    exact ⟨by omega, by omega, by omega, d⟩
  intro t ht
  unfold insertPoint at ht
  dsimp only at ht
  rcases List.mem_append.mp ht with hk | hn
  · have hk2 := (List.mem_filter.mp hk).1
    obtain ⟨t0, ht0, he⟩ := List.mem_map.mp hk2
    have h0 := hup t0 (h t0 ht0)
    have hv : t.p1 = t0.p1 ∧ t.p2 = t0.p2 ∧ t.p3 = t0.p3 := by
      rw [← he]
      split <;> exact ⟨rfl, rfl, rfl⟩
    unfold TriOK at h0 ⊢
    rw [hv.1, hv.2.1, hv.2.2]
    exact h0
  · obtain ⟨e, he, rfl⟩ := List.mem_map.mp hn
    have he2 := (List.mem_filter.mp he).1
    obtain ⟨tb, htb, hkey⟩ := edgeMap_keys _ e he2
    obtain ⟨t0, ht0, hb⟩ := List.mem_map.mp htb
    have ht00 := (List.mem_filter.mp ht0).1
    obtain ⟨a, b, c, d1, d2, d3⟩ := h t0 ht00
    have hv : tb.p1 = t0.p1 ∧ tb.p2 = t0.p2 ∧ tb.p3 = t0.p3 := by
      rw [← hb]
      exact ⟨rfl, rfl, rfl⟩
    rw [hv.1, hv.2.1, hv.2.2] at hkey
    unfold TriOK
    dsimp only
    rcases hkey with hk | hk | hk
    · rcases ordPair_cases t0.p1 t0.p2 with ⟨ho, _⟩ | ⟨ho, _⟩ <;>
      · rw [hk, ho]
        dsimp only
        refine ⟨by omega, by omega, by omega, ?_, by omega, by omega⟩
        first | exact d1 | exact fun e => d1 e.symm
    · rcases ordPair_cases t0.p2 t0.p3 with ⟨ho, _⟩ | ⟨ho, _⟩ <;>
      · rw [hk, ho]
        dsimp only
        refine ⟨by omega, by omega, by omega, ?_, by omega, by omega⟩
        first | exact d2 | exact fun e => d2 e.symm
    · rcases ordPair_cases t0.p3 t0.p1 with ⟨ho, _⟩ | ⟨ho, _⟩ <;>
      · rw [hk, ho]
        dsimp only
        refine ⟨by omega, by omega, by omega, ?_, by omega, by omega⟩
        first | exact d3 | exact fun e => d3 e.symm

theorem insertLoop_ok (pts : List Vec2) (N : Nat) :
    ∀ k, k ≤ N → ∀ t ∈ (List.range k).foldl (insertPoint pts) [⟨N, N + 1, N + 2, false⟩],
      TriOK N k t := by
  intro k
  induction k with
  | zero =>
    intro _ t ht
    simp only [List.range_zero, List.foldl_nil, List.mem_singleton] at ht
    rw [ht]
    unfold TriOK
    dsimp only
    omega
  | succ k ih =>
    intro hk t ht
    rw [List.range_succ, List.foldl_append] at ht
    exact insertPoint_ok pts _ N k (by omega) (ih (by omega)) t ht

/-- The triangles that `computeGraph` keeps have three distinct vertices among the points. -/
theorem triangulate_ok (pts0 : List Vec2) :
    ∀ t ∈ triangulate pts0, t.p1 < pts0.length ∧ t.p2 < pts0.length ∧ t.p3 < pts0.length ∧
      t.p1 ≠ t.p2 ∧ t.p2 ≠ t.p3 ∧ t.p1 ≠ t.p3 := by
  intro t ht
  unfold triangulate at ht
  dsimp only at ht
  obtain ⟨hm, hf⟩ := List.mem_filter.mp ht
  obtain ⟨_, _, _, d⟩ := insertLoop_ok _ pts0.length pts0.length (le_refl _) t hm
  simp only [Bool.not_eq_true', Bool.or_eq_false_iff, decide_eq_false_iff_not, ge_iff_le,
    not_le] at hf
  exact ⟨hf.1.1, hf.1.2, hf.2, d⟩

theorem mem_setInsert (k : Nat × Nat) (m : List (Nat × Nat)) :
    ∀ x, x ∈ setInsert k m ↔ x = k ∨ x ∈ m := by
  induction m with
  | nil =>
    intro x
    simp [setInsert]
  | cons e rest ih =>
    intro x
    simp only [setInsert]
    split
    · rename_i h
      rw [h]
      simp
    · split
      · simp
      · rw [List.mem_cons, ih x, List.mem_cons]
        tauto

theorem pairLt_trans (a b c : Nat × Nat) (h1 : pairLt a b = true) (h2 : pairLt b c = true) :
    pairLt a c = true := by
  unfold pairLt at *
  simp only [Bool.or_eq_true, Bool.and_eq_true, decide_eq_true_eq] at *
  omega

theorem pairLt_total (a b : Nat × Nat) (h1 : a ≠ b) (h2 : ¬ pairLt a b = true) :
    pairLt b a = true := by
  unfold pairLt at *
  simp only [Bool.or_eq_true, Bool.and_eq_true, decide_eq_true_eq] at *
  have : a.1 ≠ b.1 ∨ a.2 ≠ b.2 := by
    by_contra hc
    push_neg at hc
    exact h1 (Prod.ext hc.1 hc.2)
  omega

theorem pairLt_irrefl (a : Nat × Nat) : ¬ pairLt a a = true := by
  unfold pairLt
  simp

theorem setInsert_sorted (k : Nat × Nat) (m : List (Nat × Nat))
    (h : m.Pairwise (fun a b => pairLt a b = true)) :
    (setInsert k m).Pairwise (fun a b => pairLt a b = true) := by
  induction m with
  | nil => simp [setInsert]
  | cons e rest ih =>
    rw [List.pairwise_cons] at h
    simp only [setInsert]
    split
    · exact List.pairwise_cons.mpr h
    · rename_i hne
      split
      · rename_i hlt
        rw [List.pairwise_cons]
        refine ⟨?_, List.pairwise_cons.mpr h⟩
        intro x hx
        rcases List.mem_cons.mp hx with rfl | hx
        · exact hlt
        · exact pairLt_trans _ _ _ hlt (h.1 x hx)
      · rename_i hnlt
        rw [List.pairwise_cons]
        refine ⟨?_, ih h.2⟩
        intro x hx
        rcases (mem_setInsert k rest x).mp hx with rfl | hx
        · exact pairLt_total _ _ hne hnlt
        · exact h.1 x hx

/-- The candidate edges are sorted by the order of the set, hence distinct, and each is an
edge of a triangle, mapped to room indices. -/
theorem candidateEdges_spec (mainIdx : List Nat) (tris : List Tri) :
    (candidateEdges mainIdx tris).Pairwise (fun a b => pairLt a b = true) ∧
      ∀ e ∈ candidateEdges mainIdx tris, ∃ t ∈ tris,
        e = ordPair (mainIdx.getD t.p1 0) (mainIdx.getD t.p2 0) ∨
        e = ordPair (mainIdx.getD t.p2 0) (mainIdx.getD t.p3 0) ∨
        e = ordPair (mainIdx.getD t.p3 0) (mainIdx.getD t.p1 0) := by
  unfold candidateEdges
  apply foldl_inv (fun m : List (Nat × Nat) => m.Pairwise (fun a b => pairLt a b = true) ∧
    ∀ e ∈ m, ∃ t ∈ tris,
      e = ordPair (mainIdx.getD t.p1 0) (mainIdx.getD t.p2 0) ∨
      e = ordPair (mainIdx.getD t.p2 0) (mainIdx.getD t.p3 0) ∨
      e = ordPair (mainIdx.getD t.p3 0) (mainIdx.getD t.p1 0))
  · exact ⟨List.Pairwise.nil, fun e he => absurd he (List.not_mem_nil e)⟩
  · intro m t ht ⟨hs, hm⟩
    dsimp only
    refine ⟨setInsert_sorted _ _ (setInsert_sorted _ _ (setInsert_sorted _ _ hs)), ?_⟩
    intro e he
    rcases (mem_setInsert _ _ e).mp he with h | he
    · exact ⟨t, ht, Or.inr (Or.inr h)⟩
    · rcases (mem_setInsert _ _ e).mp he with h | he
      · exact ⟨t, ht, Or.inr (Or.inl h)⟩
      · rcases (mem_setInsert _ _ e).mp he with h | he
        · exact ⟨t, ht, Or.inl h⟩
        · exact hm e he

theorem pairwise_nodup (l : List (Nat × Nat)) (h : l.Pairwise (fun a b => pairLt a b = true)) :
    l.Nodup := by
  unfold List.Nodup
  apply h.imp
  intro a b hab e
  rw [e] at hab
  exact pairLt_irrefl b hab

/-- Every candidate edge joins two distinct main rooms, the smaller index first. -/
theorem graphEdges_spec (s : DungeonBuilder) :
    (graphEdges s).Nodup ∧ ∀ e ∈ graphEdges s, e.1 < e.2 ∧ e.2 < s.rooms.length ∧
      (roomAt s.rooms e.1).isMain = true ∧ (roomAt s.rooms e.2).isMain = true := by
  obtain ⟨hs, hm⟩ := candidateEdges_spec (collectMain 0 s.rooms)
    (triangulate ((collectMain 0 s.rooms).map
      (fun idx => (⟨(roomAt s.rooms idx).x, (roomAt s.rooms idx).y⟩ : Vec2))))
  refine ⟨pairwise_nodup _ hs, ?_⟩
  obtain ⟨hc1, hc2⟩ := collectMain_spec s.rooms 0
  have hmain : ∀ a, a < (collectMain 0 s.rooms).length →
      (collectMain 0 s.rooms).getD a 0 < s.rooms.length ∧
        (roomAt s.rooms ((collectMain 0 s.rooms).getD a 0)).isMain = true := by
    intro a ha
    have hmem : (collectMain 0 s.rooms).getD a 0 ∈ collectMain 0 s.rooms := by
      rw [List.getD_eq_getElem _ _ ha]
      exact List.getElem_mem ha
    obtain ⟨_, h2, h3⟩ := hc1 _ hmem
    exact ⟨by omega, by rwa [Nat.sub_zero] at h3⟩
  have key : ∀ a b, a < (collectMain 0 s.rooms).length → b < (collectMain 0 s.rooms).length →
      a ≠ b → ∀ e, e = ordPair ((collectMain 0 s.rooms).getD a 0)
        ((collectMain 0 s.rooms).getD b 0) →
      e.1 < e.2 ∧ e.2 < s.rooms.length ∧ (roomAt s.rooms e.1).isMain = true ∧
        (roomAt s.rooms e.2).isMain = true := by
    intro a b ha hb hab e he
    have hne := getD_ne_of_ne _ hc2 a b ha hb hab
    obtain ⟨ma1, ma2⟩ := hmain a ha
    obtain ⟨mb1, mb2⟩ := hmain b hb
    rcases ordPair_cases ((collectMain 0 s.rooms).getD a 0)
      ((collectMain 0 s.rooms).getD b 0) with ⟨ho, hle⟩ | ⟨ho, hlt⟩
    · rw [he, ho]
      exact ⟨by dsimp only; omega, mb1, ma2, mb2⟩
    · rw [he, ho]
      exact ⟨hlt, ma1, mb2, ma2⟩
  intro e he
  obtain ⟨t, ht, hcase⟩ := hm e he
  obtain ⟨b1, b2, b3, d1, d2, d3⟩ := triangulate_ok _ t ht
  rw [List.length_map] at b1 b2 b3
  rcases hcase with h | h | h
  · exact key _ _ b1 b2 d1 e h
  · exact key _ _ b2 b3 d2 e h
  · exact key _ _ b3 b1 (fun x => d3 x.symm) e h

/-! ## The order of processing -/

theorem insertByWeight_perm (w : List ℚ) (a : Nat) (l : List Nat) :
    (insertByWeight w a l).Perm (a :: l) := by
  induction l with
  | nil => exact List.Perm.refl _
  | cons b rest ih =>
    simp only [insertByWeight]
    split
    · exact List.Perm.refl _
    · exact ((List.Perm.cons b ih).trans (List.Perm.swap a b rest))

theorem insertByWeight_sorted (w : List ℚ) (a : Nat) (l : List Nat)
    (h : l.Pairwise (fun x y => w.getD x 0 ≤ w.getD y 0)) :
    (insertByWeight w a l).Pairwise (fun x y => w.getD x 0 ≤ w.getD y 0) := by
  induction l with
  | nil => simp [insertByWeight]
  | cons b rest ih =>
    rw [List.pairwise_cons] at h
    simp only [insertByWeight]
    split
    · rename_i hlt
      rw [List.pairwise_cons]
      refine ⟨?_, List.pairwise_cons.mpr h⟩
      intro x hx
      rcases List.mem_cons.mp hx with rfl | hx
      · exact le_of_lt hlt
      · exact le_trans (le_of_lt hlt) (h.1 x hx)
    · rename_i hnlt
      rw [List.pairwise_cons]
      refine ⟨?_, ih h.2⟩
      intro x hx
      rcases List.mem_cons.mp ((insertByWeight_perm w a rest).subset hx) with rfl | hx
      · exact not_lt.mp hnlt
      · exact h.1 x hx

theorem sortByWeight_spec (w : List ℚ) (idx : List Nat) :
    (sortByWeight w idx).Perm idx ∧
      (sortByWeight w idx).Pairwise (fun x y => w.getD x 0 ≤ w.getD y 0) := by
  unfold sortByWeight
  have key : ∀ (l acc : List Nat), acc.Pairwise (fun x y => w.getD x 0 ≤ w.getD y 0) →
      (l.foldl (fun acc a => insertByWeight w a acc) acc).Perm (l ++ acc) ∧
        (l.foldl (fun acc a => insertByWeight w a acc) acc).Pairwise
          (fun x y => w.getD x 0 ≤ w.getD y 0) := by
    intro l
    induction l with
    | nil => intro acc h; exact ⟨List.Perm.refl _, h⟩
    | cons a rest ih =>
      intro acc h
      simp only [List.foldl_cons]
      obtain ⟨h1, h2⟩ := ih _ (insertByWeight_sorted w a acc h)
      refine ⟨?_, h2⟩
      exact (h1.trans (List.Perm.append_left rest (insertByWeight_perm w a acc))).trans
        List.perm_middle
  have := key idx [] List.Pairwise.nil
  rw [List.append_nil] at this
  exact this

/-- The edges in the order of processing: distinct, the candidate edges and no others, in
ascending order of their weights. -/
theorem sortedEdges_spec (lib : Lib) (s : DungeonBuilder) :
    (sortedEdges lib s).Nodup ∧ (∀ e, e ∈ sortedEdges lib s ↔ e ∈ graphEdges s) ∧
      (sortedEdges lib s).Pairwise
        (fun a b => edgeWeight lib s.rooms a ≤ edgeWeight lib s.rooms b) := by
  obtain ⟨hperm, hsorted⟩ := sortByWeight_spec ((graphEdges s).map (edgeWeight lib s.rooms))
    (List.range (graphEdges s).length)
  have hnd := (graphEdges_spec s).1
  have hlt : ∀ i ∈ sortByWeight ((graphEdges s).map (edgeWeight lib s.rooms))
      (List.range (graphEdges s).length), i < (graphEdges s).length :=
    fun i hi => List.mem_range.mp (hperm.subset hi)
  unfold sortedEdges
  refine ⟨?_, ?_, ?_⟩
  · apply List.Nodup.map_on _ (hperm.nodup_iff.mpr (List.nodup_range _))
    intro i hi j hj hij
    have h1 := hlt i hi
    have h2 := hlt j hj
    rw [List.getD_eq_getElem _ _ h1, List.getD_eq_getElem _ _ h2] at hij
    exact (List.Nodup.getElem_inj_iff hnd).mp hij
  · intro e
    rw [List.mem_map]
    constructor
    · rintro ⟨i, hi, rfl⟩
      rw [List.getD_eq_getElem _ _ (hlt i hi)]
      exact List.getElem_mem _
    · intro he
      obtain ⟨i, hi, rfl⟩ := List.getElem_of_mem he
      exact ⟨i, hperm.symm.subset (List.mem_range.mpr hi), List.getD_eq_getElem _ _ hi⟩
  · rw [List.pairwise_map]
    apply List.Pairwise.imp_of_mem _ hsorted
    intro i j hi hj hij
    have h1 := hlt i hi
    have h2 := hlt j hj
    rw [List.getD_eq_getElem _ _ (by rw [List.length_map]; exact h1),
      List.getD_eq_getElem _ _ (by rw [List.length_map]; exact h2),
      List.getElem_map, List.getElem_map] at hij
    rw [List.getD_eq_getElem _ _ h1, List.getD_eq_getElem _ _ h2]
    exact hij

theorem sortedEdges_bound (lib : Lib) (s : DungeonBuilder) :
    ∀ e ∈ sortedEdges lib s, e.1 < s.rooms.length ∧ e.2 < s.rooms.length := by
  intro e he
  obtain ⟨h1, h2, _⟩ := (graphEdges_spec s).2 e (((sortedEdges_spec lib s).2.1 e).mp he)
  exact ⟨by omega, h2⟩

/-! ## The links are well formed -/

theorem linkWF_computeGraph (lib : Lib) (s : DungeonBuilder) (hl : s.links = []) :
    (∀ l ∈ (computeGraph lib s).links, l.u < l.v ∧ l.v < s.rooms.length ∧
        (roomAt s.rooms l.u).isMain = true ∧ (roomAt s.rooms l.v).isMain = true) ∧
      ((computeGraph lib s).links.map (fun l => ordPair l.u l.v)).Nodup := by
  by_cases hfew : (collectMain 0 s.rooms).length < 3
  · rw [computeGraph_few lib s hfew]
    dsimp only
    rw [hl]
    exact ⟨fun l h => absurd h (List.not_mem_nil l), List.nodup_nil⟩
  · rw [computeGraph_links lib s (by omega)]
    have inv := kruskal_inv s.rooms.length s.rng (sortedEdges lib s) (sortedEdges_bound lib s)
    have hsub := inv.sub
    have hmem : ∀ l ∈ ((sortedEdges lib s).foldl kruskalStep
        (DSU.mk0 s.rooms.length, s.rng, [])).2.2, (l.u, l.v) ∈ graphEdges s := by
      intro l hlm
      apply ((sortedEdges_spec lib s).2.1 _).mp
      apply hsub.subset
      exact List.mem_map_of_mem (fun l : Link => (l.u, l.v)) hlm
    have hprop : ∀ l ∈ ((sortedEdges lib s).foldl kruskalStep
        (DSU.mk0 s.rooms.length, s.rng, [])).2.2, l.u < l.v ∧ l.v < s.rooms.length ∧
        (roomAt s.rooms l.u).isMain = true ∧ (roomAt s.rooms l.v).isMain = true :=
      fun l hlm => (graphEdges_spec s).2 (l.u, l.v) (hmem l hlm)
    refine ⟨hprop, ?_⟩
    have heq : ((sortedEdges lib s).foldl kruskalStep
        (DSU.mk0 s.rooms.length, s.rng, [])).2.2.map (fun l => ordPair l.u l.v)
        = linkPairs ((sortedEdges lib s).foldl kruskalStep
          (DSU.mk0 s.rooms.length, s.rng, [])).2.2 := by
      unfold linkPairs
      apply List.map_congr_left
      intro l hlm
      have := (hprop l hlm).1
      rcases ordPair_cases l.u l.v with ⟨ho, _⟩ | ⟨_, hlt⟩
      · exact ho
      · omega
    rw [heq]
    exact hsub.nodup (sortedEdges_spec lib s).1

theorem linkWF_step (lib : Lib) (s : DungeonBuilder) (hl : LinkInv s) (h : LinkWF s) :
    LinkWF (step lib s) := by
  cases hp : s.phase with
  | Physics =>
    have hnil : s.links = [] := hl (by rw [hp]; decide)
    have h2 := step_links lib s (by rw [hp]; decide)
    unfold LinkWF
    rw [h2, hnil]
    exact ⟨fun l hm => absurd hm (List.not_mem_nil l), List.nodup_nil⟩
  | Graph =>
    have hnil : s.links = [] := hl (by rw [hp]; decide)
    rw [step_of_graph lib s hp]
    unfold LinkWF
    dsimp only
    rw [(computeGraph_frame lib s).2.2.2.2.2]
    exact linkWF_computeGraph lib s hnil
  | Raster =>
    unfold LinkWF
    rw [step_links lib s (by rw [hp]; decide), step_rooms_late lib s (by rw [hp]; decide)]
    exact h
  | Walkers =>
    unfold LinkWF
    rw [step_links lib s (by rw [hp]; decide), step_rooms_late lib s (by rw [hp]; decide)]
    exact h
  | Automata =>
    unfold LinkWF
    rw [step_links lib s (by rw [hp]; decide), step_rooms_late lib s (by rw [hp]; decide)]
    exact h
  | Complete =>
    rw [step_of_complete lib s hp]
    exact h

theorem linkWF_run (lib : Lib) (entropy : Nat) (cfg : GenSettings) (old s0 : DungeonBuilder)
    (h : init lib entropy cfg old = some s0) (n : Nat) : LinkWF (runSteps lib n s0) := by
  induction n with
  | zero =>
    obtain ⟨_, _, hl, _⟩ := init_phase lib entropy cfg old s0 h
    show LinkWF s0
    unfold LinkWF
    rw [hl]
    exact ⟨fun l hm => absurd hm (List.not_mem_nil l), List.nodup_nil⟩
  | succ n ih =>
    rw [runSteps_succ_last]
    exact linkWF_step lib _ (linkInv_run lib entropy cfg old s0 h n) ih

/-! ## Counting the components of a forest -/

theorem conn_nil (a b : Nat) (h : Conn [] a b) : a = b :=
  conn_of_forall [] (fun a b => a = b) (fun _ => rfl) (fun _ _ h => h.symm)
    (fun _ _ _ h1 h2 => h1.trans h2) (fun e he => absurd he (List.not_mem_nil e)) a b h

/-- Every room is joined to a room that no room of smaller index is joined to. -/
theorem min_rep (X : List (Nat × Nat)) (a : Nat) :
    ∃ v, v ≤ a ∧ Conn X v a ∧ ∀ u, u < v → ¬ Conn X u v := by
  classical
  have hex : ∃ v, Conn X v a := ⟨a, conn_refl X a⟩
  refine ⟨Nat.find hex, Nat.find_le (conn_refl X a), Nat.find_spec hex, ?_⟩
  intro u hu hc
  exact Nat.find_min hex hu (conn_trans X _ _ _ hc (Nat.find_spec hex))

theorem rep_unique (X : List (Nat × Nat)) (v r : Nat) (hv : ∀ u, u < v → ¬ Conn X u v)
    (hr : ∀ u, u < r → ¬ Conn X u r) (hc : Conn X v r) : v = r := by
  rcases Nat.lt_trichotomy v r with h | h | h
  · exact absurd hc (hr v h)
  · exact h
  · exact absurd (conn_symm X _ _ hc) (hv r h)

theorem seqForest_left (X : List (Nat × Nat)) (Y : List (Nat × Nat))
    (h : SeqForest (X ++ Y)) : SeqForest X := by
  intro A e B hs
  apply h A e (B ++ Y)
  rw [hs]
  simp

/-- A forest on `n` rooms with `k` edges has `n - k` components: the rooms that no room of
smaller index is joined to are `n - k`. -/
theorem forest_count (n : Nat) (X : List (Nat × Nat)) :
    SeqForest X → (∀ e ∈ X, e.1 < n ∧ e.2 < n) →
      ∃ R : Finset Nat, (∀ v, v ∈ R ↔ (v < n ∧ ∀ u, u < v → ¬ Conn X u v)) ∧
        X.length + R.card = n := by
  induction X using List.reverseRecOn with
  | nil =>
    intro _ _
    refine ⟨Finset.range n, fun v => ?_, by simp⟩
    rw [Finset.mem_range]
    constructor
    · intro hv
      exact ⟨hv, fun u hu hc => by have := conn_nil u v hc; omega⟩
    · exact fun h => h.1
  | append_singleton X0 f ih =>
    intro hseq hb
    obtain ⟨R0, hR0, hcard⟩ := ih (seqForest_left X0 [f] hseq)
      (fun e he => hb e (List.mem_append_left _ he))
    have hf : ¬ Conn X0 f.1 f.2 := hseq X0 f [] rfl
    have hfb := hb f (by simp)
    obtain ⟨ra, hra1, hra2, hra3⟩ := min_rep X0 f.1
    obtain ⟨rb, hrb1, hrb2, hrb3⟩ := min_rep X0 f.2
    have hne : ra ≠ rb := by
      intro e
      apply hf
      rw [e] at hra2
      exact conn_trans X0 _ _ _ (conn_symm X0 _ _ hra2) hrb2
    have hraR : ra ∈ R0 := (hR0 ra).mpr ⟨by omega, hra3⟩
    have hrbR : rb ∈ R0 := (hR0 rb).mpr ⟨by omega, hrb3⟩
    have hX : ∀ x y, Conn (X0 ++ [f]) x y ↔
        (Conn X0 x y ∨ (Conn X0 x f.1 ∧ Conn X0 f.2 y) ∨ (Conn X0 x f.2 ∧ Conn X0 f.1 y)) :=
      fun x y => conn_add_edge X0 f.1 f.2 x y
    have hab : Conn (X0 ++ [f]) ra rb := by
      rw [hX]
      exact Or.inr (Or.inl ⟨hra2, conn_symm X0 _ _ hrb2⟩)
    refine ⟨R0.erase (max ra rb), fun v => ?_, ?_⟩
    · rw [Finset.mem_erase, hR0 v]
      constructor
      · rintro ⟨hvm, hvn, hvr⟩
        refine ⟨hvn, fun u hu hc => ?_⟩
        rcases (hX u v).mp hc with h | ⟨h1, h2⟩ | ⟨h1, h2⟩
        · exact hvr u hu h
        · have e1 : v = rb :=
            rep_unique X0 v rb hvr hrb3 (conn_trans X0 _ _ _ (conn_symm X0 _ _ h2)
              (conn_symm X0 _ _ hrb2))
          have e2 : ra ≤ u := by
            by_contra hlt
            exact hra3 u (by omega) (conn_trans X0 _ _ _ h1 (conn_symm X0 _ _ hra2))
          apply hvm
          rw [e1]
          omega
        · have e1 : v = ra :=
            rep_unique X0 v ra hvr hra3 (conn_trans X0 _ _ _ (conn_symm X0 _ _ h2)
              (conn_symm X0 _ _ hra2))
          have e2 : rb ≤ u := by
            by_contra hlt
            exact hrb3 u (by omega) (conn_trans X0 _ _ _ h1 (conn_symm X0 _ _ hrb2))
          apply hvm
          rw [e1]
          omega
      · rintro ⟨hvn, hvr⟩
        refine ⟨?_, hvn, fun u hu hc => hvr u hu ((hX u v).mpr (Or.inl hc))⟩
        intro e
        rcases Nat.lt_or_gt_of_ne hne with hlt | hlt
        · have : v = rb := by rw [e]; omega
          rw [this] at hvr
          exact hvr ra hlt hab
        · have : v = ra := by rw [e]; omega
          rw [this] at hvr
          exact hvr rb hlt (conn_symm _ _ _ hab)
    · have hm : max ra rb ∈ R0 := by
        rcases le_total ra rb with h | h
        · rw [max_eq_right h]; exact hrbR
        · rw [max_eq_left h]; exact hraR
      rw [Finset.card_erase_of_mem hm, List.length_append, List.length_singleton]
      have : 0 < R0.card := Finset.card_pos.mpr ⟨_, hm⟩
      omega

/-- A forest whose edges join only rooms that another forest joins has at most as many
edges. -/
theorem forest_le (n : Nat) (X Y : List (Nat × Nat)) (hX : SeqForest X) (hY : SeqForest Y)
    (hbX : ∀ e ∈ X, e.1 < n ∧ e.2 < n) (hbY : ∀ e ∈ Y, e.1 < n ∧ e.2 < n)
    (h : ∀ a b, Conn X a b → Conn Y a b) : X.length ≤ Y.length := by
  obtain ⟨RX, hRX, cX⟩ := forest_count n X hX hbX
  obtain ⟨RY, hRY, cY⟩ := forest_count n Y hY hbY
  have hsub : RY ⊆ RX := by
    intro v hv
    obtain ⟨h1, h2⟩ := (hRY v).mp hv
    exact (hRX v).mpr ⟨h1, fun u hu hc => h2 u hu (h u v hc)⟩
  have := Finset.card_le_card hsub
  omega

/-! ## The tree links are a minimum spanning forest -/

theorem wsum_append (w : Nat × Nat → ℚ) (A B : List (Nat × Nat)) :
    wsum w (A ++ B) = wsum w A + wsum w B := by
  unfold wsum
  rw [List.map_append, List.sum_append]

theorem wsum_single (w : Nat × Nat → ℚ) (e : Nat × Nat) : wsum w [e] = w e := by
  unfold wsum
  simp

theorem wsum_nil (w : Nat × Nat → ℚ) : wsum w [] = 0 := rfl

theorem sublist_singleton_cases {α : Type} (L : List α) (e : α) (h : List.Sublist L [e]) :
    L = [] ∨ L = [e] := by
  cases h with
  | cons _ h2 =>
    left
    exact List.sublist_nil.mp h2
  | cons₂ _ h2 =>
    right
    rw [List.sublist_nil.mp h2]

/-- The exchange inequality of the greedy choice: for edges in ascending order of weight, a
forest `F` among them and a bound `c` on the weights, the tree links `T` of the Kruskal loop
satisfy `w(T) + c |F| <= w(F) + c |T|`. -/
theorem kruskal_opt (w : Nat × Nat → ℚ) (n : Nat) (rng : Rng) (es : List (Nat × Nat)) :
    (∀ e ∈ es, e.1 < n ∧ e.2 < n) → es.Pairwise (fun a b => w a ≤ w b) →
      ∀ F, List.Sublist F es → SeqForest F → ∀ c : ℚ, (∀ e ∈ es, w e ≤ c) →
        wsum w (treePairs (es.foldl kruskalStep (DSU.mk0 n, rng, [])).2.2)
            + c * (F.length : ℚ)
          ≤ wsum w F + c *
            ((treePairs (es.foldl kruskalStep (DSU.mk0 n, rng, [])).2.2).length : ℚ) := by
  induction es using List.reverseRecOn with
  | nil =>
    intro _ _ F hF _ c _
    rw [List.sublist_nil.mp hF]
    simp [wsum, treePairs]
  | append_singleton pre e ih =>
    intro hes hsorted F hF hFs c hc
    have hpre : ∀ x ∈ pre, x.1 < n ∧ x.2 < n := fun x hx => hes x (List.mem_append_left _ hx)
    have he := hes e (by simp)
    rw [List.pairwise_append] at hsorted
    obtain ⟨hs1, _, hs3⟩ := hsorted
    have hle : ∀ x ∈ pre, w x ≤ w e := fun x hx => hs3 x hx e (by simp)
    have inv0 := kruskal_inv n rng pre hpre
    obtain ⟨inv1, hstep⟩ := kruskalStep_spec n pre _ e inv0 he.1 he.2
    obtain ⟨F0, F1, hFe, hF0, hF1⟩ := List.sublist_append_iff.mp hF
    have hF0s : SeqForest F0 := seqForest_left F0 F1 (by rw [← hFe]; exact hFs)
    have hD := ih hpre hs1 F0 hF0 hF0s (w e) hle
    have hT1 := kruskalInv_forest n (pre ++ [e]) _ inv1
    have hcount : F.length ≤ (treePairs (kruskalStep
        (pre.foldl kruskalStep (DSU.mk0 n, rng, [])) e).2.2).length := by
      apply forest_le n F _ hFs hT1.1 (fun x hx => hes x (hF.subset hx))
        (fun x hx => hes x (hT1.2.2.1 x hx))
      intro a b hab
      exact (hT1.2.2.2 a b).mpr (conn_mono F _ (fun x hx => hF.subset hx) a b hab)
    have hwe : w e ≤ c := hc e (by simp)
    rw [List.foldl_append]
    simp only [List.foldl_cons, List.foldl_nil]
    have hFw : wsum w F = wsum w F0 + ((F.length : ℚ) - (F0.length : ℚ)) * w e := by
      rw [hFe, wsum_append, List.length_append]
      rcases sublist_singleton_cases F1 e hF1 with h | h
      · rw [h, wsum_nil]
        simp
      · rw [h, wsum_single]
        simp
    have hTw : wsum w (treePairs (kruskalStep (pre.foldl kruskalStep
          (DSU.mk0 n, rng, [])) e).2.2)
        = wsum w (treePairs (pre.foldl kruskalStep (DSU.mk0 n, rng, [])).2.2)
          + (((treePairs (kruskalStep (pre.foldl kruskalStep
              (DSU.mk0 n, rng, [])) e).2.2).length : ℚ)
            - ((treePairs (pre.foldl kruskalStep (DSU.mk0 n, rng, [])).2.2).length : ℚ))
            * w e := by
      rcases hstep with ⟨_, h⟩ | ⟨_, h | h⟩
      · rw [h, treePairs_append, wsum_append, List.length_append]
        have : treePairs [(⟨e.1, e.2, true⟩ : Link)] = [e] := rfl
        rw [this, wsum_single]
        simp
      · rw [h, treePairs_append, wsum_append, List.length_append]
        have : treePairs [(⟨e.1, e.2, false⟩ : Link)] = [] := rfl
        rw [this, wsum_nil]
        simp
      · rw [h]
        simp
    have hF0len : (F0.length : ℚ) ≤ (F.length : ℚ) := by
      rw [hFe, List.length_append]
      push_cast
      have : (0 : ℚ) ≤ (F1.length : ℚ) := Nat.cast_nonneg _
      linarith
    have hcq : (F.length : ℚ) ≤ ((treePairs (kruskalStep (pre.foldl kruskalStep
        (DSU.mk0 n, rng, [])) e).2.2).length : ℚ) := by
      exact_mod_cast hcount
    rw [hFw, hTw]
    nlinarith [mul_nonneg (sub_nonneg.mpr hwe) (sub_nonneg.mpr hcq)]

theorem exists_bound (w : Nat × Nat → ℚ) (L : List (Nat × Nat)) : ∃ c : ℚ, ∀ e ∈ L, w e ≤ c := by
  induction L with
  | nil => exact ⟨0, fun e he => absurd he (List.not_mem_nil e)⟩
  | cons a rest ih =>
    obtain ⟨c, hc⟩ := ih
    refine ⟨max (w a) c, fun e he => ?_⟩
    rcases List.mem_cons.mp he with rfl | h
    · exact le_max_left _ _
    · exact le_trans (hc e h) (le_max_right _ _)

theorem seqForest_of_isForest (F : List (Nat × Nat)) (hnd : F.Nodup) (h : IsForest F) :
    SeqForest F := by
  intro A e B hs hc
  have hmem : e ∈ F := by rw [hs]; simp
  apply h e hmem
  apply conn_mono A _ _ _ _ hc
  intro x hx
  rw [List.mem_filter]
  refine ⟨by rw [hs]; exact List.mem_append_left _ hx, ?_⟩
  rw [decide_eq_true_eq]
  intro hxe
  rw [hs] at hnd
  have := (List.nodup_append.mp hnd).2.2
  exact this (by rw [hxe] at hx; exact hx) (List.mem_cons_self e B)

theorem isForest_of_bridges (T : List (Nat × Nat))
    (h : ∀ A e B, T = A ++ e :: B → ¬ Conn (A ++ B) e.1 e.2) : IsForest T := by
  intro e he hc
  obtain ⟨A, B, hs⟩ := List.append_of_mem he
  apply h A e B hs
  apply conn_mono _ _ _ _ _ hc
  intro x hx
  obtain ⟨hx1, hx2⟩ := List.mem_filter.mp hx
  rw [decide_eq_true_eq] at hx2
  rw [hs] at hx1
  rcases List.mem_append.mp hx1 with h1 | h1
  · exact List.mem_append_left _ h1
  · rcases List.mem_cons.mp h1 with h2 | h2
    · exact absurd h2 hx2
    · exact List.mem_append_right _ h2

theorem isForest_congr (F G : List (Nat × Nat)) (h : ∀ e, e ∈ F ↔ e ∈ G) (hF : IsForest F) :
    IsForest G := by
  intro e he hc
  apply hF e ((h e).mpr he)
  apply conn_mono _ _ _ _ _ hc
  intro x hx
  rw [List.mem_filter] at hx ⊢
  exact ⟨(h x).mpr hx.1, hx.2⟩

/-- The tree links of the Kruskal loop over edges in ascending order of weight weigh no more
than any spanning forest of these edges. -/
theorem kruskal_min (w : Nat × Nat → ℚ) (n : Nat) (rng : Rng) (es : List (Nat × Nat))
    (hes : ∀ e ∈ es, e.1 < n ∧ e.2 < n) (hnd : es.Nodup)
    (hsorted : es.Pairwise (fun a b => w a ≤ w b))
    (F : List (Nat × Nat)) (hFnd : F.Nodup) (hFsub : ∀ e ∈ F, e ∈ es) (hFf : IsForest F)
    (hspan : ∀ a b, Conn es a b → Conn F a b) :
    wsum w (treePairs (es.foldl kruskalStep (DSU.mk0 n, rng, [])).2.2) ≤ wsum w F := by
  have hperm : (es.filter (fun e => decide (e ∈ F))).Perm F := by
    rw [List.perm_ext_iff_of_nodup (hnd.filter _) hFnd]
    intro e
    rw [List.mem_filter, decide_eq_true_eq]
    exact ⟨fun h => h.2, fun h => ⟨hFsub e h, h⟩⟩
  have hmem : ∀ e, e ∈ es.filter (fun e => decide (e ∈ F)) ↔ e ∈ F := fun e => hperm.mem_iff
  have hF2 : SeqForest (es.filter (fun e => decide (e ∈ F))) :=
    seqForest_of_isForest _ (hnd.filter _)
      (isForest_congr F _ (fun e => (hmem e).symm) hFf)
  have inv := kruskal_inv n rng es hes
  have hT := kruskalInv_forest n es _ inv
  obtain ⟨c, hc⟩ := exists_bound w es
  have hD := kruskal_opt w n rng es hes hsorted _ (List.filter_sublist _) hF2 c hc
  have hlen : (treePairs (es.foldl kruskalStep (DSU.mk0 n, rng, [])).2.2).length
      ≤ (es.filter (fun e => decide (e ∈ F))).length := by
    apply forest_le n _ _ hT.1 hF2 (fun x hx => hes x (hT.2.2.1 x hx))
      (fun x hx => hes x (hFsub x ((hmem x).mp hx)))
    intro a b hab
    exact conn_mono F _ (fun x hx => (hmem x).mpr hx) a b (hspan a b ((hT.2.2.2 a b).mp hab))
  have hlen2 : (es.filter (fun e => decide (e ∈ F))).length
      ≤ (treePairs (es.foldl kruskalStep (DSU.mk0 n, rng, [])).2.2).length := by
    apply forest_le n _ _ hF2 hT.1 (fun x hx => hes x (hFsub x ((hmem x).mp hx)))
      (fun x hx => hes x (hT.2.2.1 x hx))
    intro a b hab
    exact (hT.2.2.2 a b).mpr (conn_mono _ es (fun x hx => hFsub x ((hmem x).mp hx)) a b hab)
  have heq : ((es.filter (fun e => decide (e ∈ F))).length : ℚ)
      = ((treePairs (es.foldl kruskalStep (DSU.mk0 n, rng, [])).2.2).length : ℚ) := by
    exact_mod_cast le_antisymm hlen2 hlen
  have hw : wsum w (es.filter (fun e => decide (e ∈ F))) = wsum w F := by
    unfold wsum
    exact (hperm.map w).sum_eq
  rw [heq, hw] at hD
  linarith

theorem det_ne_zero (d : ℚ) (hd : ¬ fabs d < 1 / 1000) : d ≠ 0 := by
  intro h0
  apply hd
  rw [h0]
  unfold fabs
  norm_num

theorem orient_ne_zero (a b x : Vec2) (hd : ¬ fabs (circumDet a b x) < 1 / 1000) :
    orient a b x ≠ 0 := by
  intro h
  apply det_ne_zero _ hd
  unfold circumDet
  unfold orient at h
  linear_combination 2 * h

/-- The power of a point, times twice the signed area, is the in-circle determinant. -/
theorem power_mul (a b x q : Vec2) (hd : ¬ fabs (circumDet a b x) < 1 / 1000) :
    power a b x q * orient a b x = cross4 a b x q := by
  have hd0 := det_ne_zero _ hd
  have ho := orient_ne_zero a b x hd
  unfold circumDet at hd hd0
  unfold power getCircumcircle
  simp only [if_neg hd]
  unfold cross4 edgeDot orient distSq
  unfold orient at ho
  field_simp
  ring

theorem orient_swap (a b x : Vec2) : orient b a x = - orient a b x := by
  unfold orient
  ring

theorem orient_rot (a b x : Vec2) : orient b x a = orient a b x := by
  unfold orient
  ring

theorem orient_self_left (a b : Vec2) : orient a b a = 0 := by
  unfold orient
  ring

theorem orient_self_right (a b : Vec2) : orient a b b = 0 := by
  unfold orient
  ring

theorem cross4_swap (a b x q : Vec2) : cross4 b a x q = - cross4 a b x q := by
  unfold cross4 edgeDot orient
  ring

theorem cross4_rot (a b x q : Vec2) : cross4 b x a q = cross4 a b x q := by
  unfold cross4 edgeDot orient
  ring

/-- The power of `q` in pencil form: the circle through `a b x` against the circle through
`a b q`. -/
theorem power_pencil (a b x q : Vec2) (hd : ¬ fabs (circumDet a b x) < 1 / 1000)
    (hq : orient a b q ≠ 0) :
    power a b x q = orient a b q * (pencil a b x - pencil a b q) := by
  have ho := orient_ne_zero a b x hd
  have h := power_mul a b x q hd
  have h2 : power a b x q = cross4 a b x q / orient a b x := by
    rw [← h]
    field_simp
  rw [h2]
  unfold cross4 pencil
  field_simp
  ring

theorem in_pos (l a b : ℚ) (hl : 0 < l) : l * (a - b) < 0 ↔ a < b := by
  constructor
  · intro h
    by_contra hc
    have : 0 ≤ l * (a - b) := mul_nonneg (le_of_lt hl) (by linarith)
    linarith
  · intro h
    exact mul_neg_of_pos_of_neg hl (by linarith)

theorem in_neg (l a b : ℚ) (hl : l < 0) : l * (a - b) < 0 ↔ b < a := by
  constructor
  · intro h
    by_contra hc
    have : 0 ≤ l * (a - b) := mul_nonneg_of_nonpos_of_nonpos (le_of_lt hl) (by linarith)
    linarith
  · intro h
    exact mul_neg_of_neg_of_pos hl (by linarith)

/-- A point strictly inside a triangle has a vertex of the triangle on its side of every
line that does not pass through it. -/
theorem hull_side (a b p s1 s2 s3 : Vec2) (hin : StrictlyInside p s1 s2 s3)
    (hp : orient a b p ≠ 0) :
    0 < orient a b s1 * orient a b p ∨ 0 < orient a b s2 * orient a b p
      ∨ 0 < orient a b s3 * orient a b p := by
  by_contra hc
  push_neg at hc
  obtain ⟨h1, h2, h3⟩ := hc
  obtain ⟨w3, w1, w2⟩ := hin
  have hid : orient a b p * orient a b p * (orient s2 s3 p + orient s3 s1 p + orient s1 s2 p)
      = orient a b s1 * orient a b p * orient s2 s3 p
        + orient a b s2 * orient a b p * orient s3 s1 p
        + orient a b s3 * orient a b p * orient s1 s2 p := by
    unfold orient
    ring
  have hsq : 0 < orient a b p * orient a b p := mul_self_pos.mpr hp
  have hl : orient a b p * orient a b p * (orient s2 s3 p + orient s3 s1 p + orient s1 s2 p) < 0 :=
    mul_neg_of_pos_of_neg hsq (by linarith)
  have r1 := mul_nonneg_of_nonpos_of_nonpos h1 (le_of_lt w1)
  have r2 := mul_nonneg_of_nonpos_of_nonpos h2 (le_of_lt w2)
  have r3 := mul_nonneg_of_nonpos_of_nonpos h3 (le_of_lt w3)
  linarith

/-- The pencil order, soundness: when the triangle on `x` is empty and contains `p`, and no
other empty triangle on the edge contains `p`, the triangle on `p` is empty. -/
theorem pencil_sound_pos (A : Finset ℕ) (L μ : ℕ → ℚ) (p x : ℕ)
    (hL : ∀ q ∈ A, L q ≠ 0) (hp : 0 < L p) (hside : ∃ q ∈ A, 0 < L q)
    (hx : x ∈ A) (hxe : ∀ q ∈ A, q ≠ x → ¬ L q * (μ x - μ q) < 0)
    (hxb : L p * (μ x - μ p) < 0)
    (huniq : ∀ y ∈ A, y ≠ x → (∀ q ∈ A, q ≠ y → ¬ L q * (μ y - μ q) < 0) →
      ¬ L p * (μ y - μ p) < 0) :
    ∀ q ∈ A, ¬ L q * (μ p - μ q) < 0 := by
  have hxp : μ x < μ p := (in_pos _ _ _ hp).mp hxb
  -- the order facts that emptiness of `x` gives
  have hxpos : ∀ q ∈ A, 0 < L q → μ q ≤ μ x := by
    intro q hq hq0
    by_cases hqx : q = x
    · rw [hqx]
    · have := hxe q hq hqx
      rw [in_pos _ _ _ hq0] at this
      linarith
  have hxneg : ∀ q ∈ A, L q < 0 → μ x ≤ μ q := by
    intro q hq hq0
    by_cases hqx : q = x
    · rw [hqx]
    · have := hxe q hq hqx
      rw [in_neg _ _ _ hq0] at this
      linarith
  intro q hq hin
  rcases lt_or_gt_of_ne (hL q hq) with hq0 | hq0
  · -- `q` on the other side
    rw [in_neg _ _ _ hq0] at hin
    -- the lowest point of the other side
    obtain ⟨y, hy, hymin⟩ := Finset.exists_min_image (A.filter (fun j => L j < 0)) μ
      ⟨q, Finset.mem_filter.mpr ⟨hq, hq0⟩⟩
    obtain ⟨hyA, hy0⟩ := Finset.mem_filter.mp hy
    have hyq : μ y ≤ μ q := hymin q (Finset.mem_filter.mpr ⟨hq, hq0⟩)
    rcases lt_or_gt_of_ne (hL x hx) with hx0 | hx0
    · -- `x` on the other side: the highest point of the side of `p` is empty too
      obtain ⟨z, hz, hzmax⟩ := Finset.exists_max_image (A.filter (fun j => 0 < L j)) μ
        (by
          obtain ⟨r, hr, hr0⟩ := hside
          exact ⟨r, Finset.mem_filter.mpr ⟨hr, hr0⟩⟩)
      obtain ⟨hzA, hz0⟩ := Finset.mem_filter.mp hz
      have hzx : z ≠ x := by
        intro e
        rw [e] at hz0
        linarith
      have hzle : μ z ≤ μ x := hxpos z hzA hz0
      have hze : ∀ r ∈ A, r ≠ z → ¬ L r * (μ z - μ r) < 0 := by
        intro r hr _ hrin
        rcases lt_or_gt_of_ne (hL r hr) with hr0 | hr0
        · rw [in_neg _ _ _ hr0] at hrin
          have := hxneg r hr hr0
          linarith
        · rw [in_pos _ _ _ hr0] at hrin
          have := hzmax r (Finset.mem_filter.mpr ⟨hr, hr0⟩)
          linarith
      have := huniq z hzA hzx hze
      rw [in_pos _ _ _ hp] at this
      linarith
    · -- `x` on the side of `p`: the lowest point of the other side is empty too
      have hyx : y ≠ x := by
        intro e
        rw [e] at hy0
        linarith
      have hxy : μ x ≤ μ y := hxneg y hyA hy0
      have hye : ∀ r ∈ A, r ≠ y → ¬ L r * (μ y - μ r) < 0 := by
        intro r hr _ hrin
        rcases lt_or_gt_of_ne (hL r hr) with hr0 | hr0
        · rw [in_neg _ _ _ hr0] at hrin
          have := hymin r (Finset.mem_filter.mpr ⟨hr, hr0⟩)
          linarith
        · rw [in_pos _ _ _ hr0] at hrin
          have := hxpos r hr hr0
          linarith
      have := huniq y hyA hyx hye
      rw [in_pos _ _ _ hp] at this
      linarith
  · rw [in_pos _ _ _ hq0] at hin
    have := hxpos q hq hq0
    linarith

/-- The pencil order, completeness: when the triangle on `p` is empty, exactly one empty
triangle on the edge contains `p`. -/
theorem pencil_complete_pos (A : Finset ℕ) (L μ : ℕ → ℚ) (p : ℕ)
    (hL : ∀ q ∈ A, L q ≠ 0) (hμ : ∀ q ∈ A, ∀ r ∈ A, q ≠ r → μ q ≠ μ r)
    (hμp : ∀ q ∈ A, μ q ≠ μ p) (hp : 0 < L p) (hside : ∃ q ∈ A, 0 < L q)
    (hpe : ∀ q ∈ A, ¬ L q * (μ p - μ q) < 0) :
    ∃ x ∈ A, (∀ q ∈ A, q ≠ x → ¬ L q * (μ x - μ q) < 0) ∧ L p * (μ x - μ p) < 0 ∧
      ∀ y ∈ A, (∀ q ∈ A, q ≠ y → ¬ L q * (μ y - μ q) < 0) → L p * (μ y - μ p) < 0 → y = x := by
  have hppos : ∀ q ∈ A, 0 < L q → μ q < μ p := by
    intro q hq hq0
    have := hpe q hq
    rw [in_pos _ _ _ hq0] at this
    exact lt_of_le_of_ne (by linarith) (hμp q hq)
  have hpneg : ∀ q ∈ A, L q < 0 → μ p < μ q := by
    intro q hq hq0
    have := hpe q hq
    rw [in_neg _ _ _ hq0] at this
    exact lt_of_le_of_ne (by linarith) (fun e => hμp q hq e.symm)
  obtain ⟨x, hx, hxmax⟩ := Finset.exists_max_image (A.filter (fun j => 0 < L j)) μ
    (by
      obtain ⟨r, hr, hr0⟩ := hside
      exact ⟨r, Finset.mem_filter.mpr ⟨hr, hr0⟩⟩)
  obtain ⟨hxA, hx0⟩ := Finset.mem_filter.mp hx
  refine ⟨x, hxA, ?_, ?_, ?_⟩
  · intro r hr _ hrin
    rcases lt_or_gt_of_ne (hL r hr) with hr0 | hr0
    · rw [in_neg _ _ _ hr0] at hrin
      have := hpneg r hr hr0
      have := hppos x hxA hx0
      linarith
    · rw [in_pos _ _ _ hr0] at hrin
      have := hxmax r (Finset.mem_filter.mpr ⟨hr, hr0⟩)
      linarith
  · rw [in_pos _ _ _ hp]
    exact hppos x hxA hx0
  · intro y hy hye hyb
    by_contra hyx
    rw [in_pos _ _ _ hp] at hyb
    rcases lt_or_gt_of_ne (hL y hy) with hy0 | hy0
    · have := hpneg y hy hy0
      linarith
    · have h1 := hye x hxA (fun e => hyx e.symm)
      rw [in_pos _ _ _ hx0] at h1
      have h2 := hxmax y (Finset.mem_filter.mpr ⟨hy, hy0⟩)
      exact hμ y hy x hxA hyx (le_antisymm h2 (by linarith))

theorem pencil_flip (L μ : ℕ → ℚ) (x q : ℕ) :
    (fun j => - L j) q * ((fun j => - μ j) x - (fun j => - μ j) q) = L q * (μ x - μ q) := by
  dsimp only
  ring

/-- The pencil order, soundness, for both sides of the edge. -/
theorem pencil_sound (A : Finset ℕ) (L μ : ℕ → ℚ) (p x : ℕ)
    (hL : ∀ q ∈ A, L q ≠ 0) (hp : L p ≠ 0) (hside : ∃ q ∈ A, 0 < L q * L p)
    (hx : x ∈ A) (hxe : ∀ q ∈ A, q ≠ x → ¬ L q * (μ x - μ q) < 0)
    (hxb : L p * (μ x - μ p) < 0)
    (huniq : ∀ y ∈ A, y ≠ x → (∀ q ∈ A, q ≠ y → ¬ L q * (μ y - μ q) < 0) →
      ¬ L p * (μ y - μ p) < 0) :
    ∀ q ∈ A, ¬ L q * (μ p - μ q) < 0 := by
  rcases lt_or_gt_of_ne hp with hp0 | hp0
  · have h := pencil_sound_pos A (fun j => - L j) (fun j => - μ j) p x
      (fun q hq => neg_ne_zero.mpr (hL q hq)) (by dsimp only; linarith)
      (by
        obtain ⟨q, hq, hq0⟩ := hside
        refine ⟨q, hq, ?_⟩
        dsimp only
        by_contra hc
        have : 0 ≤ L q := by linarith
        have := mul_nonpos_of_nonneg_of_nonpos this (le_of_lt hp0)
        linarith)
      hx
      (by
        intro q hq hqx
        rw [pencil_flip]
        exact hxe q hq hqx)
      (by
        rw [pencil_flip]
        exact hxb)
      (by
        intro y hy hyx hye
        rw [pencil_flip]
        apply huniq y hy hyx
        intro q hq hqy
        have := hye q hq hqy
        rw [pencil_flip] at this
        exact this)
    intro q hq
    have := h q hq
    rw [pencil_flip] at this
    exact this
  · exact pencil_sound_pos A L μ p x hL hp0
      (by
        obtain ⟨q, hq, hq0⟩ := hside
        refine ⟨q, hq, ?_⟩
        by_contra hc
        have := mul_nonpos_of_nonpos_of_nonneg (not_lt.mp hc) (le_of_lt hp0)
        linarith)
      hx hxe hxb huniq

/-- The pencil order, completeness, for both sides of the edge. -/
theorem pencil_complete (A : Finset ℕ) (L μ : ℕ → ℚ) (p : ℕ)
    (hL : ∀ q ∈ A, L q ≠ 0) (hμ : ∀ q ∈ A, ∀ r ∈ A, q ≠ r → μ q ≠ μ r)
    (hμp : ∀ q ∈ A, μ q ≠ μ p) (hp : L p ≠ 0) (hside : ∃ q ∈ A, 0 < L q * L p)
    (hpe : ∀ q ∈ A, ¬ L q * (μ p - μ q) < 0) :
    ∃ x ∈ A, (∀ q ∈ A, q ≠ x → ¬ L q * (μ x - μ q) < 0) ∧ L p * (μ x - μ p) < 0 ∧
      ∀ y ∈ A, (∀ q ∈ A, q ≠ y → ¬ L q * (μ y - μ q) < 0) → L p * (μ y - μ p) < 0 → y = x := by
  rcases lt_or_gt_of_ne hp with hp0 | hp0
  · obtain ⟨x, hx, h1, h2, h3⟩ := pencil_complete_pos A (fun j => - L j) (fun j => - μ j) p
      (fun q hq => neg_ne_zero.mpr (hL q hq))
      (fun q hq r hr hqr => by
        dsimp only
        intro e
        exact hμ q hq r hr hqr (neg_injective e))
      (fun q hq => by
        dsimp only
        intro e
        exact hμp q hq (neg_injective e))
      (by dsimp only; linarith)
      (by
        obtain ⟨q, hq, hq0⟩ := hside
        refine ⟨q, hq, ?_⟩
        dsimp only
        by_contra hc
        have : 0 ≤ L q := by linarith
        have := mul_nonpos_of_nonneg_of_nonpos this (le_of_lt hp0)
        linarith)
      (by
        intro q hq
        rw [pencil_flip]
        exact hpe q hq)
    refine ⟨x, hx, ?_, ?_, ?_⟩
    · intro q hq hqx
      have := h1 q hq hqx
      rw [pencil_flip] at this
      exact this
    · rw [pencil_flip] at h2
      exact h2
    · intro y hy hye hyb
      apply h3 y hy
      · intro q hq hqy
        rw [pencil_flip]
        exact hye q hq hqy
      · rw [pencil_flip]
        exact hyb
  · exact pencil_complete_pos A L μ p hL hμ hμp hp0
      (by
        obtain ⟨q, hq, hq0⟩ := hside
        refine ⟨q, hq, ?_⟩
        by_contra hc
        have := mul_nonpos_of_nonpos_of_nonneg (not_lt.mp hc) (le_of_lt hp0)
        linarith)
      hpe

theorem mapInc_spec (k : Nat × Nat) : ∀ m : List ((Nat × Nat) × Nat), KeySorted m →
    KeySorted (mapInc k m) ∧ ∀ k2 c2, (k2, c2) ∈ mapInc k m ↔
      ((k2 ≠ k ∧ (k2, c2) ∈ m) ∨
        (k2 = k ∧ ((∃ c, (k, c) ∈ m ∧ c2 = c + 1) ∨ ((∀ c, (k, c) ∉ m) ∧ c2 = 1)))) := by
  intro m
  induction m with
  | nil =>
    intro _
    refine ⟨?_, ?_⟩
    · simp [mapInc, KeySorted]
    · intro k2 c2
      simp only [mapInc, List.mem_singleton, Prod.mk.injEq, List.not_mem_nil]
      constructor
      · rintro ⟨h1, h2⟩
        exact Or.inr ⟨h1, Or.inr ⟨fun c h => h, h2⟩⟩
      · rintro (⟨_, h⟩ | ⟨h1, ⟨c, h, _⟩ | ⟨_, h2⟩⟩)
        · exact absurd h id
        · exact absurd h id
        · exact ⟨h1, h2⟩
  | cons e rest ih =>
    intro hs
    unfold KeySorted at hs
    rw [List.pairwise_cons] at hs
    obtain ⟨hhead, htail⟩ := hs
    have hrest : ∀ c, (e.1, c) ∉ rest := by
      intro c hc
      exact pairLt_irrefl e.1 (hhead (e.1, c) hc)
    simp only [mapInc]
    split
    · rename_i hk
      refine ⟨?_, ?_⟩
      · unfold KeySorted
        rw [List.pairwise_cons]
        exact ⟨hhead, htail⟩
      · intro k2 c2
        constructor
        · intro h
          rcases List.mem_cons.mp h with h | h
          · rw [Prod.mk.injEq] at h
            refine Or.inr ⟨by rw [hk]; exact h.1, Or.inl ⟨e.2, ?_, h.2⟩⟩
            rw [hk]
            exact List.mem_cons_self _ _
          · refine Or.inl ⟨?_, List.mem_cons_of_mem _ h⟩
            intro e2
            rw [e2, hk] at h
            exact hrest c2 h
        · rintro (⟨h1, h2⟩ | ⟨h1, ⟨c, h2, h3⟩ | ⟨h2, _⟩⟩)
          · rcases List.mem_cons.mp h2 with h | h
            · exfalso
              apply h1
              rw [hk, ← h]
            · exact List.mem_cons_of_mem _ h
          · rcases List.mem_cons.mp h2 with h | h
            · have hc : c = e.2 := by rw [← h]
              rw [h1, h3, hc, hk]
              exact List.mem_cons_self _ _
            · rw [hk] at h
              exact absurd h (hrest c)
          · exfalso
            apply h2 e.2
            rw [hk]
            exact List.mem_cons_self _ _
    · rename_i hk
      split
      · rename_i hlt
        have hnot : ∀ c, (k, c) ∉ e :: rest := by
          intro c hc
          rcases List.mem_cons.mp hc with h | h
          · apply hk
            rw [← h]
          · exact pairLt_irrefl k (pairLt_trans _ _ _ hlt (hhead _ h))
        refine ⟨?_, ?_⟩
        · unfold KeySorted
          rw [List.pairwise_cons]
          refine ⟨?_, List.pairwise_cons.mpr ⟨hhead, htail⟩⟩
          intro b hb
          rcases List.mem_cons.mp hb with h | h
          · rw [h]
            exact hlt
          · exact pairLt_trans _ _ _ hlt (hhead b h)
        · intro k2 c2
          constructor
          · intro h
            rcases List.mem_cons.mp h with h | h
            · rw [Prod.mk.injEq] at h
              exact Or.inr ⟨h.1, Or.inr ⟨hnot, h.2⟩⟩
            · refine Or.inl ⟨?_, h⟩
              intro e2
              rw [e2] at h
              exact hnot c2 h
          · rintro (⟨_, h2⟩ | ⟨h1, ⟨c, h2, _⟩ | ⟨_, h3⟩⟩)
            · exact List.mem_cons_of_mem _ h2
            · exact absurd h2 (hnot c)
            · rw [h1, h3]
              exact List.mem_cons_self _ _
      · rename_i hlt
        have hgt : pairLt e.1 k = true := pairLt_total k e.1 hk hlt
        obtain ⟨ihs, ihm⟩ := ih htail
        refine ⟨?_, ?_⟩
        · unfold KeySorted
          rw [List.pairwise_cons]
          refine ⟨?_, ihs⟩
          intro b hb
          have hb2 : (b.1, b.2) ∈ mapInc k rest := hb
          rcases (ihm b.1 b.2).mp hb2 with ⟨_, h⟩ | ⟨h, _⟩
          · exact hhead _ h
          · rw [h]
            exact hgt
        · intro k2 c2
          constructor
          · intro h
            rcases List.mem_cons.mp h with h | h
            · refine Or.inl ⟨?_, by rw [h]; exact List.mem_cons_self _ _⟩
              intro e2
              apply hk
              rw [← e2, ← h]
            · rcases (ihm k2 c2).mp h with ⟨h1, h2⟩ | ⟨h1, ⟨c, h2, h3⟩ | ⟨h2, h3⟩⟩
              · exact Or.inl ⟨h1, List.mem_cons_of_mem _ h2⟩
              · exact Or.inr ⟨h1, Or.inl ⟨c, List.mem_cons_of_mem _ h2, h3⟩⟩
              · refine Or.inr ⟨h1, Or.inr ⟨?_, h3⟩⟩
                intro c hc
                rcases List.mem_cons.mp hc with h4 | h4
                · apply hk
                  rw [← h4]
                · exact h2 c h4
          · rintro (⟨h1, h2⟩ | ⟨h1, ⟨c, h2, h3⟩ | ⟨h2, h3⟩⟩)
            · rcases List.mem_cons.mp h2 with h | h
              · rw [h]
                exact List.mem_cons_self _ _
              · exact List.mem_cons_of_mem _ ((ihm k2 c2).mpr (Or.inl ⟨h1, h⟩))
            · rcases List.mem_cons.mp h2 with h | h
              · exfalso
                apply hk
                rw [← h]
              · exact List.mem_cons_of_mem _ ((ihm k2 c2).mpr (Or.inr ⟨h1, Or.inl ⟨c, h, h3⟩⟩))
            · refine List.mem_cons_of_mem _ ((ihm k2 c2).mpr (Or.inr ⟨h1, Or.inr ⟨?_, h3⟩⟩))
              intro c hc
              exact h2 c (List.mem_cons_of_mem _ hc)

/-- One `edges[k]++` keeps the map the table of the occurrence counts. -/
theorem mapInc_count (k : Nat × Nat) (m : List ((Nat × Nat) × Nat)) (ks : List (Nat × Nat))
    (hs : KeySorted m) (hm : ∀ k2 c2, (k2, c2) ∈ m ↔ (c2 = ks.count k2 ∧ 0 < c2)) :
    KeySorted (mapInc k m) ∧
      ∀ k2 c2, (k2, c2) ∈ mapInc k m ↔ (c2 = (ks ++ [k]).count k2 ∧ 0 < c2) := by
  obtain ⟨h1, h2⟩ := mapInc_spec k m hs
  refine ⟨h1, ?_⟩
  intro k2 c2
  rw [h2 k2 c2, List.count_append]
  by_cases hk : k2 = k
  · rw [hk]
    simp only [ne_eq, not_true_eq_false, false_and, true_and, false_or, List.count_singleton_self]
    constructor
    · rintro (⟨c, hc, hc2⟩ | ⟨hn, hc2⟩)
      · have := (hm k c).mp hc
        omega
      · have h0 : ks.count k = 0 := by
          by_contra hne
          exact hn (ks.count k) ((hm k _).mpr ⟨rfl, Nat.pos_of_ne_zero hne⟩)
        omega
    · rintro ⟨hc, _⟩
      by_cases h0 : ks.count k = 0
      · right
        refine ⟨?_, by omega⟩
        intro c hc2
        have := (hm k c).mp hc2
        omega
      · left
        exact ⟨ks.count k, (hm k _).mpr ⟨rfl, Nat.pos_of_ne_zero h0⟩, hc⟩
  · have h0 : List.count k2 [k] = 0 := by
      rw [List.count_singleton]
      have : ¬ (k == k2) = true := by
        intro e
        exact hk (beq_iff_eq.mp e).symm
      simp [this]
    rw [h0, Nat.add_zero]
    simp only [hk, ne_eq, not_false_eq_true, true_and, false_and, or_false]
    exact hm k2 c2

theorem mapInc_fold (keys : List (Nat × Nat)) :
    ∀ (m : List ((Nat × Nat) × Nat)) (ks : List (Nat × Nat)), KeySorted m →
      (∀ k2 c2, (k2, c2) ∈ m ↔ (c2 = ks.count k2 ∧ 0 < c2)) →
      KeySorted (keys.foldl (fun m k => mapInc k m) m) ∧
        ∀ k2 c2, (k2, c2) ∈ keys.foldl (fun m k => mapInc k m) m ↔
          (c2 = (ks ++ keys).count k2 ∧ 0 < c2) := by
  induction keys with
  | nil =>
    intro m ks hs hm
    simp only [List.foldl_nil, List.append_nil]
    exact ⟨hs, hm⟩
  | cons k rest ih =>
    intro m ks hs hm
    obtain ⟨h1, h2⟩ := mapInc_count k m ks hs hm
    have := ih (mapInc k m) (ks ++ [k]) h1 h2
    simp only [List.foldl_cons]
    rw [List.append_assoc, List.singleton_append] at this
    exact this

theorem count_of_nodup (k : Nat × Nat) (l : List (Nat × Nat)) (h : l.Nodup) :
    l.count k = if k ∈ l then 1 else 0 := by
  induction l with
  | nil => simp
  | cons a rest ih =>
    rw [List.nodup_cons] at h
    rw [List.count_cons, ih h.2]
    by_cases e : a = k
    · subst e
      simp [h.1]
    · have e2 : ¬ k = a := fun e2 => e e2.symm
      simp [e, e2]

theorem count_flatMap_nodup {α : Type} (f : α → List (Nat × Nat)) (k : Nat × Nat) :
    ∀ l : List α, (∀ t ∈ l, (f t).Nodup) →
      (l.flatMap f).count k = (l.filter (fun t => decide (k ∈ f t))).length := by
  intro l
  induction l with
  | nil =>
    intro _
    rfl
  | cons t rest ih =>
    intro h
    rw [List.flatMap_cons, List.count_append, ih (fun u hu => h u (List.mem_cons_of_mem _ hu)),
      count_of_nodup k (f t) (h t (List.mem_cons_self _ _)), List.filter_cons]
    by_cases hk : k ∈ f t
    · simp only [hk, if_true, decide_True, List.length_cons]
      omega
    · simp only [hk, if_false, decide_False, Bool.false_eq_true]
      omega

theorem edgeMap_flat (bad : List Tri) :
    edgeMap bad = (bad.flatMap edgeKeys).foldl (fun m k => mapInc k m) [] := by
  unfold edgeMap
  rw [← foldl_flatMap_inner (fun m k => mapInc k m) edgeKeys bad []]
  rfl

/-- The edge map holds, for every edge of a bad triangle, the number of bad triangles that
have this edge. -/
theorem edgeMap_spec (bad : List Tri) (hd : ∀ t ∈ bad, (edgeKeys t).Nodup) :
    KeySorted (edgeMap bad) ∧ ∀ k c, (k, c) ∈ edgeMap bad ↔
      (c = (bad.filter (fun t => decide (k ∈ edgeKeys t))).length ∧ 0 < c) := by
  rw [edgeMap_flat]
  obtain ⟨h1, h2⟩ := mapInc_fold (bad.flatMap edgeKeys) [] []
    (by unfold KeySorted; exact List.Pairwise.nil)
    (by
      intro k2 c2
      simp only [List.not_mem_nil, List.count_nil, false_iff, not_and, not_lt]
      intro h
      omega)
  refine ⟨h1, ?_⟩
  intro k c
  rw [h2 k c, List.nil_append, count_flatMap_nodup edgeKeys k bad hd]

theorem ordPair_eq_iff (u v a b : Nat) :
    (a, b) = ordPair u v ↔ (a = u ∧ b = v ∧ u ≤ v) ∨ (a = v ∧ b = u ∧ v < u) := by
  unfold ordPair
  split
  · rw [Prod.mk.injEq]
    omega
  · rw [Prod.mk.injEq]
    omega

theorem mem_edgeKeys (t : Tri) (a b : Nat)
    (hd : t.p1 ≠ t.p2 ∧ t.p2 ≠ t.p3 ∧ t.p1 ≠ t.p3) :
    (a, b) ∈ edgeKeys t ↔ a < b ∧ ∃ x, Perm3 t.p1 t.p2 t.p3 a b x := by
  unfold edgeKeys
  simp only [List.mem_cons, List.mem_singleton, List.not_mem_nil, or_false, ordPair_eq_iff]
  constructor
  · intro h
    refine ⟨by omega, ?_⟩
    rcases h with (⟨h1, h2, _⟩ | ⟨h1, h2, _⟩) | (⟨h1, h2, _⟩ | ⟨h1, h2, _⟩)
      | (⟨h1, h2, _⟩ | ⟨h1, h2, _⟩)
    · exact ⟨t.p3, Or.inl ⟨h1.symm, h2.symm, rfl⟩⟩
    · exact ⟨t.p3, Or.inr (Or.inr (Or.inl ⟨h2.symm, h1.symm, rfl⟩))⟩
    · exact ⟨t.p1, Or.inr (Or.inr (Or.inr (Or.inr (Or.inl ⟨rfl, h1.symm, h2.symm⟩))))⟩
    · exact ⟨t.p1, Or.inr (Or.inr (Or.inr (Or.inr (Or.inr ⟨rfl, h2.symm, h1.symm⟩))))⟩
    · exact ⟨t.p2, Or.inr (Or.inr (Or.inr (Or.inl ⟨h2.symm, rfl, h1.symm⟩)))⟩
    · exact ⟨t.p2, Or.inr (Or.inl ⟨h1.symm, rfl, h2.symm⟩)⟩
  · rintro ⟨h, x, hp⟩
    rcases hp with ⟨h1, h2, _⟩ | ⟨h1, _, h2⟩ | ⟨h2, h1, _⟩ | ⟨h2, _, h1⟩ | ⟨_, h1, h2⟩
      | ⟨_, h2, h1⟩
    · exact Or.inl (Or.inl ⟨h1.symm, h2.symm, by omega⟩)
    · exact Or.inr (Or.inr (Or.inr ⟨h1.symm, h2.symm, by omega⟩))
    · exact Or.inl (Or.inr ⟨h1.symm, h2.symm, by omega⟩)
    · exact Or.inr (Or.inr (Or.inl ⟨h1.symm, h2.symm, by omega⟩))
    · exact Or.inr (Or.inl (Or.inl ⟨h1.symm, h2.symm, by omega⟩))
    · exact Or.inr (Or.inl (Or.inr ⟨h1.symm, h2.symm, by omega⟩))

theorem edgeKeys_nodup (t : Tri) (hd : t.p1 ≠ t.p2 ∧ t.p2 ≠ t.p3 ∧ t.p1 ≠ t.p3) :
    (edgeKeys t).Nodup := by
  unfold edgeKeys
  have h1 : ordPair t.p1 t.p2 ≠ ordPair t.p2 t.p3 := by
    unfold ordPair
    split <;> split <;> rw [ne_eq, Prod.mk.injEq] <;> omega
  have h2 : ordPair t.p1 t.p2 ≠ ordPair t.p3 t.p1 := by
    unfold ordPair
    split <;> split <;> rw [ne_eq, Prod.mk.injEq] <;> omega
  have h3 : ordPair t.p2 t.p3 ≠ ordPair t.p3 t.p1 := by
    unfold ordPair
    split <;> split <;> rw [ne_eq, Prod.mk.injEq] <;> omega
  simp only [List.nodup_cons, List.mem_cons, List.mem_singleton, List.not_mem_nil, or_false,
    not_or, not_false_eq_true, List.nodup_nil, and_true]
  exact ⟨⟨h1, h2⟩, h3⟩

/-- The triangles that survive the marking are the ones that fail the circle test. -/
theorem kept_eq (pts : List Vec2) (i : Nat) (T : List Tri) (hb : ∀ t ∈ T, t.bad = false) :
    (T.map (fun t => if inCircle pts i t then { t with bad := true } else t)).filter
        (fun t => !t.bad) = T.filter (fun t => !inCircle pts i t) := by
  induction T with
  | nil => rfl
  | cons t rest ih =>
    have ih2 := ih (fun u hu => hb u (List.mem_cons_of_mem _ hu))
    have hbt := hb t (List.mem_cons_self _ _)
    rw [List.map_cons, List.filter_cons, List.filter_cons, ih2]
    by_cases hc : inCircle pts i t = true
    · simp [hc]
    · simp [hc, hbt]

/-- One iteration of the insertion loop: the triangles that fail the circle test, followed by
one new triangle for every edge that exactly one bad triangle has. -/
theorem insertPoint_eq (pts : List Vec2) (i : Nat) (T : List Tri)
    (hb : ∀ t ∈ T, t.bad = false)
    (hd : ∀ t ∈ T, t.p1 ≠ t.p2 ∧ t.p2 ≠ t.p3 ∧ t.p1 ≠ t.p3) :
    ∃ E : List ((Nat × Nat) × Nat),
      insertPoint pts T i = T.filter (fun t => !inCircle pts i t)
        ++ (E.filter (fun e => e.2 = 1)).map (fun e => ⟨e.1.1, e.1.2, i, false⟩) ∧
      KeySorted E ∧
      ∀ k c, (k, c) ∈ E ↔
        (c = (T.filter (fun t => decide (k ∈ edgeKeys t) && inCircle pts i t)).length
          ∧ 0 < c) := by
  refine ⟨edgeMap ((T.filter (inCircle pts i)).map (fun t => { t with bad := true })), ?_, ?_⟩
  · unfold insertPoint
    dsimp only
    rw [kept_eq pts i T hb]
    rfl
  · obtain ⟨h1, h2⟩ := edgeMap_spec ((T.filter (inCircle pts i)).map
      (fun t => { t with bad := true }))
      (by
        intro t ht
        obtain ⟨u, hu, rfl⟩ := List.mem_map.mp ht
        exact edgeKeys_nodup _ (hd u (List.mem_filter.mp hu).1))
    refine ⟨h1, ?_⟩
    intro k c
    rw [h2 k c, List.filter_map, List.length_map, List.filter_filter]
    rfl

theorem inCircle_iff (pts : List Vec2) (i : Nat) (t : Tri) :
    inCircle pts i t = true ↔ pw pts t.p1 t.p2 t.p3 i < 0 := by
  unfold inCircle pw power
  simp only [decide_eq_true_eq, sub_neg]

theorem power_congr (a b c p1 p2 p3 q : Vec2) (s : ℚ) (hs : s ≠ 0)
    (ho : orient p1 p2 p3 = s * orient a b c) (hc : cross4 p1 p2 p3 q = s * cross4 a b c q)
    (hd : ¬ fabs (circumDet a b c) < 1 / 1000)
    (hdp : ¬ fabs (circumDet p1 p2 p3) < 1 / 1000) :
    power p1 p2 p3 q = power a b c q := by
  have h0 := power_mul a b c q hd
  have h1 := power_mul p1 p2 p3 q hdp
  have hne := orient_ne_zero a b c hd
  rw [ho, hc] at h1
  apply mul_right_cancel₀ hne
  apply mul_left_cancel₀ hs
  linear_combination h1 - s * h0

/-- The power of a point does not depend on the order of the vertices of the triangle. -/
theorem pw_perm (pts : List Vec2) (n : Nat) (hgp : GenPos3 pts n) (p1 p2 p3 a b c q : Nat)
    (hperm : Perm3 p1 p2 p3 a b c) (ha : a < n) (hb : b < n) (hc : c < n)
    (hab : a ≠ b) (hbc : b ≠ c) (hac : a ≠ c) :
    pw pts p1 p2 p3 q = pw pts a b c q := by
  have hd := hgp a ha b hb c hc hab hbc hac
  rcases hperm with ⟨e1, e2, e3⟩ | ⟨e1, e2, e3⟩ | ⟨e1, e2, e3⟩ | ⟨e1, e2, e3⟩ | ⟨e1, e2, e3⟩
    | ⟨e1, e2, e3⟩
  · rw [e1, e2, e3]
  · rw [e1, e2, e3]
    unfold pw
    exact power_congr _ _ _ _ _ _ _ (-1) (by norm_num) (by unfold orient; ring)
      (by unfold cross4 edgeDot orient; ring) hd
      (hgp a ha c hc b hb hac (Ne.symm hbc) hab)
  · rw [e1, e2, e3]
    unfold pw
    exact power_congr _ _ _ _ _ _ _ (-1) (by norm_num) (by unfold orient; ring)
      (by unfold cross4 edgeDot orient; ring) hd
      (hgp b hb a ha c hc (Ne.symm hab) hac hbc)
  · rw [e1, e2, e3]
    unfold pw
    exact power_congr _ _ _ _ _ _ _ 1 (by norm_num) (by unfold orient; ring)
      (by unfold cross4 edgeDot orient; ring) hd
      (hgp b hb c hc a ha hbc (Ne.symm hac) (Ne.symm hab))
  · rw [e1, e2, e3]
    unfold pw
    exact power_congr _ _ _ _ _ _ _ 1 (by norm_num) (by unfold orient; ring)
      (by unfold cross4 edgeDot orient; ring) hd
      (hgp c hc a ha b hb (Ne.symm hac) hab (Ne.symm hbc))
  · rw [e1, e2, e3]
    unfold pw
    exact power_congr _ _ _ _ _ _ _ (-1) (by norm_num) (by unfold orient; ring)
      (by unfold cross4 edgeDot orient; ring) hd
      (hgp c hc b hb a ha (Ne.symm hbc) (Ne.symm hab) (Ne.symm hac))

/-- The power of a point in pencil form, for a triangle given up to the order of its
vertices. -/
theorem pw_pencil (pts : List Vec2) (n : Nat) (hgp : GenPos3 pts n) (p1 p2 p3 a b x q : Nat)
    (hperm : Perm3 p1 p2 p3 a b x) (ha : a < n) (hb : b < n) (hx : x < n)
    (hab : a ≠ b) (hbx : b ≠ x) (hax : a ≠ x)
    (hq : orient (pts.getD a ⟨0, 0⟩) (pts.getD b ⟨0, 0⟩) (pts.getD q ⟨0, 0⟩) ≠ 0) :
    pw pts p1 p2 p3 q =
      orient (pts.getD a ⟨0, 0⟩) (pts.getD b ⟨0, 0⟩) (pts.getD q ⟨0, 0⟩) *
        (pencil (pts.getD a ⟨0, 0⟩) (pts.getD b ⟨0, 0⟩) (pts.getD x ⟨0, 0⟩)
          - pencil (pts.getD a ⟨0, 0⟩) (pts.getD b ⟨0, 0⟩) (pts.getD q ⟨0, 0⟩)) := by
  rw [pw_perm pts n hgp p1 p2 p3 a b x q hperm ha hb hx hab hbx hax]
  exact power_pencil _ _ _ _ (hgp a ha b hb x hx hab hbx hax) hq

theorem perm3_sum (p1 p2 p3 a b c : Nat) (h : Perm3 p1 p2 p3 a b c) :
    p1 + p2 + p3 = a + b + c := by
  unfold Perm3 at h
  omega

theorem perm3_refl (a b c : Nat) : Perm3 a b c a b c := Or.inl ⟨rfl, rfl, rfl⟩

theorem perm3_forall (P : Nat → Prop) (p1 p2 p3 a b c : Nat) (h : Perm3 p1 p2 p3 a b c)
    (h1 : P p1) (h2 : P p2) (h3 : P p3) : P a ∧ P b ∧ P c := by
  rcases h with ⟨e1, e2, e3⟩ | ⟨e1, e2, e3⟩ | ⟨e1, e2, e3⟩ | ⟨e1, e2, e3⟩ | ⟨e1, e2, e3⟩
    | ⟨e1, e2, e3⟩ <;>
  · rw [e1] at h1
    rw [e2] at h2
    rw [e3] at h3
    first
    | exact ⟨h1, h2, h3⟩
    | exact ⟨h1, h3, h2⟩
    | exact ⟨h2, h1, h3⟩
    | exact ⟨h2, h3, h1⟩
    | exact ⟨h3, h1, h2⟩
    | exact ⟨h3, h2, h1⟩

theorem perm3_back (P : Nat → Prop) (p1 p2 p3 a b c : Nat) (h : Perm3 p1 p2 p3 a b c)
    (h1 : P a) (h2 : P b) (h3 : P c) : P p1 ∧ P p2 ∧ P p3 := by
  rcases h with ⟨e1, e2, e3⟩ | ⟨e1, e2, e3⟩ | ⟨e1, e2, e3⟩ | ⟨e1, e2, e3⟩ | ⟨e1, e2, e3⟩
    | ⟨e1, e2, e3⟩ <;>
  · rw [e1, e2, e3]
    first
    | exact ⟨h1, h2, h3⟩
    | exact ⟨h1, h3, h2⟩
    | exact ⟨h2, h1, h3⟩
    | exact ⟨h2, h3, h1⟩
    | exact ⟨h3, h1, h2⟩
    | exact ⟨h3, h2, h1⟩

theorem perm3_distinct (p1 p2 p3 a b c : Nat) (h : Perm3 p1 p2 p3 a b c)
    (hd : p1 ≠ p2 ∧ p2 ≠ p3 ∧ p1 ≠ p3) : a ≠ b ∧ b ≠ c ∧ a ≠ c := by
  unfold Perm3 at h
  omega

/-- Two triples that rearrange the same triple rearrange each other. -/
theorem perm3_join (p1 p2 p3 q1 q2 q3 a b c : Nat) (h : Perm3 p1 p2 p3 a b c)
    (k : Perm3 q1 q2 q3 a b c) : Perm3 p1 p2 p3 q1 q2 q3 := by
  rcases h with ⟨e1, e2, e3⟩ | ⟨e1, e2, e3⟩ | ⟨e1, e2, e3⟩ | ⟨e1, e2, e3⟩ | ⟨e1, e2, e3⟩
    | ⟨e1, e2, e3⟩ <;>
  rcases k with ⟨f1, f2, f3⟩ | ⟨f1, f2, f3⟩ | ⟨f1, f2, f3⟩ | ⟨f1, f2, f3⟩ | ⟨f1, f2, f3⟩
    | ⟨f1, f2, f3⟩ <;>
  · rw [e1, e2, e3, f1, f2, f3]
    unfold Perm3
    simp

theorem mem_edgeSet (N k a b j : Nat) (hk : k ≤ N) :
    j ∈ edgeSet N k a b ↔ Act N k j ∧ j ≠ a ∧ j ≠ b := by
  unfold edgeSet Act
  simp only [Finset.mem_filter, Finset.mem_range]
  constructor
  · intro h
    omega
  · intro h
    omega

/-- A vertex of the super-triangle lies on the side of the new point of every edge. -/
theorem edgeSet_side (pts : List Vec2) (N k a b : Nat) (hk : k < N)
    (hin : StrictlyInside (pts.getD k ⟨0, 0⟩) (pts.getD N ⟨0, 0⟩) (pts.getD (N + 1) ⟨0, 0⟩)
      (pts.getD (N + 2) ⟨0, 0⟩))
    (hp : orient (pts.getD a ⟨0, 0⟩) (pts.getD b ⟨0, 0⟩) (pts.getD k ⟨0, 0⟩) ≠ 0) :
    ∃ q ∈ edgeSet N k a b,
      0 < orient (pts.getD a ⟨0, 0⟩) (pts.getD b ⟨0, 0⟩) (pts.getD q ⟨0, 0⟩)
        * orient (pts.getD a ⟨0, 0⟩) (pts.getD b ⟨0, 0⟩) (pts.getD k ⟨0, 0⟩) := by
  have key : ∀ q, N ≤ q → q < N + 3 →
      0 < orient (pts.getD a ⟨0, 0⟩) (pts.getD b ⟨0, 0⟩) (pts.getD q ⟨0, 0⟩)
        * orient (pts.getD a ⟨0, 0⟩) (pts.getD b ⟨0, 0⟩) (pts.getD k ⟨0, 0⟩) →
      q ∈ edgeSet N k a b := by
    intro q h1 h2 h3
    have hne : orient (pts.getD a ⟨0, 0⟩) (pts.getD b ⟨0, 0⟩) (pts.getD q ⟨0, 0⟩) ≠ 0 := by
      intro h0
      rw [h0, zero_mul] at h3
      exact lt_irrefl _ h3
    rw [mem_edgeSet N k a b q (le_of_lt hk)]
    refine ⟨Or.inr ⟨h1, h2⟩, ?_, ?_⟩
    · intro e
      apply hne
      rw [e]
      exact orient_self_left _ _
    · intro e
      apply hne
      rw [e]
      exact orient_self_right _ _
  rcases hull_side (pts.getD a ⟨0, 0⟩) (pts.getD b ⟨0, 0⟩) _ _ _ _ hin hp with h | h | h
  · exact ⟨N, key N (le_refl _) (by omega) h, h⟩
  · exact ⟨N + 1, key (N + 1) (by omega) (by omega) h, h⟩
  · exact ⟨N + 2, key (N + 2) (by omega) (by omega) h, h⟩

/-- An edge that exactly one bad triangle has gives a new triangle with an empty circle. -/
theorem new_empty (pts : List Vec2) (N k : Nat) (T : List Tri) (hk : k < N)
    (hgp : GenPos3 pts (N + 3))
    (hin : StrictlyInside (pts.getD k ⟨0, 0⟩) (pts.getD N ⟨0, 0⟩) (pts.getD (N + 1) ⟨0, 0⟩)
      (pts.getD (N + 2) ⟨0, 0⟩))
    (hinv : DelInv pts N k T) (a b : Nat)
    (hF : (T.filter (fun t => decide ((a, b) ∈ edgeKeys t) && inCircle pts k t)).length = 1) :
    a < b ∧ Act N k a ∧ Act N k b ∧
      ∀ j, Act N k j → j ≠ a → j ≠ b → ¬ pw pts a b k j < 0 := by
  obtain ⟨tb, hFe⟩ := List.length_eq_one.mp hF
  have hmemF : ∀ t, t ∈ T → (a, b) ∈ edgeKeys t → inCircle pts k t = true → t = tb := by
    intro t h1 h2 h3
    have : t ∈ T.filter (fun t => decide ((a, b) ∈ edgeKeys t) && inCircle pts k t) := by
      rw [List.mem_filter, Bool.and_eq_true, decide_eq_true_eq]
      exact ⟨h1, h2, h3⟩
    rw [hFe] at this
    exact List.mem_singleton.mp this
  have htbF : tb ∈ T.filter (fun t => decide ((a, b) ∈ edgeKeys t) && inCircle pts k t) := by
    rw [hFe]
    exact List.mem_singleton.mpr rfl
  rw [List.mem_filter, Bool.and_eq_true, decide_eq_true_eq] at htbF
  obtain ⟨htb, hedge, hbad⟩ := htbF
  obtain ⟨A1, A2, A3, d1, d2, d3, _⟩ := hinv.ok tb htb
  obtain ⟨hab, x, hperm⟩ := (mem_edgeKeys tb a b ⟨d1, d2, d3⟩).mp hedge
  obtain ⟨Aa, Ab, Ax⟩ := perm3_forall (Act N k) _ _ _ _ _ _ hperm A1 A2 A3
  obtain ⟨dab, dbx, dax⟩ := perm3_distinct _ _ _ _ _ _ hperm ⟨d1, d2, d3⟩
  have hlt : ∀ j, Act N k j → j < N + 3 ∧ j ≠ k := by
    intro j hj
    unfold Act at hj
    omega
  have hkk : k < N + 3 := by omega
  have hL : ∀ q ∈ edgeSet N k a b,
      orient (pts.getD a ⟨0, 0⟩) (pts.getD b ⟨0, 0⟩) (pts.getD q ⟨0, 0⟩) ≠ 0 := by
    intro q hq
    rw [mem_edgeSet N k a b q (le_of_lt hk)] at hq
    exact orient_ne_zero _ _ _ (hgp a (hlt a Aa).1 b (hlt b Ab).1 q (hlt q hq.1).1 dab
      (Ne.symm hq.2.2) (Ne.symm hq.2.1))
  have hp : orient (pts.getD a ⟨0, 0⟩) (pts.getD b ⟨0, 0⟩) (pts.getD k ⟨0, 0⟩) ≠ 0 :=
    orient_ne_zero _ _ _ (hgp a (hlt a Aa).1 b (hlt b Ab).1 k hkk dab (hlt b Ab).2 (hlt a Aa).2)
  have hxA : x ∈ edgeSet N k a b :=
    (mem_edgeSet N k a b x (le_of_lt hk)).mpr ⟨Ax, Ne.symm dax, Ne.symm dbx⟩
  have key := pencil_sound (edgeSet N k a b)
    (fun j => orient (pts.getD a ⟨0, 0⟩) (pts.getD b ⟨0, 0⟩) (pts.getD j ⟨0, 0⟩))
    (fun j => pencil (pts.getD a ⟨0, 0⟩) (pts.getD b ⟨0, 0⟩) (pts.getD j ⟨0, 0⟩))
    k x hL hp (edgeSet_side pts N k a b hk hin hp) hxA
    (by
      intro q hq hqx
      have hq2 := (mem_edgeSet N k a b q (le_of_lt hk)).mp hq
      have hperm2 := perm3_back (fun v => q ≠ v) _ _ _ _ _ _ hperm hq2.2.1 hq2.2.2 hqx
      have := hinv.empty tb htb q hq2.1 hperm2.1 hperm2.2.1 hperm2.2.2
      rw [pw_pencil pts (N + 3) hgp _ _ _ a b x q hperm (hlt a Aa).1 (hlt b Ab).1 (hlt x Ax).1
        dab dbx dax (hL q hq)] at this
      exact this)
    (by
      have := (inCircle_iff pts k tb).mp hbad
      rw [pw_pencil pts (N + 3) hgp _ _ _ a b x k hperm (hlt a Aa).1 (hlt b Ab).1 (hlt x Ax).1
        dab dbx dax hp] at this
      exact this)
    (by
      intro y hy hyx hye hyb
      have hy2 := (mem_edgeSet N k a b y (le_of_lt hk)).mp hy
      obtain ⟨t2, ht2, hp2⟩ := hinv.compl a b y Aa Ab hy2.1 dab (Ne.symm hy2.2.2)
        (Ne.symm hy2.2.1)
        (by
          intro j hj hja hjb hjy
          have hjA : j ∈ edgeSet N k a b :=
            (mem_edgeSet N k a b j (le_of_lt hk)).mpr ⟨hj, hja, hjb⟩
          rw [pw_pencil pts (N + 3) hgp _ _ _ a b y j (perm3_refl a b y) (hlt a Aa).1
            (hlt b Ab).1 (hlt y hy2.1).1 dab (Ne.symm hy2.2.2) (Ne.symm hy2.2.1) (hL j hjA)]
          exact hye j hjA hjy)
      obtain ⟨_, _, _, e1, e2, e3, _⟩ := hinv.ok t2 ht2
      have hbad2 : inCircle pts k t2 = true := by
        rw [inCircle_iff, pw_pencil pts (N + 3) hgp _ _ _ a b y k hp2 (hlt a Aa).1
          (hlt b Ab).1 (hlt y hy2.1).1 dab (Ne.symm hy2.2.2) (Ne.symm hy2.2.1) hp]
        exact hyb
      have hedge2 : (a, b) ∈ edgeKeys t2 := (mem_edgeKeys t2 a b ⟨e1, e2, e3⟩).mpr ⟨hab, y, hp2⟩
      have := hmemF t2 ht2 hedge2 hbad2
      rw [this] at hp2
      have s1 := perm3_sum _ _ _ _ _ _ hp2
      have s2 := perm3_sum _ _ _ _ _ _ hperm
      omega)
  refine ⟨hab, Aa, Ab, ?_⟩
  intro j hj hja hjb
  have hjA : j ∈ edgeSet N k a b := (mem_edgeSet N k a b j (le_of_lt hk)).mpr ⟨hj, hja, hjb⟩
  unfold pw
  rw [power_pencil _ _ _ _ (hgp a (hlt a Aa).1 b (hlt b Ab).1 k hkk dab (hlt b Ab).2
    (hlt a Aa).2) (hL j hjA)]
  exact key j hjA

/-- An empty triangle on the new point has its opposite edge in exactly one bad triangle. -/
theorem new_complete (pts : List Vec2) (N k : Nat) (T : List Tri) (hk : k < N)
    (hgp : GenPos3 pts (N + 3)) (hgp4 : GenPos4 pts (N + 3))
    (hin : StrictlyInside (pts.getD k ⟨0, 0⟩) (pts.getD N ⟨0, 0⟩) (pts.getD (N + 1) ⟨0, 0⟩)
      (pts.getD (N + 2) ⟨0, 0⟩))
    (hinv : DelInv pts N k T) (a b : Nat) (hab : a < b) (Aa : Act N k a) (Ab : Act N k b)
    (he : ∀ j, Act N k j → j ≠ a → j ≠ b → ¬ pw pts a b k j < 0) :
    (T.filter (fun t => decide ((a, b) ∈ edgeKeys t) && inCircle pts k t)).length = 1 := by
  have dab : a ≠ b := ne_of_lt hab
  have hlt : ∀ j, Act N k j → j < N + 3 ∧ j ≠ k := by
    intro j hj
    unfold Act at hj
    omega
  have hkk : k < N + 3 := by omega
  have hmem : ∀ q, q ∈ edgeSet N k a b ↔ Act N k q ∧ q ≠ a ∧ q ≠ b :=
    fun q => mem_edgeSet N k a b q (le_of_lt hk)
  have hL : ∀ q ∈ edgeSet N k a b,
      orient (pts.getD a ⟨0, 0⟩) (pts.getD b ⟨0, 0⟩) (pts.getD q ⟨0, 0⟩) ≠ 0 := by
    intro q hq
    rw [hmem] at hq
    exact orient_ne_zero _ _ _ (hgp a (hlt a Aa).1 b (hlt b Ab).1 q (hlt q hq.1).1 dab
      (Ne.symm hq.2.2) (Ne.symm hq.2.1))
  have hgk := hgp a (hlt a Aa).1 b (hlt b Ab).1 k hkk dab (hlt b Ab).2 (hlt a Aa).2
  have hp : orient (pts.getD a ⟨0, 0⟩) (pts.getD b ⟨0, 0⟩) (pts.getD k ⟨0, 0⟩) ≠ 0 :=
    orient_ne_zero _ _ _ hgk
  obtain ⟨x, hxA, hxe, hxb, huniq⟩ := pencil_complete (edgeSet N k a b)
    (fun j => orient (pts.getD a ⟨0, 0⟩) (pts.getD b ⟨0, 0⟩) (pts.getD j ⟨0, 0⟩))
    (fun j => pencil (pts.getD a ⟨0, 0⟩) (pts.getD b ⟨0, 0⟩) (pts.getD j ⟨0, 0⟩))
    k hL
    (by
      intro q hq r hr hqr e
      have hq2 := (hmem q).mp hq
      have hr2 := (hmem r).mp hr
      have h4 := hgp4 a (hlt a Aa).1 b (hlt b Ab).1 q (hlt q hq2.1).1 r (hlt r hr2.1).1 dab
        (Ne.symm hq2.2.2) (Ne.symm hq2.2.1) hr2.2.1 hr2.2.2 (Ne.symm hqr)
      apply h4
      rw [pw_pencil pts (N + 3) hgp _ _ _ a b q r (perm3_refl a b q) (hlt a Aa).1 (hlt b Ab).1
        (hlt q hq2.1).1 dab (Ne.symm hq2.2.2) (Ne.symm hq2.2.1) (hL r hr)]
      dsimp only at e
      rw [e, sub_self, mul_zero])
    (by
      intro q hq e
      have hq2 := (hmem q).mp hq
      have h4 := hgp4 a (hlt a Aa).1 b (hlt b Ab).1 q (hlt q hq2.1).1 k hkk dab
        (Ne.symm hq2.2.2) (Ne.symm hq2.2.1) (Ne.symm (hlt a Aa).2) (Ne.symm (hlt b Ab).2)
        (Ne.symm (hlt q hq2.1).2)
      apply h4
      rw [pw_pencil pts (N + 3) hgp _ _ _ a b q k (perm3_refl a b q) (hlt a Aa).1 (hlt b Ab).1
        (hlt q hq2.1).1 dab (Ne.symm hq2.2.2) (Ne.symm hq2.2.1) hp]
      dsimp only at e
      rw [e, sub_self, mul_zero])
    hp (edgeSet_side pts N k a b hk hin hp)
    (by
      intro q hq
      have hq2 := (hmem q).mp hq
      have := he q hq2.1 hq2.2.1 hq2.2.2
      unfold pw at this
      rw [power_pencil _ _ _ _ hgk (hL q hq)] at this
      exact this)
  have hx2 := (hmem x).mp hxA
  have dbx : b ≠ x := Ne.symm hx2.2.2
  have dax : a ≠ x := Ne.symm hx2.2.1
  -- the bad triangle on the edge
  obtain ⟨tb, htb, hperm⟩ := hinv.compl a b x Aa Ab hx2.1 dab dbx dax
    (by
      intro j hj hja hjb hjx
      have hjA : j ∈ edgeSet N k a b := (hmem j).mpr ⟨hj, hja, hjb⟩
      rw [pw_pencil pts (N + 3) hgp _ _ _ a b x j (perm3_refl a b x) (hlt a Aa).1
        (hlt b Ab).1 (hlt x hx2.1).1 dab dbx dax (hL j hjA)]
      exact hxe j hjA hjx)
  obtain ⟨_, _, _, d1, d2, d3, _⟩ := hinv.ok tb htb
  have htbF : tb ∈ T.filter (fun t => decide ((a, b) ∈ edgeKeys t) && inCircle pts k t) := by
    rw [List.mem_filter, Bool.and_eq_true, decide_eq_true_eq]
    refine ⟨htb, (mem_edgeKeys tb a b ⟨d1, d2, d3⟩).mpr ⟨hab, x, hperm⟩, ?_⟩
    rw [inCircle_iff, pw_pencil pts (N + 3) hgp _ _ _ a b x k hperm (hlt a Aa).1
      (hlt b Ab).1 (hlt x hx2.1).1 dab dbx dax hp]
    exact hxb
  -- every bad triangle on the edge has the same vertices
  have hall : ∀ t ∈ T.filter (fun t => decide ((a, b) ∈ edgeKeys t) && inCircle pts k t),
      Perm3 t.p1 t.p2 t.p3 a b x := by
    intro t ht
    rw [List.mem_filter, Bool.and_eq_true, decide_eq_true_eq] at ht
    obtain ⟨htT, hedge, hbad⟩ := ht
    obtain ⟨B1, B2, B3, e1, e2, e3, _⟩ := hinv.ok t htT
    obtain ⟨_, y, hpy⟩ := (mem_edgeKeys t a b ⟨e1, e2, e3⟩).mp hedge
    obtain ⟨_, _, Ay⟩ := perm3_forall (Act N k) _ _ _ _ _ _ hpy B1 B2 B3
    obtain ⟨_, dby, day⟩ := perm3_distinct _ _ _ _ _ _ hpy ⟨e1, e2, e3⟩
    have hyA : y ∈ edgeSet N k a b := (hmem y).mpr ⟨Ay, Ne.symm day, Ne.symm dby⟩
    have hyx : y = x := by
      apply huniq y hyA
      · intro q hq hqy
        have hq2 := (hmem q).mp hq
        have hperm2 := perm3_back (fun v => q ≠ v) _ _ _ _ _ _ hpy hq2.2.1 hq2.2.2 hqy
        have := hinv.empty t htT q hq2.1 hperm2.1 hperm2.2.1 hperm2.2.2
        rw [pw_pencil pts (N + 3) hgp _ _ _ a b y q hpy (hlt a Aa).1 (hlt b Ab).1
          (hlt y Ay).1 dab dby day (hL q hq)] at this
        exact this
      · have := (inCircle_iff pts k t).mp hbad
        rw [pw_pencil pts (N + 3) hgp _ _ _ a b y k hpy (hlt a Aa).1 (hlt b Ab).1
          (hlt y Ay).1 dab dby day hp] at this
        exact this
    rw [hyx] at hpy
    exact hpy
  have hpair : (T.filter (fun t => decide ((a, b) ∈ edgeKeys t) && inCircle pts k t)).Pairwise
      (fun t u => ¬ Perm3 t.p1 t.p2 t.p3 u.p1 u.p2 u.p3) :=
    hinv.nodup.sublist (List.filter_sublist _)
  generalize T.filter (fun t => decide ((a, b) ∈ edgeKeys t) && inCircle pts k t) = F
    at htbF hall hpair
  match F, htbF, hall, hpair with
  | [], h, _, _ => exact absurd h (List.not_mem_nil _)
  | [_], _, _, _ => rfl
  | z :: z2 :: rest, _, hall, hpair =>
    exfalso
    have h1 := hall z (List.mem_cons_self _ _)
    have h2 := hall z2 (List.mem_cons_of_mem _ (List.mem_cons_self _ _))
    exact (List.pairwise_cons.mp hpair).1 z2 (List.mem_cons_self _ _)
      (perm3_join _ _ _ _ _ _ _ _ _ h1 h2)

theorem perm3_exists (a b c k : Nat) (hk : a = k ∨ b = k ∨ c = k) (hab : a ≠ b) (hbc : b ≠ c)
    (hac : a ≠ c) : ∃ u v, u < v ∧ Perm3 u v k a b c := by
  rcases hk with e | e | e
  · rcases Nat.lt_or_gt_of_ne hbc with h | h
    · exact ⟨b, c, h, Or.inr (Or.inr (Or.inr (Or.inl ⟨rfl, rfl, e.symm⟩)))⟩
    · exact ⟨c, b, h, Or.inr (Or.inr (Or.inr (Or.inr (Or.inr ⟨rfl, rfl, e.symm⟩))))⟩
  · rcases Nat.lt_or_gt_of_ne hac with h | h
    · exact ⟨a, c, h, Or.inr (Or.inl ⟨rfl, rfl, e.symm⟩)⟩
    · exact ⟨c, a, h, Or.inr (Or.inr (Or.inr (Or.inr (Or.inl ⟨rfl, rfl, e.symm⟩))))⟩
  · rcases Nat.lt_or_gt_of_ne hab with h | h
    · exact ⟨a, b, h, Or.inl ⟨rfl, rfl, e.symm⟩⟩
    · exact ⟨b, a, h, Or.inr (Or.inr (Or.inl ⟨rfl, rfl, e.symm⟩))⟩

/-- One insertion keeps the invariant of the insertion loop. -/
theorem delInv_step (pts : List Vec2) (N k : Nat) (T : List Tri) (hk : k < N)
    (hgp : GenPos3 pts (N + 3)) (hgp4 : GenPos4 pts (N + 3))
    (hin : StrictlyInside (pts.getD k ⟨0, 0⟩) (pts.getD N ⟨0, 0⟩) (pts.getD (N + 1) ⟨0, 0⟩)
      (pts.getD (N + 2) ⟨0, 0⟩))
    (hinv : DelInv pts N k T) : DelInv pts N (k + 1) (insertPoint pts T k) := by
  obtain ⟨E, hE, hEs, hEm⟩ := insertPoint_eq pts k T (fun t ht => (hinv.ok t ht).2.2.2.2.2.2)
    (fun t ht => ⟨(hinv.ok t ht).2.2.2.1, (hinv.ok t ht).2.2.2.2.1, (hinv.ok t ht).2.2.2.2.2.1⟩)
  have hup : ∀ j, Act N k j → Act N (k + 1) j := by
    intro j hj
    unfold Act at *
    omega
  have hdown : ∀ j, Act N (k + 1) j → j ≠ k → Act N k j := by
    intro j hj hjk
    unfold Act at *
    omega
  have hne : ∀ j, Act N k j → j ≠ k ∧ j < N + 3 := by
    intro j hj
    unfold Act at hj
    omega
  have hlt : ∀ j, Act N (k + 1) j → j < N + 3 := by
    intro j hj
    unfold Act at hj
    omega
  have hk1 : Act N (k + 1) k := by
    unfold Act
    omega
  have hnew : ∀ t, t ∈ (E.filter (fun e => e.2 = 1)).map
        (fun e => (⟨e.1.1, e.1.2, k, false⟩ : Tri)) ↔
      ∃ a b, t = ⟨a, b, k, false⟩ ∧
        (T.filter (fun t => decide ((a, b) ∈ edgeKeys t) && inCircle pts k t)).length = 1 := by
    intro t
    rw [List.mem_map]
    constructor
    · rintro ⟨e, he, rfl⟩
      rw [List.mem_filter, decide_eq_true_eq] at he
      refine ⟨e.1.1, e.1.2, rfl, ?_⟩
      have := (hEm e.1 e.2).mp he.1
      rw [he.2] at this
      exact this.1.symm
    · rintro ⟨a, b, rfl, hF⟩
      refine ⟨((a, b), 1), ?_, rfl⟩
      rw [List.mem_filter, decide_eq_true_eq]
      exact ⟨(hEm (a, b) 1).mpr ⟨hF.symm, by norm_num⟩, rfl⟩
  rw [hE]
  refine ⟨?_, ?_, ?_, ?_⟩
  · -- the vertices
    intro t ht
    rcases List.mem_append.mp ht with h | h
    · have hT := (List.mem_filter.mp h).1
      obtain ⟨A1, A2, A3, d⟩ := hinv.ok t hT
      exact ⟨hup _ A1, hup _ A2, hup _ A3, d⟩
    · obtain ⟨a, b, rfl, hF⟩ := (hnew t).mp h
      obtain ⟨hab, Aa, Ab, _⟩ := new_empty pts N k T hk hgp hin hinv a b hF
      exact ⟨hup a Aa, hup b Ab, hk1, ne_of_lt hab, (hne b Ab).1, (hne a Aa).1, rfl⟩
  · -- the circles are empty
    intro t ht j hj h1 h2 h3
    rcases List.mem_append.mp ht with h | h
    · obtain ⟨hT, hnb⟩ := List.mem_filter.mp h
      by_cases hjk : j = k
      · rw [hjk]
        intro hlt0
        have hb := (inCircle_iff pts k t).mpr hlt0
        rw [hb] at hnb
        exact Bool.noConfusion hnb
      · exact hinv.empty t hT j (hdown j hj hjk) h1 h2 h3
    · obtain ⟨a, b, rfl, hF⟩ := (hnew t).mp h
      obtain ⟨hab, Aa, Ab, he⟩ := new_empty pts N k T hk hgp hin hinv a b hF
      exact he j (hdown j hj h3) h1 h2
  · -- every empty triangle is in the list
    intro a b c Aa Ab Ac hab hbc hac he
    by_cases hkin : a = k ∨ b = k ∨ c = k
    · obtain ⟨u, v, huv, hperm⟩ := perm3_exists a b c k hkin hab hbc hac
      obtain ⟨Au1, Av1, _⟩ := perm3_back (Act N (k + 1)) u v k a b c hperm Aa Ab Ac
      have huk : u ≠ k ∧ v ≠ k := by
        unfold Perm3 at hperm
        omega
      have Au := hdown u Au1 huk.1
      have Av := hdown v Av1 huk.2
      have hF := new_complete pts N k T hk hgp hgp4 hin hinv u v huv Au Av
        (by
          intro j hj hju hjv
          have hjk := (hne j hj).1
          rw [pw_perm pts (N + 3) hgp u v k a b c j hperm (hlt a Aa) (hlt b Ab) (hlt c Ac)
            hab hbc hac]
          have hj3 := perm3_forall (fun w => j ≠ w) u v k a b c hperm hju hjv hjk
          exact he j (hup j hj) hj3.1 hj3.2.1 hj3.2.2)
      exact ⟨⟨u, v, k, false⟩, List.mem_append_right _ ((hnew _).mpr ⟨u, v, rfl, hF⟩), hperm⟩
    · push_neg at hkin
      obtain ⟨t, ht, hp⟩ := hinv.compl a b c (hdown a Aa hkin.1) (hdown b Ab hkin.2.1)
        (hdown c Ac hkin.2.2) hab hbc hac (fun j hj h1 h2 h3 => he j (hup j hj) h1 h2 h3)
      refine ⟨t, List.mem_append_left _ (List.mem_filter.mpr ⟨ht, ?_⟩), hp⟩
      rw [Bool.not_eq_true', Bool.eq_false_iff]
      intro hb
      have := (inCircle_iff pts k t).mp hb
      rw [pw_perm pts (N + 3) hgp _ _ _ a b c k hp (hlt a Aa) (hlt b Ab) (hlt c Ac)
        hab hbc hac] at this
      exact he k hk1 (Ne.symm hkin.1) (Ne.symm hkin.2.1) (Ne.symm hkin.2.2) this
  · -- no triangle twice
    have hkey : ∀ e ∈ E.filter (fun e => e.2 = 1),
        e.1.1 < e.1.2 ∧ e.1.1 ≠ k ∧ e.1.2 ≠ k := by
      intro e he
      rw [List.mem_filter, decide_eq_true_eq] at he
      have := (hEm e.1 e.2).mp he.1
      rw [he.2] at this
      obtain ⟨hab, Aa, Ab, _⟩ := new_empty pts N k T hk hgp hin hinv e.1.1 e.1.2 this.1.symm
      exact ⟨hab, (hne _ Aa).1, (hne _ Ab).1⟩
    rw [List.pairwise_append]
    refine ⟨hinv.nodup.sublist (List.filter_sublist _), ?_, ?_⟩
    · rw [List.pairwise_map]
      have hsub : (E.filter (fun e => e.2 = 1)).Pairwise
          (fun x y => pairLt x.1 y.1 = true) := List.Pairwise.sublist (List.filter_sublist _) hEs
      apply hsub.imp_of_mem
      intro e1 e2 h1 h2 hlt0 hperm
      dsimp only at hperm
      have k1 := hkey e1 h1
      have k2 := hkey e2 h2
      unfold pairLt at hlt0
      simp only [Bool.or_eq_true, Bool.and_eq_true, decide_eq_true_eq] at hlt0
      unfold Perm3 at hperm
      omega
    · intro t ht u hu hperm
      obtain ⟨a, b, rfl, hF⟩ := (hnew u).mp hu
      have hT := (List.mem_filter.mp ht).1
      obtain ⟨A1, A2, A3, _⟩ := hinv.ok t hT
      have n1 := (hne _ A1).1
      have n2 := (hne _ A2).1
      have n3 := (hne _ A3).1
      dsimp only at hperm
      unfold Perm3 at hperm
      omega

/-- The super-triangle alone satisfies the invariant. -/
theorem delInv_init (pts : List Vec2) (N : Nat) :
    DelInv pts N 0 [⟨N, N + 1, N + 2, false⟩] := by
  refine ⟨?_, ?_, ?_, ?_⟩
  · intro t ht
    rw [List.mem_singleton] at ht
    rw [ht]
    unfold Act
    dsimp only
    refine ⟨by omega, by omega, by omega, by omega, by omega, by omega, rfl⟩
  · intro t ht j hj h1 h2 h3
    rw [List.mem_singleton] at ht
    rw [ht] at h1 h2 h3
    dsimp only at h1 h2 h3
    unfold Act at hj
    omega
  · intro a b c Aa Ab Ac hab hbc hac _
    refine ⟨⟨N, N + 1, N + 2, false⟩, List.mem_singleton.mpr rfl, ?_⟩
    dsimp only
    unfold Act at Aa Ab Ac
    have ha : a = N ∨ a = N + 1 ∨ a = N + 2 := by omega
    have hb : b = N ∨ b = N + 1 ∨ b = N + 2 := by omega
    have hc : c = N ∨ c = N + 1 ∨ c = N + 2 := by omega
    rcases ha with ha | ha | ha <;> rcases hb with hb | hb | hb <;>
      rcases hc with hc | hc | hc <;>
    first
    | (exfalso; omega)
    | (rw [ha, hb, hc]; unfold Perm3; simp)
  · exact List.pairwise_singleton _ _

/-- The invariant holds after every number of insertions. -/
theorem delInv_loop (pts : List Vec2) (N : Nat) (hgp : GenPos3 pts (N + 3))
    (hgp4 : GenPos4 pts (N + 3))
    (hin : ∀ k, k < N → StrictlyInside (pts.getD k ⟨0, 0⟩) (pts.getD N ⟨0, 0⟩)
      (pts.getD (N + 1) ⟨0, 0⟩) (pts.getD (N + 2) ⟨0, 0⟩)) :
    ∀ k, k ≤ N →
      DelInv pts N k ((List.range k).foldl (insertPoint pts) [⟨N, N + 1, N + 2, false⟩]) := by
  intro k
  induction k with
  | zero =>
    intro _
    exact delInv_init pts N
  | succ k ih =>
    intro hk
    rw [List.range_succ, List.foldl_append]
    exact delInv_step pts N k _ (by omega) hgp hgp4 (hin k (by omega)) (ih (by omega))

/-- Every centre lies strictly inside the super-triangle. -/
theorem superTriangle_inside (pts0 : List Vec2) (hx : 0 < (boxExtent pts0).1)
    (hy : 0 < (boxExtent pts0).2) :
    ∀ p ∈ pts0, StrictlyInside p (superTriangle pts0).1 (superTriangle pts0).2.1
      (superTriangle pts0).2.2 := by
  intro p hp
  have h1 := (foldl_min_le pts0 (fun p => p.x) 1000000000).2 p hp
  have h2 := (le_foldl_max pts0 (fun p => p.x) (-1000000000)).2 p hp
  have h3 := (foldl_min_le pts0 (fun p => p.y) 1000000000).2 p hp
  have h4 := (le_foldl_max pts0 (fun p => p.y) (-1000000000)).2 p hp
  unfold boxExtent at hx hy
  dsimp only at hx hy h1 h2 h3 h4
  unfold StrictlyInside orient superTriangle
  dsimp only
  generalize pts0.foldl (fun m p => min m p.x) 1000000000 = a at *
  generalize pts0.foldl (fun m p => max m p.x) (-1000000000) = b at *
  generalize pts0.foldl (fun m p => min m p.y) 1000000000 = c at *
  generalize pts0.foldl (fun m p => max m p.y) (-1000000000) = d at *
  refine ⟨?_, ?_, ?_⟩
  · nlinarith [mul_pos hx hy, mul_nonneg (sub_nonneg.mpr h1) (le_of_lt hy),
      mul_nonneg (sub_nonneg.mpr h4) (le_of_lt hx), mul_nonneg (sub_nonneg.mpr h2) (le_of_lt hy),
      mul_nonneg (sub_nonneg.mpr h3) (le_of_lt hx)]
  · nlinarith [mul_pos hx hy, mul_nonneg (sub_nonneg.mpr h1) (le_of_lt hy),
      mul_nonneg (sub_nonneg.mpr h4) (le_of_lt hx), mul_nonneg (sub_nonneg.mpr h2) (le_of_lt hy),
      mul_nonneg (sub_nonneg.mpr h3) (le_of_lt hx)]
  · nlinarith [mul_pos hx hy, mul_nonneg (sub_nonneg.mpr h3) (le_of_lt hx)]

/-- The vertices of a triangle lie on the circle that `getCircumcircle` returns. -/
theorem power_vertex (a b c : Vec2) (hd : ¬ fabs (circumDet a b c) < 1 / 1000) :
    power a b c a = 0 ∧ power a b c b = 0 ∧ power a b c c = 0 := by
  have ho := orient_ne_zero a b c hd
  have h1 := power_mul a b c a hd
  have h2 := power_mul a b c b hd
  have h3 := power_mul a b c c hd
  have e1 : cross4 a b c a = 0 := by
    unfold cross4 edgeDot orient
    ring
  have e2 : cross4 a b c b = 0 := by
    unfold cross4 edgeDot orient
    ring
  have e3 : cross4 a b c c = 0 := by
    unfold cross4 edgeDot orient
    ring
  rw [e1] at h1
  rw [e2] at h2
  rw [e3] at h3
  exact ⟨(mul_eq_zero.mp h1).resolve_right ho, (mul_eq_zero.mp h2).resolve_right ho,
    (mul_eq_zero.mp h3).resolve_right ho⟩

/-- The counter of `pruneDeadEnds` is the number of the four neighbours that are Floor. -/
theorem floorNeighbours_count (W H : Int) (g : List Tile) (x y : Int) :
    floorNeighbours W H g x y =
      ([(x + 1, y), (x - 1, y), (x, y + 1), (x, y - 1)].filter
        (fun p => decide (getTile W H g p.1 p.2 = Tile.Floor))).length := by
  unfold floorNeighbours
  by_cases h1 : getTile W H g (x + 1) y = Tile.Floor <;>
  by_cases h2 : getTile W H g (x - 1) y = Tile.Floor <;>
  by_cases h3 : getTile W H g x (y + 1) = Tile.Floor <;>
  by_cases h4 : getTile W H g x (y - 1) = Tile.Floor <;>
  simp [List.filter, h1, h2, h3, h4]

/-- The final grid of the run `trioRun`: the cell (3,4) is Floor, its neighbours (2,4) and (3,3)
are not. -/
theorem trioRun_corner :
    (trioRun 8).getTile 3 4 = Tile.Floor ∧ (trioRun 8).getTile 2 4 ≠ Tile.Floor ∧
      (trioRun 8).getTile 3 3 ≠ Tile.Floor := by
  decide!

/-- In the last step of the run `trioRun` the loop of `pruneDeadEnds` ends after one pass. -/
theorem trioRun_prune :
    pruneCount cfgTrio.gridWidth cfgTrio.gridHeight 100
      (despeckleWalls cfgTrio.gridWidth cfgTrio.gridHeight
        (runAutomataPass cfgTrio.gridWidth cfgTrio.gridHeight (trioRun 7).grid)) = 1 := by
  decide!

/-! ## The claims -/

/-- C1 (border sealing), evaluated on the 5 x 5 grid without rooms: the first run in a fresh
process reaches Complete after 8 steps, and its final grid has Floor at the cell (1,1), which
lies in the sealing margin; the small Wall block left by the automata passes is dissolved into
Floor by despeckleWalls, which guards the outermost border only. -/
theorem border_unsealed_on_tiny_grid :
    (tinyRun 8).phase = Phase.Complete ∧ inMargin 5 5 1 1 = true ∧
      (tinyRun 8).getTile 1 1 = Tile.Floor := by
  decide!

/-- C2 (single connected region): for every grid of `W * H` cells, any two Floor cells of the
grid that floodFillPrune returns are joined by a path of 4-adjacent Floor cells; hence the same
holds for the grid of every Complete state of every run started by init. -/
theorem single_connected_region (W H : Int) (g : List Tile) (hg : GridOK W H g)
    (lib : Lib) (entropy : Nat) (cfg : GenSettings) (old s0 : DungeonBuilder) (n : Nat)
    (h : init lib entropy cfg old = some s0)
    (hc : (runSteps lib n s0).phase = Phase.Complete) :
    FloorConnected W H (floodFillPrune W H g) ∧
      FloorConnected (runSteps lib n s0).cfg.gridWidth (runSteps lib n s0).cfg.gridHeight
        (runSteps lib n s0).grid :=
  ⟨floodFillPrune_connected W H g hg, (doneInv_run lib entropy cfg old s0 h n hc).1⟩

/-- Witness of C2: the 5 x 5 grid after its four automata passes, and the Complete state of the
first run on that grid. -/
theorem single_connected_region_witness :
    FloorConnected 5 5 (floodFillPrune 5 5 (tinyRun 7).grid) ∧
      FloorConnected (tinyRun 8).cfg.gridWidth (tinyRun 8).cfg.gridHeight (tinyRun 8).grid :=
  single_connected_region 5 5 (tinyRun 7).grid ⟨by decide, by decide, by decide!⟩
    toyLib 0 cfgTiny DungeonBuilder.fresh
    ((init toyLib 0 cfgTiny DungeonBuilder.fresh).getD DungeonBuilder.fresh) 8 rfl (by decide!)

/-- C3 (wall shell completeness): in every Complete state of every run started by init, each
non-Floor cell of the grid is Wall when one of its 8 neighbours is Floor and Empty when none
is; and the in-place wall-regeneration loop leaves the set of Floor cells of any grid unchanged. -/
theorem wall_shell_complete (lib : Lib) (entropy : Nat) (cfg : GenSettings)
    (old s0 : DungeonBuilder) (n : Nat) (h : init lib entropy cfg old = some s0)
    (hc : (runSteps lib n s0).phase = Phase.Complete) :
    Shell (runSteps lib n s0).cfg.gridWidth (runSteps lib n s0).cfg.gridHeight
        (runSteps lib n s0).grid ∧
      ∀ (W H : Int) (g : List Tile), SameFloor (wallGen W H g) g :=
  ⟨(doneInv_run lib entropy cfg old s0 h n hc).2, fun W H g => wallGen_sameFloor W H g⟩

/-- Witness of C3: the Complete state of the first run on the 5 x 5 grid. -/
theorem wall_shell_complete_witness :
    Shell (tinyRun 8).cfg.gridWidth (tinyRun 8).cfg.gridHeight (tinyRun 8).grid ∧
      ∀ (W H : Int) (g : List Tile), SameFloor (wallGen W H g) g :=
  wall_shell_complete toyLib 0 cfgTiny DungeonBuilder.fresh
    ((init toyLib 0 cfgTiny DungeonBuilder.fresh).getD DungeonBuilder.fresh) 8 rfl (by decide!)

/-- The Graph step on the state `collinearState`, for every library: three main rooms and no
link. -/
theorem computeGraph_collinearState (lib : Lib) :
    (computeGraph lib collinearState).mainRoomIndices = [0, 2, 4] ∧
      (computeGraph lib collinearState).links = [] := by
  have hm : collectMain 0 collinearState.rooms = [0, 2, 4] := by decide!
  have h3 : ¬ (collectMain 0 collinearState.rooms).length < 3 := by decide!
  have ht : triangulate ((collectMain 0 collinearState.rooms).map (fun idx =>
      (⟨(roomAt collinearState.rooms idx).x, (roomAt collinearState.rooms idx).y⟩ : Vec2)))
      = [] := by decide!
  have := computeGraph_of_no_triangle lib collinearState h3 ht
  rw [hm] at this
  exact this

/-- C4 (graph connectivity), evaluated on a run whose rooms lie on one horizontal line: init
places five rooms of widths 8, 24, 24, 24, 8 at x = 200, 225, 275, 325, 350 and y = 80, the
first step settles the physics and marks rooms 1, 2, 3 as main, and the Graph step, run with
these N = 3 main rooms, produces no link at all instead of 2 tree links. -/
theorem collinear_rooms_get_no_link :
    (lineRun 0).rooms.map (fun r => (r.x, r.y, r.w)) =
        [(200, 80, 8), (225, 80, 24), (275, 80, 24), (325, 80, 24), (350, 80, 8)] ∧
      (lineRun 1).phase = Phase.Graph ∧ collectMain 0 (lineRun 1).rooms = [1, 2, 3] ∧
      (lineRun 2).phase = Phase.Raster ∧ (lineRun 2).mainRoomIndices = [1, 2, 3] ∧
      (lineRun 2).links = [] := by
  decide!

/-- C5 (fewer than 3 main rooms): in a run started by init, when the Graph step runs with fewer
than 3 main rooms it draws nothing and leaves the link list empty, the phase advances to Raster,
and the run reaches Complete within 105 further steps with the link list empty at every step. -/
theorem few_main_rooms_no_links (lib : Lib) (entropy : Nat) (cfg : GenSettings)
    (old s0 : DungeonBuilder) (n : Nat) (h : init lib entropy cfg old = some s0)
    (hg : (runSteps lib n s0).phase = Phase.Graph)
    (hm : (collectMain 0 (runSteps lib n s0).rooms).length < 3) :
    (step lib (runSteps lib n s0)).links = [] ∧
      (step lib (runSteps lib n s0)).rng = (runSteps lib n s0).rng ∧
      (step lib (runSteps lib n s0)).phase = Phase.Raster ∧
      (∀ j, (runSteps lib j (step lib (runSteps lib n s0))).links = []) ∧
      (runSteps lib 105 (step lib (runSteps lib n s0))).phase = Phase.Complete := by
  have hl : (runSteps lib n s0).links = [] :=
    linkInv_run lib entropy cfg old s0 h n (by rw [hg]; decide)
  have hw : (runSteps lib n s0).walkers = [] :=
    (walkInv_run lib entropy cfg old s0 h n).1 (by rw [hg]; decide)
  have hs : step lib (runSteps lib n s0) =
      { (runSteps lib n s0) with mainRoomIndices := collectMain 0 (runSteps lib n s0).rooms,
                                 phase := Phase.Raster } := by
    rw [step_of_graph lib _ hg, computeGraph_few lib _ hm]
  have hl1 : (step lib (runSteps lib n s0)).links = [] := by rw [hs]; exact hl
  have hp1 : (step lib (runSteps lib n s0)).phase = Phase.Raster := by rw [hs]
  refine ⟨hl1, by rw [hs], hp1, fun j => ?_, ?_⟩
  · rw [runSteps_links lib j _ (by rw [hp1]; decide)]; exact hl1
  · obtain ⟨k, hk, hc⟩ := raster_run lib _ hp1 (by rw [hs]; exact hw)
    rw [complete_by lib _ k 105 hk hc]
    exact hc

/-- Witness of C5: the run on the 5 x 5 grid without rooms, which is in phase Graph after one
step. -/
theorem few_main_rooms_no_links_witness :
    (step toyLib (tinyRun 1)).links = [] ∧
      (step toyLib (tinyRun 1)).rng = (tinyRun 1).rng ∧
      (step toyLib (tinyRun 1)).phase = Phase.Raster ∧
      (∀ j, (runSteps toyLib j (step toyLib (tinyRun 1))).links = []) ∧
      (runSteps toyLib 105 (step toyLib (tinyRun 1))).phase = Phase.Complete :=
  few_main_rooms_no_links toyLib 0 cfgTiny DungeonBuilder.fresh
    ((init toyLib 0 cfgTiny DungeonBuilder.fresh).getD DungeonBuilder.fresh) 1 rfl
    (by decide!) (by decide!)

/-- C6 (phase order): one step leaves the phase unchanged or moves it to its immediate successor
(and never out of Complete); a step in Graph ends in Raster and a step in Raster ends in
Walkers, so each of these two phases lasts exactly one step. -/
theorem phase_order (lib : Lib) (s : DungeonBuilder) :
    ((step lib s).phase = s.phase ∨
        ((step lib s).phase = s.phase.successor ∧ s.phase ≠ Phase.Complete)) ∧
      (s.phase = Phase.Graph → (step lib s).phase = Phase.Raster) ∧
      (s.phase = Phase.Raster → (step lib s).phase = Phase.Walkers) := by
  refine ⟨step_phase lib s, fun hg => ?_, fun hr => ?_⟩
  · rw [step_of_graph lib s hg]
  · simp only [step, hr]
    split <;> rfl

/-- C7 (Complete is terminal): a step in phase Complete returns the state unchanged: phase,
rooms, links, walkers, grid, tile lists, the generator (no draw) and the static counter. -/
theorem complete_is_terminal (lib : Lib) (s : DungeonBuilder) (h : s.phase = Phase.Complete) :
    step lib s = s ∧ s.isComplete = true := by
  refine ⟨step_of_complete lib s h, ?_⟩
  simp [DungeonBuilder.isComplete, h]

/-- Witness of C7: the Complete state that ends the first run on the 5 x 5 grid. -/
theorem complete_is_terminal_witness :
    (tinyRun 8).phase = Phase.Complete ∧ step toyLib (tinyRun 8) = tinyRun 8 ∧
      (tinyRun 8).isComplete = true :=
  ⟨by decide!, complete_is_terminal toyLib (tinyRun 8) (by decide!)⟩

/-- C8 (four automata passes per run), evaluated on a builder that is re-initialised after its
first automata pass: the first run enters Automata after 4 steps and completes after 4 passes,
the run started by the second init enters Automata after 4 steps and is Complete after only 3
passes, because init does not reset the static counter. -/
theorem rerun_has_three_passes :
    (tinyRun 4).phase = Phase.Automata ∧ (tinyRun 7).phase = Phase.Automata ∧
      (tinyRun 8).phase = Phase.Complete ∧ (tinyRun 5).caSteps = 1 ∧
      (tinyRerun 0).phase = Phase.Physics ∧ (tinyRerun 4).phase = Phase.Automata ∧
      (tinyRerun 6).phase = Phase.Automata ∧ (tinyRerun 7).phase = Phase.Complete := by
  decide!

/-- C9, counterexample: with room count 3, spread radius 0 and a 20 x 20 grid, and random draws
that are all equal, init succeeds and no number of steps reaches Complete: the three rooms
coincide, receive the same force at every step and never separate. -/
theorem physics_need_not_settle :
    20 ≤ cfgStuck.gridWidth ∧ 20 ≤ cfgStuck.gridHeight ∧ 3 ≤ cfgStuck.roomCount ∧
      (init constLib 0 cfgStuck DungeonBuilder.fresh).isSome = true ∧
      ¬ ∃ s B, init constLib 0 cfgStuck DungeonBuilder.fresh = some s ∧
        (runSteps constLib B s).phase = Phase.Complete := by
  refine ⟨by decide, by decide, by decide, rfl, ?_⟩
  rintro ⟨s, B, hs, hc⟩
  have hl := lockstep_runSteps constLib constLib_sqrt_zero B s
    (init_lockstep constLib (fun _ => rfl) 0 DungeonBuilder.fresh s hs)
  rw [hl.1] at hc
  exact absurd hc (by decide)

/-- C9, amended (termination after physics): in every run started by init, for every
configuration and all random draws, if the phase is no longer Physics after `P` steps then the
builder is in phase Complete after `P + 106` steps. -/
theorem terminates_after_physics (lib : Lib) (entropy : Nat) (cfg : GenSettings)
    (old s0 : DungeonBuilder) (P : Nat) (h : init lib entropy cfg old = some s0)
    (hp : (runSteps lib P s0).phase ≠ Phase.Physics) :
    (runSteps lib (P + 106) s0).phase = Phase.Complete := by
  obtain ⟨k, hk, hc⟩ := after_physics_run lib (runSteps lib P s0)
    (walkInv_run lib entropy cfg old s0 h P) hp
  rw [runSteps_add, complete_by lib _ k 106 hk hc]
  exact hc

/-- Witness of the amended C9: the run on the 5 x 5 grid, which leaves Physics at its first
step. -/
theorem terminates_after_physics_witness :
    (runSteps toyLib (1 + 106)
      ((init toyLib 0 cfgTiny DungeonBuilder.fresh).getD DungeonBuilder.fresh)).phase
      = Phase.Complete :=
  terminates_after_physics toyLib 0 cfgTiny DungeonBuilder.fresh
    ((init toyLib 0 cfgTiny DungeonBuilder.fresh).getD DungeonBuilder.fresh) 1 rfl (by decide!)

/-- C10 (determinism), evaluated on two runs with the same configuration and the same nonzero
seed: the first run in a fresh process and the run started by init on a builder abandoned after
its first automata pass have different grids after 7 steps. -/
theorem reruns_differ :
    (tinyRun 0).cfg = (tinyRerun 0).cfg ∧ (tinyRun 0).cfg.seed = 1 ∧
      (tinyRun 0).rooms = (tinyRerun 0).rooms ∧ (tinyRun 0).grid = (tinyRerun 0).grid ∧
      (tinyRun 7).grid ≠ (tinyRerun 7).grid := by
  decide!

/-- C11: `setTile` changes no cell when `(x, y)` is outside the grid and when `t` is Floor and
`(x, y)` lies in the 2-cell margin; in every other case it writes `t` to the cell with the
row-major index `y * W + x` and leaves every other cell as it was. -/
theorem setTile_frame (W H : Int) (g : List Tile) (x y : Int) (t : Tile) (hg : GridOK W H g) :
    (inBounds W H x y = false → setTile W H g x y t = g) ∧
      (t = Tile.Floor → inMargin W H x y = true → setTile W H g x y t = g) ∧
      (inBounds W H x y = true → ¬ (t = Tile.Floor ∧ inMargin W H x y = true) →
        (setTile W H g x y t).length = g.length ∧
        (y * W + x).toNat < g.length ∧
        (setTile W H g x y t).getD (y * W + x).toNat Tile.Empty = t ∧
        (∀ j, j ≠ (y * W + x).toNat →
          (setTile W H g x y t).getD j Tile.Empty = g.getD j Tile.Empty) ∧
        (∀ x2 y2, ¬ (x2 = x ∧ y2 = y) →
          getTile W H (setTile W H g x y t) x2 y2 = getTile W H g x2 y2)) := by
  refine ⟨fun hb => ?_, fun ht hm => ?_, fun hb hacc => ?_⟩
  · unfold setTile
    rw [if_neg (by simp [hb])]
  · unfold setTile
    split
    · rw [if_pos ⟨ht, hm⟩]
    · rfl
  · have hlt := index_lt W H g hg x y hb
    have hset : setTile W H g x y t = g.set (y * W + x).toNat t := by
      unfold setTile
      rw [if_pos hb, if_neg hacc]
    rw [hset]
    refine ⟨List.length_set _ _ _, hlt, ?_, fun j hj => ?_, fun x2 y2 hne => ?_⟩
    · rw [getD_set, if_pos ⟨rfl, hlt⟩]
    · rw [getD_set, if_neg (fun h => hj h.1.symm)]
    · rw [getTile_set W H g hg x y x2 y2 t hb, if_neg hne]

/-- Witness of C11 on the empty 6 x 6 grid: Floor is written at (2,3) and refused at (1,3). -/
theorem setTile_frame_witness :
    GridOK 6 6 emptyGrid6 ∧
      (setTile 6 6 emptyGrid6 2 3 Tile.Floor).getD 20 Tile.Empty = Tile.Floor ∧
      (setTile 6 6 emptyGrid6 1 3 Tile.Floor) = emptyGrid6 :=
  ⟨gridOK_emptyGrid6,
    ((setTile_frame 6 6 emptyGrid6 2 3 Tile.Floor gridOK_emptyGrid6).2.2 (by decide)
      (by decide)).2.2.1,
    (setTile_frame 6 6 emptyGrid6 1 3 Tile.Floor gridOK_emptyGrid6).2.1 rfl (by decide)⟩

/-- C12: `getTile` returns Empty outside the grid and the stored cell inside it; after a
`setTile (x, y, t)` that is accepted, `getTile (x, y)` returns `t`. -/
theorem getTile_reads_setTile (W H : Int) (g : List Tile) (x y : Int) (t : Tile)
    (hg : GridOK W H g) :
    (inBounds W H x y = false → getTile W H g x y = Tile.Empty) ∧
      (inBounds W H x y = true →
        (y * W + x).toNat < g.length ∧
          getTile W H g x y = g.getD (y * W + x).toNat Tile.Empty) ∧
      (inBounds W H x y = true → ¬ (t = Tile.Floor ∧ inMargin W H x y = true) →
        getTile W H (setTile W H g x y t) x y = t) := by
  refine ⟨fun hb => ?_, fun hb => ⟨index_lt W H g hg x y hb, ?_⟩, fun hb hacc => ?_⟩
  · unfold getTile
    rw [if_neg (by simp [hb])]
  · unfold getTile
    rw [if_pos hb]
  · have hset : setTile W H g x y t = g.set (y * W + x).toNat t := by
      unfold setTile
      rw [if_pos hb, if_neg hacc]
    rw [hset, getTile_set W H g hg x y x y t hb, if_pos ⟨rfl, rfl⟩]

/-- Witness of C12 on the empty 6 x 6 grid: a read outside the grid, and a read after a write
of Wall at (1,3). -/
theorem getTile_reads_setTile_witness :
    GridOK 6 6 emptyGrid6 ∧ getTile 6 6 emptyGrid6 6 0 = Tile.Empty ∧
      getTile 6 6 (setTile 6 6 emptyGrid6 1 3 Tile.Wall) 1 3 = Tile.Wall :=
  ⟨gridOK_emptyGrid6,
    (getTile_reads_setTile 6 6 emptyGrid6 6 0 Tile.Wall gridOK_emptyGrid6).1 (by decide),
    (getTile_reads_setTile 6 6 emptyGrid6 1 3 Tile.Wall gridOK_emptyGrid6).2.2 (by decide)
      (by decide)⟩

/-- C13: after `init` and after every call of `step`, the number of floor tiles plus the number
of wall tiles of the lists `getFloors()` and `getWalls()` is `getTotalTiles()`. -/
theorem tile_count_consistent (lib : Lib) (s : DungeonBuilder) (n : Nat) :
    (runSteps lib n s).getTotalTiles =
      ((runSteps lib n s).floors.length : Int) + ((runSteps lib n s).walls.length : Int) := by
  unfold DungeonBuilder.getTotalTiles
  push_cast
  rfl

/-- C14, as the code has it: with the positive grid dimensions 46341 x 46341 the `int` product
`gridWidth * gridHeight` overflows (46341 * 46341 = 2147488281 > 2147483647), `grid.assign`
throws and `init` leaves no reset state. -/
theorem init_fails_on_overflow :
    0 ≤ cfgHuge.roomCount ∧ 0 < cfgHuge.gridWidth ∧ 0 < cfgHuge.gridHeight ∧
      cfgHuge.gridWidth * cfgHuge.gridHeight = 2147488281 ∧
      init toyLib 0 cfgHuge DungeonBuilder.fresh = none :=
  ⟨by decide, by decide, by decide, by decide, rfl⟩

/-- C14, amended: for a room count of at least 0, positive grid dimensions and `int` products
that do not overflow, `init` returns with the phase Physics, empty link, walker, floor and wall
lists, a grid of `gridWidth * gridHeight` Empty cells, and `roomCount` rooms of which room `i`
has id `i`, is not main and has zero velocity, whatever the builder held before. -/
theorem init_resets (lib : Lib) (entropy : Nat) (cfg : GenSettings) (old : DungeonBuilder)
    (hr : 0 ≤ cfg.roomCount) (hW : 0 < cfg.gridWidth) (hH : 0 < cfg.gridHeight)
    (hno : cfg.noOverflow = true) :
    ∃ s, init lib entropy cfg old = some s ∧ s.phase = Phase.Physics ∧ s.links = [] ∧
      s.walkers = [] ∧ s.floors = [] ∧ s.walls = [] ∧
      (s.grid.length : Int) = cfg.gridWidth * cfg.gridHeight ∧ (∀ c ∈ s.grid, c = Tile.Empty) ∧
      (s.rooms.length : Int) = cfg.roomCount ∧
      ∀ i, i < s.rooms.length →
        ∃ r, s.rooms[i]? = some r ∧ r.id = (i : Int) ∧ r.isMain = false ∧ r.vx = 0 ∧ r.vy = 0 := by
  have hpos : 0 < cfg.gridWidth * cfg.gridHeight := Int.mul_pos hW hH
  have hcond : ¬ (cfg.gridWidth * cfg.gridHeight < 0 ∨ cfg.noOverflow = false) := by
    rintro (h1 | h2)
    · exact absurd h1 (not_lt.mpr (le_of_lt hpos))
    · rw [hno] at h2
      exact Bool.noConfusion h2
  unfold init
  rw [if_neg hcond]
  refine ⟨_, rfl, rfl, rfl, rfl, rfl, rfl, ?_, ?_, ?_, ?_⟩
  · simp only [List.length_replicate]
    exact Int.toNat_of_nonneg (le_of_lt hpos)
  · intro c hc
    exact List.eq_of_mem_replicate hc
  · have h := (spawnRooms_spec lib cfg
      (((cfg.gridWidth * cfg.tileW : Int) : ℚ) / 2) (((cfg.gridHeight * cfg.tileH : Int) : ℚ) / 2)
      cfg.roomCount.toNat 0
      ⟨lib.mt19937 (if cfg.seed = 0 then entropy else cfg.seed), 0⟩ []).1
    simp only [h, List.length_nil, Nat.zero_add]
    exact Int.toNat_of_nonneg hr
  · intro i hi
    have h := spawnRooms_spec lib cfg
      (((cfg.gridWidth * cfg.tileW : Int) : ℚ) / 2) (((cfg.gridHeight * cfg.tileH : Int) : ℚ) / 2)
      cfg.roomCount.toNat 0
      ⟨lib.mt19937 (if cfg.seed = 0 then entropy else cfg.seed), 0⟩ []
    have hi2 : i < cfg.roomCount.toNat := by
      have := h.1
      simp only [List.length_nil, Nat.zero_add] at this
      rw [← this]; exact hi
    have := h.2.2 i hi2
    simp only [List.length_nil, Nat.zero_add, Int.zero_add] at this
    exact this

/-- Witness of C14, amended: `init` with three rooms and a 20 x 20 grid on a builder that was abandoned
in the Automata phase. -/
theorem init_resets_witness :
    ∃ s, init toyLib 0 cfgStuck (tinyRun 5) = some s ∧ s.phase = Phase.Physics ∧ s.links = [] ∧
      s.walkers = [] ∧ s.floors = [] ∧ s.walls = [] ∧
      (s.grid.length : Int) = cfgStuck.gridWidth * cfgStuck.gridHeight ∧
      (∀ c ∈ s.grid, c = Tile.Empty) ∧
      (s.rooms.length : Int) = cfgStuck.roomCount ∧
      ∀ i, i < s.rooms.length →
        ∃ r, s.rooms[i]? = some r ∧ r.id = (i : Int) ∧ r.isMain = false ∧ r.vx = 0 ∧ r.vy = 0 :=
  init_resets toyLib 0 cfgStuck (tinyRun 5) (by decide) (by decide) (by decide) (by decide)

/-- C15, as the code has it: `init` stores a configuration with an empty grid and tile sizes
`-4` and `0` as it stands, and the accessors report these values, which are below 1. -/
theorem init_keeps_degenerate_config :
    ∃ s, init toyLib 0 cfgDegenerate DungeonBuilder.fresh = some s ∧
      s.getGridWidth = 0 ∧ s.getGridHeight = 0 ∧ s.getTileW = -4 ∧ s.getTileH = 0 ∧
      ¬ (1 ≤ s.getGridWidth ∧ 1 ≤ s.getGridHeight ∧ 1 ≤ s.getTileW ∧ 1 ≤ s.getTileH) := by
  refine ⟨_, rfl, rfl, rfl, rfl, rfl, ?_⟩
  decide

/-- C15, amended: `init` stores the configuration verbatim; whenever it returns, the accessors
report the grid and tile sizes of the configuration it was given, and it returns whenever the
product of the grid sizes is not negative and none of its `int` products overflows. -/
theorem init_stores_config (lib : Lib) (entropy : Nat) (cfg : GenSettings)
    (old : DungeonBuilder) (h : 0 ≤ cfg.gridWidth * cfg.gridHeight)
    (hno : cfg.noOverflow = true) :
    ∃ s, init lib entropy cfg old = some s ∧ s.cfg = cfg ∧
      s.getGridWidth = cfg.gridWidth ∧ s.getGridHeight = cfg.gridHeight ∧
      s.getTileW = cfg.tileW ∧ s.getTileH = cfg.tileH := by
  have hcond : ¬ (cfg.gridWidth * cfg.gridHeight < 0 ∨ cfg.noOverflow = false) := by
    rintro (h1 | h2)
    · exact absurd h1 (not_lt.mpr h)
    · rw [hno] at h2
      exact Bool.noConfusion h2
  unfold init
  rw [if_neg hcond]
  exact ⟨_, rfl, rfl, rfl, rfl, rfl, rfl⟩

/-- Witness of the amended C15 on the configuration `cfgDegenerate`. -/
theorem init_stores_config_witness :
    ∃ s, init toyLib 0 cfgDegenerate DungeonBuilder.fresh = some s ∧ s.cfg = cfgDegenerate ∧
      s.getGridWidth = cfgDegenerate.gridWidth ∧ s.getGridHeight = cfgDegenerate.gridHeight ∧
      s.getTileW = cfgDegenerate.tileW ∧ s.getTileH = cfgDegenerate.tileH :=
  init_stores_config toyLib 0 cfgDegenerate DungeonBuilder.fresh (by decide) (by decide)

/-- C17:`despeckleWalls` leaves every cell that is not Wall as it was; a Wall cell whose maximal
4-connected region of Wall cells has fewer than 10 cells becomes Floor when it is off the
outermost border and Empty when it is on it; a Wall cell whose region has 10 or more cells
stays Wall. Every Wall cell has such a region. -/
theorem despeckleWalls_dissolves (W H : Int) (g : List Tile) (hg : GridOK W H g) (x y : Int)
    (hb : inBounds W H x y = true) :
    (getTile W H g x y ≠ Tile.Wall →
        getTile W H (despeckleWalls W H g) x y = getTile W H g x y) ∧
      (∀ cells, IsComponent W H g Tile.Wall (x, y) cells →
        (cells.length < 10 →
          getTile W H (despeckleWalls W H g) x y =
            if 0 < x ∧ x < W - 1 ∧ 0 < y ∧ y < H - 1 then Tile.Floor else Tile.Empty) ∧
        (10 ≤ cells.length → getTile W H (despeckleWalls W H g) x y = Tile.Wall)) ∧
      (getTile W H g x y = Tile.Wall → ∃ cells, IsComponent W H g Tile.Wall (x, y) cells) := by
  obtain ⟨hx0, hx, hy0, hy⟩ := (inBounds_iff W H x y).mp hb
  have hco : coordOf W (y * W + x).toNat = (x, y) := coordOf_index W hg.1 x y hx0 hx hy0
  have hcells := despeckleWalls_cells W H g hg (y * W + x).toNat
  have full := labelRegions_full W H g hg Tile.Wall (by decide)
  rw [getTile_index W H (despeckleWalls W H g) x y hb, getTile_index W H g x y hb]
  have hcomp : g.getD (y * W + x).toNat Tile.Empty = Tile.Wall →
      ∃ r, r < (labelRegions W H g Tile.Wall).count ∧
        (labelRegions W H g Tile.Wall).regions.getD (y * W + x).toNat 0 = r + 1 ∧
        IsComponent W H g Tile.Wall (x, y)
          (((labelRegions W H g Tile.Wall).found.getD r []).map (coordOf W)) := by
    intro hw
    obtain ⟨r, hr, hl⟩ := labelRegions_covers W H g hg Tile.Wall (by decide) _ hw
    have := labelRegions_component W H g hg Tile.Wall (by decide) _ r hl
    rw [hco] at this
    exact ⟨r, hr, hl, this⟩
  refine ⟨fun hnw => hcells.2 ?_, fun cells hc => ?_, fun hw => ?_⟩
  · rintro ⟨r, _, _, hl⟩
    exact hnw (full.sound _ (by rw [hl]; exact Nat.succ_ne_zero r))
  · have hw : g.getD (y * W + x).toNat Tile.Empty = Tile.Wall := by
      rw [← getTile_index W H g x y hb]; exact hc.1
    obtain ⟨r, hr, hl, hcr⟩ := hcomp hw
    have hlen := isComponent_length W H g Tile.Wall (x, y) _ _ hc hcr
    rw [List.length_map] at hlen
    refine ⟨fun hs => ?_, fun hs => ?_⟩
    · rw [hcells.1 ⟨r, hr, by omega, hl⟩, hco]
    · rw [hcells.2 ?_, hw]
      rintro ⟨r2, _, hs2, hl2⟩
      have : r2 = r := by omega
      rw [this] at hs2
      omega
  · obtain ⟨r, _, _, hcr⟩ := hcomp hw
    exact ⟨_, hcr⟩

/-- Witness of C17 on `sampleGrid6`: the Wall cell (1,1) is a region of one cell and becomes
Floor. -/
theorem despeckleWalls_dissolves_witness :
    GridOK 6 6 sampleGrid6 ∧ inBounds 6 6 1 1 = true ∧
      (∃ cells, IsComponent 6 6 sampleGrid6 Tile.Wall (1, 1) cells) ∧
      getTile 6 6 (despeckleWalls 6 6 sampleGrid6) 1 1 = Tile.Floor :=
  ⟨gridOK_sampleGrid6, by decide,
    (despeckleWalls_dissolves 6 6 sampleGrid6 gridOK_sampleGrid6 1 1 (by decide)).2.2 (by decide),
    by decide!⟩

/-- C18 (despeckleWalls and the sealing margin), evaluated on the run on `cfgTiny`: in the step
of the last automata pass `despeckleWalls` gets a grid with no Floor cell in the 2-cell margin
and returns it with a Floor cell at `(1, 1)`, which lies in the margin. -/
theorem despeckle_breaks_seal :
    (tinyRun 7).phase = Phase.Automata ∧ (tinyRun 7).caSteps = 3 ∧
      (tinyRun 8).grid =
        floodFillPrune 5 5 (pruneDeadEnds 5 5 (despeckleWalls 5 5 tinyAutomataGrid)) ∧
      (∀ x ∈ intRange 0 5, ∀ y ∈ intRange 0 5,
        inMargin 5 5 x y = true → getTile 5 5 tinyAutomataGrid x y ≠ Tile.Floor) ∧
      inMargin 5 5 1 1 = true ∧
      getTile 5 5 (despeckleWalls 5 5 tinyAutomataGrid) 1 1 = Tile.Floor := by
  decide!

/-- C19: `pruneDeadEnds` runs at most 100 passes; a pass turns to Empty exactly the Floor cells
off the outermost border that have at most one Floor cell among their four neighbours in the
grid at the start of the pass and changes no other cell; every pass before the last removes a
cell, and the last pass removes none unless it is the 100th. -/
theorem pruneDeadEnds_passes (W H : Int) (g : List Tile) (hg : GridOK W H g) :
    (∀ G, GridOK W H G → ∀ x y, inBounds W H x y = true →
        (DeadEnd W H G x y → getTile W H (prunePass W H G) x y = Tile.Empty) ∧
        (¬ DeadEnd W H G x y → getTile W H (prunePass W H G) x y = getTile W H G x y)) ∧
      (∀ i, GridOK W H ((prunePass W H)^[i] g)) ∧
      1 ≤ pruneCount W H 100 g ∧ pruneCount W H 100 g ≤ 100 ∧
      pruneDeadEnds W H g = (prunePass W H)^[pruneCount W H 100 g] g ∧
      (∀ i, i + 1 < pruneCount W H 100 g → ∃ x y, DeadEnd W H ((prunePass W H)^[i] g) x y) ∧
      ((∃ x y, DeadEnd W H ((prunePass W H)^[pruneCount W H 100 g - 1] g) x y) →
        pruneCount W H 100 g = 100) := by
  refine ⟨fun G hG x y hb => prunePass_spec W H G hG x y hb, fun i => ?_,
    pruneLoop_spec W H 100 g (by decide)⟩
  induction i with
  | zero => exact hg
  | succ i ih =>
    rw [Function.iterate_succ_apply']
    exact ⟨hg.1, hg.2.1, by rw [prunePass_length]; exact ih.2.2⟩

/-- Witness of C19 on `sampleGrid6`: two passes, of which the first removes the three Floor
cells. -/
theorem pruneDeadEnds_passes_witness :
    GridOK 6 6 sampleGrid6 ∧ pruneCount 6 6 100 sampleGrid6 = 2 ∧
      pruneDeadEnds 6 6 sampleGrid6 = (prunePass 6 6)^[pruneCount 6 6 100 sampleGrid6] sampleGrid6 :=
  ⟨gridOK_sampleGrid6, by decide!,
    (pruneDeadEnds_passes 6 6 sampleGrid6 gridOK_sampleGrid6).2.2.2.2.1⟩

/-- C20:the retention part of `floodFillPrune` leaves every cell that is not Floor as it was;
when the grid has a Floor cell, the Floor cells after it are exactly one maximal 4-connected
region of the Floor cells before it; this region has at least as many cells as every other, and
among the regions with as many cells it is the one whose first cell comes first in row-major
order. -/
theorem floodRetain_largest (W H : Int) (g : List Tile) (hg : GridOK W H g) :
    (∀ x y, getTile W H g x y ≠ Tile.Floor →
        getTile W H (floodRetain W H g) x y = getTile W H g x y) ∧
      (∀ x y, getTile W H g x y = Tile.Floor →
        getTile W H (floodRetain W H g) x y = Tile.Floor ∨
          getTile W H (floodRetain W H g) x y = Tile.Empty) ∧
      ((∃ x y, getTile W H g x y = Tile.Floor) →
        ∃ p cells, IsComponent W H g Tile.Floor p cells ∧
          (∀ q : Int × Int, getTile W H (floodRetain W H g) q.1 q.2 = Tile.Floor ↔ q ∈ cells) ∧
          ∀ p2 cs, IsComponent W H g Tile.Floor p2 cs →
            cs.length ≤ cells.length ∧
              (cs.length = cells.length → p.2 * W + p.1 ≤ p2.2 * W + p2.1)) := by
  refine ⟨fun x y h => floodRetain_frame W H g x y h, fun x y h => ?_, fun hex => ?_⟩
  · have hb := inBounds_of_getTile W H g x y (by rw [h]; decide)
    rw [getTile_index W H (floodRetain W H g) x y hb]
    unfold floodRetain
    dsimp only
    rw [retain_spec]
    split
    · exact Or.inr rfl
    · rw [← getTile_index W H g x y hb]
      exact Or.inl h
  · have full := labelRegions_full W H g hg Tile.Floor (by decide)
    obtain ⟨r, s, tl, hr, hs1, hs3, hkeep, h3, h4⟩ := floodRetain_best W H g hg hex
    have hsm : s ∈ (labelRegions W H g Tile.Floor).found.getD r [] := by rw [hs1]; simp
    have hsl := (full.fmem r hr s).mp hsm
    have hslt : s < g.length := lt_length_of_getD_ne g s Tile.Empty
      (by rw [full.sound s (by rw [hsl]; exact Nat.succ_ne_zero r)]; decide)
    have hcomp := labelRegions_component W H g hg Tile.Floor (by decide) s r hsl
    refine ⟨coordOf W s, _, hcomp, fun q => ?_, fun p2 cs hcs => ?_⟩
    · rw [List.mem_map]
      constructor
      · intro hq
        have hb := inBounds_of_getTile W H _ q.1 q.2 (by rw [hq]; decide)
        obtain ⟨hx0, hx, hy0, _⟩ := (inBounds_iff W H q.1 q.2).mp hb
        rw [getTile_index W H (floodRetain W H g) q.1 q.2 hb] at hq
        exact ⟨(q.2 * W + q.1).toNat, (full.fmem r hr _).mpr ((hkeep _).mp hq),
          coordOf_index W hg.1 q.1 q.2 hx0 hx hy0⟩
      · rintro ⟨c, hc, rfl⟩
        have hcl := (full.fmem r hr c).mp hc
        have hclt : c < g.length := lt_length_of_getD_ne g c Tile.Empty
          (by rw [full.sound c (by rw [hcl]; exact Nat.succ_ne_zero r)]; decide)
        rw [getTile_coordOf W H g _ hg c hclt]
        exact (hkeep c).mpr hcl
    · have hb2 := inBounds_of_getTile W H g p2.1 p2.2 (by rw [hcs.1]; decide)
      obtain ⟨hx0, hx, hy0, _⟩ := (inBounds_iff W H p2.1 p2.2).mp hb2
      have hf2 : g.getD (p2.2 * W + p2.1).toNat Tile.Empty = Tile.Floor := by
        rw [← getTile_index W H g p2.1 p2.2 hb2]; exact hcs.1
      obtain ⟨r2, hr2, hl2⟩ := labelRegions_covers W H g hg Tile.Floor (by decide) _ hf2
      have hcomp2 := labelRegions_component W H g hg Tile.Floor (by decide) _ r2 hl2
      rw [coordOf_index W hg.1 p2.1 p2.2 hx0 hx hy0] at hcomp2
      have hlen := isComponent_length W H g Tile.Floor p2 _ _ hcs hcomp2
      rw [List.length_map] at hlen
      rw [List.length_map, hlen]
      refine ⟨h4 r2 hr2, fun htie => ?_⟩
      have hrr : r ≤ r2 := by
        by_contra hlt
        have := h3 r2 (by omega)
        omega
      have hdec := (coordOf_bounds W H g hg s hslt).2.2.2.2
      rw [hdec]
      have hnn : 0 ≤ p2.2 * W + p2.1 := by
        have := Int.mul_nonneg hy0 (le_of_lt hg.1)
        omega
      have hj2 : ((p2.2 * W + p2.1).toNat : Int) = p2.2 * W + p2.1 := Int.toNat_of_nonneg hnn
      rw [← hj2]
      have hm2 : (p2.2 * W + p2.1).toNat ∈ (labelRegions W H g Tile.Floor).found.getD r2 [] :=
        (full.fmem r2 hr2 _).mpr hl2
      have : s ≤ (p2.2 * W + p2.1).toNat := by
        rcases Nat.lt_or_eq_of_le hrr with hlt | heq
        · obtain ⟨s2, tl2, e1, _, e3⟩ := full.fseed r2 hr2
          have := full.forder r r2 hlt hr2 s tl s2 tl2 hs1 e1
          have := e3 _ hm2
          omega
        · rw [← heq] at hm2
          exact hs3 _ hm2
      exact_mod_cast this

/-- Witness of C20 on `sampleGrid6`: the region of (2,2) and (3,2) is kept, the Floor cell
(4,4) becomes Empty. -/
theorem floodRetain_largest_witness :
    GridOK 6 6 sampleGrid6 ∧
      (getTile 6 6 (floodRetain 6 6 sampleGrid6) 2 2 = Tile.Floor ∧
        getTile 6 6 (floodRetain 6 6 sampleGrid6) 3 2 = Tile.Floor ∧
        getTile 6 6 (floodRetain 6 6 sampleGrid6) 4 4 = Tile.Empty) ∧
      ∃ p cells, IsComponent 6 6 sampleGrid6 Tile.Floor p cells ∧
        (∀ q : Int × Int,
          getTile 6 6 (floodRetain 6 6 sampleGrid6) q.1 q.2 = Tile.Floor ↔ q ∈ cells) ∧
        ∀ p2 cs, IsComponent 6 6 sampleGrid6 Tile.Floor p2 cs →
          cs.length ≤ cells.length ∧
            (cs.length = cells.length → p.2 * 6 + p.1 ≤ p2.2 * 6 + p2.1) :=
  ⟨gridOK_sampleGrid6, by decide!,
    (floodRetain_largest 6 6 sampleGrid6 gridOK_sampleGrid6).2.2 ⟨2, 2, by decide⟩⟩

/-- C27 (circumcircle correctness): for every three points whose doubled determinant `d` has
`|d| >= 0.001`, the centre that `getCircumcircle` returns has the same squared distance to
`p1`, `p2` and `p3`, and the `rSq` it returns is that squared distance. -/
theorem circumcircle_equidistant (p1 p2 p3 : Vec2)
    (hd : ¬ fabs (circumDet p1 p2 p3) < 1 / 1000) :
    distSq (getCircumcircle p1 p2 p3).1.x (getCircumcircle p1 p2 p3).1.y p1.x p1.y
        = (getCircumcircle p1 p2 p3).2 ∧
      distSq (getCircumcircle p1 p2 p3).1.x (getCircumcircle p1 p2 p3).1.y p2.x p2.y
        = (getCircumcircle p1 p2 p3).2 ∧
      distSq (getCircumcircle p1 p2 p3).1.x (getCircumcircle p1 p2 p3).1.y p3.x p3.y
        = (getCircumcircle p1 p2 p3).2 := by
  have hd0 : circumDet p1 p2 p3 ≠ 0 := by
    intro h0
    apply hd
    rw [h0]
    unfold fabs
    norm_num
  unfold circumDet at hd hd0
  unfold getCircumcircle
  simp only [if_neg hd]
  refine ⟨trivial, ?_, ?_⟩
  · unfold distSq
    field_simp
    ring
  · unfold distSq
    field_simp
    ring

/-- Witness of C27: the triangle (0,0), (4,0), (0,4), with centre (2,2) and `rSq = 8`. -/
theorem circumcircle_equidistant_witness :
    getCircumcircle ⟨0, 0⟩ ⟨4, 0⟩ ⟨0, 4⟩ = (⟨2, 2⟩, 8) ∧
      distSq (getCircumcircle ⟨0, 0⟩ ⟨4, 0⟩ ⟨0, 4⟩).1.x (getCircumcircle ⟨0, 0⟩ ⟨4, 0⟩ ⟨0, 4⟩).1.y
        4 0 = (getCircumcircle ⟨0, 0⟩ ⟨4, 0⟩ ⟨0, 4⟩).2 :=
  ⟨by decide!, (circumcircle_equidistant ⟨0, 0⟩ ⟨4, 0⟩ ⟨0, 4⟩ (by decide!)).2.1⟩

/-- C30 (super-triangle): when the bounding box that `computeGraph` computes has positive width
`dx` and positive height `dy`, every centre lies strictly inside the triangle with the vertices
`(cx - 100 dx, cy - dy)`, `(cx, cy + 100 dy)`, `(cx + 100 dx, cy - dy)` that it appends. -/
theorem superTriangle_encloses (pts0 : List Vec2) (hx : 0 < (boxExtent pts0).1)
    (hy : 0 < (boxExtent pts0).2) :
    ∀ p ∈ pts0, StrictlyInside p (superTriangle pts0).1 (superTriangle pts0).2.1
      (superTriangle pts0).2.2 := by
  intro p hp
  have h1 := (foldl_min_le pts0 (fun p => p.x) 1000000000).2 p hp
  have h2 := (le_foldl_max pts0 (fun p => p.x) (-1000000000)).2 p hp
  have h3 := (foldl_min_le pts0 (fun p => p.y) 1000000000).2 p hp
  have h4 := (le_foldl_max pts0 (fun p => p.y) (-1000000000)).2 p hp
  unfold boxExtent at hx hy
  dsimp only at hx hy h1 h2 h3 h4
  unfold StrictlyInside orient superTriangle
  dsimp only
  generalize pts0.foldl (fun m p => min m p.x) 1000000000 = a at *
  generalize pts0.foldl (fun m p => max m p.x) (-1000000000) = b at *
  generalize pts0.foldl (fun m p => min m p.y) 1000000000 = c at *
  generalize pts0.foldl (fun m p => max m p.y) (-1000000000) = d at *
  refine ⟨?_, ?_, ?_⟩
  · nlinarith [mul_pos hx hy, mul_nonneg (sub_nonneg.mpr h1) (le_of_lt hy),
      mul_nonneg (sub_nonneg.mpr h4) (le_of_lt hx), mul_nonneg (sub_nonneg.mpr h2) (le_of_lt hy),
      mul_nonneg (sub_nonneg.mpr h3) (le_of_lt hx)]
  · nlinarith [mul_pos hx hy, mul_nonneg (sub_nonneg.mpr h1) (le_of_lt hy),
      mul_nonneg (sub_nonneg.mpr h4) (le_of_lt hx), mul_nonneg (sub_nonneg.mpr h2) (le_of_lt hy),
      mul_nonneg (sub_nonneg.mpr h3) (le_of_lt hx)]
  · nlinarith [mul_pos hx hy, mul_nonneg (sub_nonneg.mpr h3) (le_of_lt hx)]

/-- Witness of C30: the centres (0,0), (4,0), (0,4). -/
theorem superTriangle_encloses_witness :
    superTriangle [⟨0, 0⟩, ⟨4, 0⟩, ⟨0, 4⟩] = (⟨-398, -2⟩, ⟨2, 402⟩, ⟨402, -2⟩) ∧
      StrictlyInside ⟨4, 0⟩ (superTriangle [⟨0, 0⟩, ⟨4, 0⟩, ⟨0, 4⟩]).1
        (superTriangle [⟨0, 0⟩, ⟨4, 0⟩, ⟨0, 4⟩]).2.1 (superTriangle [⟨0, 0⟩, ⟨4, 0⟩, ⟨0, 4⟩]).2.2 :=
  ⟨by decide!,
    superTriangle_encloses [⟨0, 0⟩, ⟨4, 0⟩, ⟨0, 4⟩] (by decide!) (by decide!) ⟨4, 0⟩ (by simp)⟩

/-- C25, counterexample: for the collinear triangle (0,0), (1,0), (2,0), whose determinant is
0, the test of the insertion loop with the circle returned by `getCircumcircle` is true for the
point (5,5): the triangle is marked bad. -/
theorem degenerate_triangle_is_bad :
    fabs (circumDet ⟨0, 0⟩ ⟨1, 0⟩ ⟨2, 0⟩) < 1 / 1000 ∧
      getCircumcircle ⟨0, 0⟩ ⟨1, 0⟩ ⟨2, 0⟩ = (⟨0, 0⟩, 1000000000) ∧
      inCircle [⟨0, 0⟩, ⟨1, 0⟩, ⟨2, 0⟩, ⟨5, 5⟩] 3 ⟨0, 1, 2, false⟩ = true := by
  decide!

/-- C25, amended: for a triangle with `|d| < 0.001` the circle is the fallback circle with the
centre (0,0) and `rSq = 1e9`, and the test of the insertion loop is true exactly for the points
`(x, y)` with `x^2 + y^2 < 1e9`; every such point marks the triangle bad. -/
theorem degenerate_triangle_fallback (pts : List Vec2) (i : Nat) (t : Tri)
    (hd : fabs (circumDet (pts.getD t.p1 ⟨0, 0⟩) (pts.getD t.p2 ⟨0, 0⟩) (pts.getD t.p3 ⟨0, 0⟩))
      < 1 / 1000) :
    getCircumcircle (pts.getD t.p1 ⟨0, 0⟩) (pts.getD t.p2 ⟨0, 0⟩) (pts.getD t.p3 ⟨0, 0⟩)
        = (⟨0, 0⟩, 1000000000) ∧
      (inCircle pts i t = true ↔
        (pts.getD i ⟨0, 0⟩).x * (pts.getD i ⟨0, 0⟩).x
          + (pts.getD i ⟨0, 0⟩).y * (pts.getD i ⟨0, 0⟩).y < 1000000000) := by
  have hc : getCircumcircle (pts.getD t.p1 ⟨0, 0⟩) (pts.getD t.p2 ⟨0, 0⟩) (pts.getD t.p3 ⟨0, 0⟩)
      = (⟨0, 0⟩, 1000000000) := by
    unfold circumDet at hd
    unfold getCircumcircle
    simp only [if_pos hd]
  refine ⟨hc, ?_⟩
  unfold inCircle
  simp only [hc, decide_eq_true_eq, distSq, sub_zero]

/-- Witness of the amended C25: the collinear triangle (0,0), (1,0), (2,0) and the point
(5,5). -/
theorem degenerate_triangle_fallback_witness :
    inCircle [⟨0, 0⟩, ⟨1, 0⟩, ⟨2, 0⟩, ⟨5, 5⟩] 3 ⟨0, 1, 2, false⟩ = true ↔
      (([⟨0, 0⟩, ⟨1, 0⟩, ⟨2, 0⟩, ⟨5, 5⟩] : List Vec2).getD 3 ⟨0, 0⟩).x
          * (([⟨0, 0⟩, ⟨1, 0⟩, ⟨2, 0⟩, ⟨5, 5⟩] : List Vec2).getD 3 ⟨0, 0⟩).x
        + (([⟨0, 0⟩, ⟨1, 0⟩, ⟨2, 0⟩, ⟨5, 5⟩] : List Vec2).getD 3 ⟨0, 0⟩).y
          * (([⟨0, 0⟩, ⟨1, 0⟩, ⟨2, 0⟩, ⟨5, 5⟩] : List Vec2).getD 3 ⟨0, 0⟩).y < 1000000000 :=
  (degenerate_triangle_fallback [⟨0, 0⟩, ⟨1, 0⟩, ⟨2, 0⟩, ⟨5, 5⟩] 3 ⟨0, 1, 2, false⟩
    (by decide!)).2

/-- C26, counterexample: a circular main room of width 20 with centre cell (10,10) on a grid
of 4 x 4 tiles. The ceiling of (w/2)/tileW = 2.5 is 3 and the cell (13,10) satisfies the ellipse
inequality with the radii 3, 3 and lies outside the margin; `rasterizeBase` uses the radii 2, 2
and leaves the cell Empty. -/
theorem circle_radius_not_ceiling :
    Int.ceil (((20 : ℚ) / 2) / 4) = 3 ∧
      (((13 : ℚ) - 10) / 3) ^ 2 + (((10 : ℚ) - 10) / 3) ^ 2 ≤ 1 ∧
      inBounds 20 20 13 10 = true ∧ inMargin 20 20 13 10 = false ∧
      toGridX circleState.cfg ((roomAt circleState.rooms 0).w / 2) = 2 ∧
      toGridX circleState.cfg (roomAt circleState.rooms 0).x = 10 ∧
      toGridY circleState.cfg (roomAt circleState.rooms 0).y = 10 ∧
      getTile 20 20 (rasterizeBase circleState).grid 13 10 = Tile.Empty ∧
      getTile 20 20 (rasterizeBase circleState).grid 12 10 = Tile.Floor := by
  refine ⟨?_, by norm_num, by decide, by decide, by decide!, by decide!, by decide!, by decide!,
    by decide!⟩
  rw [Int.ceil_eq_iff]
  norm_num

/-- C26, amended: the radii are truncated, `radX = toGridX(w/2)` and `radY = toGridY(w/2)`.
When both are positive, the stamping of a circular room makes Floor exactly the cells `(x, y)`
with `(x-cx)^2/radX^2 + (y-cy)^2/radY^2 <= 1` that `setTile` accepts (inside the grid, outside
the 2-cell margin) and leaves every other cell as it was. -/
theorem circle_stamp_truncated (cfg : GenSettings) (g : List Tile) (r : RoomObj)
    (hg : GridOK cfg.gridWidth cfg.gridHeight g) (hs : r.shape = Shape.Circle)
    (hrx : 0 < toGridX cfg (r.w / 2)) (hry : 0 < toGridY cfg (r.w / 2)) (x y : Int)
    (hb : inBounds cfg.gridWidth cfg.gridHeight x y = true) :
    getTile cfg.gridWidth cfg.gridHeight (stampRoom cfg g r) x y =
      if (((x - toGridX cfg r.x) * (x - toGridX cfg r.x) : Int) : ℚ)
            / ((toGridX cfg (r.w / 2) * toGridX cfg (r.w / 2) : Int) : ℚ)
          + (((y - toGridY cfg r.y) * (y - toGridY cfg r.y) : Int) : ℚ)
            / ((toGridY cfg (r.w / 2) * toGridY cfg (r.w / 2) : Int) : ℚ) ≤ 1
          ∧ inMargin cfg.gridWidth cfg.gridHeight x y = false then Tile.Floor
      else getTile cfg.gridWidth cfg.gridHeight g x y := by
  rw [stampRoom_circle cfg g r hs]
  have hspec := setFloors_spec cfg.gridWidth cfg.gridHeight
    (((intRange (toGridY cfg r.y - toGridY cfg (r.w / 2))
        (toGridY cfg r.y + toGridY cfg (r.w / 2) + 1)).flatMap
      (fun y => (intRange (toGridX cfg r.x - toGridX cfg (r.w / 2))
        (toGridX cfg r.x + toGridX cfg (r.w / 2) + 1)).map (fun x => (x, y)))).filter
      (fun c => ellipseTest (toGridX cfg (r.w / 2)) (toGridY cfg (r.w / 2))
        (c.1 - toGridX cfg r.x) (c.2 - toGridY cfg r.y))) g hg x y
  have hmem : (x, y) ∈ ((intRange (toGridY cfg r.y - toGridY cfg (r.w / 2))
        (toGridY cfg r.y + toGridY cfg (r.w / 2) + 1)).flatMap
      (fun y => (intRange (toGridX cfg r.x - toGridX cfg (r.w / 2))
        (toGridX cfg r.x + toGridX cfg (r.w / 2) + 1)).map (fun x => (x, y)))).filter
      (fun c => ellipseTest (toGridX cfg (r.w / 2)) (toGridY cfg (r.w / 2))
        (c.1 - toGridX cfg r.x) (c.2 - toGridY cfg r.y)) ↔
      (((x - toGridX cfg r.x) * (x - toGridX cfg r.x) : Int) : ℚ)
            / ((toGridX cfg (r.w / 2) * toGridX cfg (r.w / 2) : Int) : ℚ)
          + (((y - toGridY cfg r.y) * (y - toGridY cfg r.y) : Int) : ℚ)
            / ((toGridY cfg (r.w / 2) * toGridY cfg (r.w / 2) : Int) : ℚ) ≤ 1 := by
    have ht : ellipseTest (toGridX cfg (r.w / 2)) (toGridY cfg (r.w / 2))
        (x - toGridX cfg r.x) (y - toGridY cfg r.y) = true ↔
        (((x - toGridX cfg r.x) * (x - toGridX cfg r.x) : Int) : ℚ)
            / ((toGridX cfg (r.w / 2) * toGridX cfg (r.w / 2) : Int) : ℚ)
          + (((y - toGridY cfg r.y) * (y - toGridY cfg r.y) : Int) : ℚ)
            / ((toGridY cfg (r.w / 2) * toGridY cfg (r.w / 2) : Int) : ℚ) ≤ 1 := by
      unfold ellipseTest
      rw [if_neg (by omega)]
      exact decide_eq_true_iff
    rw [List.mem_filter, List.mem_flatMap]
    constructor
    · rintro ⟨_, h⟩
      exact ht.mp h
    · intro h
      obtain ⟨b1, b2, b3, b4⟩ := ellipse_in_box _ _ _ _ hrx hry h
      refine ⟨⟨y, (mem_intRange _ _ _).mpr ⟨by omega, by omega⟩,
        List.mem_map.mpr ⟨x, (mem_intRange _ _ _).mpr ⟨by omega, by omega⟩, rfl⟩⟩, ht.mpr h⟩
  by_cases hc : (((x - toGridX cfg r.x) * (x - toGridX cfg r.x) : Int) : ℚ)
            / ((toGridX cfg (r.w / 2) * toGridX cfg (r.w / 2) : Int) : ℚ)
          + (((y - toGridY cfg r.y) * (y - toGridY cfg r.y) : Int) : ℚ)
            / ((toGridY cfg (r.w / 2) * toGridY cfg (r.w / 2) : Int) : ℚ) ≤ 1
          ∧ inMargin cfg.gridWidth cfg.gridHeight x y = false
  · rw [if_pos hc]
    exact hspec.1 ⟨hmem.mpr hc.1, hb, hc.2⟩
  · rw [if_neg hc]
    exact hspec.2 (fun h => hc ⟨hmem.mp h.1, h.2.2⟩)

/-- Witness of the amended C26: the circular room of `circleState` on the empty 20 x 20 grid,
at the cell (12,10). -/
theorem circle_stamp_truncated_witness :
    getTile 20 20 (stampRoom circleState.cfg (List.replicate 400 Tile.Empty)
        (roomAt circleState.rooms 0)) 12 10 = Tile.Floor := by
  have h := circle_stamp_truncated circleState.cfg (List.replicate 400 Tile.Empty)
    (roomAt circleState.rooms 0) ⟨by decide, by decide, by rw [List.length_replicate]; decide⟩ rfl
    (by decide!) (by decide!) 12 10 (by decide)
  rw [if_pos (by decide!)] at h
  exact h

/-- C40 (circle stamping and division by zero), evaluated on a grid of 16 x 16 tiles with a
circular main room of width 24: both grid radii are `toGridX(12) = 0`, the ellipse test divides
0 by 0 at the only cell of the loops, and the room leaves no Floor cell on the grid. -/
theorem circle_radius_zero :
    0 < coarseState.cfg.tileW ∧ 0 < coarseState.cfg.tileH ∧
      coarseState.mainRoomIndices = [0] ∧
      (roomAt coarseState.rooms 0).shape = Shape.Circle ∧
      (roomAt coarseState.rooms 0).isMain = true ∧
      toGridX coarseState.cfg ((roomAt coarseState.rooms 0).w / 2) = 0 ∧
      toGridY coarseState.cfg ((roomAt coarseState.rooms 0).w / 2) = 0 ∧
      (rasterizeBase coarseState).grid = List.replicate 400 Tile.Empty := by
  decide!

/-- C34: on every grid size, if no cell within 2 cells of an edge is Floor before an automata
pass then none is Floor after it; a cell at distance 1 from an edge has at least 5 neighbours
that are not Floor and becomes Wall. -/
theorem automata_preserves_seal (W H : Int) (g : List Tile) (hlen : g.length = (W * H).toNat)
    (hseal : Sealed W H g) :
    Sealed W H (runAutomataPass W H g) ∧
      ∀ x y, Interior W H x y → inMargin W H x y = true →
        4 < countNonFloor W H g x y ∧ getTile W H (runAutomataPass W H g) x y = Tile.Wall := by
  by_cases hpos : 0 < W ∧ 0 < H
  · have hg : GridOK W H g := by
      refine ⟨hpos.1, hpos.2, ?_⟩
      rw [hlen, Int.toNat_of_nonneg (le_of_lt (Int.mul_pos hpos.1 hpos.2))]
    refine ⟨automata_keeps_sealed W H g hg hseal, fun x y hi hm => ?_⟩
    have hb := interior_inBounds W H x y hi
    have hn := margin_count W H g hseal x y hm
    rw [(runAutomataPass_at W H g hg x y hb).1 hi]
    unfold automataReference
    rw [if_pos hn]
    exact ⟨hn, rfl⟩
  · refine ⟨fun x y _ => ?_, fun x y hi _ => ?_⟩
    · have := no_cell_of_degenerate W H hpos x y
      unfold getTile
      rw [if_neg (by simp [this])]
      decide
    · have hb := interior_inBounds W H x y hi
      rw [no_cell_of_degenerate W H hpos x y] at hb
      exact Bool.noConfusion hb

/-- Witness of C34: the empty 6 x 6 grid. -/
theorem automata_preserves_seal_witness :
    Sealed 6 6 (runAutomataPass 6 6 emptyGrid6) ∧
      ∀ x y, Interior 6 6 x y → inMargin 6 6 x y = true →
        4 < countNonFloor 6 6 emptyGrid6 x y ∧
          getTile 6 6 (runAutomataPass 6 6 emptyGrid6) x y = Tile.Wall :=
  automata_preserves_seal 6 6 emptyGrid6 (by decide) (fun x y _ => by
    unfold getTile
    split
    · rw [show emptyGrid6 = List.replicate 36 Tile.Empty from rfl, List.getD_eq_getElem?_getD]
      by_cases h : (y * 6 + x).toNat < 36
      · rw [List.getElem?_replicate, if_pos h]; decide
      · rw [List.getElem?_replicate, if_neg h]; decide
    · decide)

/-- C21: in a run started by `init`, after the Raster step: if the grid has a Floor cell then
exactly `walkerCount` walkers exist (for `walkerCount >= 0`), each on a Floor cell of the grid
and with a life between 30 and 100; if the grid has no Floor cell, no walker exists. -/
theorem walkers_spawned (lib : Lib) (entropy : Nat) (cfg : GenSettings)
    (old s0 : DungeonBuilder) (n : Nat) (h : init lib entropy cfg old = some s0)
    (hp : (runSteps lib n s0).phase = Phase.Raster) (hw : 0 ≤ cfg.walkerCount) :
    ((∃ x y, (runSteps lib (n + 1) s0).getTile x y = Tile.Floor) →
        ((runSteps lib (n + 1) s0).walkers.length : Int) = cfg.walkerCount ∧
          ∀ w ∈ (runSteps lib (n + 1) s0).walkers,
            (runSteps lib (n + 1) s0).getTile w.x w.y = Tile.Floor ∧
              30 ≤ w.life ∧ w.life ≤ 100) ∧
      ((¬ ∃ x y, (runSteps lib (n + 1) s0).getTile x y = Tile.Floor) →
        (runSteps lib (n + 1) s0).walkers = []) := by
  have hwi := walkInv_run lib entropy cfg old s0 h n
  have hcfg := (gridInv_run lib entropy cfg old s0 h n).2
  have hnw : (runSteps lib n s0).walkers = [] := hwi.1 (by rw [hp]; decide)
  obtain ⟨hgrid, hc, hfl, hnone, hsome⟩ := step_raster_spawn lib (runSteps lib n s0) hp hnw
  rw [runSteps_succ_last]
  have hmem : ∀ p : Point, p ∈ (step lib (runSteps lib n s0)).floors ↔
      (step lib (runSteps lib n s0)).getTile p.x p.y = Tile.Floor := by
    intro p
    rw [hfl, mem_tileList]
    unfold DungeonBuilder.getTile
    rw [hc, hgrid]
    constructor
    · exact fun h => h.2
    · exact fun h => ⟨inBounds_of_getTile _ _ _ _ _ (by rw [h]; decide), h⟩
  refine ⟨fun ⟨x, y, hxy⟩ => ?_, fun hno => ?_⟩
  · have hne : (step lib (runSteps lib n s0)).floors ≠ [] := by
      intro he
      have := (hmem ⟨x, y⟩).mpr hxy
      rw [he] at this
      simp at this
    obtain ⟨h1, h2⟩ := hsome hne
    refine ⟨?_, fun w hw2 => ⟨(hmem ⟨w.x, w.y⟩).mp (h2 w hw2).1, (h2 w hw2).2⟩⟩
    rw [h1, hcfg]
    exact Int.toNat_of_nonneg hw
  · apply hnone
    apply List.eq_nil_iff_forall_not_mem.mpr
    intro p hpm
    exact hno ⟨p.x, p.y, (hmem p).mp hpm⟩

/-- Witness of C21: in the run `trioRun` the Raster step is the third step; it stamps the main
room, the cell (5,5) is Floor, and the two walkers of the configuration are spawned on Floor
cells with lives between 30 and 100. In the run on `cfgTiny` the grid has no Floor cell after
the Raster step and no walker is spawned. -/
theorem walkers_spawned_witness :
    ((trioRun 3).getTile 5 5 = Tile.Floor ∧
        (trioRun 3).walkers = [⟨4, 6, 49⟩, ⟨6, 6, 51⟩] ∧
        ((trioRun 3).walkers.length : Int) = cfgTrio.walkerCount ∧
        ∀ w ∈ (trioRun 3).walkers,
          (trioRun 3).getTile w.x w.y = Tile.Floor ∧ 30 ≤ w.life ∧ w.life ≤ 100) ∧
      ((tinyRun 2).phase = Phase.Raster ∧
        ((¬ ∃ x y, (tinyRun 3).getTile x y = Tile.Floor) → (tinyRun 3).walkers = [])) :=
  ⟨⟨by decide!, by decide!,
      ((walkers_spawned trioLib 0 cfgTrio DungeonBuilder.fresh
        ((init trioLib 0 cfgTrio DungeonBuilder.fresh).getD DungeonBuilder.fresh) 2 rfl
        (by decide!) (by decide)).1 ⟨5, 5, by decide!⟩).1,
      ((walkers_spawned trioLib 0 cfgTrio DungeonBuilder.fresh
        ((init trioLib 0 cfgTrio DungeonBuilder.fresh).getD DungeonBuilder.fresh) 2 rfl
        (by decide!) (by decide)).1 ⟨5, 5, by decide!⟩).2⟩,
    ⟨by decide!,
      (walkers_spawned toyLib 0 cfgTiny DungeonBuilder.fresh
        ((init toyLib 0 cfgTiny DungeonBuilder.fresh).getD DungeonBuilder.fresh) 2 rfl
        (by decide!) (by decide)).2⟩⟩

/-- C22, counterexample: a walker stands at the end (2,10) of a trail of Floor cells on a
20 x 20 grid and draws the direction 0. Its new cell (1,10) is off the outermost border and in
no sanctuary, the walker survives the call, and the cell (1,10) is Empty after the call. -/
theorem walker_carves_nothing_in_margin :
    trailState.getTile 2 10 = Tile.Floor ∧
      (updateWalkers trailState).walkers = [⟨1, 10, 49⟩] ∧
      Interior 20 20 1 10 ∧
      inSanctuary trailState.cfg trailState.rooms trailState.mainRoomIndices 1 10 = false ∧
      (updateWalkers trailState).getTile 1 10 = Tile.Empty := by
  refine ⟨by decide!, by decide!, ⟨by decide, by decide, by decide, by decide⟩, by decide!,
    by decide!⟩

/-- C22, amended: in every `updateWalkers` call on a grid of `W * H` cells, a walker that is
alive and moves to a cell off the outermost border, in no main room's sanctuary and outside the
2-cell margin (`2 <= x <= W-3`, `2 <= y <= H-3`) leaves that cell Floor after the call; no cell
of the 2-cell margin is changed by the call, whatever the walkers do. -/
theorem walker_carves_outside_margin (s : DungeonBuilder)
    (hg : GridOK s.cfg.gridWidth s.cfg.gridHeight s.grid) :
    (∀ (i : Nat) (w m : WalkerAgent), s.walkers[i]? = some w →
        (walkersLoop s.cfg s.rooms s.mainRoomIndices s.walkers s.grid s.rng).1[i]? = some m →
        0 < w.life → Interior s.cfg.gridWidth s.cfg.gridHeight m.x m.y →
        inSanctuary s.cfg s.rooms s.mainRoomIndices m.x m.y = false →
        inMargin s.cfg.gridWidth s.cfg.gridHeight m.x m.y = false →
        (updateWalkers s).getTile m.x m.y = Tile.Floor) ∧
      (∀ x y, inMargin s.cfg.gridWidth s.cfg.gridHeight x y = true →
        (updateWalkers s).getTile x y = s.getTile x y) ∧
      (∀ w ∈ (updateWalkers s).walkers,
        inMargin s.cfg.gridWidth s.cfg.gridHeight w.x w.y = false →
        (updateWalkers s).getTile w.x w.y = Tile.Floor) := by
  refine ⟨fun i w m hw hm hl hin hs hmg => ?_, fun x y hm => ?_, fun w hw hmg => ?_⟩
  · exact walkersLoop_carves s.cfg s.rooms s.mainRoomIndices s.walkers s.grid s.rng hg i w m hw
      hm hl hin hs hmg
  · exact walkersLoop_margin s.cfg s.rooms s.mainRoomIndices s.walkers s.grid s.rng hg x y hm
  · have hw2 := List.mem_filter.mp hw
    have hl : 0 < w.life := by
      have := hw2.2
      simp only [Bool.not_eq_true', decide_eq_false_iff_not, not_le] at this
      exact this
    obtain ⟨i, u, h1, h2, h3⟩ := walkersLoop_index s.cfg s.rooms s.mainRoomIndices s.walkers
      s.grid s.rng w hw2.1 hl
    obtain ⟨hin, hs⟩ := walkersLoop_alive s.cfg s.rooms s.mainRoomIndices s.walkers s.grid s.rng
      w hw2.1 hl
    exact walkersLoop_carves s.cfg s.rooms s.mainRoomIndices s.walkers s.grid s.rng hg i u w h1
      h2 h3 hin hs hmg

/-- Witness of the amended C22: the state `trailState`, at the margin cell (1,10). -/
theorem walker_carves_outside_margin_witness :
    (updateWalkers trailState).getTile 1 10 = trailState.getTile 1 10 :=
  (walker_carves_outside_margin trailState ⟨by decide, by decide, by decide!⟩).2.1 1 10
    (by decide)

/-- C35: in a run started by `init`, from a state in phase Graph at most 106 further steps
reach Complete, for every library instance (every sequence of random draws); two steps lead to
the Walkers phase, which lasts at most 100 steps: every walker is spawned with life at most
100, and an `updateWalkers` call leaves every surviving walker a life that is at least 1 lower
than the bound before the call. -/
theorem graph_to_complete_bound (lib : Lib) (entropy : Nat) (cfg : GenSettings)
    (old s0 : DungeonBuilder) (n : Nat) (h : init lib entropy cfg old = some s0)
    (hp : (runSteps lib n s0).phase = Phase.Graph) :
    (∃ k, k ≤ 106 ∧ (runSteps lib (n + k) s0).phase = Phase.Complete) ∧
      (runSteps lib (n + 106) s0).phase = Phase.Complete ∧
      (runSteps lib (n + 2) s0).phase = Phase.Walkers ∧
      (∀ w ∈ (runSteps lib (n + 2) s0).walkers, w.life ≤ 100) ∧
      (∃ k, k ≤ 100 ∧ (runSteps lib (n + 2 + k) s0).phase = Phase.Automata) ∧
      (∀ (t : DungeonBuilder) (B : Int), (∀ w ∈ t.walkers, w.life ≤ B) →
        ∀ w ∈ (updateWalkers t).walkers, 1 ≤ w.life ∧ w.life ≤ B - 1) := by
  have hwi := walkInv_run lib entropy cfg old s0 h n
  have hnw : (runSteps lib n s0).walkers = [] := hwi.1 (by rw [hp]; decide)
  obtain ⟨k, hk, hc⟩ := graph_run lib (runSteps lib n s0) hp hnw
  have h1 : (runSteps lib (n + 1) s0).phase = Phase.Raster := by
    rw [runSteps_succ_last, step_of_graph lib _ hp]
  have hw1 : (runSteps lib (n + 1) s0).walkers = [] :=
    (walkInv_run lib entropy cfg old s0 h (n + 1)).1 (by rw [h1]; decide)
  have h2 := step_raster_walkers lib (runSteps lib (n + 1) s0) h1
    (by rw [hw1]; intro w hw; simp at hw)
  rw [← runSteps_succ_last] at h2
  obtain ⟨k2, hk2, hc2⟩ := walkers_run lib 100 (runSteps lib (n + 1 + 1) s0) h2.1
    (fun w hw => by exact_mod_cast (h2.2 w hw).2)
  refine ⟨⟨k, hk, by rw [runSteps_add]; exact hc⟩, ?_, h2.1, fun w hw => (h2.2 w hw).2,
    ⟨k2, by simpa using hk2, by rw [runSteps_add]; exact hc2⟩,
    fun t B hB => updateWalkers_life t B hB⟩
  rw [runSteps_add, complete_by lib _ k 106 hk hc]
  exact hc

/-- Witness of C35: the run on `cfgTiny`, which is in phase Graph after its first step. -/
theorem graph_to_complete_bound_witness :
    (tinyRun 1).phase = Phase.Graph ∧ (tinyRun (1 + 106)).phase = Phase.Complete :=
  ⟨by decide!,
    (graph_to_complete_bound toyLib 0 cfgTiny DungeonBuilder.fresh
      ((init toyLib 0 cfgTiny DungeonBuilder.fresh).getD DungeonBuilder.fresh) 1 rfl
      (by decide!)).2.1⟩

/-- C36: in a run started by `init`, after `init` and after every step in every phase, the
floor list is the list of the Floor cells of the grid in row-major order (`y` outer, `x` inner)
and the wall list is the list of the Wall cells in the same order; neither has a duplicate. -/
theorem tile_lists_in_sync (lib : Lib) (entropy : Nat) (cfg : GenSettings)
    (old s0 : DungeonBuilder) (n : Nat) (h : init lib entropy cfg old = some s0) :
    (runSteps lib n s0).floors =
        ((rowMajor cfg.gridWidth cfg.gridHeight).filter
          (fun c => decide ((runSteps lib n s0).getTile c.1 c.2 = Tile.Floor))).map
          (fun c => (⟨c.1, c.2⟩ : Point)) ∧
      (runSteps lib n s0).walls =
        ((rowMajor cfg.gridWidth cfg.gridHeight).filter
          (fun c => decide ((runSteps lib n s0).getTile c.1 c.2 = Tile.Wall))).map
          (fun c => (⟨c.1, c.2⟩ : Point)) ∧
      (runSteps lib n s0).floors.Nodup ∧ (runSteps lib n s0).walls.Nodup := by
  obtain ⟨hf, hw⟩ := tileSync_run lib entropy cfg old s0 h n
  have hcfg := (gridInv_run lib entropy cfg old s0 h n).2
  unfold DungeonBuilder.getTile
  rw [hf, hw, hcfg]
  exact ⟨tileList_eq _ _ _ _, tileList_eq _ _ _ _, tileList_nodup _ _ _ _, tileList_nodup _ _ _ _⟩

/-- Witness of C36: the run on `cfgTiny` after 8 steps. -/
theorem tile_lists_in_sync_witness :
    (tinyRun 8).floors.Nodup ∧ (tinyRun 8).walls.Nodup :=
  (tile_lists_in_sync toyLib 0 cfgTiny DungeonBuilder.fresh
    ((init toyLib 0 cfgTiny DungeonBuilder.fresh).getD DungeonBuilder.fresh) 8 rfl).2.2

/-- C37: in every non-empty room list with positive widths some room fails
`w > 1.3 * mean width`; hence in a run started by `init` with `roomCount <= 3` fewer than 3
rooms are main in every state, `computeGraph` finds fewer than 3 main rooms, and the link list
is empty in every state, Complete included. -/
theorem not_every_room_main (lib : Lib) (entropy : Nat) (cfg : GenSettings)
    (old s0 : DungeonBuilder) (n : Nat) (h : init lib entropy cfg old = some s0)
    (hc : cfg.roomCount ≤ 3) :
    (∀ rooms : List RoomObj, rooms ≠ [] → (∀ r ∈ rooms, 0 < r.w) →
        ∃ r ∈ rooms, ¬ (r.w > meanWidth rooms * (13 / 10))) ∧
      (collectMain 0 (runSteps lib n s0).rooms).length < 3 ∧
      ((runSteps lib n s0).rooms.filter (fun r => r.isMain)).length < 3 ∧
      (runSteps lib n s0).links = [] := by
  obtain ⟨_, _, _, hcount, hlinks⟩ := fewInv_run lib entropy cfg old s0 h hc n
  exact ⟨fun rooms hne hpos => exists_not_main rooms hne hpos,
    by rw [collectMain_length]; exact hcount, hcount, hlinks⟩

/-- Witness of C37: the run `trioRun` with three rooms of the widths 8, 24 and 8. The physics
settles at the first step and classifies room 1 as main and the rooms 0 and 2 as not main
(the mean width is 40/3 and 8 is not above 1.3 times it); the run is Complete after 8 steps,
and there fewer than 3 rooms are main and the link list is empty. -/
theorem not_every_room_main_witness :
    (trioRun 1).phase = Phase.Graph ∧
      (trioRun 1).rooms.map (fun r => (r.w, r.isMain)) = [(8, false), (24, true), (8, false)] ∧
      (trioRun 8).phase = Phase.Complete ∧
      (collectMain 0 (trioRun 8).rooms).length < 3 ∧
      ((trioRun 8).rooms.filter (fun r => r.isMain)).length < 3 ∧
      (trioRun 8).links = [] :=
  ⟨by decide!, by decide!, by decide!,
    (not_every_room_main trioLib 0 cfgTrio DungeonBuilder.fresh
      ((init trioLib 0 cfgTrio DungeonBuilder.fresh).getD DungeonBuilder.fresh) 8 rfl
      (by decide)).2.1,
    (not_every_room_main trioLib 0 cfgTrio DungeonBuilder.fresh
      ((init trioLib 0 cfgTrio DungeonBuilder.fresh).getD DungeonBuilder.fresh) 8 rfl
      (by decide)).2.2.1,
    (not_every_room_main trioLib 0 cfgTrio DungeonBuilder.fresh
      ((init trioLib 0 cfgTrio DungeonBuilder.fresh).getD DungeonBuilder.fresh) 8 rfl
      (by decide)).2.2.2⟩

/-- C31: with a square root for which `x < m*m` gives `sqrt x < m` (for `0 < m`) and rooms of
positive width, the flag `active` of one `updatePhysics` call is false iff no two distinct
rooms have a squared centre distance below the square of `0.55*(A.w + B.w) + 2` at the start
of the call; and if the net force on every room is zero, then every pair force between distinct
rooms is zero (none was applied). -/
theorem physics_quiescence (lib : Lib) (rooms : List RoomObj)
    (hsqrt : ∀ x m : ℚ, 0 < m → x < m * m → lib.sqrt x < m)
    (hpos : ∀ r ∈ rooms, 0 < r.w) :
    (((forces lib rooms 0 rooms).any (fun f => decide (f.1 ≠ 0) || decide (f.2 ≠ 0)) = false) ↔
      ∀ i j, i < rooms.length → j < rooms.length → i ≠ j →
        ¬ (distSq (roomAt rooms i).x (roomAt rooms i).y (roomAt rooms j).x (roomAt rooms j).y
          < ((55 / 100) * ((roomAt rooms i).w + (roomAt rooms j).w) + 2) ^ 2)) ∧
      ((∀ k, k < rooms.length → netForce lib k (roomAt rooms k) 0 rooms (0, 0) = (0, 0)) →
        ∀ i j, i < rooms.length → j < rooms.length → i ≠ j →
          pairForce lib (roomAt rooms i) (roomAt rooms j) = (0, 0)) := by
  constructor
  · rw [forces_any]
    simp only [Nat.zero_add]
    constructor
    · intro hq i j hi hj hij
      rw [← overlap_iff]
      exact no_overlap_of_quiet lib rooms hsqrt hpos hq i j hi hj hij
    · intro h k hk
      apply quiet_of_no_overlap lib rooms _ k hk
      intro i j hi hj hij
      rw [overlap_iff]
      exact h i j hi hj hij
  · intro hq i j hi hj hij
    exact pairForce_of_not_overlap lib _ _
      (no_overlap_of_quiet lib rooms hsqrt hpos hq i j hi hj hij)

/-- Witness of C31: the five rooms of `settledState` with the library `toyLib`: the flag is
false, so no two of them are closer than the minimum separation. -/
theorem physics_quiescence_witness :
    ((forces toyLib settledState.rooms 0 settledState.rooms).any
        (fun f => decide (f.1 ≠ 0) || decide (f.2 ≠ 0)) = false) ∧
      ∀ i j, i < settledState.rooms.length → j < settledState.rooms.length → i ≠ j →
        ¬ (distSq (roomAt settledState.rooms i).x (roomAt settledState.rooms i).y
            (roomAt settledState.rooms j).x (roomAt settledState.rooms j).y
          < ((55 / 100) * ((roomAt settledState.rooms i).w + (roomAt settledState.rooms j).w) + 2)
            ^ 2) :=
  ⟨by decide!,
    (physics_quiescence toyLib settledState.rooms toyLib_sqrt (by decide!)).1.mp (by decide!)⟩

/-- C24: with a square root for which `x < m*m` gives `sqrt x < m` (for `0 < m`) and rooms of
positive width, at the step on which `updatePhysics` moves the phase from Physics to Graph,
every two distinct rooms have a squared centre distance of at least the square of
`A.w/2 + B.w/2`, both at the start of the step and in the state the step returns. -/
theorem physics_settles_apart (lib : Lib) (s : DungeonBuilder)
    (hsqrt : ∀ x m : ℚ, 0 < m → x < m * m → lib.sqrt x < m)
    (hpos : ∀ r ∈ s.rooms, 0 < r.w)
    (hph : s.phase = Phase.Physics) (hg : (updatePhysics lib s).phase = Phase.Graph) :
    (updatePhysics lib s).rooms.length = s.rooms.length ∧
    ∀ i j, i < s.rooms.length → j < s.rooms.length → i ≠ j →
      ((roomAt s.rooms i).w / 2 + (roomAt s.rooms j).w / 2) ^ 2
          ≤ distSq (roomAt s.rooms i).x (roomAt s.rooms i).y
            (roomAt s.rooms j).x (roomAt s.rooms j).y ∧
        ((roomAt (updatePhysics lib s).rooms i).w / 2
            + (roomAt (updatePhysics lib s).rooms j).w / 2) ^ 2
          ≤ distSq (roomAt (updatePhysics lib s).rooms i).x (roomAt (updatePhysics lib s).rooms i).y
            (roomAt (updatePhysics lib s).rooms j).x
            (roomAt (updatePhysics lib s).rooms j).y := by
  refine ⟨(updatePhysics_rooms lib s).1, ?_⟩
  have hcond : ((List.zipWith accelerate s.rooms (forces lib s.rooms 0 s.rooms)).map
        (fun r => r.vx * r.vx + r.vy * r.vy)).sum < 1 ∧
      (forces lib s.rooms 0 s.rooms).any (fun f => decide (f.1 ≠ 0) || decide (f.2 ≠ 0))
        = false := by
    by_contra hc
    have : (updatePhysics lib s).phase = s.phase := by
      unfold updatePhysics
      dsimp only
      rw [if_neg hc]
    rw [this, hph] at hg
    exact absurd hg (by decide)
  have hrooms : (updatePhysics lib s).rooms
      = ((List.zipWith accelerate s.rooms (forces lib s.rooms 0 s.rooms)).map integrate).map
        (fun r => { r with isMain := decide (r.w >
          (((List.zipWith accelerate s.rooms (forces lib s.rooms 0 s.rooms)).map integrate).map
            (fun r => r.w)).sum /
          ((((List.zipWith accelerate s.rooms (forces lib s.rooms 0 s.rooms)).map
            integrate).length : Nat) : ℚ) * (13 / 10)) }) := by
    unfold updatePhysics
    dsimp only
    rw [if_pos hcond]
  have hflen := forces_length lib s.rooms s.rooms 0
  have hzlen : (List.zipWith accelerate s.rooms (forces lib s.rooms 0 s.rooms)).length
      = s.rooms.length := by
    rw [List.length_zipWith, hflen, Nat.min_self]
  have hquiet := (forces_any lib s.rooms s.rooms 0).mp hcond.2
  simp only [Nat.zero_add] at hquiet
  intro i j hi hj hij
  have hno := no_overlap_of_quiet lib s.rooms hsqrt hpos hquiet i j hi hj hij
  unfold Overlap at hno
  push_neg at hno
  have hwi := hpos _ (roomAt_mem s.rooms i hi)
  have hwj := hpos _ (roomAt_mem s.rooms j hj)
  have hen := getD_add_le_sum
    ((List.zipWith accelerate s.rooms (forces lib s.rooms 0 s.rooms)).map
      (fun r => r.vx * r.vx + r.vy * r.vy))
    (by
      intro x hx
      obtain ⟨r, _, rfl⟩ := List.mem_map.mp hx
      nlinarith [mul_self_nonneg r.vx, mul_self_nonneg r.vy]) i j hij
  rw [List.getD_eq_getElem _ _ (by rw [List.length_map, hzlen]; exact hi),
    List.getD_eq_getElem _ _ (by rw [List.length_map, hzlen]; exact hj),
    List.getElem_map, List.getElem_map] at hen
  have hri : roomAt (updatePhysics lib s).rooms i
      = { integrate (accelerate (roomAt s.rooms i) ((forces lib s.rooms 0 s.rooms).getD i (0, 0)))
          with isMain := (roomAt (updatePhysics lib s).rooms i).isMain } := by
    rw [hrooms, roomAt_map _ _ _ (by rw [List.length_map, hzlen]; exact hi),
      roomAt_map _ _ _ (by rw [hzlen]; exact hi), roomAt_zipWith _ _ _ hi hflen]
  have hrj : roomAt (updatePhysics lib s).rooms j
      = { integrate (accelerate (roomAt s.rooms j) ((forces lib s.rooms 0 s.rooms).getD j (0, 0)))
          with isMain := (roomAt (updatePhysics lib s).rooms j).isMain } := by
    rw [hrooms, roomAt_map _ _ _ (by rw [List.length_map, hzlen]; exact hj),
      roomAt_map _ _ _ (by rw [hzlen]; exact hj), roomAt_zipWith _ _ _ hj hflen]
  have hai : (List.zipWith accelerate s.rooms (forces lib s.rooms 0 s.rooms))[i]
      = accelerate (roomAt s.rooms i) ((forces lib s.rooms 0 s.rooms).getD i (0, 0)) := by
    rw [← roomAt_zipWith _ _ _ hi hflen]
    unfold roomAt
    rw [List.getD_eq_getElem]
  have haj : (List.zipWith accelerate s.rooms (forces lib s.rooms 0 s.rooms))[j]
      = accelerate (roomAt s.rooms j) ((forces lib s.rooms 0 s.rooms).getD j (0, 0)) := by
    rw [← roomAt_zipWith _ _ _ hj hflen]
    unfold roomAt
    rw [List.getD_eq_getElem]
  rw [hai, haj] at hen
  constructor
  · unfold distSq
    nlinarith [sq_nonneg ((roomAt s.rooms i).w + (roomAt s.rooms j).w), mul_pos hwi hwj]
  · rw [hri, hrj]
    exact settle_bound _ _ _ _ _ _ _ _ _ _ hwi hwj hno (lt_of_le_of_lt hen hcond.1)

/-- Witness of C24: the state `settledState` with the library `toyLib`: the step moves the
phase to Graph, and the five rooms are as many and as far apart afterwards. -/
theorem physics_settles_apart_witness :
    (updatePhysics toyLib settledState).phase = Phase.Graph ∧
      (updatePhysics toyLib settledState).rooms.length = settledState.rooms.length :=
  ⟨by decide!, (physics_settles_apart toyLib settledState toyLib_sqrt (by decide!) rfl
    (by decide!)).1⟩

/-- C39: in a run started by `init`, at the step that leaves the phase Automata for Complete:
if the last pass of `pruneDeadEnds` removed nothing (which is the case whenever its loop ended
before the cap of 100 passes), then in the Complete state, and in every later state of the
run, at least two of the four neighbours `(x+1,y)`, `(x-1,y)`, `(x,y+1)`, `(x,y-1)` of every
Floor cell `(x,y)` are Floor cells. -/
theorem no_dead_ends_when_complete (lib : Lib) (entropy : Nat) (cfg : GenSettings)
    (old s0 : DungeonBuilder) (n m : Nat) (h : init lib entropy cfg old = some s0)
    (hph : (runSteps lib n s0).phase = Phase.Automata)
    (hdone : (runSteps lib (n + 1) s0).phase = Phase.Complete)
    (hstop :
      pruneCount cfg.gridWidth cfg.gridHeight 100
          (despeckleWalls cfg.gridWidth cfg.gridHeight
            (runAutomataPass cfg.gridWidth cfg.gridHeight (runSteps lib n s0).grid)) < 100 ∨
        (deadEnds cfg.gridWidth cfg.gridHeight
          ((prunePass cfg.gridWidth cfg.gridHeight)^[pruneCount cfg.gridWidth cfg.gridHeight 100
              (despeckleWalls cfg.gridWidth cfg.gridHeight
                (runAutomataPass cfg.gridWidth cfg.gridHeight (runSteps lib n s0).grid)) - 1]
            (despeckleWalls cfg.gridWidth cfg.gridHeight
              (runAutomataPass cfg.gridWidth cfg.gridHeight
                (runSteps lib n s0).grid)))).isEmpty = true) :
    ∀ x y, (runSteps lib (n + 1 + m) s0).getTile x y = Tile.Floor →
      2 ≤ ([(x + 1, y), (x - 1, y), (x, y + 1), (x, y - 1)].filter
        (fun p => decide ((runSteps lib (n + 1 + m) s0).getTile p.1 p.2 = Tile.Floor))).length := by
  rw [runSteps_add, runSteps_of_complete lib m _ hdone]
  obtain ⟨hinv, hcfg⟩ := gridInv_run lib entropy cfg old s0 h n
  have hcfg2 := (gridInv_run lib entropy cfg old s0 h (n + 1)).2
  have hseal := sealInv_run lib entropy cfg old s0 h n (by rw [hph]; decide)
  rw [runSteps_succ_last] at hdone hcfg2 ⊢
  generalize runSteps lib n s0 = s at hinv hcfg hseal hph hdone hstop hcfg2 ⊢
  intro x y hf
  suffices key : 2 ≤ floorNeighbours cfg.gridWidth cfg.gridHeight (step lib s).grid x y by
    rw [floorNeighbours_count] at key
    unfold DungeonBuilder.getTile
    rw [hcfg2]
    exact key
  unfold DungeonBuilder.getTile at hf
  rw [hcfg2] at hf
  have hgrid : (step lib s).grid = floodFillPrune cfg.gridWidth cfg.gridHeight
      (pruneDeadEnds cfg.gridWidth cfg.gridHeight
        (despeckleWalls cfg.gridWidth cfg.gridHeight
          (runAutomataPass cfg.gridWidth cfg.gridHeight s.grid))) := by
    rcases (step_of_automata lib s hph).2.2.2.2.2 with ⟨_, _, _, hg⟩ | ⟨_, hp, _⟩
    · rw [hg, hcfg]
    · rw [hp] at hdone
      exact absurd hdone (by decide)
  unfold GridInv at hinv
  rw [hcfg] at hinv hseal
  rw [hgrid] at hf ⊢
  have hb := inBounds_of_getTile _ _ _ x y (by rw [hf]; decide)
  have hb2 := (inBounds_iff _ _ x y).mp hb
  have hg : GridOK cfg.gridWidth cfg.gridHeight s.grid :=
    gridOK_of_length _ _ _ (by omega) (by omega) hinv
  have hg1 : GridOK cfg.gridWidth cfg.gridHeight
      (runAutomataPass cfg.gridWidth cfg.gridHeight s.grid) :=
    ⟨hg.1, hg.2.1, by rw [runAutomataPass_length]; exact hg.2.2⟩
  have hg2 : GridOK cfg.gridWidth cfg.gridHeight (despeckleWalls cfg.gridWidth cfg.gridHeight
      (runAutomataPass cfg.gridWidth cfg.gridHeight s.grid)) :=
    ⟨hg.1, hg.2.1, by rw [despeckleWalls_length]; exact hg1.2.2⟩
  have hbc2 := borderClear_despeckle _ _ _ hg1
    (borderClear_of_sealed _ _ _ (automata_keeps_sealed _ _ _ hg hseal))
  obtain ⟨heq, hclean⟩ := pruneDeadEnds_clean _ _ _ hstop
  obtain ⟨hg3, hbc3⟩ := borderClear_iterate cfg.gridWidth cfg.gridHeight
    (pruneCount cfg.gridWidth cfg.gridHeight 100
      (despeckleWalls cfg.gridWidth cfg.gridHeight
        (runAutomataPass cfg.gridWidth cfg.gridHeight s.grid)) - 1) _ hg2 hbc2
  rw [← heq] at hg3 hbc3
  generalize pruneDeadEnds cfg.gridWidth cfg.gridHeight
    (despeckleWalls cfg.gridWidth cfg.gridHeight
      (runAutomataPass cfg.gridWidth cfg.gridHeight s.grid)) = g3 at hf hclean hg3 hbc3 ⊢
  unfold floodFillPrune at hf ⊢
  have hsame := wallGen_sameFloor cfg.gridWidth cfg.gridHeight
    (floodRetain cfg.gridWidth cfg.gridHeight g3)
  have hf2 := (getTile_sameFloor _ _ _ _ hsame x y).mp hf
  have hf3 : getTile cfg.gridWidth cfg.gridHeight g3 x y = Tile.Floor := by
    by_contra hne
    rw [floodRetain_frame _ _ g3 x y hne] at hf2
    exact hne hf2
  have hint : Interior cfg.gridWidth cfg.gridHeight x y := by
    have hnb : ¬ (x = 0 ∨ x = cfg.gridWidth - 1 ∨ y = 0 ∨ y = cfg.gridHeight - 1) :=
      fun hbd => hbc3 x y hb hbd hf3
    unfold Interior
    omega
  have hn3 : 2 ≤ floorNeighbours cfg.gridWidth cfg.gridHeight g3 x y := by
    by_contra hlt
    exact hclean ⟨x, y, hint, hf3, by omega⟩
  have hm1 := floorNeighbours_mono cfg.gridWidth cfg.gridHeight g3
    (floodRetain cfg.gridWidth cfg.gridHeight g3) x y
    (fun p hadj hp => floodRetain_neighbour _ _ g3 hg3 x y hf2 p hadj hp)
  have hm2 := floorNeighbours_mono cfg.gridWidth cfg.gridHeight
    (floodRetain cfg.gridWidth cfg.gridHeight g3)
    (wallGen cfg.gridWidth cfg.gridHeight (floodRetain cfg.gridWidth cfg.gridHeight g3)) x y
    (fun p _ hp => (getTile_sameFloor _ _ _ _ hsame p.1 p.2).mpr hp)
  omega

/-- Witness of C39: the run `trioRun`, whose 8th step leaves Automata for Complete; the
pruning loop ends after one pass, the cell (3,4) of the final grid is a Floor cell whose
neighbours (2,4) and (3,3) are not Floor, and its two other neighbours are Floor. -/
theorem no_dead_ends_when_complete_witness :
    ((trioRun 8).getTile 3 4 = Tile.Floor ∧ (trioRun 8).getTile 2 4 ≠ Tile.Floor ∧
        (trioRun 8).getTile 3 3 ≠ Tile.Floor) ∧
      2 ≤ ([((3 : Int) + 1, (4 : Int)), (3 - 1, 4), (3, 4 + 1), (3, 4 - 1)].filter
        (fun p => decide ((trioRun 8).getTile p.1 p.2 = Tile.Floor))).length :=
  ⟨trioRun_corner, no_dead_ends_when_complete trioLib 0 cfgTrio DungeonBuilder.fresh
    ((init trioLib 0 cfgTrio DungeonBuilder.fresh).getD DungeonBuilder.fresh) 7 0 rfl
    (by decide!) (by decide!) (Or.inl (lt_of_eq_of_lt trioRun_prune (by decide))) 3 4
    trioRun_corner.1⟩

/-- C32: for every state in the phase Raster whose grid has `gridWidth * gridHeight` cells and
every link `l` of it whose two room-centre cells lie outside the 2-cell margin: after the Raster
step both centre cells are Floor and a path of 4-adjacent Floor cells joins them, whichever
bend order the coin picks and wherever the two cells lie; and the loop of `hline` and `vline`
from `xa` to `xb` ends after `|xb - xa| + 1` iterations, for all `xa` and `xb`. -/
theorem corridors_connect (lib : Lib) (s : DungeonBuilder) (l : Link) (hinv : GridInv s)
    (hph : s.phase = Phase.Raster) (hl : l ∈ s.links)
    (hu : inMargin s.cfg.gridWidth s.cfg.gridHeight (toGridX s.cfg (roomAt s.rooms l.u).x)
      (toGridY s.cfg (roomAt s.rooms l.u).y) = false)
    (hv : inMargin s.cfg.gridWidth s.cfg.gridHeight (toGridX s.cfg (roomAt s.rooms l.v).x)
      (toGridY s.cfg (roomAt s.rooms l.v).y) = false) :
    (step lib s).getTile (toGridX s.cfg (roomAt s.rooms l.u).x)
        (toGridY s.cfg (roomAt s.rooms l.u).y) = Tile.Floor ∧
      (step lib s).getTile (toGridX s.cfg (roomAt s.rooms l.v).x)
        (toGridY s.cfg (roomAt s.rooms l.v).y) = Tile.Floor ∧
      Relation.ReflTransGen (FloorStep s.cfg.gridWidth s.cfg.gridHeight (step lib s).grid)
        (toGridX s.cfg (roomAt s.rooms l.u).x, toGridY s.cfg (roomAt s.rooms l.u).y)
        (toGridX s.cfg (roomAt s.rooms l.v).x, toGridY s.cfg (roomAt s.rooms l.v).y) ∧
      ∀ xa xb : Int, lineLoop ((xb - xa).natAbs + 1) xa (xb + (if xb > xa then 1 else -1))
        (if xb > xa then 1 else -1) = some (lineCells xa xb) := by
  have hm := (inMargin_iff s.cfg.gridWidth s.cfg.gridHeight _ _).not.mp (by rw [hu]; decide)
  have hg : GridOK s.cfg.gridWidth s.cfg.gridHeight s.grid :=
    gridOK_of_length _ _ _ (by omega) (by omega) hinv
  have hgrid : (step lib s).grid = (rasterizeBase s).grid := (step_grid lib s).2.1 hph
  unfold DungeonBuilder.getTile
  rw [step_cfg, hgrid]
  have h0 : GridOK s.cfg.gridWidth s.cfg.gridHeight
      (s.mainRoomIndices.foldl (fun g idx => stampRoom s.cfg g (roomAt s.rooms idx))
        (List.replicate s.grid.length Tile.Empty)) := by
    refine ⟨hg.1, hg.2.1, ?_⟩
    rw [foldl_length _ _ _ (fun G a => stampRoom_length s.cfg G _), List.length_replicate]
    exact hg.2.2
  obtain ⟨_, _, h3⟩ := stampLinks_spec s.cfg s.rooms s.links
    (s.mainRoomIndices.foldl (fun g idx => stampRoom s.cfg g (roomAt s.rooms idx))
      (List.replicate s.grid.length Tile.Empty), s.rng) h0
  have hc := h3 l hl hu hv
  exact ⟨hc.1, hc.2.1, hc.2.2, lineLoop_terminates⟩

/-- Witness of C32: the state `corridorState`, whose link joins the rooms with centre cells
(5, 5) and (12, 9): after the Raster step both centre cells are Floor. -/
theorem corridors_connect_witness :
    (step toyLib corridorState).getTile
        (toGridX corridorState.cfg (roomAt corridorState.rooms (⟨0, 1, true⟩ : Link).u).x)
        (toGridY corridorState.cfg (roomAt corridorState.rooms (⟨0, 1, true⟩ : Link).u).y)
        = Tile.Floor ∧
      (step toyLib corridorState).getTile
        (toGridX corridorState.cfg (roomAt corridorState.rooms (⟨0, 1, true⟩ : Link).v).x)
        (toGridY corridorState.cfg (roomAt corridorState.rooms (⟨0, 1, true⟩ : Link).v).y)
        = Tile.Floor :=
  ⟨(corridors_connect toyLib corridorState ⟨0, 1, true⟩ (by unfold GridInv; decide!) rfl
      (by decide!) (by decide!) (by decide!)).1,
    (corridors_connect toyLib corridorState ⟨0, 1, true⟩ (by unfold GridInv; decide!) rfl
      (by decide!) (by decide!) (by decide!)).2.1⟩

/-- C28: for every list of edges between the indices of a vector of `n` rooms, taken in the
order of the list, and every sequence of draws, the tree links that the Kruskal loop of
`computeGraph` produces have no cycle (no tree link joins two rooms that the other tree links
join), two rooms are joined by tree links iff they are joined by edges of the list, every loop
link joins two rooms that the tree links before it join, and every tree link two rooms that
the tree links before it do not join; `computeGraph` runs this loop on its candidate edges,
which are such edges. -/
theorem kruskal_spanning_forest (n : Nat) (rng : Rng) (es : List (Nat × Nat))
    (hes : ∀ e ∈ es, e.1 < n ∧ e.2 < n) :
    (∀ A e B, treePairs (es.foldl kruskalStep (DSU.mk0 n, rng, [])).2.2 = A ++ e :: B →
        ¬ Conn (A ++ B) e.1 e.2) ∧
      (∀ a b, Conn (treePairs (es.foldl kruskalStep (DSU.mk0 n, rng, [])).2.2) a b ↔
        Conn es a b) ∧
      (∀ A l B, (es.foldl kruskalStep (DSU.mk0 n, rng, [])).2.2 = A ++ l :: B →
        l.isMST = false → Conn (treePairs A) l.u l.v) ∧
      (∀ A l B, (es.foldl kruskalStep (DSU.mk0 n, rng, [])).2.2 = A ++ l :: B →
        l.isMST = true → ¬ Conn (treePairs A) l.u l.v) ∧
      ∀ (lib : Lib) (s : DungeonBuilder), 3 ≤ (collectMain 0 s.rooms).length →
        (computeGraph lib s).links =
            ((sortedEdges lib s).foldl kruskalStep (DSU.mk0 s.rooms.length, s.rng, [])).2.2 ∧
          ∀ e ∈ sortedEdges lib s, e.1 < s.rooms.length ∧ e.2 < s.rooms.length := by
  have inv := kruskal_inv n rng es hes
  obtain ⟨_, h2, _, h4⟩ := kruskalInv_forest n es _ inv
  exact ⟨h2, h4, fun A l B hs => (inv.seq A l B hs).2, fun A l B hs => (inv.seq A l B hs).1,
    fun lib s h3 => ⟨computeGraph_links lib s h3, sortedEdges_bound lib s⟩⟩

/-- Witness of C28: four rooms, the edges (0,1), (1,2), (0,2), (2,3) in this order and a
generator whose draws are all 9: three tree links, the loop link (0,2), and the tree links join
the rooms that the edges join. -/
theorem kruskal_spanning_forest_witness :
    ([(0, 1), (1, 2), (0, 2), (2, 3)].foldl kruskalStep (DSU.mk0 4, ⟨fun _ => 9, 0⟩, [])).2.2
        = [⟨0, 1, true⟩, ⟨1, 2, true⟩, ⟨0, 2, false⟩, ⟨2, 3, true⟩] ∧
      ∀ a b, Conn (treePairs ([(0, 1), (1, 2), (0, 2), (2, 3)].foldl kruskalStep
          (DSU.mk0 4, ⟨fun _ => 9, 0⟩, [])).2.2) a b ↔
        Conn [(0, 1), (1, 2), (0, 2), (2, 3)] a b :=
  ⟨by decide!, (kruskal_spanning_forest 4 ⟨fun _ => 9, 0⟩ [(0, 1), (1, 2), (0, 2), (2, 3)]
    (by decide)).2.1⟩

/-- C38: in every state of a run started by `init`, every link `(u, v)` has
`u < v < rooms.size()`, the rooms `u` and `v` are main, no unordered pair of rooms has two
links, and so no loop link joins the two rooms of a tree link. -/
theorem links_well_formed (lib : Lib) (entropy : Nat) (cfg : GenSettings)
    (old s0 : DungeonBuilder) (n : Nat) (h : init lib entropy cfg old = some s0) :
    (∀ l ∈ (runSteps lib n s0).links, l.u < l.v ∧ l.v < (runSteps lib n s0).rooms.length ∧
        (roomAt (runSteps lib n s0).rooms l.u).isMain = true ∧
        (roomAt (runSteps lib n s0).rooms l.v).isMain = true) ∧
      ((runSteps lib n s0).links.map (fun l => ordPair l.u l.v)).Nodup ∧
      ∀ l1 ∈ (runSteps lib n s0).links, ∀ l2 ∈ (runSteps lib n s0).links,
        l1.isMST = true → l2.isMST = false → ordPair l1.u l1.v ≠ ordPair l2.u l2.v := by
  obtain ⟨h1, h2⟩ := linkWF_run lib entropy cfg old s0 h n
  refine ⟨h1, h2, ?_⟩
  intro l1 hl1 l2 hl2 m1 m2 he
  have := List.inj_on_of_nodup_map h2 hl1 hl2 he
  rw [this, m2] at m1
  exact Bool.noConfusion m1

/-- Witness of C38: the run `fanRun` with seven rooms, of which the rooms 1, 2 and 3 are main.
After the Graph step the link list holds the tree links (1,3) and (1,2) and the loop link
(2,3); every link joins two main rooms, the smaller index first, and no pair occurs twice. -/
theorem links_well_formed_witness :
    (fanRun 2).links = [⟨1, 3, true⟩, ⟨1, 2, true⟩, ⟨2, 3, false⟩] ∧
      (fanRun 2).rooms.length = 7 ∧
      (∀ l ∈ (fanRun 2).links, l.u < l.v ∧ l.v < (fanRun 2).rooms.length ∧
        (roomAt (fanRun 2).rooms l.u).isMain = true ∧
        (roomAt (fanRun 2).rooms l.v).isMain = true) ∧
      ((fanRun 2).links.map (fun l => ordPair l.u l.v)).Nodup :=
  ⟨by decide!, by decide!,
    (links_well_formed fanLib 0 cfgFan DungeonBuilder.fresh
      ((init fanLib 0 cfgFan DungeonBuilder.fresh).getD DungeonBuilder.fresh) 2 rfl).1,
    (links_well_formed fanLib 0 cfgFan DungeonBuilder.fresh
      ((init fanLib 0 cfgFan DungeonBuilder.fresh).getD DungeonBuilder.fresh) 2 rfl).2.1⟩

/-- C29: when `computeGraph` finds at least 3 main rooms, its Kruskal loop takes the candidate
edges in ascending order of the weight `sqrt(distSq(..))`, its tree links are a spanning forest
of the candidate edges (distinct candidate edges, without a cycle, joining the rooms that the
candidate edges join), and their total weight is at most the total weight of every spanning
forest of the candidate edges. -/
theorem minimum_spanning_tree (lib : Lib) (s : DungeonBuilder)
    (hmain : 3 ≤ (collectMain 0 s.rooms).length) :
    ((treePairs (computeGraph lib s).links).Nodup ∧
        (∀ e ∈ treePairs (computeGraph lib s).links, e ∈ graphEdges s) ∧
        IsForest (treePairs (computeGraph lib s).links) ∧
        ∀ a b, Conn (treePairs (computeGraph lib s).links) a b ↔ Conn (graphEdges s) a b) ∧
      (sortedEdges lib s).Pairwise
        (fun a b => edgeWeight lib s.rooms a ≤ edgeWeight lib s.rooms b) ∧
      ∀ F : List (Nat × Nat), F.Nodup → (∀ e ∈ F, e ∈ graphEdges s) → IsForest F →
        (∀ a b, Conn F a b ↔ Conn (graphEdges s) a b) →
        wsum (edgeWeight lib s.rooms) (treePairs (computeGraph lib s).links)
          ≤ wsum (edgeWeight lib s.rooms) F := by
  rw [computeGraph_links lib s hmain]
  obtain ⟨hnd, hmem, hsorted⟩ := sortedEdges_spec lib s
  have hb := sortedEdges_bound lib s
  have inv := kruskal_inv s.rooms.length s.rng (sortedEdges lib s) hb
  obtain ⟨_, h2, h3, h4⟩ := kruskalInv_forest _ _ _ inv
  have hconn : ∀ a b, Conn (sortedEdges lib s) a b ↔ Conn (graphEdges s) a b :=
    fun a b => ⟨conn_mono _ _ (fun e he => (hmem e).mp he) a b,
      conn_mono _ _ (fun e he => (hmem e).mpr he) a b⟩
  refine ⟨⟨?_, fun e he => (hmem e).mp (h3 e he), isForest_of_bridges _ h2,
    fun a b => (h4 a b).trans (hconn a b)⟩, hsorted, ?_⟩
  · exact ((treePairs_sublist _).trans inv.sub).nodup hnd
  · intro F hFnd hFsub hFf hFspan
    exact kruskal_min (edgeWeight lib s.rooms) s.rooms.length s.rng (sortedEdges lib s) hb hnd
      hsorted F hFnd (fun e he => (hmem e).mpr (hFsub e he)) hFf
      (fun a b hab => (hFspan a b).mpr ((hconn a b).mp hab))

/-- Witness of C29: the state `triangleState` with the library `squareLib`: three main rooms,
and the tree links are the two shortest of the three candidate edges. -/
theorem minimum_spanning_tree_witness :
    graphEdges triangleState = [(0, 1), (0, 2), (1, 2)] ∧
      treePairs (computeGraph squareLib triangleState).links = [(0, 2), (1, 2)] ∧
      (treePairs (computeGraph squareLib triangleState).links).Nodup :=
  ⟨by decide!, by decide!, (minimum_spanning_tree squareLib triangleState (by decide!)).1.1⟩

/-- C33, counterexample: in the run `flatRun` the physics settles at the first step (no two
rooms overlap), the main rooms are the rooms 0 to 3 with the centres (312.5, 80),
(250, 80.0000187), (350, 80) and (212.5, 80.0000140) (the two offsets in y are rounded here,
the list `mainCentres` holds the exact values), which are in general position (every three
have `|d| >= 0.001` and the fourth is never on the circle of the other three); `triangulate`
keeps the triangle of the centres 0, 2 and 3, and the centre 1 lies strictly inside the circle
of that triangle. -/
theorem delaunay_fails_for_flat_rooms :
    (flatRun 1).phase = Phase.Graph ∧ collectMain 0 (flatRun 1).rooms = [0, 1, 2, 3] ∧
      GenPos (mainCentres (flatRun 1)) ∧
      (⟨0, 2, 3, false⟩ : Tri) ∈ triangulate (mainCentres (flatRun 1)) ∧
      inCircle (mainCentres (flatRun 1)) 1 ⟨0, 2, 3, false⟩ = true ∧
      graphEdges (flatRun 1) =
        candidateEdges (collectMain 0 (flatRun 1).rooms) (triangulate (mainCentres (flatRun 1))) :=
  ⟨by decide!, by decide!, by decide!, by decide!, by decide!, rfl⟩

/-- C33, amended (Delaunay property): when the bounding box has positive width and height and
the centres together with the three vertices of the super-triangle are in general position
(every three have `|d| >= 0.001`, no four lie on one circle), no centre lies strictly inside
the circle of a triangle that is left after the insertion loop and the removal of the
triangles that use a vertex of the super-triangle. -/
theorem delaunay_in_general_position (pts0 : List Vec2) (hx : 0 < (boxExtent pts0).1)
    (hy : 0 < (boxExtent pts0).2)
    (hgp : GenPos (pts0 ++ [(superTriangle pts0).1, (superTriangle pts0).2.1,
      (superTriangle pts0).2.2])) :
    ∀ t ∈ triangulate pts0, ∀ j, j < pts0.length → inCircle pts0 j t = false := by
  intro t ht j hj
  rw [triangulate_superTriangle] at ht
  obtain ⟨hgp3, hgp4⟩ := hgp
  have hlen : (pts0 ++ [(superTriangle pts0).1, (superTriangle pts0).2.1,
      (superTriangle pts0).2.2]).length = pts0.length + 3 := by
    rw [List.length_append]
    rfl
  rw [hlen] at hgp3 hgp4
  have hget : ∀ i, i < pts0.length →
      (pts0 ++ [(superTriangle pts0).1, (superTriangle pts0).2.1,
        (superTriangle pts0).2.2]).getD i ⟨0, 0⟩ = pts0.getD i ⟨0, 0⟩ := by
    intro i hi
    exact List.getD_append _ _ _ _ hi
  have hS : ∀ i, i < 3 →
      (pts0 ++ [(superTriangle pts0).1, (superTriangle pts0).2.1,
        (superTriangle pts0).2.2]).getD (pts0.length + i) ⟨0, 0⟩ =
      [(superTriangle pts0).1, (superTriangle pts0).2.1,
        (superTriangle pts0).2.2].getD i ⟨0, 0⟩ := by
    intro i _
    rw [List.getD_append_right _ _ _ _ (by omega)]
    congr 1
    omega
  have hin : ∀ k, k < pts0.length → StrictlyInside
      ((pts0 ++ [(superTriangle pts0).1, (superTriangle pts0).2.1,
        (superTriangle pts0).2.2]).getD k ⟨0, 0⟩)
      ((pts0 ++ [(superTriangle pts0).1, (superTriangle pts0).2.1,
        (superTriangle pts0).2.2]).getD pts0.length ⟨0, 0⟩)
      ((pts0 ++ [(superTriangle pts0).1, (superTriangle pts0).2.1,
        (superTriangle pts0).2.2]).getD (pts0.length + 1) ⟨0, 0⟩)
      ((pts0 ++ [(superTriangle pts0).1, (superTriangle pts0).2.1,
        (superTriangle pts0).2.2]).getD (pts0.length + 2) ⟨0, 0⟩) := by
    intro k hk
    have h0 := hS 0 (by omega)
    rw [Nat.add_zero] at h0
    rw [hget k hk, h0, hS 1 (by omega), hS 2 (by omega)]
    apply superTriangle_inside pts0 hx hy
    rw [List.getD_eq_getElem _ _ hk]
    exact List.getElem_mem _
  have hinv := delInv_loop _ pts0.length hgp3 hgp4 hin pts0.length (le_refl _)
  obtain ⟨hm, hf⟩ := List.mem_filter.mp ht
  simp only [Bool.not_eq_true', Bool.or_eq_false_iff, decide_eq_false_iff_not, ge_iff_le,
    not_le] at hf
  obtain ⟨_, _, _, d1, d2, d3, _⟩ := hinv.ok t hm
  have hpw : pw pts0 t.p1 t.p2 t.p3 j = pw (pts0 ++ [(superTriangle pts0).1,
      (superTriangle pts0).2.1, (superTriangle pts0).2.2]) t.p1 t.p2 t.p3 j := by
    unfold pw
    rw [hget _ hf.1.1, hget _ hf.1.2, hget _ hf.2, hget _ hj]
  rw [Bool.eq_false_iff]
  intro hb
  have hlt := (inCircle_iff pts0 j t).mp hb
  have hd := hgp3 t.p1 (by omega) t.p2 (by omega) t.p3 (by omega) d1 d2 d3
  by_cases hv : j = t.p1 ∨ j = t.p2 ∨ j = t.p3
  · rw [hpw] at hlt
    unfold pw at hlt
    obtain ⟨v1, v2, v3⟩ := power_vertex _ _ _ hd
    rcases hv with e | e | e
    · rw [e, v1] at hlt
      exact lt_irrefl _ hlt
    · rw [e, v2] at hlt
      exact lt_irrefl _ hlt
    · rw [e, v3] at hlt
      exact lt_irrefl _ hlt
  · push_neg at hv
    rw [hpw] at hlt
    exact hinv.empty t hm j (Or.inl hj) hv.1 hv.2.1 hv.2.2 hlt

/-- Witness of C33, amended: the centres (0,0), (7,1), (2,9), (3,4). -/
theorem delaunay_in_general_position_witness :
    triangulate kiteCentres ≠ [] ∧
      ∀ t ∈ triangulate kiteCentres, ∀ j, j < kiteCentres.length →
        inCircle kiteCentres j t = false :=
  ⟨by decide!, delaunay_in_general_position kiteCentres (by decide!) (by decide!) (by decide!)⟩

end Dungeon
